import Mathlib

/-!
Verification development for the on-disk B+tree storage engine
(`btree.rs`, `page.rs`, `page_layout.rs`, `node_type.rs`, `wal.rs`).

Rust strings (keys and values) are modelled as byte lists (`List Nat`);
Rust's `String` ordering is byte-lexicographic, which `keyCmp` below
implements.  Machine integers (`usize`) are modelled as `Nat` with an
explicit `% 2 ^ 64` at the byte-serialization boundary, the only place
the Rust code depends on the width.
-/

/-- A byte string: the model of a Rust `String` / `&[u8]` payload. -/
abbrev Bytes := List Nat

/-- PAGE_SIZE from `page_layout.rs`. -/
def PAGE_SIZE : Nat := 4096

/-- PTR_SIZE: the pointer width, pinned to 8 bytes (64-bit `usize`). -/
def PTR_SIZE : Nat := 8

/-- KEY_SIZE from `page_layout.rs`. -/
def KEY_SIZE : Nat := 10

/-- VALUE_SIZE from `page_layout.rs`. -/
def VALUE_SIZE : Nat := 10

/-- `usize::to_be_bytes` restricted to `w` bytes: big-endian, most
significant byte first.  `toBE 8 n` models the Rust call for `n < 2^64`. -/
def toBE : Nat → Nat → List Nat
  | 0, _ => []
  | w + 1, n => toBE w (n / 256) ++ [n % 256]

/-- `usize::from_be_bytes`: fold the bytes most-significant first. -/
def fromBE (l : List Nat) : Nat :=
  l.foldl (fun acc b => acc * 256 + b) 0

theorem toBE_length (w n : Nat) : (toBE w n).length = w := by
  induction w generalizing n with
  | zero => rfl
  | succ w ih => simp [toBE, ih]

theorem fromBE_append_singleton (l : List Nat) (b : Nat) :
    fromBE (l ++ [b]) = fromBE l * 256 + b := by
  simp [fromBE]

theorem fromBE_toBE (w n : Nat) : fromBE (toBE w n) = n % 256 ^ w := by
  induction w generalizing n with
  | zero => simp [toBE, fromBE, Nat.mod_one]
  | succ w ih =>
    rw [toBE, fromBE_append_singleton, ih]
    rw [pow_succ']
    rw [Nat.mod_mul]
    ring

theorem fromBE_toBE_of_lt {w n : Nat} (h : n < 256 ^ w) :
    fromBE (toBE w n) = n := by
  rw [fromBE_toBE, Nat.mod_eq_of_lt h]

/-- Right-pad a byte string with zero bytes to width `w` (the fixed-width
key/value cells of the page format). -/
def padTo (w : Nat) (l : List Nat) : List Nat :=
  l ++ List.replicate (w - l.length) 0

theorem padTo_length {w : Nat} {l : List Nat} (h : l.length ≤ w) :
    (padTo w l).length = w := by
  simp [padTo]
  omega

/-- Strip trailing zero bytes (the page format's deserialization trims the
zero padding from keys and values). -/
def dropTrailingZeros (l : List Nat) : List Nat :=
  (l.reverse.dropWhile (fun b => b == 0)).reverse

/-- A byte string that survives zero-padding: it does not end in a zero
byte (the empty string qualifies). -/
def noTrailingZero (l : List Nat) : Bool :=
  match l.getLast? with
  | none => true
  | some b => b != 0

theorem dropWhile_zero_replicate (k : Nat) :
    (List.replicate k 0).dropWhile (fun b => b == 0) = [] := by
  induction k with
  | zero => rfl
  | succ k ih => simp [List.replicate_succ, List.dropWhile_cons, ih]

theorem dropTrailingZeros_padTo {w : Nat} (l : List Nat)
    (h : noTrailingZero l = true) : dropTrailingZeros (padTo w l) = l := by
  unfold dropTrailingZeros padTo
  rw [List.reverse_append, List.reverse_replicate, List.dropWhile_append]
  rw [dropWhile_zero_replicate]
  simp only [List.isEmpty_nil, if_true]
  cases hl : l.reverse with
  | nil =>
    have : l = [] := by simpa using congrArg List.reverse hl
    simp [this]
  | cons b t =>
    have hl2 : l = t.reverse ++ [b] := by
      have := congrArg List.reverse hl
      rwa [List.reverse_reverse, List.reverse_cons] at this
    have hb : l.getLast? = some b := by
      rw [hl2]; exact List.getLast?_concat _
    have hbne : (b == 0) = false := by
      unfold noTrailingZero at h
      rw [hb] at h
      simpa using h
    rw [List.dropWhile_cons, hbne]
    simp only [Bool.false_eq_true, if_false]
    rw [← hl, List.reverse_reverse]

/-- Byte-lexicographic comparison: the model of Rust's `Ord` on `String`
(Rust compares strings by their UTF-8 bytes). -/
def keyCmp : Bytes → Bytes → Ordering
  | [], [] => .eq
  | [], _ :: _ => .lt
  | _ :: _, [] => .gt
  | a :: as, b :: bs =>
    if a < b then .lt else if b < a then .gt else keyCmp as bs

/-- Strict byte-lexicographic `<`. -/
def keyLt (a b : Bytes) : Bool := keyCmp a b == .lt

/-- Byte-lexicographic `≤` (Rust `<=` on `String`). -/
def keyLe (a b : Bytes) : Bool := keyCmp a b != .gt

theorem keyCmp_refl (a : Bytes) : keyCmp a a = .eq := by
  induction a with
  | nil => rfl
  | cons x xs ih => simp [keyCmp, ih]

theorem keyCmp_eq_iff {a b : Bytes} : keyCmp a b = .eq ↔ a = b := by
  constructor
  · intro h
    induction a generalizing b with
    | nil => cases b with
      | nil => rfl
      | cons y ys => simp [keyCmp] at h
    | cons x xs ih =>
      cases b with
      | nil => simp [keyCmp] at h
      | cons y ys =>
        simp only [keyCmp] at h
        by_cases hxy : x < y
        · simp [hxy] at h
        · by_cases hyx : y < x
          · simp [hxy, hyx] at h
          · have : x = y := Nat.le_antisymm (Nat.le_of_not_lt hyx) (Nat.le_of_not_lt hxy)
            simp only [hxy, if_false, hyx] at h
            rw [this, ih h]
  · intro h; rw [h, keyCmp_refl]

theorem keyCmp_swap (a b : Bytes) : keyCmp b a = (keyCmp a b).swap := by
  induction a generalizing b with
  | nil => cases b <;> rfl
  | cons x xs ih =>
    cases b with
    | nil => rfl
    | cons y ys =>
      simp only [keyCmp]
      by_cases hxy : x < y
      · have : ¬ y < x := Nat.lt_asymm hxy
        simp [hxy, this, Ordering.swap]
      · by_cases hyx : y < x
        · simp [hxy, hyx, Ordering.swap]
        · simp only [hxy, hyx, if_false]
          exact ih ys

theorem keyCmp_lt_trans {a b c : Bytes} (h1 : keyCmp a b = .lt)
    (h2 : keyCmp b c = .lt) : keyCmp a c = .lt := by
  induction a generalizing b c with
  | nil =>
    cases c with
    | nil =>
      cases b with
      | nil => exact absurd h1 (by simp [keyCmp])
      | cons y ys => exact absurd h2 (by simp [keyCmp])
    | cons z zs => rfl
  | cons x xs ih =>
    cases b with
    | nil => exact absurd h1 (by simp [keyCmp])
    | cons y ys =>
      cases c with
      | nil => exact absurd h2 (by simp [keyCmp])
      | cons z zs =>
        simp only [keyCmp] at h1 h2 ⊢
        rcases Nat.lt_trichotomy x y with hxy | hxy | hxy
        · rcases Nat.lt_trichotomy y z with hyz | hyz | hyz
          · simp [Nat.lt_trans hxy hyz]
          · subst hyz; simp [hxy]
          · rw [if_neg (Nat.lt_asymm hyz), if_pos hyz] at h2
            exact absurd h2 (by simp)
        · subst hxy
          rw [if_neg (lt_irrefl x)] at h1
          rw [if_neg (lt_irrefl x)] at h1
          rcases Nat.lt_trichotomy x z with hxz | hxz | hxz
          · simp [hxz]
          · subst hxz
            rw [if_neg (lt_irrefl x), if_neg (lt_irrefl x)] at h2 ⊢
            exact ih h1 h2
          · rw [if_neg (Nat.lt_asymm hxz), if_pos hxz] at h2
            exact absurd h2 (by simp)
        · rw [if_neg (Nat.lt_asymm hxy), if_pos hxy] at h1
          exact absurd h1 (by simp)

/-- Rust's `slice::binary_search_by` loop on the interval `[left, right)`,
where `cmp e` is the ordering of element `e` relative to the searched
target (`Less` moves `left` past `mid`, `Greater` moves `right` to `mid`,
`Equal` returns `Ok(mid)`); on exhaustion of the interval it returns
`Err(left)`, the insertion index.  The interval shrinks every iteration,
so the loop needs at most `right - left + 1` rounds; the `fuel`
argument meters exactly that and only exists to make the recursion
structural — `rustBinarySearch` below supplies a sufficient amount, so
the fuel branch is never taken.  `xs.get? mid` is always in range when
`right ≤ xs.length`. -/
def binarySearchLoop {α : Type} (cmp : α → Ordering) (xs : List α) :
    Nat → Nat → Nat → Except Nat Nat
  | 0, left, _ => .error left
  | fuel + 1, left, right =>
    if left < right then
      match xs.get? (left + (right - left) / 2) with
      | none => .error left
      | some x =>
        match cmp x with
        | .lt => binarySearchLoop cmp xs fuel (left + (right - left) / 2 + 1) right
        | .gt => binarySearchLoop cmp xs fuel left (left + (right - left) / 2)
        | .eq => .ok (left + (right - left) / 2)
    else .error left

/-- Rust's `slice::binary_search_by` over the whole slice. -/
def rustBinarySearch {α : Type} (cmp : α → Ordering) (xs : List α) :
    Except Nat Nat :=
  binarySearchLoop cmp xs (xs.length + 1) 0 xs.length

/-- `.unwrap_or_else(|x| x)` applied to a binary-search result. -/
def unwrapIdx : Except Nat Nat → Nat
  | .ok i => i
  | .error i => i

/-- Strict sortedness of a list under a key projection, phrased on `get?`. -/
def pairwiseLtBy {α : Type} (key : α → Bytes) (xs : List α) : Prop :=
  ∀ i j x y, i < j → xs.get? i = some x → xs.get? j = some y →
    keyCmp (key x) (key y) = .lt

/-- Characterization of the embedded `binary_search_by` on a strictly
sorted interval: an `Ok` lands on an exact match, an `Err` is the unique
boundary between the strictly-smaller and strictly-greater elements. -/
theorem binarySearchLoop_spec {α : Type} (key : α → Bytes) (targ : Bytes)
    (xs : List α) (hs : pairwiseLtBy key xs) :
    ∀ fuel left right, right - left < fuel → right ≤ xs.length →
    left ≤ right →
    (∀ i x, i < left → xs.get? i = some x → keyCmp (key x) targ = .lt) →
    (∀ i x, right ≤ i → i < xs.length → xs.get? i = some x →
      keyCmp (key x) targ = .gt) →
    match binarySearchLoop (fun e => keyCmp (key e) targ) xs fuel left right with
    | .ok j => j < xs.length ∧ ∃ x, xs.get? j = some x ∧ key x = targ
    | .error p => left ≤ p ∧ p ≤ right ∧
        (∀ i x, i < p → xs.get? i = some x → keyCmp (key x) targ = .lt) ∧
        (∀ i x, p ≤ i → i < xs.length → xs.get? i = some x →
          keyCmp (key x) targ = .gt) := by
  intro fuel
  induction fuel with
  | zero => intro left right hf; omega
  | succ fuel ih =>
    intro left right hf hr hlr hlo hhi
    rw [binarySearchLoop]
    by_cases h : left < right
    · simp only [h, if_true]
      have hmidlt : left + (right - left) / 2 < right := by
        have h2 : (right - left) / 2 < right - left := Nat.div_lt_self (by omega) (by omega)
        omega
      have hmidlen : left + (right - left) / 2 < xs.length := by omega
      obtain ⟨x, hx⟩ : ∃ x, xs.get? (left + (right - left) / 2) = some x := by
        cases hx2 : xs.get? (left + (right - left) / 2) with
        | none => exact absurd (List.get?_eq_none.mp hx2) (by omega)
        | some x => exact ⟨x, rfl⟩
      simp only [hx]
      rcases hcmp : keyCmp (key x) targ with _ | _ | _
      · simp only [hcmp]
        have hstep := ih (left + (right - left) / 2 + 1) right (by omega) hr (by omega)
          (fun i y hi hy => by
            rcases Nat.lt_or_ge i (left + (right - left) / 2) with hi2 | hi2
            · rcases Nat.lt_or_ge i left with hi3 | hi3
              · exact hlo i y hi3 hy
              · exact keyCmp_lt_trans (hs i _ y x hi2 hy hx) hcmp
            · have : i = left + (right - left) / 2 := by omega
              subst this
              rw [hy] at hx
              cases hx
              exact hcmp)
          hhi
        cases hres : binarySearchLoop (fun e => keyCmp (key e) targ) xs fuel
            (left + (right - left) / 2 + 1) right with
        | ok j => rw [hres] at hstep; exact hstep
        | error p =>
          rw [hres] at hstep
          exact ⟨by omega, hstep.2.1, hstep.2.2.1, hstep.2.2.2⟩
      · simp only [hcmp]
        exact ⟨hmidlen, x, hx, keyCmp_eq_iff.mp hcmp⟩
      · simp only [hcmp]
        have hstep := ih left (left + (right - left) / 2) (by omega) (by omega) (by omega)
          hlo
          (fun i y hi hilen hy => by
            rcases Nat.lt_or_ge (left + (right - left) / 2) i with hi2 | hi2
            · have h1 : keyCmp targ (key x) = .lt := by
                rw [keyCmp_swap, hcmp]; rfl
              have h2 : keyCmp (key x) (key y) = .lt := hs _ i x y hi2 hx hy
              have h3 := keyCmp_lt_trans h1 h2
              rw [keyCmp_swap, h3]; rfl
            · have : i = left + (right - left) / 2 := by omega
              subst this
              rw [hy] at hx
              cases hx
              exact hcmp)
        cases hres : binarySearchLoop (fun e => keyCmp (key e) targ) xs fuel left
            (left + (right - left) / 2) with
        | ok j => rw [hres] at hstep; exact hstep
        | error p =>
          rw [hres] at hstep
          exact ⟨hstep.1, by omega, hstep.2.2.1, hstep.2.2.2⟩
    · simp only [h, if_false]
      refine ⟨le_refl left, by omega, hlo, ?_⟩
      intro i y hi hilen hy
      exact hhi i y (by omega) hilen hy

/-- The characterization at the entry point `rustBinarySearch`. -/
theorem rustBinarySearch_spec {α : Type} (key : α → Bytes) (targ : Bytes)
    (xs : List α) (hs : pairwiseLtBy key xs) :
    match rustBinarySearch (fun e => keyCmp (key e) targ) xs with
    | .ok j => j < xs.length ∧ ∃ x, xs.get? j = some x ∧ key x = targ
    | .error p => p ≤ xs.length ∧
        (∀ i x, i < p → xs.get? i = some x → keyCmp (key x) targ = .lt) ∧
        (∀ i x, p ≤ i → i < xs.length → xs.get? i = some x →
          keyCmp (key x) targ = .gt) := by
  have h := binarySearchLoop_spec key targ xs hs (xs.length + 1) 0 xs.length
    (by omega) (le_refl _) (Nat.zero_le _) (by intro i x hi; omega)
    (by intro i x h1 h2; omega)
  unfold rustBinarySearch
  cases hres : binarySearchLoop (fun e => keyCmp (key e) targ) xs
      (xs.length + 1) 0 xs.length with
  | ok j => rw [hres] at h; exact h
  | error p => rw [hres] at h; exact ⟨h.2.1, h.2.2.1, h.2.2.2⟩

/-- The error kinds of the engine, reconstructed from their uses in
`btree.rs` and `page.rs` and the spec's §7 taxonomy (the mature
`error.rs` is not among the source files; `From<io::Error>` maps I/O
failures to `UnexpectedError` as in the superseded `error.rs`). -/
inductive Error where
  | KeyNotFound
  | KeyAlreadyExists
  | KeyOverflowError
  | ValueOverflowError
  | UnexpectedError
  | UTF8Error
  | TryFromSliceError
deriving DecidableEq

/-- `node_type.rs`: `KeyValuePair` — a key and a value, both strings
(modelled as byte lists).  Its Rust `Ord` compares keys only. -/
structure KeyValuePair where
  key : Bytes
  value : Bytes
deriving DecidableEq

/-- `KeyValuePair::new`. -/
def KeyValuePair.new (k v : Bytes) : KeyValuePair := ⟨k, v⟩

/-- `node_type.rs`: `NodeType` — Internal holds child offsets and keys,
Leaf holds key-value pairs.  Offsets (`node_type.rs` `Offset(usize)`)
are plain naturals here. -/
inductive NodeType where
  | Internal (children : List Nat) (keys : List Bytes)
  | Leaf (pairs : List KeyValuePair)
  | Unexpected
deriving DecidableEq

/-- `impl From<&NodeType> for u8` (`node_type.rs:76-84`). -/
def NodeType.toByte : NodeType → Nat
  | .Internal _ _ => 1
  | .Leaf _ => 2
  | .Unexpected => 3

/-- The mature `Node` struct: a node type plus `is_root` and the optional
parent offset (fields fixed by their uses in `btree.rs` and `page.rs`;
the mature `node.rs` is not among the source files). -/
structure Node where
  node_type : NodeType
  is_root : Bool
  parent_offset : Option Nat
deriving DecidableEq

/-- `Node::new`. -/
def Node.new (t : NodeType) (r : Bool) (p : Option Nat) : Node := ⟨t, r, p⟩

/-- A page: the byte image of one node (`page.rs`).  A well-formed page
has exactly PAGE_SIZE bytes. -/
abbrev Page := List Nat

/-- The separator keys of an Internal body, each checked against
KEY_SIZE (`Error::KeyOverflowError`) and zero-padded, in order
(`page.rs:125-137`); the first oversized key wins, as in the source's
left-to-right loop. -/
def serializeKeys : List Bytes → Except Error (List Nat)
  | [] => .ok []
  | k :: rest =>
    if KEY_SIZE < k.length then .error .KeyOverflowError
    else
      match serializeKeys rest with
      | .error e => .error e
      | .ok bs => .ok (padTo KEY_SIZE k ++ bs)

/-- The key/value cells of a Leaf body, each checked against
KEY_SIZE / VALUE_SIZE and zero-padded, in order (`page.rs:145-170`). -/
def serializePairs : List KeyValuePair → Except Error (List Nat)
  | [] => .ok []
  | p :: rest =>
    if KEY_SIZE < p.key.length then .error .KeyOverflowError
    else if VALUE_SIZE < p.value.length then .error .ValueOverflowError
    else
      match serializePairs rest with
      | .error e => .error e
      | .ok bs => .ok (padTo KEY_SIZE p.key ++ padTo VALUE_SIZE p.value ++ bs)

/-- The child-offset cells of an Internal body: 8 big-endian bytes each
(`page.rs:118-123`). -/
def serializeOffsets : List Nat → List Nat
  | [] => []
  | o :: rest => toBE PTR_SIZE o ++ serializeOffsets rest

/-- `impl TryFrom<&Node> for Page` (`page.rs:91-177`): is_root byte,
node-type byte, parent offset (bytes 2..9, written only for non-root
nodes — a non-root node without a parent offset is `UnexpectedError`),
the entry count (bytes 10..17), then the body, over a zero-initialized
PAGE_SIZE buffer.  The successive in-place writes of the source are the
concatenation below.  When the body overruns the page the Rust slice
writes would panic; the model emits the longer list instead, and every
theorem below stays within nodes that fit. -/
def Page.try_from (node : Node) : Except Error Page :=
  let isRootByte : Nat := if node.is_root then 1 else 0
  let pad := fun (body : List Nat) =>
    List.replicate (PAGE_SIZE - (2 + PTR_SIZE + PTR_SIZE + body.length)) 0
  match
    (if node.is_root then Except.ok (List.replicate PTR_SIZE 0)
     else
       match node.parent_offset with
       | some p => Except.ok (toBE PTR_SIZE p)
       | none => Except.error Error.UnexpectedError) with
  | .error e => .error e
  | .ok parentBytes =>
    match node.node_type with
    | .Internal child_offsets keys =>
      match serializeKeys keys with
      | .error e => .error e
      | .ok keyBytes =>
        let body := serializeOffsets child_offsets ++ keyBytes
        .ok (isRootByte :: node.node_type.toByte ::
          (parentBytes ++ toBE PTR_SIZE child_offsets.length ++ body ++ pad body))
    | .Leaf pairs =>
      match serializePairs pairs with
      | .error e => .error e
      | .ok body =>
        .ok (isRootByte :: node.node_type.toByte ::
          (parentBytes ++ toBE PTR_SIZE pairs.length ++ body ++ pad body))
    | .Unexpected => .error .UnexpectedError

/-- Read `n` bytes at byte offset `off` of a page. -/
def readAt (p : Page) (off n : Nat) : List Nat := (p.drop off).take n

/-- Decode `count` 8-byte big-endian child offsets. -/
def readOffsets : List Nat → Nat → List Nat
  | _, 0 => []
  | bs, c + 1 => fromBE (bs.take PTR_SIZE) :: readOffsets (bs.drop PTR_SIZE) c

/-- Decode `count` KEY_SIZE-byte separator cells, trimming the zero
padding. -/
def readKeys : List Nat → Nat → List Bytes
  | _, 0 => []
  | bs, c + 1 =>
    dropTrailingZeros (bs.take KEY_SIZE) :: readKeys (bs.drop KEY_SIZE) c

/-- Decode `count` (KEY_SIZE + VALUE_SIZE)-byte pair cells, trimming the
zero padding of both halves. -/
def readPairs : List Nat → Nat → List KeyValuePair
  | _, 0 => []
  | bs, c + 1 =>
    ⟨dropTrailingZeros (bs.take KEY_SIZE),
     dropTrailingZeros ((bs.drop KEY_SIZE).take VALUE_SIZE)⟩ ::
      readPairs (bs.drop (KEY_SIZE + VALUE_SIZE)) c

/-- Modelled from the spec: `Node::try_from(Page)` — the mature
`node.rs` is not among the source files, so `from_page` follows §4.3:
read the header, dispatch on the node-type byte (0x01 Internal, 0x02
Leaf, otherwise fail), read the parent offset only when `is_root` is
false (byte 0 is 0x01 for true, anything else false, per
`page_layout.rs` `FromByte`), then decode `num_children` child offsets
followed by `num_children - 1` separators (Internal) or `num_pairs`
key/value cells (Leaf), trimming trailing zero bytes from keys and
values. -/
def Node.from_page (p : Page) : Except Error Node :=
  let is_root := p.getD 0 0 == 1
  let parent_offset := if is_root then none else some (fromBE (readAt p 2 PTR_SIZE))
  match p.getD 1 0 with
  | 1 =>
    let c := fromBE (readAt p 10 PTR_SIZE)
    let body := p.drop (2 + PTR_SIZE + PTR_SIZE)
    .ok (Node.new
      (.Internal (readOffsets body c) (readKeys (body.drop (PTR_SIZE * c)) (c - 1)))
      is_root parent_offset)
  | 2 =>
    let c := fromBE (readAt p 10 PTR_SIZE)
    let body := p.drop (2 + PTR_SIZE + PTR_SIZE)
    .ok (Node.new (.Leaf (readPairs body c)) is_root parent_offset)
  | _ => .error .UnexpectedError

instance exceptDecEq {ε α : Type} [DecidableEq ε] [DecidableEq α] :
    DecidableEq (Except ε α)
  | .ok a, .ok b =>
    if h : a = b then .isTrue (by rw [h])
    else .isFalse (by intro hh; cases hh; exact h rfl)
  | .ok _, .error _ => .isFalse (by intro h; cases h)
  | .error _, .ok _ => .isFalse (by intro h; cases h)
  | .error e, .error e2 =>
    if h : e = e2 then .isTrue (by rw [h])
    else .isFalse (by intro hh; cases hh; exact h rfl)

theorem take_app {a b : List Nat} {n : Nat} (h : a.length = n) :
    (a ++ b).take n = a := by
  rw [← h]; exact List.take_left a b

theorem drop_app {a b : List Nat} {n : Nat} (h : a.length = n) :
    (a ++ b).drop n = b := by
  rw [← h]; exact List.drop_left a b

theorem serializeOffsets_length (os : List Nat) :
    (serializeOffsets os).length = PTR_SIZE * os.length := by
  induction os with
  | nil => rfl
  | cons o rest ih =>
    simp [serializeOffsets, toBE_length, ih]
    ring

theorem readOffsets_serialize (os : List Nat) (h : ∀ o ∈ os, o < 2 ^ 64) :
    ∀ rest, readOffsets (serializeOffsets os ++ rest) os.length = os := by
  induction os with
  | nil => intro rest; rfl
  | cons o rest ih =>
    intro tail
    show readOffsets ((toBE PTR_SIZE o ++ serializeOffsets rest) ++ tail) (rest.length + 1) = o :: rest
    rw [List.append_assoc]
    unfold readOffsets
    have hlen : (toBE PTR_SIZE o).length = PTR_SIZE := toBE_length _ _
    rw [take_app hlen, drop_app hlen]
    rw [fromBE_toBE_of_lt (by exact_mod_cast h o (by simp))]
    rw [ih (fun x hx => h x (by simp [hx])) tail]

theorem serializeKeys_spec (ks : List Bytes)
    (h : ∀ k ∈ ks, k.length ≤ KEY_SIZE ∧ noTrailingZero k = true) :
    ∃ bs, serializeKeys ks = .ok bs ∧ bs.length = KEY_SIZE * ks.length ∧
      ∀ rest, readKeys (bs ++ rest) ks.length = ks := by
  induction ks with
  | nil => exact ⟨[], rfl, rfl, fun _ => rfl⟩
  | cons k rest ih =>
    obtain ⟨bs, hok, hlen, hread⟩ := ih (fun x hx => h x (by simp [hx]))
    have hk := h k (by simp)
    have hpadlen : (padTo KEY_SIZE k).length = KEY_SIZE := padTo_length hk.1
    refine ⟨padTo KEY_SIZE k ++ bs, ?_, ?_, ?_⟩
    · unfold serializeKeys
      rw [if_neg (by omega), hok]
    · simp [hlen, hpadlen]; ring
    · intro tail
      show readKeys ((padTo KEY_SIZE k ++ bs) ++ tail) (rest.length + 1) = k :: rest
      rw [List.append_assoc]
      unfold readKeys
      rw [take_app hpadlen, drop_app hpadlen]
      rw [dropTrailingZeros_padTo k hk.2, hread tail]

theorem serializePairs_spec (ps : List KeyValuePair)
    (h : ∀ p ∈ ps, p.key.length ≤ KEY_SIZE ∧ noTrailingZero p.key = true ∧
      p.value.length ≤ VALUE_SIZE ∧ noTrailingZero p.value = true) :
    ∃ bs, serializePairs ps = .ok bs ∧
      bs.length = (KEY_SIZE + VALUE_SIZE) * ps.length ∧
      ∀ rest, readPairs (bs ++ rest) ps.length = ps := by
  induction ps with
  | nil => exact ⟨[], rfl, rfl, fun _ => rfl⟩
  | cons p rest ih =>
    obtain ⟨bs, hok, hlen, hread⟩ := ih (fun x hx => h x (by simp [hx]))
    have hp := h p (by simp)
    have hklen : (padTo KEY_SIZE p.key).length = KEY_SIZE := padTo_length hp.1
    have hvlen : (padTo VALUE_SIZE p.value).length = VALUE_SIZE :=
      padTo_length hp.2.2.1
    refine ⟨padTo KEY_SIZE p.key ++ (padTo VALUE_SIZE p.value ++ bs), ?_, ?_, ?_⟩
    · unfold serializePairs
      rw [if_neg (by omega), if_neg (by omega), hok]
      simp [List.append_assoc]
    · simp [hlen, hklen, hvlen]; ring
    · intro tail
      show readPairs ((padTo KEY_SIZE p.key ++ (padTo VALUE_SIZE p.value ++ bs)) ++ tail)
        (rest.length + 1) = p :: rest
      rw [List.append_assoc, List.append_assoc]
      unfold readPairs
      rw [take_app hklen, drop_app hklen, take_app hvlen]
      have hdd : ((padTo KEY_SIZE p.key ++ (padTo VALUE_SIZE p.value ++ (bs ++ tail)))).drop
          (KEY_SIZE + VALUE_SIZE) = bs ++ tail := by
        rw [← List.drop_drop]
        rw [drop_app hklen, drop_app hvlen]
      rw [hdd]
      rw [dropTrailingZeros_padTo p.key hp.2.1,
        dropTrailingZeros_padTo p.value hp.2.2.2, hread tail]

/-- A byte string within cap `w` whose zero-padded cell decodes back to
itself. -/
def cellOk (w : Nat) (l : Bytes) : Bool :=
  decide (l.length ≤ w) && noTrailingZero l

/-- Valid field contents per the spec's data model (§3): keys and values
within the size caps and not zero-terminated, a parent offset exactly on
non-root nodes, `|children| = |separators| + 1`, offsets within `usize`,
and a body that fits in one page. -/
def validNode (n : Node) : Bool :=
  (match n.parent_offset with
   | some p => !n.is_root && decide (p < 2 ^ 64)
   | none => n.is_root) &&
  match n.node_type with
  | .Internal children keys =>
    children.all (fun o => decide (o < 2 ^ 64)) &&
    keys.all (cellOk KEY_SIZE) &&
    decide (children.length = keys.length + 1) &&
    decide (2 + PTR_SIZE + PTR_SIZE + PTR_SIZE * children.length +
      KEY_SIZE * keys.length ≤ PAGE_SIZE)
  | .Leaf pairs =>
    pairs.all (fun p => cellOk KEY_SIZE p.key && cellOk VALUE_SIZE p.value) &&
    decide (2 + PTR_SIZE + PTR_SIZE +
      (KEY_SIZE + VALUE_SIZE) * pairs.length ≤ PAGE_SIZE)
  | .Unexpected => false

theorem from_page_shape_internal (r : Nat) (pb : List Nat) (c : Nat)
    (obs kbs tail : List Nat) (hpb : pb.length = PTR_SIZE) (hc : c < 2 ^ 64)
    (hobs : obs.length = PTR_SIZE * c) :
    Node.from_page (r :: 1 :: (pb ++ (toBE PTR_SIZE c ++ (obs ++ (kbs ++ tail))))) =
      .ok (Node.new
        (.Internal (readOffsets (obs ++ (kbs ++ tail)) c) (readKeys (kbs ++ tail) (c - 1)))
        (r == 1) (if r == 1 then none else some (fromBE pb))) := by
  have hcnt : (toBE PTR_SIZE c).length = PTR_SIZE := toBE_length _ _
  have e2 : readAt (r :: 1 :: (pb ++ (toBE PTR_SIZE c ++ (obs ++ (kbs ++ tail))))) 2 PTR_SIZE = pb := by
    unfold readAt
    show ((pb ++ (toBE PTR_SIZE c ++ (obs ++ (kbs ++ tail))))).take PTR_SIZE = pb
    exact take_app hpb
  have e10 : readAt (r :: 1 :: (pb ++ (toBE PTR_SIZE c ++ (obs ++ (kbs ++ tail))))) 10 PTR_SIZE =
      toBE PTR_SIZE c := by
    unfold readAt
    show (((pb ++ (toBE PTR_SIZE c ++ (obs ++ (kbs ++ tail))))).drop PTR_SIZE).take PTR_SIZE = _
    rw [drop_app hpb, take_app hcnt]
  have e18 : (r :: 1 :: (pb ++ (toBE PTR_SIZE c ++ (obs ++ (kbs ++ tail))))).drop
      (2 + PTR_SIZE + PTR_SIZE) = obs ++ (kbs ++ tail) := by
    show ((pb ++ (toBE PTR_SIZE c ++ (obs ++ (kbs ++ tail))))).drop (PTR_SIZE + PTR_SIZE) = _
    rw [← List.drop_drop, drop_app hpb, drop_app hcnt]
  unfold Node.from_page
  simp only [List.getD_cons_succ, List.getD_cons_zero, e2, e10, e18]
  rw [fromBE_toBE_of_lt hc]
  rw [drop_app hobs]

theorem from_page_shape_leaf (r : Nat) (pb : List Nat) (c : Nat)
    (cells tail : List Nat) (hpb : pb.length = PTR_SIZE) (hc : c < 2 ^ 64) :
    Node.from_page (r :: 2 :: (pb ++ (toBE PTR_SIZE c ++ (cells ++ tail)))) =
      .ok (Node.new (.Leaf (readPairs (cells ++ tail) c))
        (r == 1) (if r == 1 then none else some (fromBE pb))) := by
  have hcnt : (toBE PTR_SIZE c).length = PTR_SIZE := toBE_length _ _
  have e2 : readAt (r :: 2 :: (pb ++ (toBE PTR_SIZE c ++ (cells ++ tail)))) 2 PTR_SIZE = pb := by
    unfold readAt
    show ((pb ++ (toBE PTR_SIZE c ++ (cells ++ tail)))).take PTR_SIZE = pb
    exact take_app hpb
  have e10 : readAt (r :: 2 :: (pb ++ (toBE PTR_SIZE c ++ (cells ++ tail)))) 10 PTR_SIZE =
      toBE PTR_SIZE c := by
    unfold readAt
    show (((pb ++ (toBE PTR_SIZE c ++ (cells ++ tail)))).drop PTR_SIZE).take PTR_SIZE = _
    rw [drop_app hpb, take_app hcnt]
  have e18 : (r :: 2 :: (pb ++ (toBE PTR_SIZE c ++ (cells ++ tail)))).drop
      (2 + PTR_SIZE + PTR_SIZE) = cells ++ tail := by
    show ((pb ++ (toBE PTR_SIZE c ++ (cells ++ tail)))).drop (PTR_SIZE + PTR_SIZE) = _
    rw [← List.drop_drop, drop_app hpb, drop_app hcnt]
  unfold Node.from_page
  simp only [List.getD_cons_succ, List.getD_cons_zero, e2, e10, e18]
  rw [fromBE_toBE_of_lt hc]

theorem roundtrip_node (n : Node) (h : validNode n = true) :
    ∃ p, Page.try_from n = .ok p ∧ p.length = PAGE_SIZE ∧
      Node.from_page p = .ok n := by
  obtain ⟨nt, ir, po⟩ := n
  unfold validNode at h
  rw [Bool.and_eq_true] at h
  obtain ⟨hpar, hbody⟩ := h
  simp only [] at hpar hbody
  have hparentBytes : ∃ pb, pb.length = PTR_SIZE ∧
      (if ir = true then (Except.ok (List.replicate PTR_SIZE 0) : Except Error (List Nat))
       else match po with
         | some p => Except.ok (toBE PTR_SIZE p)
         | none => Except.error Error.UnexpectedError) = .ok pb ∧
      (if ir = true then (none : Option Nat) else some (fromBE pb)) = po := by
    cases ir with
    | true =>
      cases hpo : po with
      | none => exact ⟨List.replicate PTR_SIZE 0, by simp, by simp, by simp⟩
      | some p => rw [hpo] at hpar; simp at hpar
    | false =>
      cases hpo : po with
      | none => rw [hpo] at hpar; simp at hpar
      | some p =>
        rw [hpo] at hpar
        simp only [Bool.not_false, Bool.true_and, decide_eq_true_eq] at hpar
        have hp2 : (256 : Nat) ^ PTR_SIZE = 2 ^ 64 := by norm_num [PTR_SIZE]
        have hp' : p < 256 ^ PTR_SIZE := by rw [hp2]; exact hpar
        refine ⟨toBE PTR_SIZE p, toBE_length _ _, by simp, ?_⟩
        simp [fromBE_toBE_of_lt hp']
  obtain ⟨pb, hpblen, hpbeq, hpbdec⟩ := hparentBytes
  have hirdec : (((if ir = true then (1 : Nat) else 0)) == 1) = ir := by
    cases ir <;> rfl
  cases nt with
  | Unexpected => simp at hbody
  | Internal children keys =>
    simp only [Bool.and_eq_true, List.all_eq_true, decide_eq_true_eq] at hbody
    obtain ⟨⟨⟨hch, hks⟩, harity⟩, hfits⟩ := hbody
    obtain ⟨keyBytes, hkok, hklen, hkread⟩ := serializeKeys_spec keys
      (fun k hk => by
        have := hks k hk
        unfold cellOk at this
        simp only [Bool.and_eq_true, decide_eq_true_eq] at this
        exact this)
    have hsolen : (serializeOffsets children).length = PTR_SIZE * children.length :=
      serializeOffsets_length children
    have hclt : children.length < 2 ^ 64 := by
      unfold PAGE_SIZE PTR_SIZE KEY_SIZE at hfits
      omega
    have henc : Page.try_from (Node.new (.Internal children keys) ir po) =
        .ok ((if ir = true then (1:Nat) else 0) :: 1 ::
          (pb ++ toBE PTR_SIZE children.length ++
            (serializeOffsets children ++ keyBytes) ++
            List.replicate (PAGE_SIZE - (2 + PTR_SIZE + PTR_SIZE +
              (serializeOffsets children ++ keyBytes).length)) 0)) := by
      unfold Page.try_from
      simp only [Node.new] at hpbeq ⊢
      rw [hpbeq]
      simp only []
      rw [hkok]
      rfl
    refine ⟨_, henc, ?_, ?_⟩
    · simp only [List.length_cons, List.length_append, List.length_replicate]
      rw [hpblen, toBE_length, hsolen, hklen]
      unfold PAGE_SIZE PTR_SIZE KEY_SIZE at hfits ⊢
      omega
    · have hshape := from_page_shape_internal (if ir = true then (1:Nat) else 0)
        pb children.length (serializeOffsets children)
        keyBytes
        (List.replicate (PAGE_SIZE - (2 + PTR_SIZE + PTR_SIZE +
          (serializeOffsets children ++ keyBytes).length)) 0)
        hpblen hclt hsolen
      have hassoc : pb ++ toBE PTR_SIZE children.length ++
            (serializeOffsets children ++ keyBytes) ++
            List.replicate (PAGE_SIZE - (2 + PTR_SIZE + PTR_SIZE +
              (serializeOffsets children ++ keyBytes).length)) 0 =
          pb ++ (toBE PTR_SIZE children.length ++
            (serializeOffsets children ++ (keyBytes ++
            List.replicate (PAGE_SIZE - (2 + PTR_SIZE + PTR_SIZE +
              (serializeOffsets children ++ keyBytes).length)) 0))) := by
        simp [List.append_assoc]
      rw [hassoc, hshape]
      rw [readOffsets_serialize children hch]
      have hcm1 : children.length - 1 = keys.length := by omega
      rw [hcm1, hkread]
      rw [hirdec, hpbdec]
      rfl
  | Leaf pairs =>
    simp only [Bool.and_eq_true, List.all_eq_true, decide_eq_true_eq] at hbody
    obtain ⟨hps, hfits⟩ := hbody
    obtain ⟨cells, hpok, hplen, hpread⟩ := serializePairs_spec pairs
      (fun p hp => by
        have := hps p hp
        unfold cellOk at this
        simp only [Bool.and_eq_true, decide_eq_true_eq] at this
        exact ⟨this.1.1, this.1.2, this.2.1, this.2.2⟩)
    have hplt : pairs.length < 2 ^ 64 := by
      unfold PAGE_SIZE PTR_SIZE KEY_SIZE VALUE_SIZE at hfits
      omega
    have henc : Page.try_from (Node.new (.Leaf pairs) ir po) =
        .ok ((if ir = true then (1:Nat) else 0) :: 2 ::
          (pb ++ toBE PTR_SIZE pairs.length ++ cells ++
            List.replicate (PAGE_SIZE - (2 + PTR_SIZE + PTR_SIZE + cells.length)) 0)) := by
      unfold Page.try_from
      simp only [Node.new] at hpbeq ⊢
      rw [hpbeq]
      simp only []
      rw [hpok]
      rfl
    refine ⟨_, henc, ?_, ?_⟩
    · simp only [List.length_cons, List.length_append, List.length_replicate]
      rw [hpblen, toBE_length, hplen]
      unfold PAGE_SIZE PTR_SIZE KEY_SIZE VALUE_SIZE at hfits ⊢
      omega
    · have hshape := from_page_shape_leaf (if ir = true then (1:Nat) else 0)
        pb pairs.length cells
        (List.replicate (PAGE_SIZE - (2 + PTR_SIZE + PTR_SIZE + cells.length)) 0)
        hpblen hplt
      have hassoc : pb ++ toBE PTR_SIZE pairs.length ++ cells ++
            List.replicate (PAGE_SIZE - (2 + PTR_SIZE + PTR_SIZE + cells.length)) 0 =
          pb ++ (toBE PTR_SIZE pairs.length ++ (cells ++
            List.replicate (PAGE_SIZE - (2 + PTR_SIZE + PTR_SIZE + cells.length)) 0)) := by
        simp [List.append_assoc]
      rw [hassoc, hshape]
      rw [hpread]
      rw [hirdec, hpbdec]
      rfl

/-- C7: For every Node n whose keys and values fit the fixed size caps
(with valid field contents per the data model: no trailing zero bytes in
keys or values, a parent offset exactly on non-root nodes,
`|children| = |separators| + 1`, offsets within `usize`, body fitting one
page), serializing n to a page (`Page::try_from(&Node)`, `page.rs`) and
deserializing that page back (`Node::from_page`) yields a node equal to
n: equal node_type with all entries, equal is_root, equal
parent_offset. -/
theorem node_page_roundtrip (n : Node) (h : validNode n = true) :
    ∃ p, Page.try_from n = .ok p ∧ Node.from_page p = .ok n := by
  obtain ⟨p, h1, _, h3⟩ := roundtrip_node n h
  exact ⟨p, h1, h3⟩

/-- The Scenario F node: an Internal node with children
`[4096, 8192, 12288, 16384]` and separators "foo bar", "lebron",
"ariana" (as UTF-8 bytes), a root without parent offset — the
`node_to_page_works_for_internal_node` test of `page.rs`. -/
def scenarioFNode : Node :=
  Node.new
    (.Internal [4096, 8192, 12288, 16384]
      [[102, 111, 111, 32, 98, 97, 114],
       [108, 101, 98, 114, 111, 110],
       [97, 114, 105, 97, 110, 97]])
    true none

theorem node_page_roundtrip_witness :
    validNode scenarioFNode = true ∧
      ∃ p, Page.try_from scenarioFNode = .ok p ∧
        Node.from_page p = .ok scenarioFNode :=
  ⟨by decide, node_page_roundtrip scenarioFNode (by decide)⟩

/-- `Wal::new` (`wal.rs:14-23`): the wal file is opened with
`create(true).read(true).write(true).truncate(true)`.  With these
`OpenOptions` the file's previous content is discarded whether or not
the file existed; a missing file is created empty.  The function below
maps the prior content of `dir/wal` to the content visible through the
fresh handle. -/
def Wal.new (prev : List Nat) : List Nat :=
  let _ := prev
  []

/-- `Wal::get_root` (`wal.rs:25-35`): seek to the end to learn the file
length, compute the offset of the last whole 8-byte record (0 for an
empty file), `read_exact` 8 bytes there — a short read is an
`io::Error`, surfaced as `UnexpectedError` — and decode them
big-endian. -/
def Wal.get_root (w : List Nat) : Except Error Nat :=
  let file_len := w.length
  let root_offset := if file_len > 0 then (file_len / PTR_SIZE - 1) * PTR_SIZE else 0
  if root_offset + PTR_SIZE ≤ file_len then
    .ok (fromBE (readAt w root_offset PTR_SIZE))
  else
    .error .UnexpectedError

/-- `Wal::set_root` (`wal.rs:37-41`): append the offset's 8 big-endian
bytes at the end of the file. -/
def Wal.set_root (w : List Nat) (offset : Nat) : List Nat :=
  w ++ toBE PTR_SIZE offset

/-- C9 counterexample: a wal holding one record (root offset 4096) reads
back that root, but re-opening it through `Wal::new` truncates the file
— `truncate(true)` is unconditional, not only on fresh creation — so
`get_root` after the reopen fails instead of returning 4096. -/
theorem wal_reopen_loses_root :
    Wal.get_root (Wal.set_root [] 4096) = .ok 4096 ∧
      Wal.new (Wal.set_root [] 4096) = [] ∧
      Wal.get_root (Wal.new (Wal.set_root [] 4096)) = .error .UnexpectedError := by
  refine ⟨?_, rfl, rfl⟩
  decide

/-- C9 amended: opening the wal truncates the wal file unconditionally —
also over an existing file — so no record survives a reopen and
`get_root` immediately after any open fails until a new `set_root`
appends a record. -/
theorem wal_new_always_truncates (prev : List Nat) :
    Wal.new prev = [] ∧
      Wal.get_root (Wal.new prev) = .error .UnexpectedError :=
  ⟨rfl, rfl⟩

/-- The index file as the pager sees it: a sequence of PAGE_SIZE pages.
Modelled from the spec: the mature `pager.rs` is not among the source
files; §4.4 fixes its interface (random access by byte offset, an
append cursor at end-of-file, offsets always multiples of PAGE_SIZE). -/
abbrev File := List Page

/-- Modelled from the spec: `Pager::get_page(offset)` — read exactly
PAGE_SIZE bytes at `offset`, failing on a short read (an `io::Error`,
surfaced as `UnexpectedError`); the engine only ever reads page-aligned
offsets, and an unaligned read is likewise modelled as failing. -/
def Pager.get_page (f : File) (offset : Nat) : Except Error Page :=
  if offset % PAGE_SIZE == 0 then
    match f.get? (offset / PAGE_SIZE) with
    | some p => .ok p
    | none => .error .UnexpectedError
  else .error .UnexpectedError

/-- Modelled from the spec: `Pager::write_page(page)` — append at the
cursor (end of file) and return the offset the page landed at. -/
def Pager.write_page (f : File) (p : Page) : File × Nat :=
  (f ++ [p], PAGE_SIZE * f.length)

/-- Modelled from the spec: `Pager::write_page_at_offset(page, offset)`
— seek to `offset` and overwrite PAGE_SIZE bytes in place.  A write at
the current end of file extends it; a write farther out (never issued
by the engine) is modelled as failing. -/
def Pager.write_page_at_offset (f : File) (p : Page) (offset : Nat) :
    Except Error File :=
  if offset % PAGE_SIZE == 0 then
    if offset / PAGE_SIZE < f.length then .ok (f.set (offset / PAGE_SIZE) p)
    else if offset / PAGE_SIZE == f.length then .ok (f ++ [p])
    else .error .UnexpectedError
  else .error .UnexpectedError

/-- The observable outcome of a mutating BTree call: the file as left on
disk next to the `Result`.  `none` models a non-returning execution — a
Rust panic (`Vec::remove` / `Vec::insert` out of bounds) or a descent
deeper than the fuel (the fuel only meters recursion; every theorem
below supplies fuel above the tree height, where the two coincide with
the source's unmetered recursion). -/
def BTreeRun (α : Type) := Option (File × Except Error α)

/-- Sequence a fallible pure step into a run: `Err` propagates (Rust's
`?`) while the file keeps the writes made so far. -/
def stepE {α β : Type} (f : File) (x : Except Error α)
    (k : α → BTreeRun β) : BTreeRun β :=
  match x with
  | .error e => some (f, .error e)
  | .ok a => k a

/-- `Vec::remove(idx)`: panics when `idx` is out of bounds. -/
def vecRemove {α : Type} (xs : List α) (idx : Nat) : Option (List α) :=
  if idx < xs.length then some (xs.eraseIdx idx) else none

/-- `Vec::insert(idx, v)`: panics when `idx > len`. -/
def vecInsert {α : Type} (xs : List α) (idx : Nat) (v : α) : Option (List α) :=
  if idx ≤ xs.length then some (List.insertIdx idx v xs) else none

/-- `btree.rs:11`. -/
def MAX_BRANCHING_FACTOR : Nat := 200

/-- `btree.rs:12`. -/
def NODE_KEYS_LIMIT : Nat := MAX_BRANCHING_FACTOR - 1

/-- `BTree::is_node_full` (`btree.rs:80-86`). -/
def BTree.is_node_full (b : Nat) (node : Node) : Except Error Bool :=
  match node.node_type with
  | .Leaf pairs => .ok (pairs.length == 2 * b - 1)
  | .Internal _ keys => .ok (keys.length == 2 * b - 1)
  | .Unexpected => .error .UnexpectedError

/-- `BTree::is_node_underflow` (`btree.rs:88-95`): a root never
underflows. -/
def BTree.is_node_underflow (b : Nat) (node : Node) : Except Error Bool :=
  match node.node_type with
  | .Leaf pairs => .ok (decide (pairs.length < b - 1) && !node.is_root)
  | .Internal _ keys => .ok (decide (keys.length < b - 1) && !node.is_root)
  | .Unexpected => .error .UnexpectedError

/-- Modelled from the spec: `Node::split(b)` — the mature `node.rs` is
not among the source files; §4.3 and the caller's comment
(`btree.rs:154-155`, "split will split the child at b leaving the
[0, b-1] keys while moving the set of [b, 2b-1] keys to the sibling")
fix the convention.  A Leaf keeps its first `b` pairs and moves the rest
to a new sibling; the median is a copy of the key at index `b - 1` of
the left half.  An Internal keeps `children[0..b]` and
`separators[0..b-1]`; the median separator at index `b - 1` is removed
from both halves and returned, and the sibling receives `children[b..]`
and `separators[b..]`.  The mutated self keeps its own
`is_root`/`parent_offset`; the sibling is non-root and inherits
`parent_offset`.  Splitting a node too small for `b` fails. -/
def Node.split (node : Node) (b : Nat) : Except Error (Bytes × Node × Node) :=
  match node.node_type with
  | .Internal children keys =>
    match keys.get? (b - 1) with
    | none => .error .UnexpectedError
    | some median =>
      .ok (median,
        { node with node_type := .Internal (children.take b) (keys.take (b - 1)) },
        Node.new (.Internal (children.drop b) (keys.drop b)) false node.parent_offset)
  | .Leaf pairs =>
    match pairs.get? (b - 1) with
    | none => .error .UnexpectedError
    | some medianPair =>
      .ok (medianPair.key,
        { node with node_type := .Leaf (pairs.take b) },
        Node.new (.Leaf (pairs.drop b)) false node.parent_offset)
  | .Unexpected => .error .UnexpectedError

/-- `BTree::search_node` (`btree.rs:191-213`): at an Internal node take
the child at `keys.binary_search(key).unwrap_or_else(|x| x)`; at a Leaf
return the exact binary-search match or `KeyNotFound`.  The search only
reads pages, so it is a pure function of the file. -/
def BTree.search_node (f : File) : Nat → Node → Bytes →
    Option (Except Error KeyValuePair)
  | 0, _, _ => none
  | fuel + 1, node, search =>
    match node.node_type with
    | .Internal children keys =>
      let idx := unwrapIdx (rustBinarySearch (fun k => keyCmp k search) keys)
      match children.get? idx with
      | none => some (.error .UnexpectedError)
      | some child_offset =>
        match Pager.get_page f child_offset with
        | .error e => some (.error e)
        | .ok page =>
          match Node.from_page page with
          | .error e => some (.error e)
          | .ok child_node => BTree.search_node f fuel child_node search
    | .Leaf pairs =>
      match rustBinarySearch (fun p => keyCmp p.key search) pairs with
      | .ok idx =>
        match pairs.get? idx with
        | some pr => some (.ok pr)
        | none => none
      | .error _ => some (.error .KeyNotFound)
    | .Unexpected => some (.error .UnexpectedError)

/-- `BTree::search` (`btree.rs:184-188`): read the page at
`self.root_offset`, decode it and descend. -/
def BTree.search (f : File) (root_offset : Nat) (fuel : Nat) (key : Bytes) :
    Option (Except Error KeyValuePair) :=
  match Pager.get_page f root_offset with
  | .error e => some (.error e)
  | .ok page =>
    match Node.from_page page with
    | .error e => some (.error e)
    | .ok root => BTree.search_node f fuel root key

/-- `BTree::insert_non_full` (`btree.rs:133-181`): insert into a leaf at
the binary-search position and overwrite its page; at an Internal node
pick the child at the binary-search index, split it first when full
(overwrite the left half, append the sibling, insert the median and the
sibling offset into the parent at `idx` / `idx + 1`, overwrite the
parent), then recurse into the half chosen by `kv.key <= median`. -/
def BTree.insert_non_full (b : Nat) :
    Nat → File → Node → Nat → KeyValuePair → BTreeRun Unit
  | 0, _, _, _, _ => none
  | fuel + 1, f, node, node_offset, kv =>
    match node.node_type with
    | .Leaf pairs =>
      let idx := unwrapIdx (rustBinarySearch (fun p => keyCmp p.key kv.key) pairs)
      match vecInsert pairs idx kv with
      | none => none
      | some pairs2 =>
        stepE f (Page.try_from { node with node_type := .Leaf pairs2 }) fun page =>
          match Pager.write_page_at_offset f page node_offset with
          | .error e => some (f, .error e)
          | .ok f2 => some (f2, .ok ())
    | .Internal children keys =>
      let idx := unwrapIdx (rustBinarySearch (fun k => keyCmp k kv.key) keys)
      match children.get? idx with
      | none => some (f, .error .UnexpectedError)
      | some child_offset =>
        stepE f (Pager.get_page f child_offset) fun child_page =>
        stepE f (Node.from_page child_page) fun child =>
        stepE f (BTree.is_node_full b child) fun full =>
        if full then
          stepE f (child.split b) fun msp =>
          match msp with
          | (median, leftc, sibling) =>
          stepE f (Page.try_from leftc) fun left_page =>
          match Pager.write_page_at_offset f left_page child_offset with
          | .error e => some (f, .error e)
          | .ok f2 =>
            stepE f2 (Page.try_from sibling) fun sibling_page =>
            match Pager.write_page f2 sibling_page with
            | (f3, sibling_offset) =>
            match vecInsert children (idx + 1) sibling_offset with
            | none => none
            | some children2 =>
            match vecInsert keys idx median with
            | none => none
            | some keys2 =>
            stepE f3 (Page.try_from { node with node_type := .Internal children2 keys2 })
              fun parent_page =>
            match Pager.write_page_at_offset f3 parent_page node_offset with
            | .error e => some (f3, .error e)
            | .ok f4 =>
              if keyLe kv.key median then
                BTree.insert_non_full b fuel f4 leftc child_offset kv
              else
                BTree.insert_non_full b fuel f4 sibling sibling_offset kv
        else
          BTree.insert_non_full b fuel f child child_offset kv
    | .Unexpected => some (f, .error .UnexpectedError)

/-- `BTree::insert` (`btree.rs:98-129`): read the root; when it is full,
allocate an empty Internal root, append it (this becomes the new
`self.root_offset`), demote and split the old root, overwrite the left
half in place, append the sibling, point the new root at
`[old_root_offset, sibling_offset]` with the median as its only
separator and overwrite it; finally `insert_non_full` from the (possibly
new) root.  The returned pair carries the file and the `root_offset`
field as the source leaves them, also on error paths. -/
def BTree.insert (b : Nat) (fuel : Nat) (f : File) (root_offset : Nat)
    (kv : KeyValuePair) : Option ((File × Nat) × Except Error Unit) :=
  match Pager.get_page f root_offset with
  | .error e => some ((f, root_offset), .error e)
  | .ok root_page =>
  match Node.from_page root_page with
  | .error e => some ((f, root_offset), .error e)
  | .ok root =>
  match BTree.is_node_full b root with
  | .error e => some ((f, root_offset), .error e)
  | .ok full =>
  if full then
    match Page.try_from (Node.new (.Internal [] []) true none) with
    | .error e => some ((f, root_offset), .error e)
    | .ok new_root_page0 =>
    match Pager.write_page f new_root_page0 with
    | (f1, new_root_offset) =>
    match Node.split
        { root with parent_offset := some new_root_offset, is_root := false } b with
    | .error e => some ((f1, new_root_offset), .error e)
    | .ok (median, left, sibling) =>
    match Page.try_from left with
    | .error e => some ((f1, new_root_offset), .error e)
    | .ok left_page =>
    match Pager.write_page_at_offset f1 left_page root_offset with
    | .error e => some ((f1, new_root_offset), .error e)
    | .ok f2 =>
    match Page.try_from sibling with
    | .error e => some ((f2, new_root_offset), .error e)
    | .ok sibling_page =>
    match Pager.write_page f2 sibling_page with
    | (f3, sibling_offset) =>
    let new_root := Node.new (.Internal [root_offset, sibling_offset] [median]) true none
    match Page.try_from new_root with
    | .error e => some ((f3, new_root_offset), .error e)
    | .ok new_root_page =>
    match Pager.write_page_at_offset f3 new_root_page new_root_offset with
    | .error e => some ((f3, new_root_offset), .error e)
    | .ok f4 =>
    match BTree.insert_non_full b fuel f4 new_root new_root_offset kv with
    | none => none
    | some (f5, r) => some ((f5, new_root_offset), r)
  else
    match BTree.insert_non_full b fuel f root root_offset kv with
    | none => none
    | some (f2, r) => some ((f2, root_offset), r)

/-- `BTree::merge` (`btree.rs:300-332`): concatenate the two same-kind
nodes' entries, first's before second's, and take `is_root` and
`parent_offset` from the first. -/
def BTree.merge (first second : Node) : Except Error Node :=
  match first.node_type with
  | .Leaf first_pairs =>
    match second.node_type with
    | .Leaf second_pairs =>
      .ok (Node.new (.Leaf (first_pairs ++ second_pairs))
        first.is_root first.parent_offset)
    | _ => .error .UnexpectedError
  | .Internal first_offsets first_keys =>
    match second.node_type with
    | .Internal second_offsets second_keys =>
      .ok (Node.new (.Internal (first_offsets ++ second_offsets)
        (first_keys ++ second_keys)) first.is_root first.parent_offset)
    | _ => .error .UnexpectedError
  | .Unexpected => .error .UnexpectedError

/-- `BTree::borrow_if_needed` (`btree.rs:254-294`): on underflow, fetch
the parent, take the sibling at `idx - 1` when `idx > 0` else `idx + 1`
(`idx` from binary-searching the deleted key among the parent's keys),
merge the underflowing node with it, append the merged page at a fresh
offset, then in the parent run `children.remove(idx)` followed by
`children.remove(sibling_idx)` — the second remove acts on the
already-shifted vector and panics when out of bounds — insert the merged
offset at `min idx sibling_idx`, leave `keys` untouched, overwrite the
parent and recurse on it. -/
def BTree.borrow_if_needed (b : Nat) : Nat → File → Node → Bytes → BTreeRun Unit
  | 0, _, _, _ => none
  | fuel + 1, f, node, key =>
    stepE f (BTree.is_node_underflow b node) fun underflow =>
    if underflow then
      match node.parent_offset with
      | none => some (f, .error .UnexpectedError)
      | some parent_offset =>
      stepE f (Pager.get_page f parent_offset) fun parent_page =>
      stepE f (Node.from_page parent_page) fun parent_node =>
      match parent_node.node_type with
      | .Internal children keys =>
        let idx := unwrapIdx (rustBinarySearch (fun k => keyCmp k key) keys)
        let sibling_idx := if idx > 0 then idx - 1 else idx + 1
        match children.get? sibling_idx with
        | none => some (f, .error .UnexpectedError)
        | some sibling_offset =>
        stepE f (Pager.get_page f sibling_offset) fun sibling_page =>
        stepE f (Node.from_page sibling_page) fun sibling =>
        stepE f (BTree.merge node sibling) fun merged_node =>
        stepE f (Page.try_from merged_node) fun merged_page =>
        match Pager.write_page f merged_page with
        | (f1, merged_node_offset) =>
        match vecRemove children idx with
        | none => none
        | some children1 =>
        match vecRemove children1 sibling_idx with
        | none => none
        | some children2 =>
        match vecInsert children2 (min idx sibling_idx) merged_node_offset with
        | none => none
        | some children3 =>
        let parent_node2 := { parent_node with node_type := .Internal children3 keys }
        stepE f1 (Page.try_from parent_node2) fun parent_page2 =>
        match Pager.write_page_at_offset f1 parent_page2 parent_offset with
        | .error e => some (f1, .error e)
        | .ok f2 => BTree.borrow_if_needed b fuel f2 parent_node2 key
      | _ => some (f, .error .UnexpectedError)
    else
      some (f, .ok ())

/-- `BTree::delete_key_from_subtree` (`btree.rs:222-249`): descend by
binary-searching the separators; at the leaf an absent key is
`KeyNotFound` before any write, a present key is removed, the leaf page
overwritten, and `borrow_if_needed` runs on the updated node. -/
def BTree.delete_key_from_subtree (b : Nat) : Nat → File → Bytes → Nat → BTreeRun Unit
  | 0, _, _, _ => none
  | fuel + 1, f, key, offset =>
    stepE f (Pager.get_page f offset) fun page =>
    stepE f (Node.from_page page) fun node =>
    match node.node_type with
    | .Leaf pairs =>
      match rustBinarySearch (fun p => keyCmp p.key key) pairs with
      | .error _ => some (f, .error .KeyNotFound)
      | .ok key_idx =>
        match vecRemove pairs key_idx with
        | none => none
        | some pairs2 =>
          let node2 := { node with node_type := .Leaf pairs2 }
          stepE f (Page.try_from node2) fun page2 =>
          match Pager.write_page_at_offset f page2 offset with
          | .error e => some (f, .error e)
          | .ok f2 => BTree.borrow_if_needed b fuel f2 node2 key
    | .Internal children keys =>
      let node_idx := unwrapIdx (rustBinarySearch (fun k => keyCmp k key) keys)
      match children.get? node_idx with
      | none => some (f, .error .UnexpectedError)
      | some child_offset => BTree.delete_key_from_subtree b fuel f key child_offset
    | .Unexpected => some (f, .error .UnexpectedError)

/-- `BTree::delete` (`btree.rs:216-218`): delete from the subtree rooted
at `self.root_offset` (which delete never changes). -/
def BTree.delete (b : Nat) (fuel : Nat) (f : File) (root_offset : Nat)
    (key : Bytes) : BTreeRun Unit :=
  BTree.delete_key_from_subtree b fuel f key root_offset

/-- The engine-level state: the index file, the BTree's in-memory
`root_offset` field, and the wal file.  `BTree` (`btree.rs:16-20`) holds
`pager`, `b` and `root_offset` only — no wal — and no BTree method
constructs or calls a `Wal`. -/
structure System where
  file : File
  root_offset : Nat
  wal : List Nat

/-- One engine-level insert as the repo wires it: the tree state steps
through `BTree::insert`; the wal file is not read and not appended,
because `btree.rs` contains no wal call. -/
def System.insert (b fuel : Nat) (s : System) (kv : KeyValuePair) :
    Option (System × Except Error Unit) :=
  match BTree.insert b fuel s.file s.root_offset kv with
  | none => none
  | some ((f, ro), r) => some ({ file := f, root_offset := ro, wal := s.wal }, r)

/-- One engine-level delete as the repo wires it. -/
def System.delete (b fuel : Nat) (s : System) (key : Bytes) :
    Option (System × Except Error Unit) :=
  match BTree.delete b fuel s.file s.root_offset key with
  | none => none
  | some (f, r) => some ({ file := f, root_offset := s.root_offset, wal := s.wal }, r)

/-- The page image of a node, for assembling concrete on-disk states
(empty when serialization fails, which never happens below). -/
def pageOf (n : Node) : Page :=
  match Page.try_from n with
  | .ok p => p
  | .error _ => []

/-- Decode the page at index `i` of a file as an Internal node. -/
def decodeInternalAt (f : File) (i : Nat) : Option (List Nat × List Bytes) :=
  match Node.from_page (f.getD i []) with
  | .ok n =>
    match n.node_type with
    | .Internal cs ks => some (cs, ks)
    | _ => none
  | .error _ => none

/-- Decode the page at index `i` of a file as a Leaf node. -/
def decodeLeafAt (f : File) (i : Nat) : Option (List KeyValuePair) :=
  match Node.from_page (f.getD i []) with
  | .ok n =>
    match n.node_type with
    | .Leaf ps => some ps
    | _ => none
  | .error _ => none

/-- A one-page tree: a root leaf holding the single pair ("a","1")
(bytes [97] / [49]). -/
def dupFile : File :=
  [pageOf (Node.new (.Leaf [KeyValuePair.new [97] [49]]) true none)]

/-- C1 counterexample: inserting ("a","2") into the tree already holding
("a","1") succeeds, but the following search of "a" returns the OLD pair
("a","1"), not the inserted ("a","2"): `insert_non_full` places the new
pair at the binary-search index, in front of the equal key, and the
leaf binary search of `search_node` then lands on the old pair at index
1. -/
theorem insert_then_search_duplicate_counterexample :
    (BTree.insert 2 4 dupFile 0 (KeyValuePair.new [97] [50])).map (fun r => r.2) =
      some (.ok ()) ∧
    (BTree.insert 2 4 dupFile 0 (KeyValuePair.new [97] [50])).map
      (fun r => BTree.search r.1.1 r.1.2 4 [97]) =
      some (some (.ok (KeyValuePair.new [97] [49]))) ∧
    KeyValuePair.new [97] [49] ≠ KeyValuePair.new [97] [50] :=
  ⟨rfl, rfl, by decide⟩

/-- C2 counterexample: an engine state whose wal file is EMPTY — so
`Wal::get_root` on it fails — still completes an insert, and the
completed mutation appends nothing to the wal: the operation neither
begins by reading the root offset from the wal nor ends by appending
the post-operation root offset to it. -/
theorem insert_ignores_wal_counterexample :
    Wal.get_root ([] : List Nat) = .error .UnexpectedError ∧
    (System.insert 2 4 ⟨dupFile, 0, []⟩ (KeyValuePair.new [98] [50])).map
      (fun r => (r.1.wal, r.2)) = some ([], .ok ()) :=
  ⟨rfl, rfl⟩

/-- C2 amended: the mature `BTree` keeps the root offset in its
in-memory `root_offset` field and its operations never read from nor
append to the wal — the `Wal` type exists (`wal.rs`) but `btree.rs`
never uses it, so the wal file is invariant across every completed
insert and delete. -/
theorem btree_ops_never_touch_wal (b fuel : Nat) (s : System)
    (kv : KeyValuePair) (key : Bytes) :
    (∀ s' r, System.insert b fuel s kv = some (s', r) → s'.wal = s.wal) ∧
    (∀ s' r, System.delete b fuel s key = some (s', r) → s'.wal = s.wal) := by
  constructor
  · intro s' r h
    unfold System.insert at h
    cases hres : BTree.insert b fuel s.file s.root_offset kv with
    | none => rw [hres] at h; cases h
    | some v =>
      rw [hres] at h
      obtain ⟨⟨f, ro⟩, r2⟩ := v
      cases h
      rfl
  · intro s' r h
    unfold System.delete at h
    cases hres : BTree.delete b fuel s.file s.root_offset key with
    | none => rw [hres] at h; cases h
    | some v =>
      rw [hres] at h
      obtain ⟨f, r2⟩ := v
      cases h
      rfl

theorem btree_ops_never_touch_wal_witness :
    (System.insert 2 4 ⟨dupFile, 0, [9, 9]⟩ (KeyValuePair.new [98] [50])).map
        (fun r => r.1.wal) = some [9, 9] := by
  have h := (btree_ops_never_touch_wal 2 4 ⟨dupFile, 0, [9, 9]⟩
    (KeyValuePair.new [98] [50]) []).1
  have hsome : (System.insert 2 4 ⟨dupFile, 0, [9, 9]⟩
      (KeyValuePair.new [98] [50])).isSome = true := rfl
  cases hres : System.insert 2 4 ⟨dupFile, 0, [9, 9]⟩ (KeyValuePair.new [98] [50]) with
  | none => rw [hres] at hsome; cases hsome
  | some v =>
    obtain ⟨s', r⟩ := v
    show some s'.wal = some [9, 9]
    rw [h s' r hres]

/-- A tree with Internal root (children at 4096, 8192, 12288; separators
"a","b") over three one-pair leaves ("a","0"), ("b","1"), ("c","2"),
with b = 2 so any leaf that loses its only pair underflows. -/
def mergeBugFile : File :=
  [pageOf (Node.new (.Internal [4096, 8192, 12288] [[97], [98]]) true none),
   pageOf (Node.new (.Leaf [KeyValuePair.new [97] [48]]) false (some 0)),
   pageOf (Node.new (.Leaf [KeyValuePair.new [98] [49]]) false (some 0)),
   pageOf (Node.new (.Leaf [KeyValuePair.new [99] [50]]) false (some 0))]

/-- C3 failing input, evaluated: deleting "a" empties the leftmost leaf
(idx = 0, sibling_idx = 1); the merged node lands at offset 16384.  The
claim requires the parent to end with children [16384, 12288] (both
original children gone) and exactly one separator removed (["b"]).
Instead `children.remove(0)` followed by `children.remove(1)` on the
already-shifted vector drops child 12288 — the wrong one, keeping the
just-merged 8192 — no separator is removed in memory, and the page
format then persists 2 children with a single separator ["a"].  The
never-deleted key "c", stored only in the dropped child 12288, becomes
unreachable: searching it yields KeyNotFound. -/
theorem borrow_merge_parent_update_bug :
    (BTree.delete 2 8 mergeBugFile 0 [97]).map (fun r => r.2) = some (.ok ()) ∧
    (BTree.delete 2 8 mergeBugFile 0 [97]).map (fun r => decodeInternalAt r.1 0) =
      some (some ([16384, 8192], [[97]])) ∧
    (BTree.delete 2 8 mergeBugFile 0 [97]).map
      (fun r => BTree.search r.1 0 8 [99]) =
      some (some (.error .KeyNotFound)) :=
  ⟨rfl, rfl, rfl⟩

/-- A b = 3 tree with Internal root (children 4096, 8192; separator "b")
over leaves [("a","1"),("b","2")] and [("c","3"),("d","4")]: deleting
"d" underflows the right leaf (1 < b - 1 = 2), and the chosen sibling
lies to its LEFT. -/
def leftSiblingFile : File :=
  [pageOf (Node.new (.Internal [4096, 8192] [[98]]) true none),
   pageOf (Node.new (.Leaf [KeyValuePair.new [97] [49],
                            KeyValuePair.new [98] [50]]) false (some 0)),
   pageOf (Node.new (.Leaf [KeyValuePair.new [99] [51],
                            KeyValuePair.new [100] [52]]) false (some 0))]

/-- C4 counterexample: in the delete above, `merge` is called with the
underflowing node [("c","3")] as `first` and the LEFT sibling
[("a","1"),("b","2")] as `second`, so the merged leaf persisted at
offset 12288 (page 3) is [("c","3"),("a","1"),("b","2")] — the right
node's entries before the left node's, with keys NOT in ascending order
— not the left sibling's entries followed by the right sibling's. -/
theorem merge_not_left_then_right_counterexample :
    (BTree.delete 3 8 leftSiblingFile 0 [100]).map (fun r => r.2) =
      some (.ok ()) ∧
    (BTree.delete 3 8 leftSiblingFile 0 [100]).map
      (fun r => decodeLeafAt r.1 3) =
      some (some [KeyValuePair.new [99] [51], KeyValuePair.new [97] [49],
        KeyValuePair.new [98] [50]]) ∧
    [KeyValuePair.new [99] [51], KeyValuePair.new [97] [49],
        KeyValuePair.new [98] [50]] ≠
      [KeyValuePair.new [97] [49], KeyValuePair.new [98] [50],
        KeyValuePair.new [99] [51]] :=
  ⟨rfl, rfl, by decide⟩

/-- C4 amended: `BTree::merge` concatenates its FIRST argument's entries
followed by its second's — for `borrow_if_needed` the underflowing
node's entries before the chosen sibling's, which reverses the spatial
order whenever the sibling lies to the left — and the merged node
inherits `is_root` and `parent_offset` from the first argument. -/
theorem merge_concatenates_first_then_second (first second : Node) :
    (∀ fp sp, first.node_type = .Leaf fp → second.node_type = .Leaf sp →
      BTree.merge first second =
        .ok (Node.new (.Leaf (fp ++ sp)) first.is_root first.parent_offset)) ∧
    (∀ fo fk so sk, first.node_type = .Internal fo fk →
      second.node_type = .Internal so sk →
      BTree.merge first second =
        .ok (Node.new (.Internal (fo ++ so) (fk ++ sk))
          first.is_root first.parent_offset)) := by
  constructor
  · intro fp sp h1 h2
    unfold BTree.merge
    rw [h1, h2]
  · intro fo fk so sk h1 h2
    unfold BTree.merge
    rw [h1, h2]

theorem merge_concatenates_first_then_second_witness :
    BTree.merge (Node.new (.Leaf [KeyValuePair.new [99] [51]]) false (some 0))
        (Node.new (.Leaf [KeyValuePair.new [97] [49]]) false (some 4096)) =
      .ok (Node.new (.Leaf [KeyValuePair.new [99] [51], KeyValuePair.new [97] [49]])
        false (some 0)) :=
  (merge_concatenates_first_then_second
    (Node.new (.Leaf [KeyValuePair.new [99] [51]]) false (some 0))
    (Node.new (.Leaf [KeyValuePair.new [97] [49]]) false (some 4096))).1
    [KeyValuePair.new [99] [51]] [KeyValuePair.new [97] [49]] rfl rfl

/-- A full (b = 2) root leaf: three pairs ("a","1"),("b","2"),("c","3"). -/
def fullRootFile : File :=
  [pageOf (Node.new (.Leaf [KeyValuePair.new [97] [49], KeyValuePair.new [98] [50],
    KeyValuePair.new [99] [51]]) true none)]

/-- C8 counterexample: inserting the 11-byte key "abcdefghijk" into the
full root does fail with KeyOverflowError, but only after the
preemptive root split has run: the file grows from 1 page to 3 (new
root appended, left half overwritten, sibling appended) and the
`root_offset` field moves to 4096, so the tree persisted on disk is NOT
unchanged. -/
theorem insert_key_overflow_after_split_counterexample :
    (BTree.insert 2 4 fullRootFile 0
        (KeyValuePair.new [97, 98, 99, 100, 101, 102, 103, 104, 105, 106, 107]
          [120])).map (fun r => r.2) = some (.error .KeyOverflowError) ∧
    (BTree.insert 2 4 fullRootFile 0
        (KeyValuePair.new [97, 98, 99, 100, 101, 102, 103, 104, 105, 106, 107]
          [120])).map (fun r => (r.1.1.length, r.1.2)) = some (3, 4096) ∧
    fullRootFile.length = 1 :=
  ⟨rfl, rfl, rfl⟩

/-- The smallest index of a list element satisfying a predicate. -/
def firstIdxWhere {α : Type} (pred : α → Bool) : List α → Option Nat
  | [] => none
  | x :: rest =>
    if pred x then some 0 else (firstIdxWhere pred rest).map (fun i => i + 1)

theorem firstIdxWhere_spec_some {α : Type} (pred : α → Bool) :
    ∀ (xs : List α) (p : Nat),
    (∀ i x, i < p → xs.get? i = some x → pred x = false) →
    (∀ x, xs.get? p = some x → pred x = true) → p < xs.length →
    firstIdxWhere pred xs = some p := by
  intro xs
  induction xs with
  | nil => intro p _ _ hlen; simp at hlen
  | cons x rest ih =>
    intro p hlt hp hlen
    cases p with
    | zero =>
      unfold firstIdxWhere
      rw [hp x rfl]
      rfl
    | succ p =>
      unfold firstIdxWhere
      rw [hlt 0 x (by omega) rfl]
      simp only [Bool.false_eq_true, if_false]
      rw [ih p (fun i y hi hy => hlt (i + 1) y (by omega) hy)
        (fun y hy => hp y hy) (by simpa using hlen)]
      rfl

theorem firstIdxWhere_spec_none {α : Type} (pred : α → Bool) :
    ∀ (xs : List α), (∀ x ∈ xs, pred x = false) →
    firstIdxWhere pred xs = none := by
  intro xs
  induction xs with
  | nil => intro _; rfl
  | cons x rest ih =>
    intro h
    unfold firstIdxWhere
    rw [h x (by simp)]
    simp only [Bool.false_eq_true, if_false]
    rw [ih (fun y hy => h y (by simp [hy]))]
    rfl

/-- The claim's descent rule, literally (spec §4.6.2): the smallest index
`i` such that `key < separator[i]`; the last child when no such `i`
exists. -/
def claimChildIdxLt (keys : List Bytes) (key : Bytes) : Nat :=
  (firstIdxWhere (fun s => keyLt key s) keys).getD keys.length

/-- The amended descent rule: the smallest index `i` such that
`key ≤ separator[i]`; the last child when no such `i` exists. -/
def childIdxLe (keys : List Bytes) (key : Bytes) : Nat :=
  (firstIdxWhere (fun s => keyLe key s) keys).getD keys.length

/-- `rustBinarySearch_spec` specialized to a plain key list. -/
theorem rustBinarySearch_keys_spec (keys : List Bytes) (targ : Bytes)
    (hs : pairwiseLtBy (fun k => k) keys) :
    match rustBinarySearch (fun k => keyCmp k targ) keys with
    | .ok j => j < keys.length ∧ ∃ x, keys.get? j = some x ∧ x = targ
    | .error p => p ≤ keys.length ∧
        (∀ i x, i < p → keys.get? i = some x → keyCmp x targ = .lt) ∧
        (∀ i x, p ≤ i → i < keys.length → keys.get? i = some x →
          keyCmp x targ = .gt) :=
  rustBinarySearch_spec (fun k => k) targ keys hs

/-- `rustBinarySearch_spec` specialized to pairs compared by key. -/
theorem rustBinarySearch_pairs_spec (pairs : List KeyValuePair) (targ : Bytes)
    (hs : pairwiseLtBy KeyValuePair.key pairs) :
    match rustBinarySearch (fun p => keyCmp p.key targ) pairs with
    | .ok j => j < pairs.length ∧ ∃ x, pairs.get? j = some x ∧ x.key = targ
    | .error p => p ≤ pairs.length ∧
        (∀ i x, i < p → pairs.get? i = some x → keyCmp x.key targ = .lt) ∧
        (∀ i x, p ≤ i → i < pairs.length → pairs.get? i = some x →
          keyCmp x.key targ = .gt) :=
  rustBinarySearch_spec KeyValuePair.key targ pairs hs

/-- An `Ok` of the binary search always sits on an element comparing
equal — with no sortedness assumption. -/
theorem binarySearchLoop_ok_exact {α : Type} (cmp : α → Ordering) (xs : List α) :
    ∀ fuel left right j, binarySearchLoop cmp xs fuel left right = .ok j →
    ∃ x, xs.get? j = some x ∧ cmp x = .eq := by
  intro fuel
  induction fuel with
  | zero => intro left right j h; cases h
  | succ fuel ih =>
    intro left right j h
    rw [binarySearchLoop] at h
    by_cases hlr : left < right
    · simp only [hlr, if_true] at h
      cases hx : xs.get? (left + (right - left) / 2) with
      | none => simp only [hx] at h; cases h
      | some x =>
        simp only [hx] at h
        cases hcmp : cmp x with
        | lt => simp only [hcmp] at h; exact ih _ _ _ h
        | gt => simp only [hcmp] at h; exact ih _ _ _ h
        | eq =>
          simp only [hcmp] at h
          cases h
          exact ⟨x, hx, hcmp⟩
    · simp only [hlr, if_false] at h
      cases h

theorem rustBinarySearch_ok_exact {α : Type} (cmp : α → Ordering)
    (xs : List α) (j : Nat) (h : rustBinarySearch cmp xs = .ok j) :
    ∃ x, xs.get? j = some x ∧ cmp x = .eq :=
  binarySearchLoop_ok_exact cmp xs _ _ _ _ h

/-- The child index the source's search and insert descend with equals
the smallest index whose separator is ≥ the key (last child when none),
on strictly sorted separators. -/
theorem searchIdx_eq_childIdxLe (keys : List Bytes) (key : Bytes)
    (hs : pairwiseLtBy (fun k => k) keys) :
    unwrapIdx (rustBinarySearch (fun k => keyCmp k key) keys) =
      childIdxLe keys key := by
  have hspec := rustBinarySearch_keys_spec keys key hs
  cases hres : rustBinarySearch (fun k => keyCmp k key) keys with
  | ok j =>
    rw [hres] at hspec
    obtain ⟨hjlen, x, hx, hxeq⟩ := hspec
    subst hxeq
    unfold unwrapIdx childIdxLe
    rw [firstIdxWhere_spec_some _ keys j ?_ ?_ hjlen]
    · rfl
    · intro i y hi hy
      have hlt : keyCmp y x = .lt := hs i j y x hi hy hx
      have h2 : keyCmp x y = .gt := by rw [keyCmp_swap, hlt]; rfl
      show keyLe x y = false
      unfold keyLe
      rw [h2]
      rfl
    · intro y hy
      rw [hy] at hx
      cases hx
      show keyLe x x = true
      unfold keyLe
      rw [keyCmp_refl]
      rfl
  | error p =>
    rw [hres] at hspec
    obtain ⟨hplen, hlo, hhi⟩ := hspec
    unfold unwrapIdx childIdxLe
    rcases Nat.lt_or_ge p keys.length with hp | hp
    · rw [firstIdxWhere_spec_some _ keys p ?_ ?_ hp]
      · rfl
      · intro i y hi hy
        have := hlo i y hi hy
        have h2 : keyCmp key y = .gt := by rw [keyCmp_swap, this]; rfl
        show keyLe key y = false
        unfold keyLe
        rw [h2]
        rfl
      · intro y hy
        have := hhi p y (le_refl _) hp hy
        have h2 : keyCmp key y = .lt := by rw [keyCmp_swap, this]; rfl
        show keyLe key y = true
        unfold keyLe
        rw [h2]
        rfl
    · have hpeq : p = keys.length := by omega
      rw [firstIdxWhere_spec_none _ keys ?_]
      · simp [hpeq]
      · intro y hy
        obtain ⟨i, hi⟩ := List.mem_iff_get?.mp hy
        have hilen : i < keys.length := by
          by_contra hc
          rw [List.get?_eq_none.mpr (by omega)] at hi
          cases hi
        have := hlo i y (by omega) hi
        have h2 : keyCmp key y = .gt := by rw [keyCmp_swap, this]; rfl
        show keyLe key y = false
        unfold keyLe
        rw [h2]
        rfl

/-- At a Leaf, the source's search returns the pair with the exactly
matching key (strictly sorted pairs make it unique). -/
theorem search_node_leaf_found (f : File) (fuel : Nat)
    (pairs : List KeyValuePair) (r : Bool) (po : Option Nat)
    (pr : KeyValuePair) (key : Bytes)
    (hs : pairwiseLtBy KeyValuePair.key pairs)
    (hmem : pr ∈ pairs) (hkey : pr.key = key) :
    BTree.search_node f (fuel + 1) (Node.new (.Leaf pairs) r po) key =
      some (.ok pr) := by
  obtain ⟨m, hm⟩ := List.mem_iff_get?.mp hmem
  have hmlen : m < pairs.length := by
    by_contra hc
    rw [List.get?_eq_none.mpr (by omega)] at hm
    cases hm
  have hspec := rustBinarySearch_pairs_spec pairs key hs
  simp only [BTree.search_node, Node.new]
  cases hres : rustBinarySearch (fun p => keyCmp p.key key) pairs with
  | ok j =>
    simp only [hres]
    rw [hres] at hspec
    obtain ⟨hjlen, x, hx, hxeq⟩ := hspec
    have hjm : j = m := by
      by_contra hne
      rcases Nat.lt_or_ge j m with hlt | hge
      · have := hs j m x pr hlt hx hm
        rw [hxeq, hkey, keyCmp_refl] at this
        cases this
      · have hlt2 : m < j := by omega
        have := hs m j pr x hlt2 hm hx
        rw [hxeq, hkey, keyCmp_refl] at this
        cases this
    subst hjm
    rw [hm] at hx
    cases hx
    simp only [hm, hkey]
  | error p =>
    rw [hres] at hspec
    obtain ⟨hplen, hlo, hhi⟩ := hspec
    rcases Nat.lt_or_ge m p with hmp | hmp
    · have := hlo m pr hmp hm
      rw [hkey, keyCmp_refl] at this
      cases this
    · have := hhi m pr hmp hmlen hm
      rw [hkey, keyCmp_refl] at this
      cases this

/-- At a Leaf without an exact match the source's search fails with
KeyNotFound — no sortedness needed. -/
theorem search_node_leaf_missing (f : File) (fuel : Nat)
    (pairs : List KeyValuePair) (r : Bool) (po : Option Nat) (key : Bytes)
    (hnone : ∀ pr ∈ pairs, pr.key ≠ key) :
    BTree.search_node f (fuel + 1) (Node.new (.Leaf pairs) r po) key =
      some (.error .KeyNotFound) := by
  simp only [BTree.search_node, Node.new]
  cases hres : rustBinarySearch (fun p => keyCmp p.key key) pairs with
  | ok j =>
    obtain ⟨x, hx, hcmp⟩ := rustBinarySearch_ok_exact _ _ _ hres
    have hxmem : x ∈ pairs := List.mem_iff_get?.mpr ⟨j, hx⟩
    exact absurd (keyCmp_eq_iff.mp hcmp) (hnone x hxmem)
  | error p => simp only [hres]

/-- Executable strict sortedness (adjacent strict increase) under a key
projection. -/
def sortedByKey {α : Type} (keyOf : α → Bytes) : List α → Bool
  | [] => true
  | [_] => true
  | x :: y :: rest => keyLt (keyOf x) (keyOf y) && sortedByKey keyOf (y :: rest)

theorem sortedByKey_head_lt {α : Type} (keyOf : α → Bytes) :
    ∀ (x : α) (xs : List α), sortedByKey keyOf (x :: xs) = true →
    ∀ y ∈ xs, keyCmp (keyOf x) (keyOf y) = .lt := by
  intro x xs
  induction xs generalizing x with
  | nil => intro _ y hy; cases hy
  | cons z rest ih =>
    intro h y hy
    unfold sortedByKey at h
    rw [Bool.and_eq_true] at h
    have hxz : keyCmp (keyOf x) (keyOf z) = .lt := by
      have h1 := h.1
      unfold keyLt at h1
      cases hc : keyCmp (keyOf x) (keyOf z) with
      | lt => rfl
      | eq => rw [hc] at h1; cases h1
      | gt => rw [hc] at h1; cases h1
    cases hy with
    | head => exact hxz
    | tail _ hy2 => exact keyCmp_lt_trans hxz (ih z h.2 y hy2)

theorem sortedByKey_tail {α : Type} (keyOf : α → Bytes) (x : α) (xs : List α)
    (h : sortedByKey keyOf (x :: xs) = true) : sortedByKey keyOf xs = true := by
  cases xs with
  | nil => rfl
  | cons z rest =>
    unfold sortedByKey at h
    rw [Bool.and_eq_true] at h
    exact h.2

theorem sortedByKey_pairwise {α : Type} (keyOf : α → Bytes) :
    ∀ (xs : List α), sortedByKey keyOf xs = true → pairwiseLtBy keyOf xs := by
  intro xs
  induction xs with
  | nil => intro _ i j x y _ hx _; cases hx
  | cons a rest ih =>
    intro h i j x y hij hx hy
    cases i with
    | zero =>
      cases hx
      cases j with
      | zero => omega
      | succ j =>
        have hymem : y ∈ rest := List.mem_iff_get?.mpr ⟨j, hy⟩
        exact sortedByKey_head_lt keyOf _ _ h y hymem
    | succ i =>
      cases j with
      | zero => omega
      | succ j =>
        exact ih (sortedByKey_tail keyOf a rest h) i j x y (by omega) hx hy

/-- A three-page tree for the descent rule: Internal root with single
separator "b" over leaves [("b","1")] and [("c","2")]. -/
def descentFile : File :=
  [pageOf (Node.new (.Internal [4096, 8192] [[98]]) true none),
   pageOf (Node.new (.Leaf [KeyValuePair.new [98] [49]]) false (some 0)),
   pageOf (Node.new (.Leaf [KeyValuePair.new [99] [50]]) false (some 0))]

/-- C6 counterexample: searching "b" with separators ["b"], the code
descends into child index 0 (binary search finds the equal separator),
and indeed finds ("b","1") in the left leaf; the claim's rule — the
smallest i with key < separator[i], else the LAST child — gives index 1,
whose leaf holds only ("c","2"): following the claim's rule the search
could not return ("b","1"). -/
theorem search_descent_lt_rule_counterexample :
    unwrapIdx (rustBinarySearch (fun k => keyCmp k [98]) [[98]]) = 0 ∧
    claimChildIdxLt [[98]] [98] = 1 ∧
    BTree.search descentFile 0 3 [98] = some (.ok (KeyValuePair.new [98] [49])) ∧
    decodeLeafAt descentFile 2 = some [KeyValuePair.new [99] [50]] :=
  ⟨rfl, rfl, rfl, rfl⟩

/-- C6 amended: at every Internal node `search_node` descends into the
child at the smallest index `i` such that key ≤ separator[i] (the last
child when no such index exists) — note `≤`, not the claim's `<`, so a
key equal to a separator goes LEFT of it — and at a Leaf it returns the
pair whose key matches exactly, failing with KeyNotFound when no exact
match is present. -/
theorem search_node_descent_and_leaf (keys : List Bytes)
    (pairs : List KeyValuePair) (key : Bytes) (f : File) (fuel : Nat)
    (r r2 : Bool) (po po2 : Option Nat)
    (hks : sortedByKey (fun k => k) keys = true)
    (hps : sortedByKey KeyValuePair.key pairs = true) :
    unwrapIdx (rustBinarySearch (fun k => keyCmp k key) keys) =
      childIdxLe keys key ∧
    (∀ pr, pr ∈ pairs → pr.key = key →
      BTree.search_node f (fuel + 1) (Node.new (.Leaf pairs) r po) key =
        some (.ok pr)) ∧
    ((∀ pr ∈ pairs, pr.key ≠ key) →
      BTree.search_node f (fuel + 1) (Node.new (.Leaf pairs) r2 po2) key =
        some (.error .KeyNotFound)) :=
  ⟨searchIdx_eq_childIdxLe keys key (sortedByKey_pairwise _ keys hks),
   fun pr hmem hkey => search_node_leaf_found f fuel pairs r po pr key
     (sortedByKey_pairwise _ pairs hps) hmem hkey,
   fun hnone => search_node_leaf_missing f fuel pairs r2 po2 key hnone⟩

theorem search_node_descent_and_leaf_witness :
    unwrapIdx (rustBinarySearch (fun k => keyCmp k [98]) [[97], [99]]) =
      childIdxLe [[97], [99]] [98] ∧
    BTree.search_node [] 1
        (Node.new (.Leaf [KeyValuePair.new [98] [49]]) true none) [98] =
      some (.ok (KeyValuePair.new [98] [49])) := by
  have h := search_node_descent_and_leaf [[97], [99]]
    [KeyValuePair.new [98] [49]] [98] [] 0 true true none none
    (by decide) (by decide)
  exact ⟨h.1, h.2.1 (KeyValuePair.new [98] [49]) (by decide) rfl⟩

theorem binarySearchLoop_le_length {α : Type} (cmp : α → Ordering)
    (xs : List α) : ∀ fuel left right, left ≤ right → right ≤ xs.length →
    unwrapIdx (binarySearchLoop cmp xs fuel left right) ≤ xs.length := by
  intro fuel
  induction fuel with
  | zero =>
    intro left right h1 h2
    show left ≤ xs.length
    omega
  | succ fuel ih =>
    intro left right h1 h2
    rw [binarySearchLoop]
    by_cases hlr : left < right
    · simp only [hlr, if_true]
      have hmid : left + (right - left) / 2 < right := by
        have := Nat.div_lt_self (show 0 < right - left by omega) (show 1 < 2 by omega)
        omega
      cases hx : xs.get? (left + (right - left) / 2) with
      | none =>
        simp only [hx]
        show left ≤ xs.length
        omega
      | some x =>
        simp only [hx]
        cases hcmp : cmp x with
        | lt => simp only [hcmp]; exact ih _ _ (by omega) h2
        | gt => simp only [hcmp]; exact ih _ _ (by omega) (by omega)
        | eq =>
          simp only [hcmp]
          show left + (right - left) / 2 ≤ xs.length
          omega
    · simp only [hlr, if_false]
      show left ≤ xs.length
      omega

theorem rustBinarySearch_le_length {α : Type} (cmp : α → Ordering)
    (xs : List α) : unwrapIdx (rustBinarySearch cmp xs) ≤ xs.length :=
  binarySearchLoop_le_length cmp xs _ 0 xs.length (Nat.zero_le _) (le_refl _)

theorem insertIdx_split {α : Type} :
    ∀ (xs : List α) (n : Nat) (a : α), n ≤ xs.length →
    List.insertIdx n a xs = xs.take n ++ a :: xs.drop n := by
  intro xs
  induction xs with
  | nil =>
    intro n a h
    have : n = 0 := by simpa using h
    subst this
    rfl
  | cons x rest ih =>
    intro n a h
    cases n with
    | zero => rfl
    | succ n =>
      rw [List.insertIdx_succ_cons]
      rw [ih n a (by simpa using h)]
      rfl

/-- Serializing a leaf body whose first oversized-key pair follows only
in-cap pairs fails with exactly KeyOverflowError. -/
theorem serializePairs_overflow :
    ∀ (before : List KeyValuePair) (kv : KeyValuePair) (after : List KeyValuePair),
    (∀ p ∈ before, p.key.length ≤ KEY_SIZE ∧ p.value.length ≤ VALUE_SIZE) →
    KEY_SIZE < kv.key.length →
    serializePairs (before ++ kv :: after) = .error .KeyOverflowError := by
  intro before
  induction before with
  | nil =>
    intro kv after _ hkv
    show serializePairs (kv :: after) = _
    unfold serializePairs
    rw [if_pos hkv]
  | cons p rest ih =>
    intro kv after hok hkv
    have hp := hok p (by simp)
    show serializePairs (p :: (rest ++ kv :: after)) = _
    unfold serializePairs
    rw [if_neg (by omega), if_neg (by omega)]
    rw [ih kv after (fun q hq => hok q (by simp [hq])) hkv]

/-- C8 amended: an insert whose key exceeds KEY_SIZE fails with the
KeyOverflowError from the leaf-page serialization, and when the root is
a non-full leaf (so no preemptive split precedes the failure) the file
and the root offset are exactly unchanged.  When the root is full, split
pages are written before the failure and the file does change
(`insert_key_overflow_after_split_counterexample`), though no page ever
holds the oversized key. -/
theorem insert_key_overflow_unchanged (b fuel : Nat) (f : File) (ro : Nat)
    (pg : Page) (pairs : List KeyValuePair) (r : Bool) (po : Option Nat)
    (kv : KeyValuePair)
    (hpage : Pager.get_page f ro = .ok pg)
    (hdec : Node.from_page pg = .ok (Node.new (.Leaf pairs) r po))
    (hpar : r = true ∨ ∃ q, po = some q)
    (hnotfull : (pairs.length == 2 * b - 1) = false)
    (hcaps : ∀ p ∈ pairs, p.key.length ≤ KEY_SIZE ∧ p.value.length ≤ VALUE_SIZE)
    (hklen : KEY_SIZE < kv.key.length) :
    BTree.insert b (fuel + 1) f ro kv =
      some ((f, ro), .error .KeyOverflowError) := by
  unfold BTree.insert
  have hfull : BTree.is_node_full b (Node.new (.Leaf pairs) r po) = .ok false := by
    unfold BTree.is_node_full Node.new
    simp only []
    rw [hnotfull]
  simp only [hpage, hdec, hfull, Bool.false_eq_true, if_false]
  unfold BTree.insert_non_full
  simp only [Node.new]
  have hidx : unwrapIdx (rustBinarySearch (fun p => keyCmp p.key kv.key) pairs) ≤
      pairs.length := rustBinarySearch_le_length _ _
  unfold vecInsert
  rw [if_pos hidx]
  simp only []
  rw [insertIdx_split pairs _ kv hidx]
  have henc : Page.try_from
      { node_type := NodeType.Leaf (pairs.take (unwrapIdx
          (rustBinarySearch (fun p => keyCmp p.key kv.key) pairs)) ++
          kv :: pairs.drop (unwrapIdx
          (rustBinarySearch (fun p => keyCmp p.key kv.key) pairs))),
        is_root := r, parent_offset := po } = .error .KeyOverflowError := by
    unfold Page.try_from
    simp only []
    have hser := serializePairs_overflow
      (pairs.take (unwrapIdx (rustBinarySearch (fun p => keyCmp p.key kv.key) pairs)))
      kv
      (pairs.drop (unwrapIdx (rustBinarySearch (fun p => keyCmp p.key kv.key) pairs)))
      (fun q hq => hcaps q (List.mem_of_mem_take hq)) hklen
    cases r with
    | true => simp [hser]
    | false =>
      rcases hpar with hpar | ⟨q, hq⟩
      · cases hpar
      · subst hq
        simp [hser]
  rw [henc]
  rfl

/-- The freshly built tree (`BTreeBuilder::build`): one empty leaf root
page at offset 0. -/
def emptyRootFile : File := [pageOf (Node.new (.Leaf []) true none)]

theorem insert_key_overflow_unchanged_witness :
    BTree.insert 200 4 emptyRootFile 0
        (KeyValuePair.new [97, 98, 99, 100, 101, 102, 103, 104, 105, 106, 107]
          [120]) =
      some ((emptyRootFile, 0), .error .KeyOverflowError) :=
  insert_key_overflow_unchanged 200 3 emptyRootFile 0
    (pageOf (Node.new (.Leaf []) true none)) [] true none
    (KeyValuePair.new [97, 98, 99, 100, 101, 102, 103, 104, 105, 106, 107] [120])
    rfl rfl (Or.inl rfl) rfl (by intro p hp; cases hp) (by decide)

mutual
/-- An abstract materialization of the pages a descent can reach from
one offset. -/
inductive T where
  | leaf (pairs : List KeyValuePair) : T
  | node (keys : List Bytes) (cs : Forest) : T

/-- The children of an abstract internal node: each child offset paired
with its subtree. -/
inductive Forest where
  | nil : Forest
  | cons (off : Nat) (t : T) (rest : Forest) : Forest
end

mutual
def heightT : T → Nat
  | .leaf _ => 1
  | .node _ cs => heightF cs + 1

def heightF : Forest → Nat
  | .nil => 0
  | .cons _ t rest => max (heightT t) (heightF rest)
end

mutual
def forestOffsets : Forest → List Nat
  | .nil => []
  | .cons off _ rest => off :: forestOffsets rest
end

mutual
/-- The file decodes, at `off`, to the given abstract tree: the page at
`off` reads and deserializes to a node of the matching kind and content,
and every abstract internal node keeps `|children| = |separators| + 1`
(so in particular at least one child). -/
def treeDecodes (f : File) (off : Nat) : T → Bool
  | .leaf pairs =>
    match Pager.get_page f off with
    | .ok pg =>
      match Node.from_page pg with
      | .ok n => decide (n.node_type = .Leaf pairs)
      | .error _ => false
    | .error _ => false
  | .node keys cs =>
    match Pager.get_page f off with
    | .ok pg =>
      match Node.from_page pg with
      | .ok n =>
        decide (n.node_type = .Internal (forestOffsets cs) keys) &&
        decide ((forestOffsets cs).length = keys.length + 1) &&
        forestDecodes f cs
      | .error _ => false
    | .error _ => false

def forestDecodes (f : File) : Forest → Bool
  | .nil => true
  | .cons off t rest => treeDecodes f off t && forestDecodes f rest
end

mutual
/-- No leaf of the tree stores a pair with the given key. -/
def keyAbsentT (k : Bytes) : T → Bool
  | .leaf pairs => pairs.all (fun p => !(p.key == k))
  | .node _ cs => keyAbsentF k cs

def keyAbsentF (k : Bytes) : Forest → Bool
  | .nil => true
  | .cons _ t rest => keyAbsentT k t && keyAbsentF k rest
end

/-- Pick the subtree sitting at the `i`-th child offset. -/
theorem forest_member (f : File) (key : Bytes) :
    ∀ (cs : Forest) (i co : Nat),
    (forestOffsets cs).get? i = some co →
    forestDecodes f cs = true → keyAbsentF key cs = true →
    ∃ t, treeDecodes f co t = true ∧ keyAbsentT key t = true ∧
      heightT t ≤ heightF cs := by
  intro cs i
  induction i generalizing cs with
  | zero =>
    intro co hi hdec habs
    cases cs with
    | nil => cases hi
    | cons off t rest =>
      cases hi
      rw [forestDecodes, Bool.and_eq_true] at hdec
      rw [keyAbsentF, Bool.and_eq_true] at habs
      exact ⟨t, hdec.1, habs.1, by rw [heightF]; omega⟩
  | succ i ih =>
    intro co hi hdec habs
    cases cs with
    | nil => cases hi
    | cons off t rest =>
      rw [forestDecodes, Bool.and_eq_true] at hdec
      rw [keyAbsentF, Bool.and_eq_true] at habs
      obtain ⟨t2, h1, h2, h3⟩ := ih rest co hi hdec.2 habs.2
      exact ⟨t2, h1, h2, by rw [heightF]; omega⟩

/-- C10: for every well-decoding tree and every key absent from all of
its leaves, `delete` fails with KeyNotFound and performs no page write:
the file it leaves behind is exactly the input file. -/
theorem delete_missing_key_no_write (b : Nat) :
    ∀ (fuel : Nat) (t : T) (f : File) (off : Nat) (key : Bytes),
    treeDecodes f off t = true → keyAbsentT key t = true →
    heightT t ≤ fuel →
    BTree.delete b fuel f off key = some (f, .error .KeyNotFound) := by
  intro fuel
  induction fuel with
  | zero =>
    intro t f off key _ _ hh
    cases t with
    | leaf ps => rw [heightT] at hh; omega
    | node ks cs => rw [heightT] at hh; omega
  | succ fuel ih =>
    intro t f off key hdec habs hh
    show BTree.delete_key_from_subtree b (fuel + 1) f key off =
      some (f, .error .KeyNotFound)
    cases t with
    | leaf pairs =>
      rw [treeDecodes] at hdec
      cases hpg : Pager.get_page f off with
      | error e => simp only [hpg] at hdec; cases hdec
      | ok pg =>
        simp only [hpg] at hdec
        cases hn : Node.from_page pg with
        | error e => simp only [hn] at hdec; cases hdec
        | ok n =>
          simp only [hn, decide_eq_true_eq] at hdec
          unfold BTree.delete_key_from_subtree
          simp only [hpg, hn, stepE, hdec]
          rw [keyAbsentT] at habs
          cases hres : rustBinarySearch (fun p => keyCmp p.key key) pairs with
          | ok j =>
            obtain ⟨x, hx, hcmp⟩ := rustBinarySearch_ok_exact _ _ _ hres
            have hxmem : x ∈ pairs := List.mem_iff_get?.mpr ⟨j, hx⟩
            rw [List.all_eq_true] at habs
            have := habs x hxmem
            rw [keyCmp_eq_iff.mp hcmp] at this
            simp at this
          | error p => simp only [hres]
    | node keys cs =>
      rw [treeDecodes] at hdec
      cases hpg : Pager.get_page f off with
      | error e => simp only [hpg] at hdec; cases hdec
      | ok pg =>
        simp only [hpg] at hdec
        cases hn : Node.from_page pg with
        | error e => simp only [hn] at hdec; cases hdec
        | ok n =>
          simp only [hn, Bool.and_eq_true, decide_eq_true_eq] at hdec
          obtain ⟨⟨hnt, harity⟩, hforest⟩ := hdec
          rw [keyAbsentT] at habs
          rw [heightT] at hh
          unfold BTree.delete_key_from_subtree
          simp only [hpg, hn, stepE, hnt]
          have hidx : unwrapIdx (rustBinarySearch (fun k => keyCmp k key) keys) ≤
              keys.length := rustBinarySearch_le_length _ _
          have hidxlt : unwrapIdx (rustBinarySearch (fun k => keyCmp k key) keys) <
              (forestOffsets cs).length := by omega
          obtain ⟨co, hco⟩ : ∃ co, (forestOffsets cs).get?
              (unwrapIdx (rustBinarySearch (fun k => keyCmp k key) keys)) = some co := by
            cases hg : (forestOffsets cs).get?
                (unwrapIdx (rustBinarySearch (fun k => keyCmp k key) keys)) with
            | none => exact absurd (List.get?_eq_none.mp hg) (by omega)
            | some co => exact ⟨co, rfl⟩
          simp only [hco]
          obtain ⟨t2, h1, h2, h3⟩ := forest_member f key cs _ co hco hforest habs
          exact ih t2 f co key h1 h2 (by omega)

theorem delete_missing_key_no_write_witness :
    BTree.delete 2 2 dupFile 0 [98] =
      some (dupFile, .error .KeyNotFound) :=
  delete_missing_key_no_write 2 2 (T.leaf [KeyValuePair.new [97] [49]])
    dupFile 0 [98] (by decide) (by decide) (by decide)

theorem readOffsets_length (bs : List Nat) (c : Nat) :
    (readOffsets bs c).length = c := by
  induction c generalizing bs with
  | zero => rfl
  | succ c ih => simp [readOffsets, ih]

theorem readKeys_length (bs : List Nat) (c : Nat) :
    (readKeys bs c).length = c := by
  induction c generalizing bs with
  | zero => rfl
  | succ c ih => simp [readKeys, ih]

theorem readPairs_length (bs : List Nat) (c : Nat) :
    (readPairs bs c).length = c := by
  induction c generalizing bs with
  | zero => rfl
  | succ c ih => simp [readPairs, ih]

/-- Any decoded Internal node has exactly one separator less than its
child count: the deserializer reads `num_children` offsets and
`num_children - 1` keys by construction. -/
theorem from_page_arity (p : Page) (n : Node) (cs : List Nat)
    (ks : List Bytes) (h : Node.from_page p = .ok n)
    (hnt : n.node_type = .Internal cs ks) :
    ks.length = cs.length - 1 := by
  unfold Node.from_page at h
  cases htype : p.getD 1 0 with
  | zero => rw [htype] at h; cases h
  | succ m =>
    cases m with
    | zero =>
      rw [htype] at h
      cases h
      rw [Node.new] at hnt
      simp only [NodeType.Internal.injEq] at hnt
      obtain ⟨h1, h2⟩ := hnt
      rw [← h1, ← h2, readOffsets_length, readKeys_length]
    | succ m =>
      cases m with
      | zero =>
        rw [htype] at h
        cases h
        rw [Node.new] at hnt
        cases hnt
      | succ m => rw [htype] at h; cases h

/-- Destructure a successful serialization: the parent-bytes step
succeeded with an 8-byte cell. -/
theorem try_from_parent_bytes {n : Node} {p : Page}
    (h : Page.try_from n = .ok p) :
    ∃ pb, pb.length = PTR_SIZE ∧
      (if n.is_root = true then Except.ok (List.replicate PTR_SIZE 0)
       else
         match n.parent_offset with
         | some q => Except.ok (toBE PTR_SIZE q)
         | none => Except.error Error.UnexpectedError) = Except.ok pb := by
  cases hr : n.is_root with
  | true => exact ⟨List.replicate PTR_SIZE 0, by simp, by simp⟩
  | false =>
    cases hpo : n.parent_offset with
    | none =>
      unfold Page.try_from at h
      rw [hr, hpo] at h
      simp only [Bool.false_eq_true, if_false] at h
      cases h
    | some q => exact ⟨toBE PTR_SIZE q, toBE_length _ _, by simp⟩

/-- Decoding a page serialized from an Internal node yields an Internal
node with the same child count (and one fewer separator), for counts
within `usize`. -/
theorem try_from_internal_decode {n : Node} {cs : List Nat} {ks : List Bytes}
    {p : Page} (hnt : n.node_type = .Internal cs ks)
    (hlt : cs.length < 2 ^ 64) (h : Page.try_from n = .ok p) :
    ∃ cs2 ks2 r po, Node.from_page p = .ok ⟨.Internal cs2 ks2, r, po⟩ ∧
      cs2.length = cs.length ∧ ks2.length = cs.length - 1 := by
  obtain ⟨pb, hpbl, hpbE⟩ := try_from_parent_bytes h
  unfold Page.try_from at h
  rw [hpbE] at h
  simp only [hnt] at h
  cases hser : serializeKeys ks with
  | error e => rw [hser] at h; cases h
  | ok kbs =>
    rw [hser] at h
    simp only [NodeType.toByte] at h
    cases h
    have hassoc :
        pb ++ toBE PTR_SIZE cs.length ++ (serializeOffsets cs ++ kbs) ++
            List.replicate (PAGE_SIZE - (2 + PTR_SIZE + PTR_SIZE +
              (serializeOffsets cs ++ kbs).length)) 0 =
          pb ++ (toBE PTR_SIZE cs.length ++ (serializeOffsets cs ++ (kbs ++
            List.replicate (PAGE_SIZE - (2 + PTR_SIZE + PTR_SIZE +
              (serializeOffsets cs ++ kbs).length)) 0))) := by
      simp [List.append_assoc]
    rw [hassoc]
    have hlt2 : cs.length < 256 ^ PTR_SIZE := by
      have : (256 : Nat) ^ PTR_SIZE = 2 ^ 64 := by norm_num [PTR_SIZE]
      omega
    rw [from_page_shape_internal _ pb cs.length (serializeOffsets cs) kbs _
      hpbl hlt2 (serializeOffsets_length cs)]
    refine ⟨_, _, _, _, rfl, ?_, ?_⟩
    · exact readOffsets_length _ _
    · exact readKeys_length _ _

/-- Decoding a page serialized from a Leaf node yields a Leaf node: the
node-type byte is 2, whatever the entry count. -/
theorem try_from_leaf_type {n : Node} {ps : List KeyValuePair} {p : Page}
    (hnt : n.node_type = .Leaf ps) (h : Page.try_from n = .ok p) :
    ∃ ps2 r po, Node.from_page p = .ok ⟨.Leaf ps2, r, po⟩ := by
  obtain ⟨pb, hpbl, hpbE⟩ := try_from_parent_bytes h
  unfold Page.try_from at h
  rw [hpbE] at h
  simp only [hnt] at h
  cases hser : serializePairs ps with
  | error e => rw [hser] at h; cases h
  | ok cells =>
    rw [hser] at h
    simp only [NodeType.toByte] at h
    cases h
    unfold Node.from_page
    simp only [List.getD_cons_succ, List.getD_cons_zero]
    exact ⟨_, _, _, rfl⟩

/-- Setting an index inside the left part of an append stays left. -/
theorem set_append_left {α : Type} (l1 l2 : List α) (i : Nat) (a : α)
    (h : i < l1.length) : (l1 ++ l2).set i a = l1.set i a ++ l2 := by
  induction l1 generalizing i with
  | nil => cases h
  | cons x xs ih =>
    cases i with
    | zero => rfl
    | succ j =>
      show x :: (xs ++ l2).set j a = x :: (xs.set j a ++ l2)
      rw [ih j (Nat.lt_of_succ_lt_succ h)]

/-- Setting an index past the left part of an append lands right. -/
theorem set_append_right {α : Type} (l1 l2 : List α) (i : Nat) (a : α)
    (h : l1.length ≤ i) :
    (l1 ++ l2).set i a = l1 ++ l2.set (i - l1.length) a := by
  induction l1 generalizing i with
  | nil => rfl
  | cons x xs ih =>
    cases i with
    | zero => exact absurd h (by simp)
    | succ j =>
      have h' : xs.length ≤ j := Nat.le_of_succ_le_succ h
      show x :: (xs ++ l2).set j a = x :: (xs ++ l2.set (j + 1 - (xs.length + 1)) a)
      rw [ih j h', Nat.succ_sub_succ]

/-- `Vec::insert` grows the length by one when it does not panic. -/
theorem vecInsert_length {α : Type} :
    ∀ (xs : List α) (i : Nat) (v : α) (ys : List α),
      vecInsert xs i v = some ys → ys.length = xs.length + 1 := by
  intro xs
  induction xs with
  | nil =>
    intro i v ys h
    unfold vecInsert at h
    split at h
    next hle =>
      cases i with
      | zero => cases h; rfl
      | succ j =>
        have h0 : j + 1 ≤ 0 := hle
        omega
    next => cases h
  | cons x xs ih =>
    intro i v ys h
    unfold vecInsert at h
    split at h
    next hle =>
      cases i with
      | zero => cases h; rfl
      | succ j =>
        cases h
        show (x :: List.insertIdx j v xs).length = (x :: xs).length + 1
        simp only [List.length_cons]
        have hj : vecInsert xs j v = some (List.insertIdx j v xs) := by
          unfold vecInsert
          rw [if_pos (Nat.le_of_succ_le_succ hle)]
        rw [ih j v _ hj]
    next => cases h

/-- `Vec::remove` is in bounds and shrinks the length by one when it
does not panic. -/
theorem vecRemove_spec {α : Type} :
    ∀ (xs : List α) (i : Nat) (ys : List α),
      vecRemove xs i = some ys →
      i < xs.length ∧ ys.length = xs.length - 1 := by
  intro xs
  induction xs with
  | nil =>
    intro i ys h
    unfold vecRemove at h
    split at h
    next hlt => simp at hlt
    next => cases h
  | cons x xs ih =>
    intro i ys h
    unfold vecRemove at h
    split at h
    next hlt =>
      cases h
      refine ⟨hlt, ?_⟩
      cases i with
      | zero => rfl
      | succ j =>
        have hjlt : j < xs.length := Nat.lt_of_succ_lt_succ hlt
        have hj : vecRemove xs j = some (xs.eraseIdx j) := by
          unfold vecRemove
          rw [if_pos hjlt]
        have h2 := (ih j _ hj).2
        show (x :: xs.eraseIdx j).length = (x :: xs).length - 1
        rw [List.length_cons, List.length_cons, h2]
        omega
    next => cases h

/-- Does the page decode to an Internal node whose child count lies in
`[1, B]`?  Pages that decode as Leaf, or fail to decode, pass. -/
def pageCountLe (B : Nat) (p : Page) : Bool :=
  match Node.from_page p with
  | .ok n =>
    match n.node_type with
    | .Internal cs _ => decide (1 ≤ cs.length ∧ cs.length ≤ B)
    | _ => true
  | .error _ => true

/-- Every page of the file obeys `pageCountLe B`. -/
def fileCountLe (B : Nat) (f : File) : Bool := f.all (pageCountLe B)

/-- An in-memory node whose Internal child count lies in `[1, B]`. -/
def nodeCountLe (B : Nat) (n : Node) : Bool :=
  match n.node_type with
  | .Internal cs _ => decide (1 ≤ cs.length ∧ cs.length ≤ B)
  | _ => true

theorem pageCountLe_mono {B B' : Nat} {p : Page} (hBB : B ≤ B')
    (h : pageCountLe B p = true) : pageCountLe B' p = true := by
  unfold pageCountLe at h ⊢
  cases hd : Node.from_page p with
  | error e => rfl
  | ok n =>
    rw [hd] at h
    cases hnt : n.node_type with
    | Internal cs ks =>
      simp only [hnt, decide_eq_true_eq] at h ⊢
      omega
    | Leaf ps => simp only [hnt]
    | Unexpected => simp only [hnt]

theorem nodeCountLe_mono {B B' : Nat} {n : Node} (hBB : B ≤ B')
    (h : nodeCountLe B n = true) : nodeCountLe B' n = true := by
  unfold nodeCountLe at h ⊢
  cases hnt : n.node_type with
  | Internal cs ks =>
    simp only [hnt, decide_eq_true_eq] at h ⊢
    omega
  | Leaf ps => simp only [hnt]
  | Unexpected => simp only [hnt]

theorem fileCountLe_mem {B : Nat} {f : File} {p : Page}
    (h : fileCountLe B f = true) (hp : p ∈ f) : pageCountLe B p = true :=
  List.all_eq_true.mp h p hp

theorem fileCountLe_mono {B B' : Nat} {f : File} (hBB : B ≤ B')
    (h : fileCountLe B f = true) : fileCountLe B' f = true := by
  unfold fileCountLe at h ⊢
  rw [List.all_eq_true] at h ⊢
  exact fun p hp => pageCountLe_mono hBB (h p hp)

theorem fileCountLe_append {B : Nat} {f : File} {p : Page}
    (hf : fileCountLe B f = true) (hp : pageCountLe B p = true) :
    fileCountLe B (f ++ [p]) = true := by
  unfold fileCountLe at hf ⊢
  rw [List.all_eq_true] at hf ⊢
  intro q hq
  rcases List.mem_append.mp hq with h1 | h1
  · exact hf q h1
  · rw [List.mem_singleton.mp h1]; exact hp

theorem fileCountLe_set {B : Nat} {f : File} {p : Page} {i : Nat}
    (hf : fileCountLe B f = true) (hp : pageCountLe B p = true) :
    fileCountLe B (f.set i p) = true := by
  unfold fileCountLe at hf ⊢
  rw [List.all_eq_true] at hf ⊢
  intro q hq
  rcases List.mem_or_eq_of_mem_set hq with h1 | h1
  · exact hf q h1
  · rw [h1]; exact hp

theorem fileCountLe_write_at {B : Nat} {f f' : File} {p : Page} {off : Nat}
    (hf : fileCountLe B f = true) (hp : pageCountLe B p = true)
    (h : Pager.write_page_at_offset f p off = .ok f') :
    fileCountLe B f' = true := by
  unfold Pager.write_page_at_offset at h
  split at h
  · split at h
    · cases h; exact fileCountLe_set hf hp
    · split at h
      · cases h; exact fileCountLe_append hf hp
      · cases h
  · cases h

theorem get_page_mem {f : File} {off : Nat} {p : Page}
    (h : Pager.get_page f off = .ok p) : p ∈ f := by
  unfold Pager.get_page at h
  split at h
  · cases hg : f.get? (off / PAGE_SIZE) with
    | none => rw [hg] at h; cases h
    | some q =>
      rw [hg] at h
      cases h
      exact List.get?_mem hg
  · cases h

theorem get_page_index {f : File} {off : Nat} {p : Page}
    (h : Pager.get_page f off = .ok p) :
    off % PAGE_SIZE = 0 ∧ off / PAGE_SIZE < f.length := by
  unfold Pager.get_page at h
  split at h
  next hmod =>
    cases hg : f.get? (off / PAGE_SIZE) with
    | none => rw [hg] at h; cases h
    | some q =>
      refine ⟨by simpa using hmod, ?_⟩
      by_contra hc
      rw [List.get?_eq_none.mpr (by omega)] at hg
      cases hg
  next => cases h

theorem decode_nodeCountLe {B : Nat} {f : File} {off : Nat} {pg : Page}
    {n : Node} (hf : fileCountLe B f = true)
    (hpg : Pager.get_page f off = .ok pg)
    (hn : Node.from_page pg = .ok n) : nodeCountLe B n = true := by
  have hp := fileCountLe_mem hf (get_page_mem hpg)
  unfold pageCountLe at hp
  rw [hn] at hp
  exact hp

/-- A serialized node decodes within the bound its in-memory form obeys:
Leaf nodes vacuously, Internal nodes because the child count round-trips
below `usize::MAX`. -/
theorem pageCountLe_try_from {B : Nat} {n : Node} {p : Page}
    (h : Page.try_from n = .ok p) (hn : nodeCountLe B n = true)
    (hB : B < 2 ^ 64) : pageCountLe B p = true := by
  unfold nodeCountLe at hn
  cases hnt : n.node_type with
  | Unexpected =>
    obtain ⟨pb, hpbl, hpbE⟩ := try_from_parent_bytes h
    unfold Page.try_from at h
    rw [hpbE] at h
    simp only [hnt] at h
    cases h
  | Leaf ps =>
    obtain ⟨ps2, r, po, hdec⟩ := try_from_leaf_type hnt h
    unfold pageCountLe
    rw [hdec]
  | Internal cs ks =>
    rw [hnt] at hn
    simp only [decide_eq_true_eq] at hn
    obtain ⟨cs2, ks2, r, po, hdec, hlen, _⟩ :=
      try_from_internal_decode hnt (by omega) h
    unfold pageCountLe
    rw [hdec]
    simp only [decide_eq_true_eq]
    omega

/-- The arity statement extracted from the count invariant: a bounded
file's pages that decode Internal satisfy `|children| = |separators| + 1`. -/
theorem fileCountLe_arity {B : Nat} {f : File} (hf : fileCountLe B f = true) :
    ∀ p ∈ f, ∀ cs ks r po,
      Node.from_page p = .ok ⟨.Internal cs ks, r, po⟩ →
      cs.length = ks.length + 1 := by
  intro p hp cs ks r po hdec
  have harity := from_page_arity p _ cs ks hdec rfl
  have hcount := fileCountLe_mem hf hp
  unfold pageCountLe at hcount
  rw [hdec] at hcount
  simp only [decide_eq_true_eq] at hcount
  omega

theorem le_two_pow_mul (fuel B : Nat) : B ≤ 2 ^ fuel * B := by
  have h : 0 < 2 ^ fuel := pow_pos (by omega) fuel
  calc B = 1 * B := (one_mul B).symm
  _ ≤ 2 ^ fuel * B := Nat.mul_le_mul_right B h

theorem two_pow_mul_le_succ (fuel B : Nat) :
    2 ^ fuel * B ≤ 2 ^ (fuel + 1) * B := by
  have h : (2 : Nat) ^ fuel ≤ 2 ^ (fuel + 1) := by
    have h0 : 0 < 2 ^ fuel := pow_pos (by omega) fuel
    rw [pow_succ]
    omega
  exact Nat.mul_le_mul_right B h

theorem two_mul_le_two_pow_succ_mul (fuel B : Nat) :
    2 * B ≤ 2 ^ (fuel + 1) * B := by
  have h : 2 ≤ 2 ^ (fuel + 1) := by
    have h0 : 0 < 2 ^ fuel := pow_pos (by omega) fuel
    rw [pow_succ]
    omega
  exact Nat.mul_le_mul_right B h

theorem two_pow_succ_mul_eq (fuel B : Nat) :
    2 ^ (fuel + 1) * B = 2 ^ fuel * (2 * B) := by
  rw [pow_succ]; ring

/-- A decoded node that `is_node_full` reports full has, when Internal,
exactly `2b` children (its separator count is `2b - 1` and the decode
format forces one more child than separator). -/
theorem full_decoded_internal_count {B b : Nat} {pg : Page} {nd : Node}
    (hfp : Node.from_page pg = .ok nd)
    (hful : BTree.is_node_full b nd = .ok true)
    (hcnt : nodeCountLe B nd = true) (hb : 1 ≤ b) :
    ∀ cs2 ks2, nd.node_type = .Internal cs2 ks2 →
      cs2.length = 2 * b ∧ 2 * b ≤ B := by
  intro cs2 ks2 hnt
  have harity := from_page_arity pg nd cs2 ks2 hfp hnt
  unfold BTree.is_node_full at hful
  rw [hnt] at hful
  injection hful with h2
  have hfull : ks2.length = 2 * b - 1 := by simpa using h2
  unfold nodeCountLe at hcnt
  rw [hnt] at hcnt
  simp only [decide_eq_true_eq] at hcnt
  omega

/-- The two halves a split produces stay within the child-count bound
of the node being split, provided an Internal node being split carries
exactly `2b` children within the bound. -/
theorem split_nodeCountLe {B b : Nat} {nd : Node} {median : Bytes}
    {leftc sibling : Node} (hb : 1 ≤ b)
    (hsp : Node.split nd b = .ok (median, leftc, sibling))
    (hint : ∀ cs2 ks2, nd.node_type = .Internal cs2 ks2 →
      cs2.length = 2 * b ∧ 2 * b ≤ B) :
    nodeCountLe B leftc = true ∧ nodeCountLe B sibling = true := by
  unfold Node.split at hsp
  cases hcnt : nd.node_type with
  | Unexpected => simp only [hcnt] at hsp; cases hsp
  | Leaf ps =>
    simp only [hcnt] at hsp
    cases hg : ps.get? (b - 1) with
    | none => rw [hg] at hsp; cases hsp
    | some mp =>
      rw [hg] at hsp
      cases hsp
      exact ⟨rfl, rfl⟩
  | Internal ccs cks =>
    simp only [hcnt] at hsp
    obtain ⟨hccs, hbB⟩ := hint ccs cks hcnt
    cases hg : cks.get? (b - 1) with
    | none => rw [hg] at hsp; cases hsp
    | some med =>
      rw [hg] at hsp
      cases hsp
      constructor
      · show decide (1 ≤ (ccs.take b).length ∧ (ccs.take b).length ≤ B) = true
        rw [decide_eq_true_eq, List.length_take]
        omega
      · show decide (1 ≤ (ccs.drop b).length ∧ (ccs.drop b).length ≤ B) = true
        rw [decide_eq_true_eq, List.length_drop]
        omega

/-- A merge of two nodes within the bound `B` is within `2 * B`. -/
theorem merge_nodeCountLe {B : Nat} {first second merged : Node}
    (h : BTree.merge first second = .ok merged)
    (h1 : nodeCountLe B first = true) (h2 : nodeCountLe B second = true) :
    nodeCountLe (2 * B) merged = true := by
  unfold BTree.merge at h
  cases hn1 : first.node_type with
  | Unexpected => simp only [hn1] at h; cases h
  | Leaf ps1 =>
    simp only [hn1] at h
    cases hn2 : second.node_type with
    | Leaf ps2 => simp only [hn2] at h; cases h; rfl
    | Internal cs2 ks2 => simp only [hn2] at h; cases h
    | Unexpected => simp only [hn2] at h; cases h
  | Internal cs1 ks1 =>
    simp only [hn1] at h
    cases hn2 : second.node_type with
    | Leaf ps2 => simp only [hn2] at h; cases h
    | Unexpected => simp only [hn2] at h; cases h
    | Internal cs2 ks2 =>
      simp only [hn2] at h
      cases h
      unfold nodeCountLe at h1 h2
      rw [hn1] at h1
      rw [hn2] at h2
      simp only [decide_eq_true_eq] at h1 h2
      show decide (1 ≤ (cs1 ++ cs2).length ∧ (cs1 ++ cs2).length ≤ 2 * B) = true
      rw [decide_eq_true_eq, List.length_append]
      omega

/-- Every page `insert_non_full` writes keeps decoded Internal child
counts in range: from a file within bound `B` and a node within `B`,
the resulting file (also on error returns) is within `B + fuel` — each
recursion level inserts at most one child into one node. -/
theorem insert_non_full_bound (b : Nat) :
    ∀ (fuel B : Nat) (f : File) (node : Node) (node_offset : Nat)
      (kv : KeyValuePair) (f' : File) (r : Except Error Unit),
      1 ≤ b → fileCountLe B f = true → nodeCountLe B node = true →
      B + fuel < 2 ^ 64 →
      BTree.insert_non_full b fuel f node node_offset kv = some (f', r) →
      fileCountLe (B + fuel) f' = true := by
  intro fuel
  induction fuel with
  | zero =>
    intro B f node node_offset kv f' r hb hf hn hB h
    cases h
  | succ fuel ih =>
    intro B f node node_offset kv f' r hb hf hn hB h
    unfold BTree.insert_non_full at h
    cases hnt : node.node_type with
    | Unexpected =>
      simp only [hnt] at h
      cases h
      exact fileCountLe_mono (by omega) hf
    | Leaf pairs =>
      simp only [hnt] at h
      cases hvi : vecInsert pairs
          (unwrapIdx (rustBinarySearch (fun p => keyCmp p.key kv.key) pairs)) kv with
      | none => rw [hvi] at h; cases h
      | some pairs2 =>
        rw [hvi] at h
        cases htf : Page.try_from { node with node_type := NodeType.Leaf pairs2 } with
        | error e =>
          simp only [htf, stepE] at h
          cases h
          exact fileCountLe_mono (by omega) hf
        | ok page =>
          simp only [htf, stepE] at h
          cases hw : Pager.write_page_at_offset f page node_offset with
          | error e =>
            rw [hw] at h
            cases h
            exact fileCountLe_mono (by omega) hf
          | ok f2 =>
            rw [hw] at h
            cases h
            have hpg : pageCountLe (B + (fuel + 1)) page = true :=
              pageCountLe_try_from htf rfl (by omega)
            exact fileCountLe_write_at (fileCountLe_mono (by omega) hf) hpg hw
    | Internal children keys =>
      simp only [hnt] at h
      cases hco : children.get?
          (unwrapIdx (rustBinarySearch (fun k => keyCmp k kv.key) keys)) with
      | none =>
        rw [hco] at h
        cases h
        exact fileCountLe_mono (by omega) hf
      | some child_offset =>
        rw [hco] at h
        cases hgp : Pager.get_page f child_offset with
        | error e =>
          simp only [hgp, stepE] at h
          cases h
          exact fileCountLe_mono (by omega) hf
        | ok child_page =>
          simp only [hgp, stepE] at h
          cases hfp : Node.from_page child_page with
          | error e =>
            simp only [hfp, stepE] at h
            cases h
            exact fileCountLe_mono (by omega) hf
          | ok child =>
            simp only [hfp, stepE] at h
            have hchildB : nodeCountLe B child = true := decode_nodeCountLe hf hgp hfp
            cases hful : BTree.is_node_full b child with
            | error e =>
              simp only [hful, stepE] at h
              cases h
              exact fileCountLe_mono (by omega) hf
            | ok full =>
              simp only [hful, stepE] at h
              cases full with
              | false =>
                rw [if_neg (by decide)] at h
                have hres := ih B f child child_offset kv f' r hb hf hchildB (by omega) h
                exact fileCountLe_mono (by omega) hres
              | true =>
                rw [if_pos rfl] at h
                cases hsp : child.split b with
                | error e =>
                  simp only [hsp, stepE] at h
                  cases h
                  exact fileCountLe_mono (by omega) hf
                | ok msp =>
                  obtain ⟨median, leftc, sibling⟩ := msp
                  simp only [hsp, stepE] at h
                  obtain ⟨hleft, hsib⟩ := split_nodeCountLe hb hsp
                    (full_decoded_internal_count hfp hful hchildB hb)
                  cases htf : Page.try_from leftc with
                  | error e =>
                    simp only [htf, stepE] at h
                    cases h
                    exact fileCountLe_mono (by omega) hf
                  | ok left_page =>
                    simp only [htf, stepE] at h
                    have hlpg : pageCountLe B left_page = true :=
                      pageCountLe_try_from htf hleft (by omega)
                    cases hw1 : Pager.write_page_at_offset f left_page child_offset with
                    | error e =>
                      rw [hw1] at h
                      cases h
                      exact fileCountLe_mono (by omega) hf
                    | ok f2 =>
                      rw [hw1] at h
                      have hf2 : fileCountLe B f2 = true :=
                        fileCountLe_write_at hf hlpg hw1
                      cases htf2 : Page.try_from sibling with
                      | error e =>
                        simp only [htf2, stepE] at h
                        cases h
                        exact fileCountLe_mono (by omega) hf2
                      | ok sibling_page =>
                        simp only [htf2, stepE] at h
                        have hspg : pageCountLe B sibling_page = true :=
                          pageCountLe_try_from htf2 hsib (by omega)
                        simp only [Pager.write_page] at h
                        have hf3 : fileCountLe B (f2 ++ [sibling_page]) = true :=
                          fileCountLe_append hf2 hspg
                        cases hvi1 : vecInsert children
                            (unwrapIdx (rustBinarySearch (fun k => keyCmp k kv.key) keys) + 1)
                            (PAGE_SIZE * f2.length) with
                        | none => rw [hvi1] at h; cases h
                        | some children2 =>
                          rw [hvi1] at h
                          cases hvi2 : vecInsert keys
                              (unwrapIdx (rustBinarySearch (fun k => keyCmp k kv.key) keys))
                              median with
                          | none => rw [hvi2] at h; cases h
                          | some keys2 =>
                            rw [hvi2] at h
                            cases htf3 : Page.try_from
                                { node with node_type := NodeType.Internal children2 keys2 } with
                            | error e =>
                              simp only [htf3, stepE] at h
                              cases h
                              exact fileCountLe_mono (by omega) hf3
                            | ok parent_page =>
                              simp only [htf3, stepE] at h
                              have hnode : 1 ≤ children.length ∧ children.length ≤ B := by
                                unfold nodeCountLe at hn
                                rw [hnt] at hn
                                simp only [decide_eq_true_eq] at hn
                                exact hn
                              have hpp : pageCountLe (B + 1) parent_page = true := by
                                refine pageCountLe_try_from htf3 ?_ (by omega)
                                show decide (1 ≤ children2.length ∧
                                  children2.length ≤ B + 1) = true
                                rw [decide_eq_true_eq]
                                have hlen := vecInsert_length children _ _ _ hvi1
                                omega
                              cases hw2 : Pager.write_page_at_offset (f2 ++ [sibling_page])
                                  parent_page node_offset with
                              | error e =>
                                rw [hw2] at h
                                cases h
                                exact fileCountLe_mono (by omega) hf3
                              | ok f4 =>
                                simp only [hw2] at h
                                have hf4 : fileCountLe (B + 1) f4 = true :=
                                  fileCountLe_write_at
                                    (fileCountLe_mono (by omega) hf3) hpp hw2
                                cases hkle : keyLe kv.key median with
                                | false =>
                                  rw [hkle, if_neg (by decide)] at h
                                  have hres := ih (B + 1) f4 sibling
                                    (PAGE_SIZE * f2.length) kv f' r hb hf4
                                    (nodeCountLe_mono (by omega) hsib) (by omega) h
                                  exact fileCountLe_mono (by omega) hres
                                | true =>
                                  rw [hkle, if_pos rfl] at h
                                  have hres := ih (B + 1) f4 leftc child_offset kv f' r
                                    hb hf4 (nodeCountLe_mono (by omega) hleft)
                                    (by omega) h
                                  exact fileCountLe_mono (by omega) hres

/-- A successful in-range overwrite is `List.set` at the page index. -/
theorem write_page_at_offset_set {f f' : File} {p : Page} {off : Nat}
    (hmod : off % PAGE_SIZE = 0) (hlt : off / PAGE_SIZE < f.length)
    (h : Pager.write_page_at_offset f p off = .ok f') :
    f' = f.set (off / PAGE_SIZE) p := by
  have hc1 : (off % PAGE_SIZE == 0) = true := by rw [hmod]; rfl
  unfold Pager.write_page_at_offset at h
  rw [if_pos hc1, if_pos hlt] at h
  cases h
  rfl

/-- Through a completed `BTree::insert` the file child-count bound
degrades by at most `fuel + 2`: a root split writes the two halves
(within `B`) and a fresh two-child root, then `insert_non_full` adds at
most one child per level. -/
theorem insert_bound (b fuel B : Nat) (f : File) (ro : Nat)
    (kv : KeyValuePair) (f' : File) (ro' : Nat)
    (hb : 1 ≤ b) (hf : fileCountLe B f = true)
    (hB : B + fuel + 2 < 2 ^ 64)
    (h : BTree.insert b fuel f ro kv = some ((f', ro'), .ok ())) :
    fileCountLe (B + fuel + 2) f' = true := by
  unfold BTree.insert at h
  cases hgp : Pager.get_page f ro with
  | error e => simp only [hgp] at h; cases h
  | ok root_page =>
    simp only [hgp] at h
    cases hfp : Node.from_page root_page with
    | error e => simp only [hfp] at h; cases h
    | ok root =>
      simp only [hfp] at h
      cases hful : BTree.is_node_full b root with
      | error e => simp only [hful] at h; cases h
      | ok full =>
        simp only [hful] at h
        have hroot : nodeCountLe B root = true := decode_nodeCountLe hf hgp hfp
        cases full with
        | false =>
          rw [if_neg (by decide)] at h
          cases hrun : BTree.insert_non_full b fuel f root ro kv with
          | none => rw [hrun] at h; cases h
          | some pr =>
            obtain ⟨f2, r2⟩ := pr
            simp only [hrun] at h
            cases h
            have hres := insert_non_full_bound b fuel B f root ro kv _ _
              hb hf hroot (by omega) hrun
            exact fileCountLe_mono (show B + fuel ≤ B + fuel + 2 by omega) hres
        | true =>
          rw [if_pos rfl] at h
          cases hnr0 : Page.try_from (Node.new (.Internal [] []) true none) with
          | error e => simp only [hnr0] at h; cases h
          | ok new_root_page0 =>
            simp only [hnr0, Pager.write_page] at h
            cases hsp : Node.split { root with parent_offset := some (PAGE_SIZE * f.length), is_root := false } b with
            | error e => simp only [hsp] at h; cases h
            | ok msp =>
              obtain ⟨median, left, sibling⟩ := msp
              simp only [hsp] at h
              obtain ⟨hleft, hsib⟩ := split_nodeCountLe hb hsp
                (fun cs2 ks2 hnt2 =>
                  full_decoded_internal_count hfp hful hroot hb cs2 ks2 hnt2)
              cases htf1 : Page.try_from left with
              | error e => simp only [htf1] at h; cases h
              | ok left_page =>
                simp only [htf1] at h
                cases hw1 : Pager.write_page_at_offset (f ++ [new_root_page0])
                    left_page ro with
                | error e => simp only [hw1] at h; cases h
                | ok f2 =>
                  simp only [hw1] at h
                  cases htf2 : Page.try_from sibling with
                  | error e => simp only [htf2] at h; cases h
                  | ok sibling_page =>
                    simp only [htf2, Pager.write_page] at h
                    cases htf3 : Page.try_from (Node.new
                        (.Internal [ro, PAGE_SIZE * f2.length] [median]) true none) with
                    | error e => simp only [htf3] at h; cases h
                    | ok new_root_page =>
                      simp only [htf3] at h
                      cases hw2 : Pager.write_page_at_offset (f2 ++ [sibling_page])
                          new_root_page (PAGE_SIZE * f.length) with
                      | error e => simp only [hw2] at h; cases h
                      | ok f4 =>
                        simp only [hw2] at h
                        cases hrun : BTree.insert_non_full b fuel f4
                            (Node.new (.Internal [ro, PAGE_SIZE * f2.length] [median])
                              true none) (PAGE_SIZE * f.length) kv with
                        | none => rw [hrun] at h; cases h
                        | some pr =>
                          obtain ⟨f5, r2⟩ := pr
                          simp only [hrun] at h
                          cases h
                          obtain ⟨hmod, hlt⟩ := get_page_index hgp
                          have hmod2 : (PAGE_SIZE * f.length) % PAGE_SIZE = 0 :=
                            Nat.mul_mod_right _ _
                          have hdiv2 : PAGE_SIZE * f.length / PAGE_SIZE = f.length :=
                            Nat.mul_div_cancel_left _ (by decide)
                          have hlt1 : ro / PAGE_SIZE < (f ++ [new_root_page0]).length := by
                            rw [List.length_append, List.length_singleton]
                            omega
                          have hf2eq : f2 = (f ++ [new_root_page0]).set
                              (ro / PAGE_SIZE) left_page :=
                            write_page_at_offset_set hmod hlt1 hw1
                          have hf2len : f2.length = f.length + 1 := by
                            rw [hf2eq, List.length_set, List.length_append,
                              List.length_singleton]
                          have hlt2 : PAGE_SIZE * f.length / PAGE_SIZE <
                              (f2 ++ [sibling_page]).length := by
                            rw [hdiv2, List.length_append, hf2len, List.length_singleton]
                            omega
                          have hf4eq : f4 = (f2 ++ [sibling_page]).set
                              (PAGE_SIZE * f.length / PAGE_SIZE) new_root_page :=
                            write_page_at_offset_set hmod2 hlt2 hw2
                          have hf2shape : f2 = f.set (ro / PAGE_SIZE) left_page
                              ++ [new_root_page0] := by
                            rw [hf2eq, set_append_left _ _ _ _ hlt]
                          have hAlen : (f.set (ro / PAGE_SIZE) left_page).length
                              = f.length := by
                            rw [List.length_set]
                          have h1 : ((f.set (ro / PAGE_SIZE) left_page ++ [new_root_page0])
                              ++ [sibling_page]).set f.length new_root_page =
                              ((f.set (ro / PAGE_SIZE) left_page ++ [new_root_page0]).set
                                f.length new_root_page) ++ [sibling_page] := by
                            apply set_append_left
                            rw [List.length_append, hAlen, List.length_singleton]
                            omega
                          have h2 : (f.set (ro / PAGE_SIZE) left_page ++
                              [new_root_page0]).set f.length new_root_page =
                              f.set (ro / PAGE_SIZE) left_page ++ [new_root_page] := by
                            rw [set_append_right _ _ _ _ hAlen.le, hAlen, Nat.sub_self]
                            rfl
                          have hf4shape : f4 = f.set (ro / PAGE_SIZE) left_page
                              ++ [new_root_page] ++ [sibling_page] := by
                            rw [hf4eq, hf2shape, hdiv2, h1, h2]
                          have hlpg : pageCountLe B left_page = true :=
                            pageCountLe_try_from htf1 hleft (by omega)
                          have hspg : pageCountLe B sibling_page = true :=
                            pageCountLe_try_from htf2 hsib (by omega)
                          have hnrnode : nodeCountLe (B + 2) (Node.new
                              (.Internal [ro, PAGE_SIZE * f2.length] [median])
                              true none) = true := by
                            show decide
                              (1 ≤ ([ro, PAGE_SIZE * f2.length] : List Nat).length ∧
                               ([ro, PAGE_SIZE * f2.length] : List Nat).length ≤ B + 2) =
                              true
                            rw [decide_eq_true_eq]
                            simp only [List.length_cons, List.length_nil]
                            omega
                          have hnrp : pageCountLe (B + 2) new_root_page = true :=
                            pageCountLe_try_from htf3 hnrnode (by omega)
                          have hf4B : fileCountLe (B + 2) f4 = true := by
                            rw [hf4shape]
                            refine fileCountLe_append (fileCountLe_append ?_ hnrp)
                              (pageCountLe_mono (by omega) hspg)
                            exact fileCountLe_set (fileCountLe_mono (by omega) hf)
                              (pageCountLe_mono (by omega) hlpg)
                          have hres := insert_non_full_bound b fuel (B + 2) f4
                            (Node.new (.Internal [ro, PAGE_SIZE * f2.length] [median])
                              true none) (PAGE_SIZE * f.length) kv _ _
                            hb hf4B hnrnode (by omega) hrun
                          exact fileCountLe_mono
                            (show B + 2 + fuel ≤ B + fuel + 2 by omega) hres

/-- Each `borrow_if_needed` level appends one merged node (child count
at most the sum of two bounded nodes) and rewrites the parent with one
child fewer, so the file bound at most doubles per level. -/
theorem borrow_bound (b : Nat) :
    ∀ (fuel B : Nat) (f : File) (node : Node) (key : Bytes) (f' : File)
      (r : Except Error Unit),
      fileCountLe B f = true → nodeCountLe B node = true →
      2 ^ fuel * B < 2 ^ 64 →
      BTree.borrow_if_needed b fuel f node key = some (f', r) →
      fileCountLe (2 ^ fuel * B) f' = true := by
  intro fuel
  induction fuel with
  | zero =>
    intro B f node key f' r hf hn hB h
    cases h
  | succ fuel ih =>
    intro B f node key f' r hf hn hB h
    unfold BTree.borrow_if_needed at h
    cases hu : BTree.is_node_underflow b node with
    | error e =>
      simp only [hu, stepE] at h
      cases h
      exact fileCountLe_mono (le_two_pow_mul _ _) hf
    | ok underflow =>
      simp only [hu, stepE] at h
      cases underflow with
      | false =>
        rw [if_neg (by decide)] at h
        cases h
        exact fileCountLe_mono (le_two_pow_mul _ _) hf
      | true =>
        rw [if_pos rfl] at h
        cases hpo : node.parent_offset with
        | none =>
          rw [hpo] at h
          cases h
          exact fileCountLe_mono (le_two_pow_mul _ _) hf
        | some parent_offset =>
          rw [hpo] at h
          cases hgpp : Pager.get_page f parent_offset with
          | error e =>
            simp only [hgpp, stepE] at h
            cases h
            exact fileCountLe_mono (le_two_pow_mul _ _) hf
          | ok parent_page =>
            simp only [hgpp, stepE] at h
            cases hfpp : Node.from_page parent_page with
            | error e =>
              simp only [hfpp, stepE] at h
              cases h
              exact fileCountLe_mono (le_two_pow_mul _ _) hf
            | ok parent_node =>
              simp only [hfpp, stepE] at h
              cases hnt : parent_node.node_type with
              | Leaf ps =>
                simp only [hnt] at h
                cases h
                exact fileCountLe_mono (le_two_pow_mul _ _) hf
              | Unexpected =>
                simp only [hnt] at h
                cases h
                exact fileCountLe_mono (le_two_pow_mul _ _) hf
              | Internal children keys =>
                simp only [hnt] at h
                have hpar : 1 ≤ children.length ∧ children.length ≤ B := by
                  have hd := decode_nodeCountLe hf hgpp hfpp
                  unfold nodeCountLe at hd
                  rw [hnt] at hd
                  simp only [decide_eq_true_eq] at hd
                  exact hd
                set i := unwrapIdx (rustBinarySearch (fun k => keyCmp k key) keys)
                set si := if i > 0 then i - 1 else i + 1
                cases hso : children.get? si with
                | none =>
                  rw [hso] at h
                  cases h
                  exact fileCountLe_mono (le_two_pow_mul _ _) hf
                | some sibling_offset =>
                  rw [hso] at h
                  cases hgs : Pager.get_page f sibling_offset with
                  | error e =>
                    simp only [hgs, stepE] at h
                    cases h
                    exact fileCountLe_mono (le_two_pow_mul _ _) hf
                  | ok sibling_page =>
                    simp only [hgs, stepE] at h
                    cases hfs : Node.from_page sibling_page with
                    | error e =>
                      simp only [hfs, stepE] at h
                      cases h
                      exact fileCountLe_mono (le_two_pow_mul _ _) hf
                    | ok sibling =>
                      simp only [hfs, stepE] at h
                      cases hmg : BTree.merge node sibling with
                      | error e =>
                        simp only [hmg, stepE] at h
                        cases h
                        exact fileCountLe_mono (le_two_pow_mul _ _) hf
                      | ok merged_node =>
                        simp only [hmg, stepE] at h
                        have hmb : nodeCountLe (2 * B) merged_node = true :=
                          merge_nodeCountLe hmg hn (decode_nodeCountLe hf hgs hfs)
                        cases hmp : Page.try_from merged_node with
                        | error e =>
                          simp only [hmp, stepE] at h
                          cases h
                          exact fileCountLe_mono (le_two_pow_mul _ _) hf
                        | ok merged_page =>
                          simp only [hmp, stepE] at h
                          have h2B : 2 * B < 2 ^ 64 :=
                            lt_of_le_of_lt (two_mul_le_two_pow_succ_mul fuel B) hB
                          have hmpg : pageCountLe (2 * B) merged_page = true :=
                            pageCountLe_try_from hmp hmb h2B
                          simp only [Pager.write_page] at h
                          have hf1 : fileCountLe (2 * B) (f ++ [merged_page]) = true :=
                            fileCountLe_append (fileCountLe_mono (by omega) hf) hmpg
                          cases hvr1 : vecRemove children i with
                          | none => rw [hvr1] at h; cases h
                          | some children1 =>
                            simp only [hvr1] at h
                            cases hvr2 : vecRemove children1 si with
                            | none => rw [hvr2] at h; cases h
                            | some children2 =>
                              simp only [hvr2] at h
                              cases hvi : vecInsert children2 (min i si)
                                  (PAGE_SIZE * f.length) with
                              | none => rw [hvi] at h; cases h
                              | some children3 =>
                                simp only [hvi] at h
                                cases hpp2 : Page.try_from { parent_node with
                                    node_type := NodeType.Internal children3 keys } with
                                | error e =>
                                  simp only [hpp2, stepE] at h
                                  cases h
                                  exact fileCountLe_mono
                                    (two_mul_le_two_pow_succ_mul fuel B) hf1
                                | ok parent_page2 =>
                                  simp only [hpp2, stepE] at h
                                  obtain ⟨hi1, hl1⟩ := vecRemove_spec _ _ _ hvr1
                                  obtain ⟨hi2, hl2⟩ := vecRemove_spec _ _ _ hvr2
                                  have hl3 := vecInsert_length _ _ _ _ hvi
                                  have hpn2 : nodeCountLe B { parent_node with
                                      node_type := NodeType.Internal children3 keys }
                                      = true := by
                                    show decide (1 ≤ children3.length ∧
                                      children3.length ≤ B) = true
                                    rw [decide_eq_true_eq]
                                    omega
                                  have hppg2 : pageCountLe B parent_page2 = true :=
                                    pageCountLe_try_from hpp2 hpn2
                                      (lt_of_le_of_lt (le_two_pow_mul (fuel + 1) B) hB)
                                  cases hw : Pager.write_page_at_offset
                                      (f ++ [merged_page]) parent_page2 parent_offset with
                                  | error e =>
                                    rw [hw] at h
                                    cases h
                                    exact fileCountLe_mono
                                      (two_mul_le_two_pow_succ_mul fuel B) hf1
                                  | ok f2 =>
                                    simp only [hw] at h
                                    have hf2 : fileCountLe (2 * B) f2 = true :=
                                      fileCountLe_write_at hf1
                                        (pageCountLe_mono (by omega) hppg2) hw
                                    have hres := ih (2 * B) f2 _ key f' r hf2
                                      (nodeCountLe_mono (by omega) hpn2)
                                      (by rw [← two_pow_succ_mul_eq]; exact hB) h
                                    rw [two_pow_succ_mul_eq]
                                    exact hres

/-- `delete_key_from_subtree` writes only leaf pages itself and then
hands over to `borrow_if_needed`; the count bound follows its doubling. -/
theorem delete_sub_bound (b : Nat) :
    ∀ (fuel B : Nat) (f : File) (key : Bytes) (off : Nat) (f' : File)
      (r : Except Error Unit),
      fileCountLe B f = true →
      2 ^ fuel * B < 2 ^ 64 →
      BTree.delete_key_from_subtree b fuel f key off = some (f', r) →
      fileCountLe (2 ^ fuel * B) f' = true := by
  intro fuel
  induction fuel with
  | zero =>
    intro B f key off f' r hf hB h
    cases h
  | succ fuel ih =>
    intro B f key off f' r hf hB h
    unfold BTree.delete_key_from_subtree at h
    cases hgp : Pager.get_page f off with
    | error e =>
      simp only [hgp, stepE] at h
      cases h
      exact fileCountLe_mono (le_two_pow_mul _ _) hf
    | ok page =>
      simp only [hgp, stepE] at h
      cases hfp : Node.from_page page with
      | error e =>
        simp only [hfp, stepE] at h
        cases h
        exact fileCountLe_mono (le_two_pow_mul _ _) hf
      | ok node =>
        simp only [hfp, stepE] at h
        cases hnt : node.node_type with
        | Unexpected =>
          simp only [hnt] at h
          cases h
          exact fileCountLe_mono (le_two_pow_mul _ _) hf
        | Internal children keys =>
          simp only [hnt] at h
          cases hco : children.get?
              (unwrapIdx (rustBinarySearch (fun k => keyCmp k key) keys)) with
          | none =>
            rw [hco] at h
            cases h
            exact fileCountLe_mono (le_two_pow_mul _ _) hf
          | some child_offset =>
            rw [hco] at h
            have hres := ih B f key child_offset f' r hf
              (lt_of_le_of_lt (two_pow_mul_le_succ fuel B) hB) h
            exact fileCountLe_mono (two_pow_mul_le_succ fuel B) hres
        | Leaf pairs =>
          simp only [hnt] at h
          cases hbs : rustBinarySearch (fun p => keyCmp p.key key) pairs with
          | error j =>
            rw [hbs] at h
            cases h
            exact fileCountLe_mono (le_two_pow_mul _ _) hf
          | ok key_idx =>
            simp only [hbs] at h
            cases hvr : vecRemove pairs key_idx with
            | none => rw [hvr] at h; cases h
            | some pairs2 =>
              simp only [hvr] at h
              cases htf : Page.try_from { node with
                  node_type := NodeType.Leaf pairs2 } with
              | error e =>
                simp only [htf, stepE] at h
                cases h
                exact fileCountLe_mono (le_two_pow_mul _ _) hf
              | ok page2 =>
                simp only [htf, stepE] at h
                cases hw : Pager.write_page_at_offset f page2 off with
                | error e =>
                  rw [hw] at h
                  cases h
                  exact fileCountLe_mono (le_two_pow_mul _ _) hf
                | ok f2 =>
                  simp only [hw] at h
                  have hpg2 : pageCountLe B page2 = true :=
                    pageCountLe_try_from htf rfl
                      (lt_of_le_of_lt (le_two_pow_mul (fuel + 1) B) hB)
                  have hf2 : fileCountLe B f2 = true :=
                    fileCountLe_write_at hf hpg2 hw
                  have hres := borrow_bound b fuel B f2
                    { node with node_type := NodeType.Leaf pairs2 } key f' r hf2 rfl
                    (lt_of_le_of_lt
                      (Nat.mul_le_mul_right B (by
                        have h0 : 0 < 2 ^ fuel := pow_pos (by omega) fuel
                        rw [pow_succ]
                        omega)) hB) h
                  exact fileCountLe_mono (two_pow_mul_le_succ fuel B) hres

/-- C5: after every completed insert or delete — the engine-level call
returns `Ok(())` — every page of the resulting index file that decodes
as an Internal node satisfies `|children| = |separators| + 1`.  The
pre-state file must itself carry decoded Internal child counts in
`[1, B]` (`fileCountLe B`), with `1 ≤ b` and bounds keeping every
transient count below `usize::MAX` (`2 ^ 64`). -/
theorem completed_ops_internal_arity (b fuel B : Nat) (s : System)
    (hb : 1 ≤ b) (hf : fileCountLe B s.file = true)
    (hB1 : B + fuel + 2 < 2 ^ 64) (hB2 : 2 ^ fuel * B < 2 ^ 64) :
    (∀ (kv : KeyValuePair) (s' : System),
        System.insert b fuel s kv = some (s', .ok ()) →
        ∀ p ∈ s'.file, ∀ cs ks r po,
          Node.from_page p = .ok ⟨.Internal cs ks, r, po⟩ →
          cs.length = ks.length + 1) ∧
    (∀ (key : Bytes) (s' : System),
        System.delete b fuel s key = some (s', .ok ()) →
        ∀ p ∈ s'.file, ∀ cs ks r po,
          Node.from_page p = .ok ⟨.Internal cs ks, r, po⟩ →
          cs.length = ks.length + 1) := by
  constructor
  · intro kv s' hrun
    unfold System.insert at hrun
    cases hrun2 : BTree.insert b fuel s.file s.root_offset kv with
    | none => rw [hrun2] at hrun; cases hrun
    | some pr =>
      obtain ⟨⟨f2, ro2⟩, r2⟩ := pr
      simp only [hrun2] at hrun
      cases hrun
      have hbound := insert_bound b fuel B s.file s.root_offset kv f2 ro2
        hb hf hB1 hrun2
      exact fileCountLe_arity hbound
  · intro key s' hrun
    unfold System.delete at hrun
    cases hrun2 : BTree.delete b fuel s.file s.root_offset key with
    | none => rw [hrun2] at hrun; cases hrun
    | some pr =>
      obtain ⟨f2, r2⟩ := pr
      simp only [hrun2] at hrun
      cases hrun
      have hbound := delete_sub_bound b fuel B s.file key s.root_offset f2
        (.ok ()) hf hB2 hrun2
      exact fileCountLe_arity hbound

/-- C5 witness: on the `b = 2` tree `mergeBugFile` the delete of "a"
completes (through the buggy merge path of `borrow_if_needed`), and
every Internal page of the resulting file still decodes with exactly
one more child than separator. -/
theorem completed_ops_internal_arity_witness :
    ∃ s' : System,
      System.delete 2 8 ⟨mergeBugFile, 0, []⟩ [97] = some (s', .ok ()) ∧
      ∀ p ∈ s'.file, ∀ cs ks r po,
        Node.from_page p = .ok ⟨.Internal cs ks, r, po⟩ →
        cs.length = ks.length + 1 := by
  obtain ⟨s1, hs1⟩ : ∃ s', System.delete 2 8 ⟨mergeBugFile, 0, []⟩ [97] =
      some (s', .ok ()) := ⟨_, rfl⟩
  exact ⟨s1, hs1, (completed_ops_internal_arity 2 8 3 ⟨mergeBugFile, 0, []⟩
    (by decide) (by rfl) (by decide) (by decide)).2 [97] s1 hs1⟩

/-- The key is strictly above the exclusive lower bound (`none` = no
bound). -/
def aboveLo (lo : Option Bytes) (k : Bytes) : Bool :=
  match lo with
  | none => true
  | some l => keyLt l k

/-- The key is at or below the inclusive upper bound (`none` = no
bound). -/
def belowHi (hi : Option Bytes) (k : Bytes) : Bool :=
  match hi with
  | none => true
  | some h => keyLe k h

/-- The key is strictly below the upper bound (`none` = no bound). -/
def strictHi (hi : Option Bytes) (k : Bytes) : Bool :=
  match hi with
  | none => true
  | some h => keyLt k h

theorem keyLt_iff {a b : Bytes} : keyLt a b = true ↔ keyCmp a b = .lt := by
  unfold keyLt
  cases h : keyCmp a b
  · decide
  · decide
  · decide

theorem keyLe_iff {a b : Bytes} : keyLe a b = true ↔ keyCmp a b ≠ .gt := by
  unfold keyLe
  cases h : keyCmp a b
  · decide
  · decide
  · decide

theorem keyLe_false_lt {a b : Bytes} (h : keyLe a b = false) :
    keyLt b a = true := by
  rw [keyLt_iff]
  unfold keyLe at h
  cases hc : keyCmp a b with
  | lt => rw [hc] at h; cases h
  | eq => rw [hc] at h; cases h
  | gt =>
    have := keyCmp_swap a b
    rw [hc] at this
    exact this

theorem keyLe_of_lt {a b : Bytes} (h : keyLt a b = true) : keyLe a b = true := by
  rw [keyLe_iff]
  rw [keyLt_iff] at h
  rw [h]
  intro hc
  cases hc

theorem keyLt_le_trans {a b c : Bytes} (h1 : keyLt a b = true)
    (h2 : keyLe b c = true) : keyLt a c = true := by
  rw [keyLt_iff] at h1 ⊢
  rw [keyLe_iff] at h2
  cases hbc : keyCmp b c with
  | lt => exact keyCmp_lt_trans h1 hbc
  | eq => rw [← keyCmp_eq_iff.mp hbc]; exact h1
  | gt => exact absurd hbc h2

theorem keyLe_lt_trans {a b c : Bytes} (h1 : keyLe a b = true)
    (h2 : keyLt b c = true) : keyLt a c = true := by
  rw [keyLt_iff] at h2 ⊢
  rw [keyLe_iff] at h1
  cases hab : keyCmp a b with
  | lt => exact keyCmp_lt_trans hab h2
  | eq => rw [keyCmp_eq_iff.mp hab]; exact h2
  | gt => exact absurd hab h1

theorem keyLt_trans {a b c : Bytes} (h1 : keyLt a b = true)
    (h2 : keyLt b c = true) : keyLt a c = true :=
  keyLt_le_trans h1 (keyLe_of_lt h2)

theorem keyLe_trans {a b c : Bytes} (h1 : keyLe a b = true)
    (h2 : keyLe b c = true) : keyLe a c = true := by
  cases hab : keyCmp a b with
  | lt => exact keyLe_of_lt (keyLt_le_trans (keyLt_iff.mpr hab) h2)
  | eq => rw [keyCmp_eq_iff.mp hab]; exact h2
  | gt => rw [keyLe_iff] at h1; exact absurd hab h1

theorem keyLt_ne_eq {a b : Bytes} (h : keyLt a b = true) : keyCmp a b ≠ .eq := by
  rw [keyLt_iff] at h
  rw [h]
  intro hc
  cases hc

mutual
/-- The pair appears in some leaf of the tree. -/
def memT (kv : KeyValuePair) : T → Bool
  | .leaf pairs => pairs.any (fun p => p.key == kv.key && p.value == kv.value)
  | .node _ cs => memF kv cs

def memF (kv : KeyValuePair) : Forest → Bool
  | .nil => false
  | .cons _ t rest => memT kv t || memF kv rest
end

mutual
/-- Page offsets of the subtrees hanging below a node (the node's own
offset excluded). -/
def offsT : T → List Nat
  | .leaf _ => []
  | .node _ cs => offsF cs

def offsF : Forest → List Nat
  | .nil => []
  | .cons o t rest => (o :: offsT t) ++ offsF rest
end

/-- The `j`-th child (offset and subtree) of a forest. -/
def nthF : Forest → Nat → Option (Nat × T)
  | .nil, _ => none
  | .cons o t _, 0 => some (o, t)
  | .cons _ _ rest, j + 1 => nthF rest j

def lengthF : Forest → Nat
  | .nil => 0
  | .cons _ _ rest => lengthF rest + 1

def takeF : Nat → Forest → Forest
  | 0, _ => .nil
  | _ + 1, .nil => .nil
  | n + 1, .cons o t rest => .cons o t (takeF n rest)

def dropF : Nat → Forest → Forest
  | 0, cs => cs
  | _ + 1, .nil => .nil
  | n + 1, .cons _ _ rest => dropF n rest

/-- Replace the subtree at child index `j`, keeping its offset. -/
def replaceAtF : Nat → T → Forest → Forest
  | 0, t1, .cons o _ rest => .cons o t1 rest
  | j + 1, t1, .cons o t rest => .cons o t (replaceAtF j t1 rest)
  | _, _, .nil => .nil

/-- Insert a new child (offset and subtree) at index `j`. -/
def insertAtF : Nat → Nat → T → Forest → Forest
  | 0, o1, t1, cs => .cons o1 t1 cs
  | j + 1, o1, t1, .cons o t rest => .cons o t (insertAtF j o1 t1 rest)
  | _ + 1, _, _, .nil => .nil

mutual
/-- Sorted, bounded, serializable subtree invariant for branching factor
`b`: every key strictly above `lo` and at-or-below `hi`, pairs and
separators strictly sorted, all cells within the size caps, counts
within the node capacity, and Internal children partitioned by the
separators per the engine's `≤`-descent convention. -/
def goodT (b : Nat) (lo hi : Option Bytes) : T → Bool
  | .leaf pairs =>
    sortedByKey KeyValuePair.key pairs &&
    pairs.all (fun p => cellOk KEY_SIZE p.key && cellOk VALUE_SIZE p.value &&
      (aboveLo lo p.key && belowHi hi p.key)) &&
    decide (pairs.length ≤ 2 * b - 1)
  | .node keys cs =>
    sortedByKey (fun s => s) keys &&
    keys.all (fun s => cellOk KEY_SIZE s && (aboveLo lo s && belowHi hi s)) &&
    decide (1 ≤ keys.length) && decide (keys.length ≤ 2 * b - 1) &&
    goodF b lo hi keys cs

/-- The per-child walk of an Internal node's invariant: child `i` is
bounded by separators `i - 1` (exclusive) and `i` (inclusive). -/
def goodF (b : Nat) (lo hi : Option Bytes) : List Bytes → Forest → Bool
  | [], .cons _ t .nil => goodT b lo hi t
  | s :: srest, .cons _ t rest =>
    goodT b lo (some s) t && goodF b (some s) hi srest rest
  | _, _ => false
end

/-- Offsets pairwise distinct, page-aligned and inside the file. -/
def offsOk (f : File) (l : List Nat) : Prop :=
  l.Nodup ∧ ∀ o ∈ l, o % PAGE_SIZE = 0 ∧ o / PAGE_SIZE < f.length

theorem heightT_pos : ∀ t : T, 1 ≤ heightT t := by
  intro t
  cases t with
  | leaf ps => rw [heightT]
  | node ks cs => rw [heightT]; omega

theorem childIdxLe_cons_le {k m : Bytes} (krest : List Bytes)
    (h : keyLe k m = true) : childIdxLe (m :: krest) k = 0 := by
  unfold childIdxLe firstIdxWhere
  rw [h]
  rfl

theorem forest_ind (P : Forest → Prop) (h1 : P .nil)
    (h2 : ∀ o t rest, P rest → P (.cons o t rest)) : ∀ cs, P cs := by
  have key : ∀ n cs, lengthF cs ≤ n → P cs := by
    intro n
    induction n with
    | zero =>
      intro cs hl
      cases cs with
      | nil => exact h1
      | cons o t rest => rw [lengthF] at hl; omega
    | succ n ih =>
      intro cs hl
      cases cs with
      | nil => exact h1
      | cons o t rest =>
        rw [lengthF] at hl
        exact h2 o t rest (ih rest (by omega))
  exact fun cs => key (lengthF cs) cs (le_refl _)

theorem childIdxLe_cons_gt {k m : Bytes} (krest : List Bytes)
    (h : keyLe k m = false) :
    childIdxLe (m :: krest) k = childIdxLe krest k + 1 := by
  unfold childIdxLe
  simp only [firstIdxWhere, h, Bool.false_eq_true, if_false]
  cases hf : firstIdxWhere (fun s => keyLe k s) krest with
  | none => simp [hf]
  | some i => simp [hf]

theorem sortedByKey_cons_of {α : Type} (keyOf : α → Bytes) (x : α) (l : List α)
    (h1 : ∀ y ∈ l, keyLt (keyOf x) (keyOf y) = true)
    (h2 : sortedByKey keyOf l = true) : sortedByKey keyOf (x :: l) = true := by
  cases l with
  | nil => rfl
  | cons z rest =>
    unfold sortedByKey
    rw [Bool.and_eq_true]
    exact ⟨h1 z (by simp), h2⟩

theorem sortedByKey_take {α : Type} (keyOf : α → Bytes) :
    ∀ (n : Nat) (l : List α), sortedByKey keyOf l = true →
    sortedByKey keyOf (l.take n) = true := by
  intro n
  induction n with
  | zero => intro l _; rfl
  | succ n ih =>
    intro l h
    cases l with
    | nil => rfl
    | cons x rest =>
      show sortedByKey keyOf (x :: rest.take n) = true
      apply sortedByKey_cons_of
      · intro y hy
        exact keyLt_iff.mpr
          (sortedByKey_head_lt keyOf x rest h y (List.take_subset n rest hy))
      · exact ih rest (sortedByKey_tail keyOf x rest h)

theorem sortedByKey_drop {α : Type} (keyOf : α → Bytes) :
    ∀ (n : Nat) (l : List α), sortedByKey keyOf l = true →
    sortedByKey keyOf (l.drop n) = true := by
  intro n
  induction n with
  | zero => intro l h; exact h
  | succ n ih =>
    intro l h
    cases l with
    | nil => rfl
    | cons x rest => exact ih rest (sortedByKey_tail keyOf x rest h)

theorem mem_insertIdx_or {α : Type} :
    ∀ (j : Nat) (a : α) (l : List α) (y : α),
      y ∈ List.insertIdx j a l → y = a ∨ y ∈ l := by
  intro j
  induction j with
  | zero =>
    intro a l y hy
    rcases List.mem_cons.mp hy with h | h
    · exact Or.inl h
    · exact Or.inr h
  | succ j ih =>
    intro a l y hy
    cases l with
    | nil => cases hy
    | cons x xs =>
      rcases List.mem_cons.mp hy with h | h
      · exact Or.inr (by rw [h]; exact List.mem_cons_self x xs)
      · rcases ih a xs y h with h2 | h2
        · exact Or.inl h2
        · exact Or.inr (List.mem_cons_of_mem x h2)

theorem all_insertIdx {α : Type} {j : Nat} {a : α} {l : List α}
    {p : α → Bool} (hl : l.all p = true) (ha : p a = true) :
    (List.insertIdx j a l).all p = true := by
  rw [List.all_eq_true] at hl ⊢
  intro y hy
  rcases mem_insertIdx_or j a l y hy with h | h
  · rw [h]; exact ha
  · exact hl y h

theorem insertIdx_length_le {α : Type} {j : Nat} {a : α} {l : List α}
    (h : j ≤ l.length) : (List.insertIdx j a l).length = l.length + 1 := by
  have h2 : vecInsert l j a = some (List.insertIdx j a l) := by
    unfold vecInsert
    rw [if_pos h]
  exact vecInsert_length _ _ _ _ h2

/-- Inserting at the binary-search error position of a strictly sorted
pair list keeps it strictly sorted. -/
theorem sorted_insertIdx_boundary :
    ∀ (ps : List KeyValuePair) (p0 : Nat) (kv : KeyValuePair),
      sortedByKey KeyValuePair.key ps = true →
      (∀ i x, i < p0 → ps.get? i = some x → keyCmp x.key kv.key = .lt) →
      (∀ i x, p0 ≤ i → i < ps.length → ps.get? i = some x →
        keyCmp x.key kv.key = .gt) →
      sortedByKey KeyValuePair.key (List.insertIdx p0 kv ps) = true := by
  intro ps
  induction ps with
  | nil =>
    intro p0 kv _ _ _
    cases p0 with
    | zero => rfl
    | succ p0 => rfl
  | cons x rest ih =>
    intro p0 kv hs hlo hhi
    cases p0 with
    | zero =>
      show sortedByKey KeyValuePair.key (kv :: x :: rest) = true
      apply sortedByKey_cons_of
      · intro y hy
        have hx := hhi 0 x (Nat.zero_le _) (by simp) rfl
        have hkx : keyCmp kv.key x.key = .lt := by
          have h2 := keyCmp_swap x.key kv.key
          rw [hx] at h2
          exact h2
        rcases List.mem_cons.mp hy with h | h
        · rw [h]; exact keyLt_iff.mpr hkx
        · exact keyLt_trans (keyLt_iff.mpr hkx)
            (keyLt_iff.mpr (sortedByKey_head_lt _ x rest hs y h))
      · exact hs
    | succ p0 =>
      show sortedByKey KeyValuePair.key (x :: List.insertIdx p0 kv rest) = true
      apply sortedByKey_cons_of
      · intro y hy
        rcases mem_insertIdx_or p0 kv rest y hy with h | h
        · rw [h]
          exact keyLt_iff.mpr (hlo 0 x (by omega) rfl)
        · exact keyLt_iff.mpr (sortedByKey_head_lt _ x rest hs y h)
      · exact ih p0 kv (sortedByKey_tail _ _ _ hs)
          (fun i y hi hy => hlo (i + 1) y (by omega) hy)
          (fun i y hi hilen hy => hhi (i + 1) y (by omega) (by simpa using hilen) hy)

theorem nthF_forestOffsets :
    ∀ (cs : Forest) (j : Nat) (o : Nat) (t : T),
      nthF cs j = some (o, t) → (forestOffsets cs).get? j = some o := by
  intro cs
  induction cs using forest_ind with
  | h1 => intro j o t h; cases h
  | h2 o2 t2 rest ih =>
    intro j o t h
    cases j with
    | zero => cases h; rfl
    | succ j => exact ih j o t h

theorem forestOffsets_nthF :
    ∀ (cs : Forest) (j : Nat) (o : Nat),
      (forestOffsets cs).get? j = some o → ∃ t, nthF cs j = some (o, t) := by
  intro cs
  induction cs using forest_ind with
  | h1 => intro j o h; cases h
  | h2 o2 t2 rest ih =>
    intro j o h
    cases j with
    | zero => cases h; exact ⟨t2, rfl⟩
    | succ j => exact ih j o h

theorem forestOffsets_length_lengthF :
    ∀ cs : Forest, (forestOffsets cs).length = lengthF cs := by
  intro cs
  induction cs using forest_ind with
  | h1 => rfl
  | h2 o t rest ih =>
    show (forestOffsets rest).length + 1 = lengthF rest + 1
    rw [ih]

theorem heightF_nthF :
    ∀ (cs : Forest) (j : Nat) (o : Nat) (t : T),
      nthF cs j = some (o, t) → heightT t ≤ heightF cs := by
  intro cs
  induction cs using forest_ind with
  | h1 => intro j o t h; cases h
  | h2 o2 t2 rest ih =>
    intro j o t h
    cases j with
    | zero => cases h; rw [heightF]; omega
    | succ j =>
      have := ih j o t h
      rw [heightF]
      omega

theorem mem_offsF_nthF :
    ∀ (cs : Forest) (j : Nat) (o : Nat) (t : T),
      nthF cs j = some (o, t) →
      o ∈ offsF cs ∧ ∀ x ∈ offsT t, x ∈ offsF cs := by
  intro cs
  induction cs using forest_ind with
  | h1 => intro j o t h; cases h
  | h2 o2 t2 rest ih =>
    intro j o t h
    cases j with
    | zero =>
      cases h
      constructor
      · show o2 ∈ (o2 :: offsT t2) ++ offsF rest
        simp
      · intro x hx
        show x ∈ (o2 :: offsT t2) ++ offsF rest
        simp [hx]
    | succ j =>
      obtain ⟨h1, h2⟩ := ih j o t h
      constructor
      · show o ∈ (o2 :: offsT t2) ++ offsF rest
        simp [h1]
      · intro x hx
        show x ∈ (o2 :: offsT t2) ++ offsF rest
        simp [h2 x hx]

theorem forestOffsets_replaceAtF :
    ∀ (j : Nat) (t' : T) (cs : Forest),
      forestOffsets (replaceAtF j t' cs) = forestOffsets cs := by
  intro j
  induction j with
  | zero =>
    intro t' cs
    cases cs with
    | nil => rfl
    | cons o t rest => rfl
  | succ j ih =>
    intro t' cs
    cases cs with
    | nil => rfl
    | cons o t rest =>
      show o :: forestOffsets (replaceAtF j t' rest) = o :: forestOffsets rest
      rw [ih]

theorem forestOffsets_insertAtF :
    ∀ (j : Nat) (o1 : Nat) (t1 : T) (cs : Forest),
      forestOffsets (insertAtF j o1 t1 cs) =
        List.insertIdx j o1 (forestOffsets cs) := by
  intro j
  induction j with
  | zero => intro o1 t1 cs; rfl
  | succ j ih =>
    intro o1 t1 cs
    cases cs with
    | nil => rfl
    | cons o t rest =>
      show o :: forestOffsets (insertAtF j o1 t1 rest) =
        o :: List.insertIdx j o1 (forestOffsets rest)
      rw [ih]

theorem mem_take_get? {α : Type} {l : List α} {n : Nat} {y : α}
    (h : y ∈ l.take n) : ∃ i, i < n ∧ l.get? i = some y := by
  obtain ⟨i, hi⟩ := List.mem_iff_get?.mp h
  have hilen : i < (l.take n).length := by
    by_contra hc
    rw [List.get?_eq_none.mpr (by omega)] at hi
    cases hi
  have hin : i < n := by
    rw [List.length_take] at hilen
    omega
  refine ⟨i, hin, ?_⟩
  rw [← List.get?_take hin]
  exact hi

theorem mem_drop_get? {α : Type} {l : List α} {n : Nat} {y : α}
    (h : y ∈ l.drop n) : ∃ i, l.get? (n + i) = some y := by
  obtain ⟨i, hi⟩ := List.mem_iff_get?.mp h
  refine ⟨i, ?_⟩
  rw [← List.get?_drop]
  exact hi

theorem keyAbsentF_takeF (k : Bytes) :
    ∀ (n : Nat) (cs : Forest), keyAbsentF k cs = true →
    keyAbsentF k (takeF n cs) = true := by
  intro n
  induction n with
  | zero => intro cs _; rfl
  | succ n ih =>
    intro cs h
    cases cs with
    | nil => rfl
    | cons o t rest =>
      rw [keyAbsentF, Bool.and_eq_true] at h
      show keyAbsentF k (.cons o t (takeF n rest)) = true
      rw [keyAbsentF, Bool.and_eq_true]
      exact ⟨h.1, ih rest h.2⟩

theorem keyAbsentF_dropF (k : Bytes) :
    ∀ (n : Nat) (cs : Forest), keyAbsentF k cs = true →
    keyAbsentF k (dropF n cs) = true := by
  intro n
  induction n with
  | zero => intro cs h; exact h
  | succ n ih =>
    intro cs h
    cases cs with
    | nil => rfl
    | cons o t rest =>
      rw [keyAbsentF, Bool.and_eq_true] at h
      exact ih rest h.2

theorem heightF_takeF_le : ∀ (n : Nat) (cs : Forest),
    heightF (takeF n cs) ≤ heightF cs := by
  intro n
  induction n with
  | zero => intro cs; rw [takeF, heightF]; omega
  | succ n ih =>
    intro cs
    cases cs with
    | nil => rw [takeF]
    | cons o t rest =>
      show heightF (.cons o t (takeF n rest)) ≤ heightF (.cons o t rest)
      rw [heightF, heightF]
      have := ih rest
      omega

theorem heightF_dropF_le : ∀ (n : Nat) (cs : Forest),
    heightF (dropF n cs) ≤ heightF cs := by
  intro n
  induction n with
  | zero => intro cs; exact Nat.le.refl
  | succ n ih =>
    intro cs
    cases cs with
    | nil => rw [dropF]
    | cons o t rest =>
      show heightF (dropF n rest) ≤ heightF (.cons o t rest)
      have := ih rest
      rw [heightF]
      omega

theorem offsF_takeF_dropF : ∀ (n : Nat) (cs : Forest),
    offsF (takeF n cs) ++ offsF (dropF n cs) = offsF cs := by
  intro n
  induction n with
  | zero => intro cs; rfl
  | succ n ih =>
    intro cs
    cases cs with
    | nil => rfl
    | cons o t rest =>
      show ((o :: offsT t) ++ offsF (takeF n rest)) ++ offsF (dropF n rest) =
        (o :: offsT t) ++ offsF rest
      rw [List.append_assoc, ih rest]

theorem goodF_split (b : Nat) :
    ∀ (n : Nat) (ks : List Bytes) (cs : Forest) (lo hi : Option Bytes)
      (m : Bytes),
      goodF b lo hi ks cs = true → ks.get? n = some m →
      goodF b lo (some m) (ks.take n) (takeF (n + 1) cs) = true ∧
      goodF b (some m) hi (ks.drop (n + 1)) (dropF (n + 1) cs) = true := by
  intro n
  induction n with
  | zero =>
    intro ks cs lo hi m hg hk
    cases ks with
    | nil => cases hk
    | cons s srest =>
      cases hk
      cases cs with
      | nil => unfold goodF at hg; cases hg
      | cons o t rest =>
        rw [goodF, Bool.and_eq_true] at hg
        constructor
        · show goodF b lo (some m) [] (.cons o t .nil) = true
          rw [goodF]
          exact hg.1
        · exact hg.2
  | succ n ih =>
    intro ks cs lo hi m hg hk
    cases ks with
    | nil => cases hk
    | cons s srest =>
      cases cs with
      | nil => unfold goodF at hg; cases hg
      | cons o t rest =>
        rw [goodF, Bool.and_eq_true] at hg
        obtain ⟨h1, h2⟩ := hg
        obtain ⟨ih1, ih2⟩ := ih srest rest (some s) hi m h2 hk
        constructor
        · show goodF b lo (some m) (s :: srest.take n)
            (.cons o t (takeF (n + 1) rest)) = true
          rw [goodF, Bool.and_eq_true]
          exact ⟨h1, ih1⟩
        · exact ih2

/-- Splitting a full, good leaf at `b` gives two good halves around the
median `pairs[b-1].key`, which stays strictly below the upper bound. -/
theorem leaf_split_good (b : Nat) (hb : 2 ≤ b) {lo hi : Option Bytes}
    {ps : List KeyValuePair}
    (hg : goodT b lo hi (.leaf ps) = true) (hfull : ps.length = 2 * b - 1) :
    ∃ mp, ps.get? (b - 1) = some mp ∧
      goodT b lo (some mp.key) (.leaf (ps.take b)) = true ∧
      goodT b (some mp.key) hi (.leaf (ps.drop b)) = true ∧
      aboveLo lo mp.key = true ∧ strictHi hi mp.key = true ∧
      cellOk KEY_SIZE mp.key = true := by
  rw [goodT, Bool.and_eq_true, Bool.and_eq_true] at hg
  obtain ⟨⟨hsort, hall⟩, hcnt⟩ := hg
  rw [List.all_eq_true] at hall
  have hpw := sortedByKey_pairwise KeyValuePair.key ps hsort
  obtain ⟨mp, hmp⟩ : ∃ mp, ps.get? (b - 1) = some mp := by
    cases hq : ps.get? (b - 1) with
    | none =>
      rw [List.get?_eq_none] at hq
      omega
    | some mp => exact ⟨mp, rfl⟩
  have hmpmem : mp ∈ ps := List.mem_iff_get?.mpr ⟨_, hmp⟩
  have hmpall := hall mp hmpmem
  rw [Bool.and_eq_true, Bool.and_eq_true, Bool.and_eq_true] at hmpall
  obtain ⟨⟨hmpk, hmpv⟩, hmpa, hmpb⟩ := hmpall
  obtain ⟨lst, hlst⟩ : ∃ lst, ps.get? (2 * b - 2) = some lst := by
    cases hq : ps.get? (2 * b - 2) with
    | none =>
      rw [List.get?_eq_none] at hq
      omega
    | some lst => exact ⟨lst, rfl⟩
  have hlstmem : lst ∈ ps := List.mem_iff_get?.mpr ⟨_, hlst⟩
  have hmplst : keyCmp mp.key lst.key = .lt :=
    hpw (b - 1) (2 * b - 2) mp lst (by omega) hmp hlst
  have hlstall := hall lst hlstmem
  rw [Bool.and_eq_true, Bool.and_eq_true, Bool.and_eq_true] at hlstall
  refine ⟨mp, hmp, ?_, ?_, hmpa, ?_, hmpk⟩
  · rw [goodT, Bool.and_eq_true, Bool.and_eq_true]
    refine ⟨⟨sortedByKey_take _ _ _ hsort, ?_⟩, ?_⟩
    · rw [List.all_eq_true]
      intro p hp
      obtain ⟨i, hin, hq⟩ := mem_take_get? hp
      have hpmem : p ∈ ps := List.mem_iff_get?.mpr ⟨_, hq⟩
      have hpall := hall p hpmem
      rw [Bool.and_eq_true, Bool.and_eq_true, Bool.and_eq_true] at hpall
      rw [Bool.and_eq_true, Bool.and_eq_true, Bool.and_eq_true]
      refine ⟨⟨hpall.1.1, hpall.1.2⟩, hpall.2.1, ?_⟩
      show keyLe p.key mp.key = true
      rcases Nat.lt_or_ge i (b - 1) with hi | hi
      · exact keyLe_of_lt (keyLt_iff.mpr (hpw i (b - 1) p mp hi hq hmp))
      · have : i = b - 1 := by omega
        subst this
        rw [hq] at hmp
        cases hmp
        rw [keyLe_iff, keyCmp_refl]
        intro hc
        cases hc
    · rw [decide_eq_true_eq, List.length_take]
      omega
  · rw [goodT, Bool.and_eq_true, Bool.and_eq_true]
    refine ⟨⟨sortedByKey_drop _ _ _ hsort, ?_⟩, ?_⟩
    · rw [List.all_eq_true]
      intro p hp
      obtain ⟨i, hq⟩ := mem_drop_get? hp
      have hpmem : p ∈ ps := List.mem_iff_get?.mpr ⟨_, hq⟩
      have hpall := hall p hpmem
      rw [Bool.and_eq_true, Bool.and_eq_true, Bool.and_eq_true] at hpall
      rw [Bool.and_eq_true, Bool.and_eq_true, Bool.and_eq_true]
      refine ⟨⟨hpall.1.1, hpall.1.2⟩, ?_, hpall.2.2⟩
      show keyLt mp.key p.key = true
      exact keyLt_iff.mpr (hpw (b - 1) (b + i) mp p (by omega) hmp hq)
    · rw [decide_eq_true_eq, List.length_drop]
      omega
  · cases hi : hi with
    | none => rfl
    | some h =>
      show keyLt mp.key h = true
      have hlstb : keyLe lst.key h = true := by
        have := hlstall.2.2
        rw [hi] at this
        exact this
      exact keyLt_le_trans (keyLt_iff.mpr hmplst) hlstb

theorem aboveLo_trans {lo : Option Bytes} {y x : Bytes}
    (h1 : aboveLo lo y = true) (h2 : keyLt y x = true) : aboveLo lo x = true := by
  cases lo with
  | none => rfl
  | some l => exact keyLt_trans h1 h2

theorem belowHi_trans {hi : Option Bytes} {x y : Bytes}
    (h1 : keyLe x y = true) (h2 : belowHi hi y = true) : belowHi hi x = true := by
  cases hi with
  | none => rfl
  | some h => exact keyLe_trans h1 h2

theorem belowHi_of_strictHi {hi : Option Bytes} {x : Bytes}
    (h : strictHi hi x = true) : belowHi hi x = true := by
  cases hi with
  | none => rfl
  | some h2 => exact keyLe_of_lt h

theorem strictHi_trans {hi : Option Bytes} {x y : Bytes}
    (h1 : keyLt x y = true) (h2 : belowHi hi y = true) : strictHi hi x = true := by
  cases hi with
  | none => rfl
  | some h => exact keyLt_le_trans h1 h2

theorem firstIdxWhere_lt_length {α : Type} (pred : α → Bool) :
    ∀ (xs : List α) (i : Nat), firstIdxWhere pred xs = some i →
    i < xs.length := by
  intro xs
  induction xs with
  | nil => intro i h; cases h
  | cons x rest ih =>
    intro i h
    unfold firstIdxWhere at h
    cases hp : pred x with
    | true =>
      rw [hp, if_pos rfl] at h
      cases h
      simp
    | false =>
      rw [hp] at h
      simp only [Bool.false_eq_true, if_false] at h
      cases hf : firstIdxWhere pred rest with
      | none => rw [hf] at h; cases h
      | some i2 =>
        rw [hf] at h
        cases h
        have := ih i2 hf
        simp only [List.length_cons]
        omega

theorem childIdxLe_le_length (keys : List Bytes) (k : Bytes) :
    childIdxLe keys k ≤ keys.length := by
  unfold childIdxLe
  cases hf : firstIdxWhere (fun s => keyLe k s) keys with
  | none => simp
  | some i =>
    have := firstIdxWhere_lt_length _ keys i hf
    simp only [Option.getD_some]
    omega

/-- Splitting a full, good Internal node at `b`: the left half keeps the
first `b` children and `b - 1` separators, the right half the rest; the
median separator `keys[b-1]` moves up, strictly below the upper bound. -/
theorem node_split_good (b : Nat) (hb : 2 ≤ b) {lo hi : Option Bytes}
    {ks : List Bytes} {cs : Forest}
    (hg : goodT b lo hi (.node ks cs) = true) (hfull : ks.length = 2 * b - 1) :
    ∃ m, ks.get? (b - 1) = some m ∧
      goodT b lo (some m) (.node (ks.take (b - 1)) (takeF b cs)) = true ∧
      goodT b (some m) hi (.node (ks.drop b) (dropF b cs)) = true ∧
      aboveLo lo m = true ∧ strictHi hi m = true ∧
      cellOk KEY_SIZE m = true := by
  rw [goodT, Bool.and_eq_true, Bool.and_eq_true, Bool.and_eq_true,
    Bool.and_eq_true] at hg
  obtain ⟨⟨⟨⟨hsort, hall⟩, hc1⟩, hc2⟩, hgf⟩ := hg
  rw [List.all_eq_true] at hall
  have hpw := sortedByKey_pairwise (fun s => s) ks hsort
  obtain ⟨m, hm⟩ : ∃ m, ks.get? (b - 1) = some m := by
    cases hq : ks.get? (b - 1) with
    | none => rw [List.get?_eq_none] at hq; omega
    | some m => exact ⟨m, rfl⟩
  have hmmem : m ∈ ks := List.mem_iff_get?.mpr ⟨_, hm⟩
  have hmall := hall m hmmem
  rw [Bool.and_eq_true, Bool.and_eq_true] at hmall
  obtain ⟨hmc, hma, hmb⟩ := hmall
  obtain ⟨lst, hlst⟩ : ∃ lst, ks.get? (2 * b - 2) = some lst := by
    cases hq : ks.get? (2 * b - 2) with
    | none => rw [List.get?_eq_none] at hq; omega
    | some lst => exact ⟨lst, rfl⟩
  have hlstmem : lst ∈ ks := List.mem_iff_get?.mpr ⟨_, hlst⟩
  have hmlst : keyLt m lst = true :=
    keyLt_iff.mpr (hpw (b - 1) (2 * b - 2) m lst (by omega) hm hlst)
  have hlstall := hall lst hlstmem
  rw [Bool.and_eq_true, Bool.and_eq_true] at hlstall
  obtain ⟨hsp1, hsp2⟩ := goodF_split b (b - 1) ks cs lo hi m hgf hm
  have hb1 : b - 1 + 1 = b := by omega
  rw [hb1] at hsp1 hsp2
  refine ⟨m, hm, ?_, ?_, hma, strictHi_trans hmlst hlstall.2.2, hmc⟩
  · rw [goodT, Bool.and_eq_true, Bool.and_eq_true, Bool.and_eq_true,
      Bool.and_eq_true]
    refine ⟨⟨⟨⟨sortedByKey_take _ _ _ hsort, ?_⟩, ?_⟩, ?_⟩, hsp1⟩
    · rw [List.all_eq_true]
      intro s hs
      obtain ⟨i, hin, hq⟩ := mem_take_get? hs
      have hsmem : s ∈ ks := List.mem_iff_get?.mpr ⟨_, hq⟩
      have hsall := hall s hsmem
      rw [Bool.and_eq_true, Bool.and_eq_true] at hsall
      rw [Bool.and_eq_true, Bool.and_eq_true]
      refine ⟨hsall.1, hsall.2.1, ?_⟩
      show keyLe s m = true
      exact keyLe_of_lt (keyLt_iff.mpr (hpw i (b - 1) s m (by omega) hq hm))
    · rw [decide_eq_true_eq, List.length_take]
      omega
    · rw [decide_eq_true_eq, List.length_take]
      omega
  · rw [goodT, Bool.and_eq_true, Bool.and_eq_true, Bool.and_eq_true,
      Bool.and_eq_true]
    refine ⟨⟨⟨⟨sortedByKey_drop _ _ _ hsort, ?_⟩, ?_⟩, ?_⟩, hsp2⟩
    · rw [List.all_eq_true]
      intro s hs
      obtain ⟨i, hq⟩ := mem_drop_get? hs
      have hsmem : s ∈ ks := List.mem_iff_get?.mpr ⟨_, hq⟩
      have hsall := hall s hsmem
      rw [Bool.and_eq_true, Bool.and_eq_true] at hsall
      rw [Bool.and_eq_true, Bool.and_eq_true]
      refine ⟨hsall.1, ?_, hsall.2.2⟩
      show keyLt m s = true
      exact keyLt_iff.mpr (hpw (b - 1) (b + i) m s (by omega) hm hq)
    · rw [decide_eq_true_eq, List.length_drop]
      omega
    · rw [decide_eq_true_eq, List.length_drop]
      omega

/-- Locate-and-rebuild package for the `≤`-descent child of a good
forest: the descent index lands on the unique child whose bounds contain
the key, and the invariant can be rebuilt after replacing that child
with any subtree good for the same bounds, or after splitting it into
two halves around a median. -/
theorem goodF_surgery (b : Nat) (k : Bytes) :
    ∀ (keys : List Bytes) (cs : Forest) (lo hi : Option Bytes),
      goodF b lo hi keys cs = true →
      sortedByKey (fun s => s) keys = true →
      (∀ s ∈ keys, aboveLo lo s = true) →
      (∀ s ∈ keys, belowHi hi s = true) →
      aboveLo lo k = true → belowHi hi k = true →
      ∃ o tj lo2 hi2,
        nthF cs (childIdxLe keys k) = some (o, tj) ∧
        goodT b lo2 hi2 tj = true ∧
        aboveLo lo2 k = true ∧ belowHi hi2 k = true ∧
        (∀ x, aboveLo lo2 x = true → aboveLo lo x = true) ∧
        (∀ x, belowHi hi2 x = true → belowHi hi x = true) ∧
        (∀ x, strictHi hi2 x = true → strictHi hi x = true) ∧
        (∀ t2, goodT b lo2 hi2 t2 = true →
          goodF b lo hi keys (replaceAtF (childIdxLe keys k) t2 cs) = true) ∧
        (∀ m so tl ts, goodT b lo2 (some m) tl = true →
          goodT b (some m) hi2 ts = true →
          aboveLo lo2 m = true → strictHi hi2 m = true →
          goodF b lo hi (List.insertIdx (childIdxLe keys k) m keys)
            (insertAtF (childIdxLe keys k + 1) so ts
              (replaceAtF (childIdxLe keys k) tl cs)) = true ∧
          sortedByKey (fun s => s)
            (List.insertIdx (childIdxLe keys k) m keys) = true) := by
  intro keys
  induction keys with
  | nil =>
    intro cs lo hi hg hsort habove hbelow hak hbk
    cases cs with
    | nil => unfold goodF at hg; cases hg
    | cons o t rest =>
      cases rest with
      | cons o2 t2 rest2 => unfold goodF at hg; cases hg
      | nil =>
        rw [goodF] at hg
        refine ⟨o, t, lo, hi, rfl, hg, hak, hbk,
          fun x hx => hx, fun x hx => hx, fun x hx => hx, ?_, ?_⟩
        · intro t2 ht2
          show goodF b lo hi [] (.cons o t2 .nil) = true
          rw [goodF]
          exact ht2
        · intro m so tl ts htl hts hma hms
          constructor
          · show goodF b lo hi [m] (.cons o tl (.cons so ts .nil)) = true
            rw [goodF, Bool.and_eq_true]
            refine ⟨htl, ?_⟩
            rw [goodF]
            exact hts
          · rfl
  | cons m0 krest ih =>
    intro cs lo hi hg hsort habove hbelow hak hbk
    cases cs with
    | nil => unfold goodF at hg; cases hg
    | cons o t rest =>
      rw [goodF, Bool.and_eq_true] at hg
      obtain ⟨h1, h2⟩ := hg
      have hm0above : aboveLo lo m0 = true := habove m0 (by simp)
      have hm0below : belowHi hi m0 = true := hbelow m0 (by simp)
      cases hkm : keyLe k m0 with
      | true =>
        rw [childIdxLe_cons_le krest hkm]
        refine ⟨o, t, lo, some m0, rfl, h1, hak, hkm, fun x hx => hx,
          ?_, ?_, ?_, ?_⟩
        · intro x hx
          exact belowHi_trans hx hm0below
        · intro x hx
          exact strictHi_trans hx hm0below
        · intro t2 ht2
          show goodF b lo hi (m0 :: krest) (.cons o t2 rest) = true
          rw [goodF, Bool.and_eq_true]
          exact ⟨ht2, h2⟩
        · intro m so tl ts htl hts hma hms
          constructor
          · show goodF b lo hi (m :: m0 :: krest)
              (.cons o tl (.cons so ts rest)) = true
            rw [goodF, Bool.and_eq_true]
            refine ⟨htl, ?_⟩
            rw [goodF, Bool.and_eq_true]
            exact ⟨hts, h2⟩
          · show sortedByKey (fun s => s) (m :: m0 :: krest) = true
            apply sortedByKey_cons_of
            · intro y hy
              rcases List.mem_cons.mp hy with h | h
              · rw [h]; exact hms
              · exact keyLt_trans hms
                  (keyLt_iff.mpr (sortedByKey_head_lt _ m0 krest hsort y h))
            · exact hsort
      | false =>
        rw [childIdxLe_cons_gt krest hkm]
        have hsort2 := sortedByKey_tail (fun s => s) m0 krest hsort
        have habove2 : ∀ s ∈ krest, aboveLo (some m0) s = true := by
          intro s hs
          exact keyLt_iff.mpr (sortedByKey_head_lt _ m0 krest hsort s hs)
        have hbelow2 : ∀ s ∈ krest, belowHi hi s = true := by
          intro s hs
          exact hbelow s (by simp [hs])
        have hak2 : aboveLo (some m0) k = true := keyLe_false_lt hkm
        obtain ⟨o2, tj, lo2, hi2, hnth, hgood, hak3, hbk3, hmonoA, hmonoB,
          hmonoS, hrepl, hsplit⟩ :=
          ih rest (some m0) hi h2 hsort2 habove2 hbelow2 hak2 hbk
        refine ⟨o2, tj, lo2, hi2, hnth, hgood, hak3, hbk3, ?_, hmonoB,
          hmonoS, ?_, ?_⟩
        · intro x hx
          exact aboveLo_trans hm0above (hmonoA x hx)
        · intro t2 ht2
          show goodF b lo hi (m0 :: krest)
            (.cons o t (replaceAtF (childIdxLe krest k) t2 rest)) = true
          rw [goodF, Bool.and_eq_true]
          exact ⟨h1, hrepl t2 ht2⟩
        · intro m so tl ts htl hts hma hms
          obtain ⟨hgf2, hsort3⟩ := hsplit m so tl ts htl hts hma hms
          constructor
          · show goodF b lo hi (m0 :: List.insertIdx (childIdxLe krest k) m krest)
              (.cons o t (insertAtF (childIdxLe krest k + 1) so ts
                (replaceAtF (childIdxLe krest k) tl rest))) = true
            rw [goodF, Bool.and_eq_true]
            exact ⟨h1, hgf2⟩
          · show sortedByKey (fun s => s)
              (m0 :: List.insertIdx (childIdxLe krest k) m krest) = true
            apply sortedByKey_cons_of
            · intro y hy
              rcases mem_insertIdx_or _ m krest y hy with h | h
              · rw [h]
                exact hmonoA m hma
              · exact keyLt_iff.mpr (sortedByKey_head_lt _ m0 krest hsort y h)
            · exact hsort3

theorem keyLe_false_of_lt {a b : Bytes} (h : keyLt b a = true) :
    keyLe a b = false := by
  rw [keyLt_iff] at h
  unfold keyLe
  have h2 := keyCmp_swap b a
  rw [h] at h2
  rw [h2]
  rfl

theorem memT_leaf_iff {kv : KeyValuePair} {ps : List KeyValuePair} :
    memT kv (.leaf ps) = true ↔ kv ∈ ps := by
  rw [memT, List.any_eq_true]
  constructor
  · rintro ⟨p, hp, hpe⟩
    rw [Bool.and_eq_true] at hpe
    have hk : p.key = kv.key := by
      have := hpe.1
      rwa [beq_iff_eq] at this
    have hv : p.value = kv.value := by
      have := hpe.2
      rwa [beq_iff_eq] at this
    have hpkv : p = kv := by
      obtain ⟨a, c⟩ := p
      obtain ⟨a2, c2⟩ := kv
      have hk2 : a = a2 := hk
      have hv2 : c = c2 := hv
      rw [hk2, hv2]
    rw [← hpkv]
    exact hp
  · intro h
    refine ⟨kv, h, ?_⟩
    rw [Bool.and_eq_true, beq_iff_eq, beq_iff_eq]
    exact ⟨rfl, rfl⟩

/-- What the in-memory node of a subtree root must look like. -/
def nodeFor (node : Node) : T → Prop
  | .leaf ps => node.node_type = .Leaf ps
  | .node ks cs => node.node_type = .Internal (forestOffsets cs) ks

/-- The child pages (not the root page) decode per the abstract tree. -/
def childrenDecode (f : File) : T → Prop
  | .leaf _ => True
  | .node _ cs => forestDecodes f cs = true

theorem treeDecodes_elim {f : File} {off : Nat} {t : T}
    (h : treeDecodes f off t = true) :
    ∃ pg node, Pager.get_page f off = .ok pg ∧ Node.from_page pg = .ok node ∧
      nodeFor node t ∧ childrenDecode f t := by
  cases t with
  | leaf ps =>
    rw [treeDecodes] at h
    cases hpg : Pager.get_page f off with
    | error e => rw [hpg] at h; cases h
    | ok pg =>
      simp only [hpg] at h
      cases hn : Node.from_page pg with
      | error e => rw [hn] at h; cases h
      | ok node =>
        rw [hn] at h
        rw [decide_eq_true_eq] at h
        exact ⟨pg, node, rfl, hn, h, trivial⟩
  | node ks cs =>
    rw [treeDecodes] at h
    cases hpg : Pager.get_page f off with
    | error e => rw [hpg] at h; cases h
    | ok pg =>
      simp only [hpg] at h
      cases hn : Node.from_page pg with
      | error e => rw [hn] at h; cases h
      | ok node =>
        rw [hn] at h
        rw [Bool.and_eq_true, Bool.and_eq_true, decide_eq_true_eq] at h
        exact ⟨pg, node, rfl, hn, h.1.1, h.2⟩

theorem forestDecodes_nth (f : File) :
    ∀ (j : Nat) (cs : Forest) (o : Nat) (t : T),
      nthF cs j = some (o, t) → forestDecodes f cs = true →
      treeDecodes f o t = true := by
  intro j
  induction j with
  | zero =>
    intro cs o t hn hd
    cases cs with
    | nil => cases hn
    | cons o2 t2 rest =>
      cases hn
      rw [forestDecodes, Bool.and_eq_true] at hd
      exact hd.1
  | succ j ih =>
    intro cs o t hn hd
    cases cs with
    | nil => cases hn
    | cons o2 t2 rest =>
      rw [forestDecodes, Bool.and_eq_true] at hd
      exact ih rest o t hn hd.2

/-- Any member pair's key lies within the bounds of a good subtree. -/
theorem mem_bounds_joint (b : Nat) (kv : KeyValuePair) :
    ∀ n : Nat,
      (∀ (t : T) (lo hi : Option Bytes), heightT t ≤ n → memT kv t = true →
        goodT b lo hi t = true →
        aboveLo lo kv.key = true ∧ belowHi hi kv.key = true) ∧
      (∀ (keys : List Bytes) (cs : Forest) (lo hi : Option Bytes),
        heightF cs ≤ n → memF kv cs = true →
        goodF b lo hi keys cs = true →
        sortedByKey (fun s => s) keys = true →
        (∀ s ∈ keys, aboveLo lo s = true) →
        (∀ s ∈ keys, belowHi hi s = true) →
        aboveLo lo kv.key = true ∧ belowHi hi kv.key = true) := by
  intro n
  induction n with
  | zero =>
    constructor
    · intro t lo hi hh
      have := heightT_pos t
      omega
    · intro keys cs lo hi hh hm hg hsort habove hbelow
      cases cs with
      | nil => rw [memF] at hm; cases hm
      | cons o t rest =>
        rw [heightF] at hh
        have := heightT_pos t
        omega
  | succ n ih =>
    obtain ⟨ihT, ihF⟩ := ih
    have hT : ∀ (t : T) (lo hi : Option Bytes), heightT t ≤ n + 1 →
        memT kv t = true → goodT b lo hi t = true →
        aboveLo lo kv.key = true ∧ belowHi hi kv.key = true := by
      intro t lo hi hh hm hg
      cases t with
      | leaf ps =>
        have hmem := memT_leaf_iff.mp hm
        rw [goodT, Bool.and_eq_true, Bool.and_eq_true] at hg
        obtain ⟨⟨_, hall⟩, _⟩ := hg
        rw [List.all_eq_true] at hall
        have := hall kv hmem
        rw [Bool.and_eq_true, Bool.and_eq_true, Bool.and_eq_true] at this
        exact this.2
      | node ks cs =>
        rw [memT] at hm
        rw [goodT, Bool.and_eq_true, Bool.and_eq_true, Bool.and_eq_true,
          Bool.and_eq_true] at hg
        obtain ⟨⟨⟨⟨hsort, hall⟩, _⟩, _⟩, hgf⟩ := hg
        rw [List.all_eq_true] at hall
        rw [heightT] at hh
        refine ihF ks cs lo hi (by omega) hm hgf hsort ?_ ?_
        · intro s hs
          have := hall s hs
          rw [Bool.and_eq_true, Bool.and_eq_true] at this
          exact this.2.1
        · intro s hs
          have := hall s hs
          rw [Bool.and_eq_true, Bool.and_eq_true] at this
          exact this.2.2
    refine ⟨hT, ?_⟩
    intro keys
    induction keys with
    | nil =>
      intro cs lo hi hh hm hg hsort habove hbelow
      cases cs with
      | nil => rw [memF] at hm; cases hm
      | cons o t rest =>
        cases rest with
        | cons o2 t2 rest2 => unfold goodF at hg; cases hg
        | nil =>
          rw [goodF] at hg
          rw [memF] at hm
          rw [Bool.or_eq_true] at hm
          rcases hm with hm | hm
          · exact hT t lo hi (by rw [heightF] at hh; omega) hm hg
          · rw [memF] at hm; cases hm
    | cons m0 krest ihk =>
      intro cs lo hi hh hm hg hsort habove hbelow
      cases cs with
      | nil => rw [memF] at hm; cases hm
      | cons o t rest =>
        rw [goodF, Bool.and_eq_true] at hg
        obtain ⟨h1, h2⟩ := hg
        rw [memF, Bool.or_eq_true] at hm
        have hm0above : aboveLo lo m0 = true := habove m0 (by simp)
        have hm0below : belowHi hi m0 = true := hbelow m0 (by simp)
        rw [heightF] at hh
        rcases hm with hm | hm
        · obtain ⟨ha, hb⟩ := hT t lo (some m0) (by omega) hm h1
          exact ⟨ha, belowHi_trans hb hm0below⟩
        · obtain ⟨ha, hb⟩ := ihk rest (some m0) hi (by omega) hm h2
            (sortedByKey_tail _ _ _ hsort)
            (fun s hs => keyLt_iff.mpr (sortedByKey_head_lt _ m0 krest hsort s hs))
            (fun s hs => hbelow s (by simp [hs]))
          exact ⟨aboveLo_trans hm0above ha, hb⟩

/-- The `≤`-descent index is exactly the child containing the member
pair, with its bounds and decode. -/
theorem forest_locate_mem (b : Nat) (kv : KeyValuePair) :
    ∀ (keys : List Bytes) (cs : Forest) (lo hi : Option Bytes),
      goodF b lo hi keys cs = true →
      sortedByKey (fun s => s) keys = true →
      (∀ s ∈ keys, aboveLo lo s = true) →
      (∀ s ∈ keys, belowHi hi s = true) →
      memF kv cs = true →
      ∃ o tj lo2 hi2, nthF cs (childIdxLe keys kv.key) = some (o, tj) ∧
        memT kv tj = true ∧ goodT b lo2 hi2 tj = true ∧
        heightT tj ≤ heightF cs := by
  intro keys
  induction keys with
  | nil =>
    intro cs lo hi hg hsort habove hbelow hm
    cases cs with
    | nil => rw [memF] at hm; cases hm
    | cons o t rest =>
      cases rest with
      | cons o2 t2 rest2 => unfold goodF at hg; cases hg
      | nil =>
        rw [goodF] at hg
        rw [memF, Bool.or_eq_true] at hm
        rcases hm with hm | hm
        · exact ⟨o, t, lo, hi, rfl, hm, hg, by rw [heightF]; omega⟩
        · rw [memF] at hm; cases hm
  | cons m0 krest ihk =>
    intro cs lo hi hg hsort habove hbelow hm
    cases cs with
    | nil => rw [memF] at hm; cases hm
    | cons o t rest =>
      rw [goodF, Bool.and_eq_true] at hg
      obtain ⟨h1, h2⟩ := hg
      rw [memF, Bool.or_eq_true] at hm
      rcases hm with hm | hm
      · have hb := ((mem_bounds_joint b kv (heightT t)).1 t lo (some m0)
          (le_refl _) hm h1).2
        rw [childIdxLe_cons_le krest hb]
        exact ⟨o, t, lo, some m0, rfl, hm, h1, by rw [heightF]; omega⟩
      · have ha := ((mem_bounds_joint b kv (heightF rest)).2 krest rest
          (some m0) hi (le_refl _) hm h2 (sortedByKey_tail _ _ _ hsort)
          (fun s hs => keyLt_iff.mpr (sortedByKey_head_lt _ m0 krest hsort s hs))
          (fun s hs => hbelow s (by simp [hs]))).1
        rw [childIdxLe_cons_gt krest (keyLe_false_of_lt ha)]
        obtain ⟨o2, tj, lo2, hi2, hn, hmem, hgood, hht⟩ := ihk rest (some m0) hi
          h2 (sortedByKey_tail _ _ _ hsort)
          (fun s hs => keyLt_iff.mpr (sortedByKey_head_lt _ m0 krest hsort s hs))
          (fun s hs => hbelow s (by simp [hs])) hm
        exact ⟨o2, tj, lo2, hi2, hn, hmem, hgood, by rw [heightF]; omega⟩

/-- The source's search starting from an in-memory node matching a good
subtree finds any member pair exactly. -/
theorem search_node_finds (b : Nat) :
    ∀ (n : Nat) (t : T) (f : File) (node : Node) (lo hi : Option Bytes)
      (kv : KeyValuePair) (fuel : Nat),
      heightT t ≤ n → heightT t ≤ fuel →
      nodeFor node t → childrenDecode f t →
      goodT b lo hi t = true → memT kv t = true →
      BTree.search_node f fuel node kv.key = some (.ok kv) := by
  intro n
  induction n with
  | zero =>
    intro t f node lo hi kv fuel hh
    have := heightT_pos t
    omega
  | succ n ih =>
    intro t f node lo hi kv fuel hh hfuel hmatch hcdec hgood hmem
    cases fuel with
    | zero => have := heightT_pos t; omega
    | succ fuel =>
      cases t with
      | leaf ps =>
        have hnt : node.node_type = .Leaf ps := hmatch
        have hnode : node = Node.new (.Leaf ps) node.is_root node.parent_offset := by
          obtain ⟨nt, ir, po⟩ := node
          have hnt2 : nt = .Leaf ps := hnt
          rw [hnt2]
          rfl
        rw [goodT, Bool.and_eq_true, Bool.and_eq_true] at hgood
        obtain ⟨⟨hsort, _⟩, _⟩ := hgood
        rw [hnode]
        exact search_node_leaf_found f fuel ps node.is_root node.parent_offset
          kv kv.key (sortedByKey_pairwise _ ps hsort) (memT_leaf_iff.mp hmem) rfl
      | node ks cs =>
        have hnt : node.node_type = .Internal (forestOffsets cs) ks := hmatch
        have hfdec : forestDecodes f cs = true := hcdec
        rw [goodT, Bool.and_eq_true, Bool.and_eq_true, Bool.and_eq_true,
          Bool.and_eq_true] at hgood
        obtain ⟨⟨⟨⟨hsort, hall⟩, _⟩, _⟩, hgf⟩ := hgood
        rw [List.all_eq_true] at hall
        have habove : ∀ s ∈ ks, aboveLo lo s = true := by
          intro s hs
          have := hall s hs
          rw [Bool.and_eq_true, Bool.and_eq_true] at this
          exact this.2.1
        have hbelow : ∀ s ∈ ks, belowHi hi s = true := by
          intro s hs
          have := hall s hs
          rw [Bool.and_eq_true, Bool.and_eq_true] at this
          exact this.2.2
        rw [memT] at hmem
        obtain ⟨co, tj, lo2, hi2, hnth, hmemj, hgoodj, hhtj⟩ :=
          forest_locate_mem b kv ks cs lo hi hgf hsort habove hbelow hmem
        have hco := nthF_forestOffsets cs _ co tj hnth
        have htd := forestDecodes_nth f _ cs co tj hnth hfdec
        obtain ⟨pg, child, hpg, hfp, hmatch2, hcdec2⟩ := treeDecodes_elim htd
        rw [heightT] at hh hfuel
        show BTree.search_node f (fuel + 1) node kv.key = some (.ok kv)
        rw [BTree.search_node]
        simp only [hnt]
        rw [searchIdx_eq_childIdxLe ks kv.key (sortedByKey_pairwise _ ks hsort)]
        rw [hco]
        simp only [hpg, hfp]
        exact ih tj f child lo2 hi2 kv fuel (by omega) (by omega) hmatch2
          hcdec2 hgoodj hmemj

/-- `BTree::search` finds any member pair of a good decoded tree. -/
theorem search_finds (b : Nat) (t : T) (f : File) (off : Nat)
    (lo hi : Option Bytes) (kv : KeyValuePair) (fuel : Nat)
    (hfuel : heightT t ≤ fuel) (hdec : treeDecodes f off t = true)
    (hgood : goodT b lo hi t = true) (hmem : memT kv t = true) :
    BTree.search f off fuel kv.key = some (.ok kv) := by
  obtain ⟨pg, node, hpg, hfp, hmatch, hcdec⟩ := treeDecodes_elim hdec
  unfold BTree.search
  simp only [hpg, hfp]
  exact search_node_finds b (heightT t) t f node lo hi kv fuel (le_refl _)
    hfuel hmatch hcdec hgood hmem

theorem get?_set_self {α : Type} :
    ∀ (l : List α) (i : Nat) (a : α), i < l.length →
    (l.set i a).get? i = some a := by
  intro l
  induction l with
  | nil => intro i a h; simp at h
  | cons x xs ih =>
    intro i a h
    cases i with
    | zero => rfl
    | succ j => exact ih j a (Nat.lt_of_succ_lt_succ h)

theorem get?_set_ne {α : Type} :
    ∀ (l : List α) (i j : Nat) (a : α), i ≠ j →
    (l.set i a).get? j = l.get? j := by
  intro l
  induction l with
  | nil => intro i j a h; rfl
  | cons x xs ih =>
    intro i j a h
    cases i with
    | zero =>
      cases j with
      | zero => exact absurd rfl h
      | succ j2 => rfl
    | succ i2 =>
      cases j with
      | zero => rfl
      | succ j2 => exact ih i2 j2 a (fun hc => h (by rw [hc]))

theorem get?_append_left {α : Type} :
    ∀ (l1 l2 : List α) (i : Nat), i < l1.length →
    (l1 ++ l2).get? i = l1.get? i := by
  intro l1
  induction l1 with
  | nil => intro l2 i h; simp at h
  | cons x xs ih =>
    intro l2 i h
    cases i with
    | zero => rfl
    | succ j => exact ih l2 j (Nat.lt_of_succ_lt_succ h)

theorem get?_append_at {α : Type} :
    ∀ (l1 : List α) (a : α), (l1 ++ [a]).get? l1.length = some a := by
  intro l1 a
  induction l1 with
  | nil => rfl
  | cons x xs ih => exact ih

theorem get_page_set_self {f : File} {p : Page} {off : Nat}
    (hmod : off % PAGE_SIZE = 0) (hlt : off / PAGE_SIZE < f.length) :
    Pager.get_page (f.set (off / PAGE_SIZE) p) off = .ok p := by
  unfold Pager.get_page
  rw [if_pos (by rw [hmod]; rfl)]
  rw [get?_set_self f _ p hlt]

theorem get_page_set_ne {f : File} {p : Page} {i o : Nat}
    (hne : i ≠ o / PAGE_SIZE) :
    Pager.get_page (f.set i p) o = Pager.get_page f o := by
  unfold Pager.get_page
  rw [get?_set_ne f i (o / PAGE_SIZE) p hne]

theorem get_page_append_at {f : File} {p : Page} :
    Pager.get_page (f ++ [p]) (PAGE_SIZE * f.length) = .ok p := by
  unfold Pager.get_page
  rw [if_pos (by rw [Nat.mul_mod_right]; rfl)]
  rw [Nat.mul_div_cancel_left _ (by decide : 0 < PAGE_SIZE)]
  rw [get?_append_at]

theorem get_page_append_ne {f : File} {p : Page} {o : Nat}
    (hlt : o / PAGE_SIZE < f.length) :
    Pager.get_page (f ++ [p]) o = Pager.get_page f o := by
  unfold Pager.get_page
  rw [get?_append_left f [p] _ hlt]

/-- Decoding a subtree only looks at the pages at its offsets: a file
agreeing there decodes it identically. -/
theorem treeDecodes_frame :
    ∀ (n : Nat) (t : T) (off : Nat) (f f' : File),
      heightT t ≤ n →
      Pager.get_page f' off = Pager.get_page f off →
      (∀ o ∈ offsT t, Pager.get_page f' o = Pager.get_page f o) →
      treeDecodes f off t = true → treeDecodes f' off t = true := by
  intro n
  induction n with
  | zero =>
    intro t off f f' hh _ _ _
    have := heightT_pos t
    omega
  | succ n ih =>
    intro t off f f' hh hroot hsub hdec
    cases t with
    | leaf ps =>
      rw [treeDecodes] at hdec ⊢
      rw [hroot]
      exact hdec
    | node ks cs =>
      rw [treeDecodes] at hdec ⊢
      rw [hroot]
      cases hpg : Pager.get_page f off with
      | error e => rw [hpg] at hdec; cases hdec
      | ok pg =>
        simp only [hpg] at hdec ⊢
        cases hn : Node.from_page pg with
        | error e => rw [hn] at hdec; cases hdec
        | ok node =>
          simp only [hn] at hdec ⊢
          rw [Bool.and_eq_true, Bool.and_eq_true] at hdec ⊢
          obtain ⟨⟨hd1, hd2⟩, hd3⟩ := hdec
          refine ⟨⟨hd1, hd2⟩, ?_⟩
          have hsub2 : ∀ o ∈ offsF cs,
              Pager.get_page f' o = Pager.get_page f o := hsub
          rw [heightT] at hh
          have hF : ∀ cs2, heightF cs2 ≤ n →
              (∀ o ∈ offsF cs2, Pager.get_page f' o = Pager.get_page f o) →
              forestDecodes f cs2 = true → forestDecodes f' cs2 = true := by
            intro cs2
            induction cs2 using forest_ind with
            | h1 => intro _ _ _; rfl
            | h2 o2 t2 rest ihr =>
              intro hh2 hsub3 hdec2
              rw [forestDecodes, Bool.and_eq_true] at hdec2 ⊢
              rw [heightF] at hh2
              refine ⟨?_, ?_⟩
              · refine ih t2 o2 f f' (by omega) ?_ ?_ hdec2.1
                · exact hsub3 o2
                    (by show o2 ∈ (o2 :: offsT t2) ++ offsF rest; simp)
                · intro o3 ho3
                  exact hsub3 o3
                    (by show o3 ∈ (o2 :: offsT t2) ++ offsF rest; simp [ho3])
              · refine ihr (by omega) ?_ hdec2.2
                intro o3 ho3
                exact hsub3 o3
                  (by show o3 ∈ (o2 :: offsT t2) ++ offsF rest; simp [ho3])
          exact hF cs (by omega) hsub2 hd3

theorem forestDecodes_of_nth (f : File) :
    ∀ (cs : Forest),
      (∀ i oi ti, nthF cs i = some (oi, ti) → treeDecodes f oi ti = true) →
      forestDecodes f cs = true := by
  intro cs
  induction cs using forest_ind with
  | h1 => intro _; rfl
  | h2 o t rest ih =>
    intro h
    rw [forestDecodes, Bool.and_eq_true]
    exact ⟨h 0 o t rfl, ih (fun i oi ti hi => h (i + 1) oi ti hi)⟩

theorem forestDecodes_insertAtF (f : File) :
    ∀ (j : Nat) (o1 : Nat) (t1 : T) (cs : Forest),
      forestDecodes f cs = true → treeDecodes f o1 t1 = true →
      forestDecodes f (insertAtF j o1 t1 cs) = true := by
  intro j
  induction j with
  | zero =>
    intro o1 t1 cs h1 h2
    show forestDecodes f (.cons o1 t1 cs) = true
    rw [forestDecodes, Bool.and_eq_true]
    exact ⟨h2, h1⟩
  | succ j ih =>
    intro o1 t1 cs h1 h2
    cases cs with
    | nil => rfl
    | cons o t rest =>
      rw [forestDecodes, Bool.and_eq_true] at h1
      show forestDecodes f (.cons o t (insertAtF j o1 t1 rest)) = true
      rw [forestDecodes, Bool.and_eq_true]
      exact ⟨h1.1, ih o1 t1 rest h1.2 h2⟩

theorem nthF_replaceAtF_ne :
    ∀ (j i : Nat) (t' : T) (cs : Forest), i ≠ j →
      nthF (replaceAtF j t' cs) i = nthF cs i := by
  intro j
  induction j with
  | zero =>
    intro i t' cs hne
    cases cs with
    | nil => rfl
    | cons o t rest =>
      cases i with
      | zero => exact absurd rfl hne
      | succ i2 => rfl
  | succ j ih =>
    intro i t' cs hne
    cases cs with
    | nil => rfl
    | cons o t rest =>
      cases i with
      | zero => rfl
      | succ i2 => exact ih i2 t' rest (fun hc => hne (by rw [hc]))

theorem nthF_replaceAtF_eq :
    ∀ (j : Nat) (t' : T) (cs : Forest) (oj : Nat) (tj : T),
      nthF cs j = some (oj, tj) →
      nthF (replaceAtF j t' cs) j = some (oj, t') := by
  intro j
  induction j with
  | zero =>
    intro t' cs oj tj hn
    cases cs with
    | nil => cases hn
    | cons o t rest => cases hn; rfl
  | succ j ih =>
    intro t' cs oj tj hn
    cases cs with
    | nil => cases hn
    | cons o t rest => exact ih t' rest oj tj hn

theorem mem_offsF_replaceAtF :
    ∀ (j : Nat) (t' : T) (cs : Forest) (x : Nat),
      x ∈ offsF (replaceAtF j t' cs) → x ∈ offsF cs ∨ x ∈ offsT t' := by
  intro j
  induction j with
  | zero =>
    intro t' cs x hx
    cases cs with
    | nil => cases hx
    | cons o t rest =>
      have hx2 : x ∈ (o :: offsT t') ++ offsF rest := hx
      rw [List.mem_append, List.mem_cons] at hx2
      rcases hx2 with (h | h) | h
      · exact Or.inl (by show x ∈ (o :: offsT t) ++ offsF rest; simp [h])
      · exact Or.inr h
      · exact Or.inl (by show x ∈ (o :: offsT t) ++ offsF rest; simp [h])
  | succ j ih =>
    intro t' cs x hx
    cases cs with
    | nil => cases hx
    | cons o t rest =>
      have hx2 : x ∈ (o :: offsT t) ++ offsF (replaceAtF j t' rest) := hx
      rw [List.mem_append] at hx2
      rcases hx2 with h | h
      · exact Or.inl (by show x ∈ (o :: offsT t) ++ offsF rest; simp at h ⊢; tauto)
      · rcases ih t' rest x h with h2 | h2
        · exact Or.inl (by show x ∈ (o :: offsT t) ++ offsF rest; simp [h2])
        · exact Or.inr h2

theorem mem_offsF_insertAtF :
    ∀ (j : Nat) (o1 : Nat) (t1 : T) (cs : Forest) (x : Nat),
      x ∈ offsF (insertAtF j o1 t1 cs) →
      x = o1 ∨ x ∈ offsT t1 ∨ x ∈ offsF cs := by
  intro j
  induction j with
  | zero =>
    intro o1 t1 cs x hx
    have hx2 : x ∈ (o1 :: offsT t1) ++ offsF cs := hx
    rw [List.mem_append, List.mem_cons] at hx2
    tauto
  | succ j ih =>
    intro o1 t1 cs x hx
    cases cs with
    | nil => cases hx
    | cons o t rest =>
      have hx2 : x ∈ (o :: offsT t) ++ offsF (insertAtF j o1 t1 rest) := hx
      rw [List.mem_append] at hx2
      rcases hx2 with h | h
      · exact Or.inr (Or.inr (by show x ∈ (o :: offsT t) ++ offsF rest; simp at h ⊢; tauto))
      · rcases ih o1 t1 rest x h with h2 | h2 | h2
        · exact Or.inl h2
        · exact Or.inr (Or.inl h2)
        · exact Or.inr (Or.inr (by show x ∈ (o :: offsT t) ++ offsF rest; simp [h2]))

theorem nthF_block_nodup :
    ∀ (j : Nat) (cs : Forest) (oj : Nat) (tj : T),
      nthF cs j = some (oj, tj) → (offsF cs).Nodup →
      (oj :: offsT tj).Nodup := by
  intro j
  induction j with
  | zero =>
    intro cs oj tj hn hd
    cases cs with
    | nil => cases hn
    | cons o t rest =>
      cases hn
      have hd2 : ((oj :: offsT tj) ++ offsF rest).Nodup := hd
      rw [List.nodup_append] at hd2
      exact hd2.1
  | succ j ih =>
    intro cs oj tj hn hd
    cases cs with
    | nil => cases hn
    | cons o t rest =>
      have hd2 : ((o :: offsT t) ++ offsF rest).Nodup := hd
      rw [List.nodup_append] at hd2
      exact ih rest oj tj hn hd2.2.1

theorem nodup_offsF_replace (N : Nat) :
    ∀ (j : Nat) (cs : Forest) (oj : Nat) (tj : T) (tl : T),
      nthF cs j = some (oj, tj) → (offsF cs).Nodup →
      (∀ x ∈ offsF cs, x < N) →
      (oj :: offsT tl).Nodup →
      (∀ x ∈ offsT tl, x ∈ offsT tj ∨ N ≤ x) →
      (offsF (replaceAtF j tl cs)).Nodup := by
  intro j
  induction j with
  | zero =>
    intro cs oj tj tl hn hd hbnd hnew hsub
    cases cs with
    | nil => cases hn
    | cons o t rest =>
      cases hn
      show ((oj :: offsT tl) ++ offsF rest).Nodup
      rw [List.nodup_append]
      have hd2 : ((oj :: offsT tj) ++ offsF rest).Nodup := hd
      rw [List.nodup_append] at hd2
      refine ⟨hnew, hd2.2.1, ?_⟩
      intro x hx1 hx2
      rcases List.mem_cons.mp hx1 with h | h
      · exact hd2.2.2 (by rw [h]; exact List.mem_cons_self _ _) hx2
      · rcases hsub x h with h2 | h2
        · exact hd2.2.2 (by simp [h2]) hx2
        · have := hbnd x
            (by show x ∈ (oj :: offsT tj) ++ offsF rest; simp [hx2])
          omega
  | succ j ih =>
    intro cs oj tj tl hn hd hbnd hnew hsub
    cases cs with
    | nil => cases hn
    | cons o t rest =>
      show ((o :: offsT t) ++ offsF (replaceAtF j tl rest)).Nodup
      rw [List.nodup_append]
      have hd2 : ((o :: offsT t) ++ offsF rest).Nodup := hd
      rw [List.nodup_append] at hd2
      refine ⟨hd2.1, ih rest oj tj tl hn hd2.2.1
        (fun x hx => hbnd x
          (by show x ∈ (o :: offsT t) ++ offsF rest; simp [hx]))
        hnew hsub, ?_⟩
      intro x hx1 hx2
      rcases mem_offsF_replaceAtF j tl rest x hx2 with h | h
      · exact hd2.2.2 hx1 h
      · rcases hsub x h with h2 | h2
        · exact hd2.2.2 hx1 ((mem_offsF_nthF rest j oj tj hn).2 x h2)
        · have := hbnd x
            (by show x ∈ (o :: offsT t) ++ offsF rest
                exact List.mem_append.mpr (Or.inl hx1))
          omega

theorem nodup_offsF_split (N : Nat) :
    ∀ (j : Nat) (cs : Forest) (oj : Nat) (tj : T) (so : Nat) (tl ts : T),
      nthF cs j = some (oj, tj) → (offsF cs).Nodup →
      (∀ x ∈ offsF cs, x < N) →
      (oj :: offsT tl).Nodup →
      (so :: offsT ts).Nodup →
      (∀ x, x ∈ oj :: offsT tl → x ∉ so :: offsT ts) →
      (∀ x ∈ offsT tl, x ∈ offsT tj ∨ N ≤ x) →
      (∀ x ∈ offsT ts, x ∈ offsT tj ∨ N ≤ x) →
      N ≤ so →
      (offsF (insertAtF (j + 1) so ts (replaceAtF j tl cs))).Nodup := by
  intro j
  induction j with
  | zero =>
    intro cs oj tj so tl ts hn hd hbnd hnl hns hdisj hsubl hsubs hso
    cases cs with
    | nil => cases hn
    | cons o t rest =>
      cases hn
      show ((oj :: offsT tl) ++ ((so :: offsT ts) ++ offsF rest)).Nodup
      have hd2 : ((oj :: offsT tj) ++ offsF rest).Nodup := hd
      rw [List.nodup_append] at hd2
      rw [List.nodup_append]
      refine ⟨hnl, ?_, ?_⟩
      · rw [List.nodup_append]
        refine ⟨hns, hd2.2.1, ?_⟩
        intro x hx1 hx2
        rcases List.mem_cons.mp hx1 with h | h
        · have := hbnd x
            (by show x ∈ (oj :: offsT tj) ++ offsF rest; simp [hx2])
          omega
        · rcases hsubs x h with h2 | h2
          · exact hd2.2.2 (by simp [h2]) hx2
          · have := hbnd x
              (by show x ∈ (oj :: offsT tj) ++ offsF rest; simp [hx2])
            omega
      · intro x hx1 hx2
        rw [List.mem_append] at hx2
        rcases hx2 with h | h
        · exact hdisj x hx1 h
        · rcases List.mem_cons.mp hx1 with h3 | h3
          · exact hd2.2.2 (by rw [h3]; exact List.mem_cons_self _ _) h
          · rcases hsubl x h3 with h2 | h2
            · exact hd2.2.2 (by simp [h2]) h
            · have := hbnd x
                (by show x ∈ (oj :: offsT tj) ++ offsF rest; simp [h])
              omega
  | succ j ih =>
    intro cs oj tj so tl ts hn hd hbnd hnl hns hdisj hsubl hsubs hso
    cases cs with
    | nil => cases hn
    | cons o t rest =>
      show ((o :: offsT t) ++
        offsF (insertAtF (j + 1) so ts (replaceAtF j tl rest))).Nodup
      have hd2 : ((o :: offsT t) ++ offsF rest).Nodup := hd
      rw [List.nodup_append] at hd2
      rw [List.nodup_append]
      refine ⟨hd2.1, ih rest oj tj so tl ts hn hd2.2.1
        (fun x hx => hbnd x
          (by show x ∈ (o :: offsT t) ++ offsF rest; simp [hx]))
        hnl hns hdisj hsubl hsubs hso, ?_⟩
      intro x hx1 hx2
      have hxblock : x ∈ offsF (Forest.cons o t rest) := by
        show x ∈ (o :: offsT t) ++ offsF rest
        exact List.mem_append.mpr (Or.inl hx1)
      have hxlt : x < N := hbnd x hxblock
      rcases mem_offsF_insertAtF (j + 1) so ts _ x hx2 with h | h | h
      · omega
      · rcases hsubs x h with h2 | h2
        · exact hd2.2.2 hx1 ((mem_offsF_nthF rest j oj tj hn).2 x h2)
        · omega
      · rcases mem_offsF_replaceAtF j tl rest x h with h3 | h3
        · exact hd2.2.2 hx1 h3
        · rcases hsubl x h3 with h2 | h2
          · exact hd2.2.2 hx1 ((mem_offsF_nthF rest j oj tj hn).2 x h2)
          · omega

/-- Serializing a Leaf node with in-cap cells succeeds and its page
decodes back to exactly the same pairs. -/
theorem try_from_decode_leaf {node : Node} {ps : List KeyValuePair}
    (hnt : node.node_type = .Leaf ps)
    (hcell : ∀ p ∈ ps, p.key.length ≤ KEY_SIZE ∧ noTrailingZero p.key = true ∧
      p.value.length ≤ VALUE_SIZE ∧ noTrailingZero p.value = true)
    (hcount : ps.length < 2 ^ 64)
    (hpar : node.is_root = true ∨ ∃ q, node.parent_offset = some q) :
    ∃ pg, Page.try_from node = .ok pg ∧
      ∃ n2, Node.from_page pg = .ok n2 ∧ n2.node_type = .Leaf ps ∧
        n2.is_root = node.is_root := by
  obtain ⟨cells, hok, hclen, hread⟩ := serializePairs_spec ps hcell
  have hpb : ∃ pb, pb.length = PTR_SIZE ∧
      (if node.is_root = true then Except.ok (List.replicate PTR_SIZE 0)
       else
         match node.parent_offset with
         | some q => Except.ok (toBE PTR_SIZE q)
         | none => Except.error Error.UnexpectedError) = Except.ok pb := by
    cases hr : node.is_root with
    | true => exact ⟨List.replicate PTR_SIZE 0, by simp, by simp⟩
    | false =>
      rcases hpar with h | ⟨q, hq⟩
      · rw [hr] at h; cases h
      · refine ⟨toBE PTR_SIZE q, toBE_length _ _, ?_⟩
        rw [hq]
        simp
  obtain ⟨pb, hpbl, hpbE⟩ := hpb
  cases htf : Page.try_from node with
  | error e =>
    unfold Page.try_from at htf
    rw [hpbE] at htf
    simp only [hnt] at htf
    rw [hok] at htf
    cases htf
  | ok pg =>
    refine ⟨pg, rfl, ?_⟩
    unfold Page.try_from at htf
    rw [hpbE] at htf
    simp only [hnt] at htf
    rw [hok] at htf
    simp only [NodeType.toByte] at htf
    cases htf
    have hassoc :
        pb ++ toBE PTR_SIZE ps.length ++ cells ++
            List.replicate (PAGE_SIZE - (2 + PTR_SIZE + PTR_SIZE +
              cells.length)) 0 =
          pb ++ (toBE PTR_SIZE ps.length ++ (cells ++
            List.replicate (PAGE_SIZE - (2 + PTR_SIZE + PTR_SIZE +
              cells.length)) 0)) := by
      simp [List.append_assoc]
    rw [hassoc]
    have hlt2 : ps.length < 256 ^ PTR_SIZE := by
      have h2 : (256 : Nat) ^ PTR_SIZE = 2 ^ 64 := by norm_num [PTR_SIZE]
      omega
    rw [from_page_shape_leaf _ pb ps.length cells _ hpbl hlt2]
    rw [hread]
    refine ⟨_, rfl, rfl, ?_⟩
    cases hr : node.is_root <;> rfl

/-- Serializing an Internal node with in-cap separators, `usize` offsets
and `|children| = |separators| + 1` succeeds and its page decodes back
to exactly the same offsets and separators. -/
theorem try_from_decode_internal {node : Node} {cs : List Nat}
    {ks : List Bytes}
    (hnt : node.node_type = .Internal cs ks)
    (hcell : ∀ s ∈ ks, s.length ≤ KEY_SIZE ∧ noTrailingZero s = true)
    (hoffs : ∀ o ∈ cs, o < 2 ^ 64)
    (hcount : cs.length < 2 ^ 64)
    (harity : cs.length = ks.length + 1)
    (hpar : node.is_root = true ∨ ∃ q, node.parent_offset = some q) :
    ∃ pg, Page.try_from node = .ok pg ∧
      ∃ n2, Node.from_page pg = .ok n2 ∧ n2.node_type = .Internal cs ks ∧
        n2.is_root = node.is_root := by
  obtain ⟨kbs, hok, hklen, hread⟩ := serializeKeys_spec ks hcell
  have hpb : ∃ pb, pb.length = PTR_SIZE ∧
      (if node.is_root = true then Except.ok (List.replicate PTR_SIZE 0)
       else
         match node.parent_offset with
         | some q => Except.ok (toBE PTR_SIZE q)
         | none => Except.error Error.UnexpectedError) = Except.ok pb := by
    cases hr : node.is_root with
    | true => exact ⟨List.replicate PTR_SIZE 0, by simp, by simp⟩
    | false =>
      rcases hpar with h | ⟨q, hq⟩
      · rw [hr] at h; cases h
      · refine ⟨toBE PTR_SIZE q, toBE_length _ _, ?_⟩
        rw [hq]
        simp
  obtain ⟨pb, hpbl, hpbE⟩ := hpb
  cases htf : Page.try_from node with
  | error e =>
    unfold Page.try_from at htf
    rw [hpbE] at htf
    simp only [hnt] at htf
    rw [hok] at htf
    cases htf
  | ok pg =>
    refine ⟨pg, rfl, ?_⟩
    unfold Page.try_from at htf
    rw [hpbE] at htf
    simp only [hnt] at htf
    rw [hok] at htf
    simp only [NodeType.toByte] at htf
    cases htf
    have hassoc :
        pb ++ toBE PTR_SIZE cs.length ++ (serializeOffsets cs ++ kbs) ++
            List.replicate (PAGE_SIZE - (2 + PTR_SIZE + PTR_SIZE +
              (serializeOffsets cs ++ kbs).length)) 0 =
          pb ++ (toBE PTR_SIZE cs.length ++ (serializeOffsets cs ++ (kbs ++
            List.replicate (PAGE_SIZE - (2 + PTR_SIZE + PTR_SIZE +
              (serializeOffsets cs ++ kbs).length)) 0))) := by
      simp [List.append_assoc]
    rw [hassoc]
    have hlt2 : cs.length < 256 ^ PTR_SIZE := by
      have h2 : (256 : Nat) ^ PTR_SIZE = 2 ^ 64 := by norm_num [PTR_SIZE]
      omega
    rw [from_page_shape_internal _ pb cs.length (serializeOffsets cs) kbs _
      hpbl hlt2 (serializeOffsets_length cs)]
    rw [readOffsets_serialize cs hoffs]
    have hc1 : cs.length - 1 = ks.length := by omega
    rw [hc1, hread]
    refine ⟨_, rfl, rfl, ?_⟩
    cases hr : node.is_root <;> rfl

/-- An in-range aligned overwrite succeeds and sets the page slot. -/
theorem write_page_at_offset_ok {f : File} {p : Page} {off : Nat}
    (hmod : off % PAGE_SIZE = 0) (hlt : off / PAGE_SIZE < f.length) :
    Pager.write_page_at_offset f p off = .ok (f.set (off / PAGE_SIZE) p) := by
  unfold Pager.write_page_at_offset
  rw [if_pos (by rw [hmod]; rfl), if_pos hlt]

theorem aligned_div_ne {o off : Nat} (h1 : o % PAGE_SIZE = 0)
    (h2 : off % PAGE_SIZE = 0) (hne : o ≠ off) :
    o / PAGE_SIZE ≠ off / PAGE_SIZE := by
  intro hc
  apply hne
  rw [← Nat.div_mul_cancel (Nat.dvd_of_mod_eq_zero h1),
    ← Nat.div_mul_cancel (Nat.dvd_of_mod_eq_zero h2), hc]

theorem aligned_lt {o L : Nat} (h1 : o % PAGE_SIZE = 0)
    (h2 : o / PAGE_SIZE < L) : o < PAGE_SIZE * L := by
  have h3 : o / PAGE_SIZE * PAGE_SIZE = o :=
    Nat.div_mul_cancel (Nat.dvd_of_mod_eq_zero h1)
  have h4 : o / PAGE_SIZE * PAGE_SIZE < L * PAGE_SIZE :=
    mul_lt_mul_of_pos_right h2 (by decide)
  rw [Nat.mul_comm]
  omega

theorem cellOk_elim {w : Nat} {l : Bytes} (h : cellOk w l = true) :
    l.length ≤ w ∧ noTrailingZero l = true := by
  rw [cellOk, Bool.and_eq_true, decide_eq_true_eq] at h
  exact h

/-- A decoded node is either a root without parent offset or a non-root
with one. -/
theorem from_page_parent_shape {pg : Page} {n : Node}
    (h : Node.from_page pg = .ok n) :
    (n.is_root = true ∧ n.parent_offset = none) ∨
      (n.is_root = false ∧ ∃ q, n.parent_offset = some q) := by
  simp only [Node.from_page] at h
  split at h
  · cases h
    cases hr : (pg.getD 0 0 == 1) <;> simp [Node.new, hr]
  · cases h
    cases hr : (pg.getD 0 0 == 1) <;> simp [Node.new, hr]
  · cases h

theorem mem_insertIdx_self {α : Type} :
    ∀ (j : Nat) (a : α) (l : List α), j ≤ l.length →
      a ∈ List.insertIdx j a l := by
  intro j
  induction j with
  | zero =>
    intro a l h
    exact List.mem_cons_self a l
  | succ j ih =>
    intro a l h
    cases l with
    | nil => simp at h
    | cons x xs =>
      exact List.mem_cons_of_mem x (ih a xs (by simpa using h))

theorem keyAbsentF_nth (k : Bytes) :
    ∀ (j : Nat) (cs : Forest) (o : Nat) (t : T),
      nthF cs j = some (o, t) → keyAbsentF k cs = true →
      keyAbsentT k t = true := by
  intro j
  induction j with
  | zero =>
    intro cs o t hn h
    cases cs with
    | nil => cases hn
    | cons o2 t2 rest =>
      cases hn
      rw [keyAbsentF, Bool.and_eq_true] at h
      exact h.1
  | succ j ih =>
    intro cs o t hn h
    cases cs with
    | nil => cases hn
    | cons o2 t2 rest =>
      rw [keyAbsentF, Bool.and_eq_true] at h
      exact ih rest o t hn h.2

theorem lengthF_replaceAtF :
    ∀ (j : Nat) (t' : T) (cs : Forest),
      lengthF (replaceAtF j t' cs) = lengthF cs := by
  intro j
  induction j with
  | zero =>
    intro t' cs
    cases cs with
    | nil => rfl
    | cons o t rest => rfl
  | succ j ih =>
    intro t' cs
    cases cs with
    | nil => rfl
    | cons o t rest =>
      show lengthF (.cons o t (replaceAtF j t' rest)) = _
      rw [lengthF, ih, lengthF]

theorem nthF_lt_lengthF :
    ∀ (cs : Forest) (j : Nat) (x : Nat × T),
      nthF cs j = some x → j < lengthF cs := by
  intro cs
  induction cs using forest_ind with
  | h1 =>
    intro j x h
    cases h
  | h2 o t rest ih =>
    intro j x h
    cases j with
    | zero =>
      rw [lengthF]
      omega
    | succ j =>
      have := ih j x h
      rw [lengthF]
      omega

theorem heightF_replaceAtF_le :
    ∀ (j : Nat) (t' : T) (cs : Forest),
      heightF (replaceAtF j t' cs) ≤ max (heightT t') (heightF cs) := by
  intro j
  induction j with
  | zero =>
    intro t' cs
    cases cs with
    | nil =>
      show heightF Forest.nil ≤ _
      rw [heightF]
      omega
    | cons o t rest =>
      show heightF (.cons o t' rest) ≤ _
      rw [heightF, heightF]
      omega
  | succ j ih =>
    intro t' cs
    cases cs with
    | nil =>
      show heightF Forest.nil ≤ _
      rw [heightF]
      omega
    | cons o t rest =>
      have := ih t' rest
      show heightF (.cons o t (replaceAtF j t' rest)) ≤ _
      rw [heightF, heightF]
      omega

theorem heightF_insertAtF_le :
    ∀ (j : Nat) (o1 : Nat) (t1 : T) (cs : Forest),
      heightF (insertAtF j o1 t1 cs) ≤ max (heightT t1) (heightF cs) := by
  intro j
  induction j with
  | zero =>
    intro o1 t1 cs
    show heightF (.cons o1 t1 cs) ≤ _
    rw [heightF]
  | succ j ih =>
    intro o1 t1 cs
    cases cs with
    | nil =>
      show heightF Forest.nil ≤ _
      rw [heightF]
      omega
    | cons o t rest =>
      have := ih o1 t1 rest
      show heightF (.cons o t (insertAtF j o1 t1 rest)) ≤ _
      rw [heightF, heightF]
      omega

theorem memF_replaceAtF (kv : KeyValuePair) :
    ∀ (j : Nat) (cs : Forest) (t' : T),
      j < lengthF cs → memT kv t' = true →
      memF kv (replaceAtF j t' cs) = true := by
  intro j
  induction j with
  | zero =>
    intro cs t' hj hm
    cases cs with
    | nil =>
      rw [lengthF] at hj
      omega
    | cons o t rest =>
      show memF kv (.cons o t' rest) = true
      rw [memF, hm, Bool.true_or]
  | succ j ih =>
    intro cs t' hj hm
    cases cs with
    | nil =>
      rw [lengthF] at hj
      omega
    | cons o t rest =>
      rw [lengthF] at hj
      show memF kv (.cons o t (replaceAtF j t' rest)) = true
      rw [memF, ih rest t' (by omega) hm, Bool.or_true]

theorem memF_insertAtF_self (kv : KeyValuePair) :
    ∀ (j : Nat) (o1 : Nat) (t1 : T) (cs : Forest),
      j ≤ lengthF cs → memT kv t1 = true →
      memF kv (insertAtF j o1 t1 cs) = true := by
  intro j
  induction j with
  | zero =>
    intro o1 t1 cs hj hm
    show memF kv (.cons o1 t1 cs) = true
    rw [memF, hm, Bool.true_or]
  | succ j ih =>
    intro o1 t1 cs hj hm
    cases cs with
    | nil =>
      rw [lengthF] at hj
      omega
    | cons o t rest =>
      rw [lengthF] at hj
      show memF kv (.cons o t (insertAtF j o1 t1 rest)) = true
      rw [memF, ih o1 t1 rest (by omega) hm, Bool.or_true]

theorem memF_insertAtF_of (kv : KeyValuePair) :
    ∀ (j : Nat) (o1 : Nat) (t1 : T) (cs : Forest),
      memF kv cs = true → memF kv (insertAtF j o1 t1 cs) = true := by
  intro j
  induction j with
  | zero =>
    intro o1 t1 cs hm
    show memF kv (.cons o1 t1 cs) = true
    rw [memF, hm, Bool.or_true]
  | succ j ih =>
    intro o1 t1 cs hm
    cases cs with
    | nil => exact hm
    | cons o t rest =>
      rw [memF, Bool.or_eq_true] at hm
      show memF kv (.cons o t (insertAtF j o1 t1 rest)) = true
      rw [memF, Bool.or_eq_true]
      rcases hm with h | h
      · exact Or.inl h
      · exact Or.inr (ih o1 t1 rest h)

theorem forestDecodes_takeF (f : File) :
    ∀ (n : Nat) (cs : Forest), forestDecodes f cs = true →
      forestDecodes f (takeF n cs) = true := by
  intro n
  induction n with
  | zero =>
    intro cs _
    rfl
  | succ n ih =>
    intro cs h
    cases cs with
    | nil => rfl
    | cons o t rest =>
      rw [forestDecodes, Bool.and_eq_true] at h
      show forestDecodes f (.cons o t (takeF n rest)) = true
      rw [forestDecodes, Bool.and_eq_true]
      exact ⟨h.1, ih rest h.2⟩

theorem forestDecodes_dropF (f : File) :
    ∀ (n : Nat) (cs : Forest), forestDecodes f cs = true →
      forestDecodes f (dropF n cs) = true := by
  intro n
  induction n with
  | zero =>
    intro cs h
    exact h
  | succ n ih =>
    intro cs h
    cases cs with
    | nil => rfl
    | cons o t rest =>
      rw [forestDecodes, Bool.and_eq_true] at h
      exact ih rest h.2

theorem forestDecodes_frame (f f' : File) :
    ∀ (cs : Forest),
      (∀ o ∈ offsF cs, Pager.get_page f' o = Pager.get_page f o) →
      forestDecodes f cs = true → forestDecodes f' cs = true := by
  intro cs
  induction cs using forest_ind with
  | h1 =>
    intro _ _
    rfl
  | h2 o t rest ih =>
    intro hag h
    rw [forestDecodes, Bool.and_eq_true] at h
    rw [forestDecodes, Bool.and_eq_true]
    have hago : Pager.get_page f' o = Pager.get_page f o := by
      apply hag
      show o ∈ (o :: offsT t) ++ offsF rest
      exact List.mem_append_left _ (List.mem_cons_self o _)
    have hagt : ∀ x ∈ offsT t, Pager.get_page f' x = Pager.get_page f x := by
      intro x hx
      apply hag
      show x ∈ (o :: offsT t) ++ offsF rest
      exact List.mem_append_left _ (List.mem_cons_of_mem o hx)
    have hagr : ∀ x ∈ offsF rest, Pager.get_page f' x = Pager.get_page f x := by
      intro x hx
      apply hag
      show x ∈ (o :: offsT t) ++ offsF rest
      exact List.mem_append_right _ hx
    constructor
    · exact treeDecodes_frame (heightT t) t o f f' (le_refl _) hago hagt h.1
    · exact ih hagr h.2

theorem nthF_blocks_disjoint :
    ∀ (cs : Forest) (i j : Nat) (oi oj : Nat) (ti tj : T), i ≠ j →
      nthF cs i = some (oi, ti) → nthF cs j = some (oj, tj) →
      (offsF cs).Nodup →
      ∀ x ∈ oi :: offsT ti, x ∉ oj :: offsT tj := by
  intro cs
  induction cs using forest_ind with
  | h1 =>
    intro i j oi oj ti tj hne hi hj hd x hx
    cases hi
  | h2 o t rest ih =>
    intro i j oi oj ti tj hne hi hj hd
    have hd2 : ((o :: offsT t) ++ offsF rest).Nodup := hd
    rw [List.nodup_append] at hd2
    cases i with
    | zero =>
      cases hi
      cases j with
      | zero => exact absurd rfl hne
      | succ j =>
        intro x hx hx2
        have hxr : x ∈ offsF rest := by
          rcases List.mem_cons.mp hx2 with h | h
          · rw [h]
            exact (mem_offsF_nthF rest j oj tj hj).1
          · exact (mem_offsF_nthF rest j oj tj hj).2 x h
        exact hd2.2.2 hx hxr
    | succ i =>
      cases j with
      | zero =>
        cases hj
        intro x hx hx2
        have hxr : x ∈ offsF rest := by
          rcases List.mem_cons.mp hx with h | h
          · rw [h]
            exact (mem_offsF_nthF rest i oi ti hi).1
          · exact (mem_offsF_nthF rest i oi ti hi).2 x h
        exact hd2.2.2 hx2 hxr
      | succ j =>
        exact ih i j oi oj ti tj (fun hc => hne (by rw [hc])) hi hj hd2.2.1

theorem forestOffsets_takeF :
    ∀ (n : Nat) (cs : Forest),
      forestOffsets (takeF n cs) = (forestOffsets cs).take n := by
  intro n
  induction n with
  | zero =>
    intro cs
    rfl
  | succ n ih =>
    intro cs
    cases cs with
    | nil => rfl
    | cons o t rest =>
      show o :: forestOffsets (takeF n rest) =
        (o :: forestOffsets rest).take (n + 1)
      rw [List.take_succ_cons, ih]

theorem forestOffsets_dropF :
    ∀ (n : Nat) (cs : Forest),
      forestOffsets (dropF n cs) = (forestOffsets cs).drop n := by
  intro n
  induction n with
  | zero =>
    intro cs
    rfl
  | succ n ih =>
    intro cs
    cases cs with
    | nil => rfl
    | cons o t rest =>
      show forestOffsets (dropF n rest) = (o :: forestOffsets rest).drop (n + 1)
      rw [List.drop_succ_cons, ih]

theorem mem_offsF_takeF {x : Nat} {n : Nat} {cs : Forest}
    (h : x ∈ offsF (takeF n cs)) : x ∈ offsF cs := by
  rw [← offsF_takeF_dropF n cs]
  exact List.mem_append_left _ h

theorem mem_offsF_dropF {x : Nat} {n : Nat} {cs : Forest}
    (h : x ∈ offsF (dropF n cs)) : x ∈ offsF cs := by
  rw [← offsF_takeF_dropF n cs]
  exact List.mem_append_right _ h

theorem nodup_offsF_take_drop {n : Nat} {cs : Forest}
    (h : (offsF cs).Nodup) :
    (offsF (takeF n cs)).Nodup ∧ (offsF (dropF n cs)).Nodup ∧
      ∀ x ∈ offsF (takeF n cs), x ∉ offsF (dropF n cs) := by
  rw [← offsF_takeF_dropF n cs, List.nodup_append] at h
  exact ⟨h.1, h.2.1, fun x hx hx2 => h.2.2 hx hx2⟩

theorem all_take {α : Type} {p : α → Bool} {l : List α} {n : Nat}
    (h : l.all p = true) : (l.take n).all p = true := by
  rw [List.all_eq_true] at h ⊢
  intro x hx
  exact h x (List.take_subset n l hx)

theorem all_drop {α : Type} {p : α → Bool} {l : List α} {n : Nat}
    (h : l.all p = true) : (l.drop n).all p = true := by
  rw [List.all_eq_true] at h ⊢
  intro x hx
  exact h x (List.drop_subset n l hx)

/-- The page at `o` decodes to a node carrying `is_root = false` (so, by
`from_page`, a parent offset — which `Page::try_from` demands of every
non-root node it serializes). -/
def decodesNonRoot (f : File) (o : Nat) : Bool :=
  match Pager.get_page f o with
  | .ok pg =>
    match Node.from_page pg with
    | .ok n => !n.is_root
    | .error _ => false
  | .error _ => false

mutual
/-- Every page strictly below this subtree's root decodes with
`is_root = false`. -/
def nonRootBelowT (f : File) : T → Bool
  | .leaf _ => true
  | .node _ cs => nonRootBelowF f cs

def nonRootBelowF (f : File) : Forest → Bool
  | .nil => true
  | .cons o t rest =>
    decodesNonRoot f o && nonRootBelowT f t && nonRootBelowF f rest
end

theorem decodesNonRoot_elim {f : File} {o : Nat} {pg : Page} {n : Node}
    (h : decodesNonRoot f o = true) (hpg : Pager.get_page f o = .ok pg)
    (hn : Node.from_page pg = .ok n) : n.is_root = false := by
  unfold decodesNonRoot at h
  simp only [hpg, hn] at h
  simpa using h

theorem decodesNonRoot_intro {f : File} {o : Nat} {pg : Page} {n : Node}
    (hpg : Pager.get_page f o = .ok pg) (hn : Node.from_page pg = .ok n)
    (hr : n.is_root = false) : decodesNonRoot f o = true := by
  unfold decodesNonRoot
  simp only [hpg, hn, hr]
  rfl

theorem decodesNonRoot_congr {f f' : File} {o : Nat}
    (h : Pager.get_page f' o = Pager.get_page f o) :
    decodesNonRoot f' o = decodesNonRoot f o := by
  unfold decodesNonRoot
  rw [h]

theorem nonRootBelowF_nth (f : File) :
    ∀ (j : Nat) (cs : Forest) (o : Nat) (t : T),
      nthF cs j = some (o, t) → nonRootBelowF f cs = true →
      decodesNonRoot f o = true ∧ nonRootBelowT f t = true := by
  intro j
  induction j with
  | zero =>
    intro cs o t hn h
    cases cs with
    | nil => cases hn
    | cons o2 t2 rest =>
      cases hn
      rw [nonRootBelowF, Bool.and_eq_true, Bool.and_eq_true] at h
      exact ⟨h.1.1, h.1.2⟩
  | succ j ih =>
    intro cs o t hn h
    cases cs with
    | nil => cases hn
    | cons o2 t2 rest =>
      rw [nonRootBelowF, Bool.and_eq_true, Bool.and_eq_true] at h
      exact ih rest o t hn h.2

/-- The flag invariant only looks at the pages at the subtree's
offsets. -/
theorem nonRootBelowT_frame :
    ∀ (n : Nat) (t : T) (f f' : File),
      heightT t ≤ n →
      (∀ o ∈ offsT t, Pager.get_page f' o = Pager.get_page f o) →
      nonRootBelowT f t = true → nonRootBelowT f' t = true := by
  intro n
  induction n with
  | zero =>
    intro t f f' hh _ _
    have := heightT_pos t
    omega
  | succ n ih =>
    intro t f f' hh hag h
    cases t with
    | leaf ps => rfl
    | node ks cs =>
      show nonRootBelowF f' cs = true
      have hh2 : heightF cs ≤ n := by
        rw [heightT] at hh
        omega
      have hag2 : ∀ o ∈ offsF cs,
          Pager.get_page f' o = Pager.get_page f o := hag
      have h2 : nonRootBelowF f cs = true := h
      clear hh hag h
      revert hh2 hag2 h2
      induction cs using forest_ind with
      | h1 =>
        intro _ _ _
        rfl
      | h2 o t2 rest ih2 =>
        intro hh2 hag2 h2
        rw [heightF] at hh2
        rw [nonRootBelowF, Bool.and_eq_true, Bool.and_eq_true] at h2
        rw [nonRootBelowF, Bool.and_eq_true, Bool.and_eq_true]
        have hho : Pager.get_page f' o = Pager.get_page f o := by
          apply hag2
          show o ∈ (o :: offsT t2) ++ offsF rest
          exact List.mem_append_left _ (List.mem_cons_self o _)
        refine ⟨⟨?_, ?_⟩, ?_⟩
        · rw [decodesNonRoot_congr hho]
          exact h2.1.1
        · refine ih t2 f f' (by omega) ?_ h2.1.2
          intro x hx
          apply hag2
          show x ∈ (o :: offsT t2) ++ offsF rest
          exact List.mem_append_left _ (List.mem_cons_of_mem o hx)
        · refine ih2 (by omega) ?_ h2.2
          intro x hx
          apply hag2
          show x ∈ (o :: offsT t2) ++ offsF rest
          exact List.mem_append_right _ hx

theorem nonRootBelowF_frame (f f' : File) (cs : Forest)
    (hag : ∀ o ∈ offsF cs, Pager.get_page f' o = Pager.get_page f o)
    (h : nonRootBelowF f cs = true) : nonRootBelowF f' cs = true :=
  nonRootBelowT_frame (heightT (.node [] cs)) (.node [] cs) f f'
    (le_refl _) hag h

theorem nonRootBelowF_takeF (f : File) :
    ∀ (n : Nat) (cs : Forest), nonRootBelowF f cs = true →
      nonRootBelowF f (takeF n cs) = true := by
  intro n
  induction n with
  | zero =>
    intro cs _
    rfl
  | succ n ih =>
    intro cs h
    cases cs with
    | nil => rfl
    | cons o t rest =>
      rw [nonRootBelowF, Bool.and_eq_true, Bool.and_eq_true] at h
      show nonRootBelowF f (.cons o t (takeF n rest)) = true
      rw [nonRootBelowF, Bool.and_eq_true, Bool.and_eq_true]
      exact ⟨h.1, ih rest h.2⟩

theorem nonRootBelowF_dropF (f : File) :
    ∀ (n : Nat) (cs : Forest), nonRootBelowF f cs = true →
      nonRootBelowF f (dropF n cs) = true := by
  intro n
  induction n with
  | zero =>
    intro cs h
    exact h
  | succ n ih =>
    intro cs h
    cases cs with
    | nil => rfl
    | cons o t rest =>
      rw [nonRootBelowF, Bool.and_eq_true, Bool.and_eq_true] at h
      exact ih rest h.2

theorem nonRootBelowF_replaceAtF (f : File) :
    ∀ (j : Nat) (t' : T) (cs : Forest),
      nonRootBelowF f cs = true → nonRootBelowT f t' = true →
      nonRootBelowF f (replaceAtF j t' cs) = true := by
  intro j
  induction j with
  | zero =>
    intro t' cs h ht
    cases cs with
    | nil => rfl
    | cons o t rest =>
      rw [nonRootBelowF, Bool.and_eq_true, Bool.and_eq_true] at h
      show nonRootBelowF f (.cons o t' rest) = true
      rw [nonRootBelowF, Bool.and_eq_true, Bool.and_eq_true]
      exact ⟨⟨h.1.1, ht⟩, h.2⟩
  | succ j ih =>
    intro t' cs h ht
    cases cs with
    | nil => rfl
    | cons o t rest =>
      rw [nonRootBelowF, Bool.and_eq_true, Bool.and_eq_true] at h
      show nonRootBelowF f (.cons o t (replaceAtF j t' rest)) = true
      rw [nonRootBelowF, Bool.and_eq_true, Bool.and_eq_true]
      exact ⟨h.1, ih t' rest h.2 ht⟩

theorem nonRootBelowF_insertAtF (f : File) :
    ∀ (j : Nat) (o1 : Nat) (t1 : T) (cs : Forest),
      nonRootBelowF f cs = true → decodesNonRoot f o1 = true →
      nonRootBelowT f t1 = true →
      nonRootBelowF f (insertAtF j o1 t1 cs) = true := by
  intro j
  induction j with
  | zero =>
    intro o1 t1 cs h h1 h2
    show nonRootBelowF f (.cons o1 t1 cs) = true
    rw [nonRootBelowF, Bool.and_eq_true, Bool.and_eq_true]
    exact ⟨⟨h1, h2⟩, h⟩
  | succ j ih =>
    intro o1 t1 cs h h1 h2
    cases cs with
    | nil => rfl
    | cons o t rest =>
      rw [nonRootBelowF, Bool.and_eq_true, Bool.and_eq_true] at h
      show nonRootBelowF f (.cons o t (insertAtF j o1 t1 rest)) = true
      rw [nonRootBelowF, Bool.and_eq_true, Bool.and_eq_true]
      exact ⟨h.1, ih o1 t1 rest h.2 h1 h2⟩

/-- Child offsets of the node an abstract subtree stands for. -/
def offsDirect : T → List Nat
  | .leaf _ => []
  | .node _ cs => forestOffsets cs

/-- The abstract arity invariant at the root of a subtree. -/
def arityOk : T → Prop
  | .leaf _ => True
  | .node ks cs => (forestOffsets cs).length = ks.length + 1

/-- Serialize-then-decode for any node matching a good subtree: the
encoding succeeds and the decoded node matches the same subtree, with
the is_root flag preserved. -/
theorem try_from_decode_for {u : Node} {t : T} {b : Nat}
    {lo hi : Option Bytes}
    (hmatch : nodeFor u t) (hgood : goodT b lo hi t = true)
    (hb : b ≤ 100)
    (hoffs : ∀ o ∈ offsDirect t, o < 2 ^ 64)
    (harity : arityOk t)
    (hpar : u.is_root = true ∨ ∃ q, u.parent_offset = some q) :
    ∃ pg, Page.try_from u = .ok pg ∧
      ∃ n2, Node.from_page pg = .ok n2 ∧ nodeFor n2 t ∧
        n2.is_root = u.is_root := by
  have h64 : (18446744073709551616 : Nat) = 2 ^ 64 := by norm_num
  cases t with
  | leaf ps =>
    rw [goodT, Bool.and_eq_true, Bool.and_eq_true] at hgood
    obtain ⟨⟨hsort, hall⟩, hcnt⟩ := hgood
    rw [List.all_eq_true] at hall
    rw [decide_eq_true_eq] at hcnt
    have hcell : ∀ p ∈ ps, p.key.length ≤ KEY_SIZE ∧
        noTrailingZero p.key = true ∧ p.value.length ≤ VALUE_SIZE ∧
        noTrailingZero p.value = true := by
      intro p hp
      have hq := hall p hp
      rw [Bool.and_eq_true, Bool.and_eq_true] at hq
      obtain ⟨⟨hk, hv⟩, _⟩ := hq
      obtain ⟨hk1, hk2⟩ := cellOk_elim hk
      obtain ⟨hv1, hv2⟩ := cellOk_elim hv
      exact ⟨hk1, hk2, hv1, hv2⟩
    have hcount : ps.length < 2 ^ 64 := by omega
    obtain ⟨pg, h1, n2, h2, h3, h4⟩ :=
      try_from_decode_leaf hmatch hcell hcount hpar
    exact ⟨pg, h1, n2, h2, h3, h4⟩
  | node ks cs =>
    rw [goodT, Bool.and_eq_true, Bool.and_eq_true, Bool.and_eq_true,
      Bool.and_eq_true] at hgood
    obtain ⟨⟨⟨⟨hsort, hall⟩, hc1⟩, hc2⟩, hgf⟩ := hgood
    rw [List.all_eq_true] at hall
    rw [decide_eq_true_eq] at hc1 hc2
    have hcell : ∀ s ∈ ks, s.length ≤ KEY_SIZE ∧ noTrailingZero s = true := by
      intro s hs
      have hq := hall s hs
      rw [Bool.and_eq_true] at hq
      exact cellOk_elim hq.1
    have harity2 : (forestOffsets cs).length = ks.length + 1 := harity
    have hcount : (forestOffsets cs).length < 2 ^ 64 := by omega
    obtain ⟨pg, h1, n2, h2, h3, h4⟩ :=
      try_from_decode_internal hmatch hcell hoffs hcount harity2 hpar
    exact ⟨pg, h1, n2, h2, h3, h4⟩

theorem mem_forestOffsets_offsF :
    ∀ (cs : Forest) (x : Nat), x ∈ forestOffsets cs → x ∈ offsF cs := by
  intro cs
  induction cs using forest_ind with
  | h1 =>
    intro x hx
    cases hx
  | h2 o t rest ih =>
    intro x hx
    rcases List.mem_cons.mp hx with h | h
    · show x ∈ (o :: offsT t) ++ offsF rest
      rw [h]
      exact List.mem_append_left _ (List.mem_cons_self o _)
    · show x ∈ (o :: offsT t) ++ offsF rest
      exact List.mem_append_right _ (ih x h)

theorem nonRootBelowF_of_nth (f : File) :
    ∀ (cs : Forest),
      (∀ i oi ti, nthF cs i = some (oi, ti) →
        decodesNonRoot f oi = true ∧ nonRootBelowT f ti = true) →
      nonRootBelowF f cs = true := by
  intro cs
  induction cs using forest_ind with
  | h1 =>
    intro _
    rfl
  | h2 o t rest ih =>
    intro h
    rw [nonRootBelowF, Bool.and_eq_true, Bool.and_eq_true]
    exact ⟨h 0 o t rfl, ih (fun i oi ti hi => h (i + 1) oi ti hi)⟩

theorem insert_non_full_correct (b : Nat) (hb : 2 ≤ b) (hb100 : b ≤ 100) :
    ∀ (fuel : Nat) (t : T) (f : File) (off : Nat) (node : Node)
      (lo hi : Option Bytes) (kv : KeyValuePair),
      heightT t ≤ fuel →
      treeDecodes f off t = true →
      nodeFor node t →
      nonRootBelowT f t = true →
      goodT b lo hi t = true →
      keyAbsentT kv.key t = true →
      cellOk KEY_SIZE kv.key = true →
      cellOk VALUE_SIZE kv.value = true →
      aboveLo lo kv.key = true →
      belowHi hi kv.key = true →
      BTree.is_node_full b node = .ok false →
      (node.is_root = true ∨ ∃ q, node.parent_offset = some q) →
      (node.is_root = false → decodesNonRoot f off = true) →
      offsOk f (off :: offsT t) →
      PAGE_SIZE * (f.length + 2 * fuel) < 2 ^ 64 →
      ∃ f' t',
        BTree.insert_non_full b fuel f node off kv = some (f', .ok ()) ∧
        treeDecodes f' off t' = true ∧
        nonRootBelowT f' t' = true ∧
        (node.is_root = false → decodesNonRoot f' off = true) ∧
        goodT b lo hi t' = true ∧
        memT kv t' = true ∧
        heightT t' ≤ heightT t ∧
        f.length ≤ f'.length ∧
        offsOk f' (off :: offsT t') ∧
        (∀ o ∈ offsT t', o ∈ offsT t ∨ PAGE_SIZE * f.length ≤ o) ∧
        (∀ o, o % PAGE_SIZE = 0 → o / PAGE_SIZE < f.length →
          o ∉ off :: offsT t → Pager.get_page f' o = Pager.get_page f o) := by
  intro fuel
  induction fuel with
  | zero =>
    intro t f off node lo hi kv hh _ _ _ _ _ _ _ _ _ _ _ _ _ _
    have := heightT_pos t
    omega
  | succ fuel ih =>
    intro t f off node lo hi kv hh hdec hmatch hflags hgood habs hck hcv hak
      hbk hful hpar hdecflag hoffs hplen
    obtain ⟨hnodup, hbnds⟩ := hoffs
    have hoffmod : off % PAGE_SIZE = 0 :=
      (hbnds off (List.mem_cons_self _ _)).1
    have hofflt : off / PAGE_SIZE < f.length :=
      (hbnds off (List.mem_cons_self _ _)).2
    cases t with
    | leaf ps =>
      have hnt : node.node_type = .Leaf ps := hmatch
      have hgood2 := hgood
      rw [goodT, Bool.and_eq_true, Bool.and_eq_true] at hgood2
      obtain ⟨⟨hsort, hallb⟩, hcnt⟩ := hgood2
      rw [decide_eq_true_eq] at hcnt
      unfold BTree.is_node_full at hful
      simp only [hnt, Except.ok.injEq] at hful
      have hlen : ps.length ≠ 2 * b - 1 := by simpa using hful
      have hpw := sortedByKey_pairwise KeyValuePair.key ps hsort
      have hspec := rustBinarySearch_pairs_spec ps kv.key hpw
      cases hbs : rustBinarySearch (fun p => keyCmp p.key kv.key) ps with
      | ok j =>
        rw [hbs] at hspec
        obtain ⟨hjlen, x, hx, hxk⟩ := hspec
        have hmem : x ∈ ps := List.mem_iff_get?.mpr ⟨_, hx⟩
        have habs2 : ps.all (fun p => !(p.key == kv.key)) = true := habs
        rw [List.all_eq_true] at habs2
        have hcontra := habs2 x hmem
        rw [hxk] at hcontra
        simp at hcontra
      | error p0 =>
        rw [hbs] at hspec
        obtain ⟨hp0len, hlo0, hhi0⟩ := hspec
        have hvi : vecInsert ps p0 kv = some (List.insertIdx p0 kv ps) := by
          unfold vecInsert
          rw [if_pos hp0len]
        have hsort2 : sortedByKey KeyValuePair.key
            (List.insertIdx p0 kv ps) = true :=
          sorted_insertIdx_boundary ps p0 kv hsort hlo0 hhi0
        have hall2 : (List.insertIdx p0 kv ps).all
            (fun p => cellOk KEY_SIZE p.key && cellOk VALUE_SIZE p.value &&
              (aboveLo lo p.key && belowHi hi p.key)) = true := by
          apply all_insertIdx hallb
          rw [Bool.and_eq_true, Bool.and_eq_true, Bool.and_eq_true]
          exact ⟨⟨hck, hcv⟩, hak, hbk⟩
        have hlen2 : (List.insertIdx p0 kv ps).length = ps.length + 1 :=
          insertIdx_length_le hp0len
        have hgood' : goodT b lo hi (.leaf (List.insertIdx p0 kv ps)) = true := by
          rw [goodT, Bool.and_eq_true, Bool.and_eq_true]
          refine ⟨⟨hsort2, hall2⟩, ?_⟩
          rw [decide_eq_true_eq]
          omega
        obtain ⟨pg, htf, n2, hdec2, hn2, hn2r⟩ :=
          try_from_decode_for
            (u := { node with node_type := NodeType.Leaf (List.insertIdx p0 kv ps) })
            (t := .leaf (List.insertIdx p0 kv ps))
            rfl hgood' hb100 (fun o ho => by simp [offsDirect] at ho)
            trivial hpar
        have hw : Pager.write_page_at_offset f pg off =
            .ok (f.set (off / PAGE_SIZE) pg) :=
          write_page_at_offset_ok hoffmod hofflt
        refine ⟨f.set (off / PAGE_SIZE) pg, .leaf (List.insertIdx p0 kv ps),
          ?_, ?_, rfl, ?_, hgood', ?_, le_refl _, ?_, ?_, ?_, ?_⟩
        · show BTree.insert_non_full b (fuel + 1) f node off kv = _
          unfold BTree.insert_non_full
          simp only [hnt, hbs, unwrapIdx, hvi, htf, stepE, hw]
        · rw [treeDecodes]
          simp only [get_page_set_self hoffmod hofflt, hdec2, decide_eq_true_eq]
          exact hn2
        · intro hr
          exact decodesNonRoot_intro (get_page_set_self hoffmod hofflt) hdec2
            (hn2r.trans hr)
        · show (List.insertIdx p0 kv ps).any
            (fun p => p.key == kv.key && p.value == kv.value) = true
          rw [List.any_eq_true]
          exact ⟨kv, mem_insertIdx_self p0 kv ps hp0len, by simp⟩
        · simp [List.length_set]
        · constructor
          · exact List.nodup_cons.mpr ⟨List.not_mem_nil off, List.nodup_nil⟩
          · intro o ho
            have ho2 : o ∈ ([off] : List Nat) := ho
            have : o = off := by simpa using ho2
            rw [this, List.length_set]
            exact ⟨hoffmod, hofflt⟩
        · intro o ho
          have ho2 : o ∈ ([] : List Nat) := ho
          simp at ho2
        · intro o hom holt hnot
          have hne : o ≠ off := fun hc => hnot (by rw [hc]; exact List.mem_cons_self _ _)
          exact get_page_set_ne (Ne.symm (aligned_div_ne hom hoffmod hne))
    | node ks cs =>
      have hnt : node.node_type = .Internal (forestOffsets cs) ks := hmatch
      -- decode structure of the node's own page
      have hdec0 := hdec
      rw [treeDecodes] at hdec0
      cases hpg0 : Pager.get_page f off with
      | error e =>
        simp only [hpg0] at hdec0
        exact Bool.noConfusion hdec0
      | ok pg0 =>
      simp only [hpg0] at hdec0
      cases hfp0 : Node.from_page pg0 with
      | error e =>
        simp only [hfp0] at hdec0
        exact Bool.noConfusion hdec0
      | ok n0 =>
      simp only [hfp0] at hdec0
      rw [Bool.and_eq_true, Bool.and_eq_true, decide_eq_true_eq,
        decide_eq_true_eq] at hdec0
      obtain ⟨⟨hnf0, harity⟩, hfdec⟩ := hdec0
      -- good invariant pieces
      have hgood2 := hgood
      rw [goodT, Bool.and_eq_true, Bool.and_eq_true, Bool.and_eq_true,
        Bool.and_eq_true] at hgood2
      obtain ⟨⟨⟨⟨hsort, hallkB⟩, hk1⟩, hk2⟩, hgf⟩ := hgood2
      rw [decide_eq_true_eq] at hk1 hk2
      have hallk := hallkB
      rw [List.all_eq_true] at hallk
      -- the node is not full
      unfold BTree.is_node_full at hful
      simp only [hnt, Except.ok.injEq] at hful
      have hksne : ks.length ≠ 2 * b - 1 := by simpa using hful
      -- descent index
      have hpwk := sortedByKey_pairwise (fun s => s) ks hsort
      have hidx : unwrapIdx (rustBinarySearch (fun k => keyCmp k kv.key) ks) =
          childIdxLe ks kv.key := searchIdx_eq_childIdxLe ks kv.key hpwk
      have hjle : childIdxLe ks kv.key ≤ ks.length := childIdxLe_le_length ks kv.key
      -- locate the child via the surgery package
      have haboveK : ∀ s ∈ ks, aboveLo lo s = true := by
        intro s hs
        have hq := hallk s hs
        rw [Bool.and_eq_true, Bool.and_eq_true] at hq
        exact hq.2.1
      have hbelowK : ∀ s ∈ ks, belowHi hi s = true := by
        intro s hs
        have hq := hallk s hs
        rw [Bool.and_eq_true, Bool.and_eq_true] at hq
        exact hq.2.2
      obtain ⟨oj, tj, lo2, hi2, hnth, hgoodj, hak2, hbk2, hmonoA, hmonoB,
        hmonoS, hrepl, hsplitC⟩ :=
        goodF_surgery b kv.key ks cs lo hi hgf hsort haboveK hbelowK hak hbk
      have hco : (forestOffsets cs).get? (childIdxLe ks kv.key) = some oj :=
        nthF_forestOffsets cs (childIdxLe ks kv.key) oj tj hnth
      -- offset bookkeeping
      have hojmem : oj ∈ offsF cs := (mem_offsF_nthF cs _ oj tj hnth).1
      have hsubj : ∀ x ∈ offsT tj, x ∈ offsF cs :=
        (mem_offsF_nthF cs _ oj tj hnth).2
      have hoffnotin : off ∉ offsF cs := (List.nodup_cons.mp hnodup).1
      have hnodupF : (offsF cs).Nodup := (List.nodup_cons.mp hnodup).2
      have hblocknodup : (oj :: offsT tj).Nodup :=
        nthF_block_nodup _ cs oj tj hnth hnodupF
      have hbndF : ∀ x ∈ offsF cs,
          x % PAGE_SIZE = 0 ∧ x / PAGE_SIZE < f.length := by
        intro x hx
        exact hbnds x (List.mem_cons_of_mem _ hx)
      have hojmod : oj % PAGE_SIZE = 0 := (hbndF oj hojmem).1
      have hojlt : oj / PAGE_SIZE < f.length := (hbndF oj hojmem).2
      have hbndN : ∀ x ∈ offsF cs, x < PAGE_SIZE * f.length := by
        intro x hx
        exact aligned_lt (hbndF x hx).1 (hbndF x hx).2
      have hoffN : off < PAGE_SIZE * f.length := aligned_lt hoffmod hofflt
      have hojneoff : oj ≠ off := fun hc => hoffnotin (hc ▸ hojmem)
      -- the child node
      have htdj : treeDecodes f oj tj = true :=
        forestDecodes_nth f _ cs oj tj hnth hfdec
      obtain ⟨cpg, child, hcpg, hcfp, hcmatch, hccdec⟩ := treeDecodes_elim htdj
      have hflagsF : nonRootBelowF f cs = true := hflags
      have hflagj := nonRootBelowF_nth f _ cs oj tj hnth hflagsF
      have hchildroot : child.is_root = false :=
        decodesNonRoot_elim hflagj.1 hcpg hcfp
      have hchildflags : nonRootBelowT f tj = true := hflagj.2
      have hchildpar : ∃ q, child.parent_offset = some q := by
        rcases from_page_parent_shape hcfp with ⟨h1, _⟩ | ⟨_, h2⟩
        · rw [hchildroot] at h1
          cases h1
        · exact h2
      have habsj : keyAbsentT kv.key tj = true :=
        keyAbsentF_nth kv.key _ cs oj tj hnth habs
      have hhtj : heightT tj ≤ heightF cs := heightF_nthF cs _ oj tj hnth
      have hhcs : heightF cs ≤ fuel := by
        rw [heightT] at hh
        omega
      have hlenF : lengthF cs = ks.length + 1 := by
        rw [← forestOffsets_length_lengthF, harity]
      -- child fullness is well-defined
      obtain ⟨cfull, hfulc⟩ : ∃ cfull, BTree.is_node_full b child = .ok cfull := by
        cases tj with
        | leaf cps =>
          have h1 : child.node_type = .Leaf cps := hcmatch
          exact ⟨cps.length == 2 * b - 1, by unfold BTree.is_node_full; rw [h1]⟩
        | node cks ccs =>
          have h1 : child.node_type = .Internal (forestOffsets ccs) cks := hcmatch
          exact ⟨cks.length == 2 * b - 1, by unfold BTree.is_node_full; rw [h1]⟩
      cases cfull with
      | false =>
        -- recurse into the non-full child in place
        have hprec : PAGE_SIZE * (f.length + 2 * fuel) < 2 ^ 64 := by
          have hle : PAGE_SIZE * (f.length + 2 * fuel) ≤
              PAGE_SIZE * (f.length + 2 * (fuel + 1)) :=
            Nat.mul_le_mul_left _ (by omega)
          omega
        obtain ⟨f', tj', hrun, htd', hflags', hdf', hgood', hmem', hht',
            hlen', hoffs', hmemo', hframe'⟩ :=
          ih tj f oj child lo2 hi2 kv (by omega) htdj hcmatch hchildflags
            hgoodj habsj hck hcv hak2 hbk2 hfulc (Or.inr hchildpar)
            (fun _ => hflagj.1)
            ⟨hblocknodup, by
              intro x hx
              rcases List.mem_cons.mp hx with h | h
              · rw [h]
                exact ⟨hojmod, hojlt⟩
              · exact hbndF x (hsubj x h)⟩
            hprec
        have hrootframe : Pager.get_page f' off = Pager.get_page f off := by
          apply hframe' off hoffmod hofflt
          intro hc
          rcases List.mem_cons.mp hc with h | h
          · exact hoffnotin (by rw [h]; exact hojmem)
          · exact hoffnotin (hsubj off h)
        -- frame for all untouched old blocks
        have hblockframe : ∀ i oi ti, i ≠ childIdxLe ks kv.key →
            nthF cs i = some (oi, ti) →
            ∀ x ∈ oi :: offsT ti, Pager.get_page f' x = Pager.get_page f x := by
          intro i oi ti hij hi2' x hx
          have hxmem : x ∈ offsF cs := by
            rcases List.mem_cons.mp hx with h | h
            · rw [h]
              exact (mem_offsF_nthF cs i oi ti hi2').1
            · exact (mem_offsF_nthF cs i oi ti hi2').2 x h
          apply hframe' x (hbndF x hxmem).1 (hbndF x hxmem).2
          exact nthF_blocks_disjoint cs i _ oi oj ti tj hij hi2' hnth hnodupF x hx
        refine ⟨f', .node ks (replaceAtF (childIdxLe ks kv.key) tj' cs),
          ?_, ?_, ?_, ?_, ?_, ?_, ?_, hlen', ?_, ?_, ?_⟩
        · show BTree.insert_non_full b (fuel + 1) f node off kv = _
          unfold BTree.insert_non_full
          simp only [hnt, hidx, hco, hcpg, hcfp, hfulc, stepE]
          exact hrun
        · rw [treeDecodes]
          simp only [hrootframe, hpg0, hfp0]
          rw [Bool.and_eq_true, Bool.and_eq_true]
          refine ⟨⟨?_, ?_⟩, ?_⟩
          · rw [decide_eq_true_eq, forestOffsets_replaceAtF]
            exact hnf0
          · rw [decide_eq_true_eq, forestOffsets_replaceAtF]
            exact harity
          · apply forestDecodes_of_nth
            intro i oi ti hi2'
            by_cases hij : i = childIdxLe ks kv.key
            · subst hij
              rw [nthF_replaceAtF_eq _ _ cs oj tj hnth] at hi2'
              have h1 : oi = oj ∧ ti = tj' := by
                cases hi2'
                exact ⟨rfl, rfl⟩
              rw [h1.1, h1.2]
              exact htd'
            · rw [nthF_replaceAtF_ne _ _ _ cs hij] at hi2'
              exact treeDecodes_frame (heightT ti) ti oi f f' (le_refl _)
                (hblockframe i oi ti hij hi2' oi (List.mem_cons_self _ _))
                (fun x hx => hblockframe i oi ti hij hi2' x
                  (List.mem_cons_of_mem _ hx))
                (forestDecodes_nth f i cs oi ti hi2' hfdec)
        · show nonRootBelowF f' (replaceAtF (childIdxLe ks kv.key) tj' cs) = true
          apply nonRootBelowF_of_nth
          intro i oi ti hi2'
          by_cases hij : i = childIdxLe ks kv.key
          · subst hij
            rw [nthF_replaceAtF_eq _ _ cs oj tj hnth] at hi2'
            have h1 : oi = oj ∧ ti = tj' := by
              cases hi2'
              exact ⟨rfl, rfl⟩
            rw [h1.1, h1.2]
            exact ⟨hdf' hchildroot, hflags'⟩
          · rw [nthF_replaceAtF_ne _ _ _ cs hij] at hi2'
            have hfi := nonRootBelowF_nth f i cs oi ti hi2' hflagsF
            constructor
            · rw [decodesNonRoot_congr
                (hblockframe i oi ti hij hi2' oi (List.mem_cons_self _ _))]
              exact hfi.1
            · exact nonRootBelowT_frame (heightT ti) ti f f' (le_refl _)
                (fun x hx => hblockframe i oi ti hij hi2' x
                  (List.mem_cons_of_mem _ hx)) hfi.2
        · intro hr
          rw [decodesNonRoot_congr hrootframe]
          exact hdecflag hr
        · rw [goodT, Bool.and_eq_true, Bool.and_eq_true, Bool.and_eq_true,
            Bool.and_eq_true]
          refine ⟨⟨⟨⟨hsort, hallkB⟩, ?_⟩, ?_⟩, hrepl tj' hgood'⟩
          · rw [decide_eq_true_eq]
            exact hk1
          · rw [decide_eq_true_eq]
            exact hk2
        · show memF kv (replaceAtF (childIdxLe ks kv.key) tj' cs) = true
          exact memF_replaceAtF kv _ cs tj' (by omega) hmem'
        · show heightF (replaceAtF (childIdxLe ks kv.key) tj' cs) + 1 ≤
            heightF cs + 1
          have h1 := heightF_replaceAtF_le (childIdxLe ks kv.key) tj' cs
          have h2 : heightT tj' ≤ heightT tj := hht'
          omega
        · constructor
          · show (off :: offsF (replaceAtF (childIdxLe ks kv.key) tj' cs)).Nodup
            rw [List.nodup_cons]
            constructor
            · intro hc
              rcases mem_offsF_replaceAtF _ tj' cs off hc with h | h
              · exact hoffnotin h
              · rcases hmemo' off h with h2 | h2
                · exact hoffnotin (hsubj off h2)
                · omega
            · exact nodup_offsF_replace (PAGE_SIZE * f.length) _ cs oj tj tj'
                hnth hnodupF hbndN hoffs'.1 hmemo'
          · intro x hx
            rcases List.mem_cons.mp hx with h | h
            · rw [h]
              exact ⟨hoffmod, by omega⟩
            · rcases mem_offsF_replaceAtF _ tj' cs x h with h2 | h2
              · exact ⟨(hbndF x h2).1, by have := (hbndF x h2).2; omega⟩
              · exact hoffs'.2 x (List.mem_cons_of_mem _ h2)
        · intro x hx
          rcases mem_offsF_replaceAtF _ tj' cs x hx with h | h
          · exact Or.inl h
          · rcases hmemo' x h with h2 | h2
            · exact Or.inl (hsubj x h2)
            · exact Or.inr h2
        · intro o hom holt hnot
          apply hframe' o hom holt
          intro hc
          apply hnot
          rcases List.mem_cons.mp hc with h | h
          · rw [h]
            exact List.mem_cons_of_mem _ hojmem
          · exact List.mem_cons_of_mem _ (hsubj o h)
      | true =>
        -- the child is full: split it, write both halves and the updated
        -- parent, then recurse into the matching half
        have hPS : PAGE_SIZE = 4096 := rfl
        have hstep : PAGE_SIZE * (f.length + 1) =
            PAGE_SIZE * f.length + PAGE_SIZE := by ring
        have hso_mod : PAGE_SIZE * f.length % PAGE_SIZE = 0 :=
          Nat.mul_mod_right _ _
        have hso_div : PAGE_SIZE * f.length / PAGE_SIZE = f.length :=
          Nat.mul_div_cancel_left _ (by decide)
        have hso_ne_oj : PAGE_SIZE * f.length ≠ oj := by
          have := hbndN oj hojmem
          omega
        have hso_lt : PAGE_SIZE * f.length < 2 ^ 64 := by
          have hle : PAGE_SIZE * f.length ≤
              PAGE_SIZE * (f.length + 2 * (fuel + 1)) :=
            Nat.mul_le_mul_left _ (by omega)
          omega
        have hplen4 : PAGE_SIZE * ((f.length + 1) + 2 * fuel) < 2 ^ 64 := by
          have hle : PAGE_SIZE * ((f.length + 1) + 2 * fuel) ≤
              PAGE_SIZE * (f.length + 2 * (fuel + 1)) :=
            Nat.mul_le_mul_left _ (by omega)
          omega
        have hfuel1 : 1 ≤ fuel := by
          have := heightT_pos tj
          omega
        cases tj with
        | leaf cps =>
          have h1 : child.node_type = .Leaf cps := hcmatch
          have hfull : cps.length = 2 * b - 1 := by
            have h2 : BTree.is_node_full b child =
                .ok (cps.length == 2 * b - 1) := by
              unfold BTree.is_node_full
              rw [h1]
            rw [hfulc] at h2
            have h3 : (cps.length == 2 * b - 1) = true := (Except.ok.inj h2).symm
            simpa using h3
          obtain ⟨mp, hmp, hgl, hgr, hma, hms, hmc⟩ :=
            leaf_split_good b hb hgoodj hfull
          have hsplitEq : child.split b = .ok (mp.key,
              { child with node_type := NodeType.Leaf (cps.take b) },
              Node.new (.Leaf (cps.drop b)) false child.parent_offset) := by
            unfold Node.split
            simp only [h1, hmp]
          obtain ⟨left_page, htfL, n2L, hdecL, hn2L, hn2Lr⟩ :=
            try_from_decode_for
              (u := { child with node_type := NodeType.Leaf (cps.take b) })
              (t := .leaf (cps.take b))
              rfl hgl hb100 (fun o ho => by simp [offsDirect] at ho) trivial
              (Or.inr hchildpar)
          obtain ⟨sibling_page, htfS, n2S, hdecS, hn2S, hn2Sr⟩ :=
            try_from_decode_for
              (u := Node.new (.Leaf (cps.drop b)) false child.parent_offset)
              (t := .leaf (cps.drop b))
              rfl hgr hb100 (fun o ho => by simp [offsDirect] at ho) trivial
              (Or.inr hchildpar)
          have hwL : Pager.write_page_at_offset f left_page oj =
              .ok (f.set (oj / PAGE_SIZE) left_page) :=
            write_page_at_offset_ok hojmod hojlt
          have hviC : vecInsert (forestOffsets cs) (childIdxLe ks kv.key + 1)
              (PAGE_SIZE * f.length) = some (List.insertIdx
                (childIdxLe ks kv.key + 1) (PAGE_SIZE * f.length)
                (forestOffsets cs)) := by
            unfold vecInsert
            rw [if_pos (by rw [harity]; omega)]
          have hviK : vecInsert ks (childIdxLe ks kv.key) mp.key =
              some (List.insertIdx (childIdxLe ks kv.key) mp.key ks) := by
            unfold vecInsert
            rw [if_pos hjle]
          obtain ⟨hgfPre, hsortPre⟩ := hsplitC mp.key (PAGE_SIZE * f.length)
            (.leaf (cps.take b)) (.leaf (cps.drop b)) hgl hgr hma hms
          have hallK2 : (List.insertIdx (childIdxLe ks kv.key) mp.key ks).all
              (fun s => cellOk KEY_SIZE s &&
                (aboveLo lo s && belowHi hi s)) = true := by
            apply all_insertIdx hallkB
            rw [Bool.and_eq_true, Bool.and_eq_true]
            exact ⟨hmc, hmonoA mp.key hma,
              belowHi_of_strictHi (hmonoS mp.key hms)⟩
          have hk2len : (List.insertIdx (childIdxLe ks kv.key) mp.key ks).length
              = ks.length + 1 := insertIdx_length_le hjle
          have hgoodPre : goodT b lo hi (T.node
              (List.insertIdx (childIdxLe ks kv.key) mp.key ks)
              (insertAtF (childIdxLe ks kv.key + 1) (PAGE_SIZE * f.length)
                (.leaf (cps.drop b))
                (replaceAtF (childIdxLe ks kv.key) (.leaf (cps.take b)) cs)))
              = true := by
            rw [goodT, Bool.and_eq_true, Bool.and_eq_true, Bool.and_eq_true,
              Bool.and_eq_true]
            refine ⟨⟨⟨⟨hsortPre, hallK2⟩, ?_⟩, ?_⟩, hgfPre⟩
            · rw [decide_eq_true_eq]
              omega
            · rw [decide_eq_true_eq]
              omega
          have hchildren2 : forestOffsets (insertAtF (childIdxLe ks kv.key + 1)
              (PAGE_SIZE * f.length) (.leaf (cps.drop b))
              (replaceAtF (childIdxLe ks kv.key) (.leaf (cps.take b)) cs)) =
              List.insertIdx (childIdxLe ks kv.key + 1) (PAGE_SIZE * f.length)
                (forestOffsets cs) := by
            rw [forestOffsets_insertAtF, forestOffsets_replaceAtF]
          have harity2 : (List.insertIdx (childIdxLe ks kv.key + 1)
              (PAGE_SIZE * f.length) (forestOffsets cs)).length =
              (List.insertIdx (childIdxLe ks kv.key) mp.key ks).length + 1 := by
            rw [insertIdx_length_le (by rw [harity]; omega), hk2len, harity]
          obtain ⟨parent_page, htfP, n2P, hdecP, hn2P, hn2Pr⟩ :=
            try_from_decode_for
              (u := { node with node_type := NodeType.Internal (List.insertIdx (childIdxLe ks kv.key + 1) (PAGE_SIZE * f.length) (forestOffsets cs)) (List.insertIdx (childIdxLe ks kv.key) mp.key ks) })
              (t := T.node (List.insertIdx (childIdxLe ks kv.key) mp.key ks)
                (insertAtF (childIdxLe ks kv.key + 1) (PAGE_SIZE * f.length)
                  (.leaf (cps.drop b))
                  (replaceAtF (childIdxLe ks kv.key) (.leaf (cps.take b)) cs)))
              (by simp only [nodeFor]; rw [hchildren2]) hgoodPre hb100
              (by
                intro o ho
                simp only [offsDirect] at ho
                rw [hchildren2] at ho
                rcases mem_insertIdx_or _ _ _ _ ho with h | h
                · omega
                · have := hbndN o (mem_forestOffsets_offsF cs o h)
                  omega)
              (by
                simp only [arityOk]
                rw [hchildren2]
                exact harity2)
              hpar
          have hn2Ptype : n2P.node_type = .Internal (List.insertIdx
              (childIdxLe ks kv.key + 1) (PAGE_SIZE * f.length)
              (forestOffsets cs)) (List.insertIdx (childIdxLe ks kv.key)
                mp.key ks) := by
            have h7 : n2P.node_type = .Internal (forestOffsets (insertAtF
                (childIdxLe ks kv.key + 1) (PAGE_SIZE * f.length)
                (.leaf (cps.drop b)) (replaceAtF (childIdxLe ks kv.key)
                  (.leaf (cps.take b)) cs)))
              (List.insertIdx (childIdxLe ks kv.key) mp.key ks) := hn2P
            rw [h7, hchildren2]
          have hf3len : ((f.set (oj / PAGE_SIZE) left_page) ++
              [sibling_page]).length = f.length + 1 := by
            rw [List.length_append, List.length_set]
            rfl
          have hwP : Pager.write_page_at_offset
              ((f.set (oj / PAGE_SIZE) left_page) ++ [sibling_page])
              parent_page off =
              .ok (((f.set (oj / PAGE_SIZE) left_page) ++ [sibling_page]).set
                (off / PAGE_SIZE) parent_page) :=
            write_page_at_offset_ok hoffmod (by rw [hf3len]; omega)
          have hf4len : (((f.set (oj / PAGE_SIZE) left_page) ++
              [sibling_page]).set (off / PAGE_SIZE) parent_page).length =
              f.length + 1 := by
            rw [List.length_set, hf3len]
          have hget4oj : Pager.get_page (((f.set (oj / PAGE_SIZE) left_page) ++
              [sibling_page]).set (off / PAGE_SIZE) parent_page) oj =
              .ok left_page := by
            rw [get_page_set_ne (aligned_div_ne hoffmod hojmod
              (Ne.symm hojneoff))]
            rw [get_page_append_ne (by rw [List.length_set]; exact hojlt)]
            exact get_page_set_self hojmod hojlt
          have hget4so : Pager.get_page (((f.set (oj / PAGE_SIZE) left_page) ++
              [sibling_page]).set (off / PAGE_SIZE) parent_page)
              (PAGE_SIZE * f.length) = .ok sibling_page := by
            rw [get_page_set_ne (by rw [hso_div]; omega)]
            have h8 : PAGE_SIZE * f.length =
                PAGE_SIZE * (f.set (oj / PAGE_SIZE) left_page).length := by
              rw [List.length_set]
            rw [h8]
            exact get_page_append_at
          have hget4off : Pager.get_page (((f.set (oj / PAGE_SIZE) left_page) ++
              [sibling_page]).set (off / PAGE_SIZE) parent_page) off =
              .ok parent_page :=
            get_page_set_self hoffmod (by rw [hf3len]; omega)
          have hframe_f4 : ∀ x, x % PAGE_SIZE = 0 → x / PAGE_SIZE < f.length →
              x ≠ oj → x ≠ off →
              Pager.get_page (((f.set (oj / PAGE_SIZE) left_page) ++
                [sibling_page]).set (off / PAGE_SIZE) parent_page) x =
              Pager.get_page f x := by
            intro x hxm hxl hxoj hxoff
            rw [get_page_set_ne (aligned_div_ne hoffmod hxm (Ne.symm hxoff))]
            rw [get_page_append_ne (by rw [List.length_set]; exact hxl)]
            exact get_page_set_ne (aligned_div_ne hojmod hxm (Ne.symm hxoj))
          have htdL4 : treeDecodes (((f.set (oj / PAGE_SIZE) left_page) ++
              [sibling_page]).set (off / PAGE_SIZE) parent_page) oj
              (.leaf (cps.take b)) = true := by
            rw [treeDecodes]
            simp only [hget4oj, hdecL, decide_eq_true_eq]
            exact hn2L
          have htdS4 : treeDecodes (((f.set (oj / PAGE_SIZE) left_page) ++
              [sibling_page]).set (off / PAGE_SIZE) parent_page)
              (PAGE_SIZE * f.length) (.leaf (cps.drop b)) = true := by
            rw [treeDecodes]
            simp only [hget4so, hdecS, decide_eq_true_eq]
            exact hn2S
          have habsL : keyAbsentT kv.key (.leaf (cps.take b)) = true := by
            show (cps.take b).all (fun p => !(p.key == kv.key)) = true
            exact all_take habsj
          have habsR : keyAbsentT kv.key (.leaf (cps.drop b)) = true := by
            show (cps.drop b).all (fun p => !(p.key == kv.key)) = true
            exact all_drop habsj
          have hfulL : BTree.is_node_full b
              { child with node_type := NodeType.Leaf (cps.take b) } =
              .ok false := by
            unfold BTree.is_node_full
            show Except.ok ((cps.take b).length == 2 * b - 1) = .ok false
            rw [List.length_take]
            have h4 : min b cps.length = b := by omega
            rw [h4]
            have h5 : (b == 2 * b - 1) = false := by
              rw [beq_eq_false_iff_ne]
              omega
            rw [h5]
          have hfulS : BTree.is_node_full b
              (Node.new (.Leaf (cps.drop b)) false child.parent_offset) =
              .ok false := by
            unfold BTree.is_node_full
            show Except.ok ((cps.drop b).length == 2 * b - 1) = .ok false
            rw [List.length_drop]
            have h5 : (cps.length - b == 2 * b - 1) = false := by
              rw [beq_eq_false_iff_ne]
              omega
            rw [h5]
          cases hdir : keyLe kv.key mp.key with
          | true =>
            obtain ⟨f5, trec, hrunrec, htd5, hflags5, hdf5, hgood5, hmem5,
                hht5, hlen5, hoffs5, hmemo5, hframe5⟩ :=
              ih (.leaf (cps.take b))
                (((f.set (oj / PAGE_SIZE) left_page) ++ [sibling_page]).set
                  (off / PAGE_SIZE) parent_page)
                oj { child with node_type := NodeType.Leaf (cps.take b) }
                lo2 (some mp.key) kv
                (by show (1 : Nat) ≤ fuel; omega)
                htdL4 rfl rfl hgl habsL hck hcv hak2 hdir hfulL
                (Or.inr hchildpar)
                (fun _ => decodesNonRoot_intro hget4oj hdecL
                  (hn2Lr.trans hchildroot))
                ⟨List.nodup_cons.mpr ⟨List.not_mem_nil oj, List.nodup_nil⟩, by
                  intro x hx
                  have hx2 : x ∈ ([oj] : List Nat) := hx
                  have hxe : x = oj := by simpa using hx2
                  rw [hxe, hf4len]
                  exact ⟨hojmod, by omega⟩⟩
                (by rw [hf4len]; exact hplen4)
            rw [hf4len] at hlen5
            simp only [hf4len] at hmemo5
            have hframe5' : ∀ x, x % PAGE_SIZE = 0 →
                x / PAGE_SIZE < f.length + 1 → x ≠ oj →
                Pager.get_page f5 x =
                Pager.get_page (((f.set (oj / PAGE_SIZE) left_page) ++
                  [sibling_page]).set (off / PAGE_SIZE) parent_page) x := by
              intro x hxm hxl hxoj
              apply hframe5 x hxm (by rw [hf4len]; omega)
              intro hc
              have hc2 : x ∈ ([oj] : List Nat) := hc
              exact hxoj (by simpa using hc2)
            have hget5so : Pager.get_page f5 (PAGE_SIZE * f.length) =
                .ok sibling_page := by
              rw [hframe5' (PAGE_SIZE * f.length) hso_mod
                (by rw [hso_div]; omega) hso_ne_oj]
              exact hget4so
            have hget5off : Pager.get_page f5 off = .ok parent_page := by
              rw [hframe5' off hoffmod (by omega) (Ne.symm hojneoff)]
              exact hget4off
            have htdS5 : treeDecodes f5 (PAGE_SIZE * f.length)
                (.leaf (cps.drop b)) = true := by
              rw [treeDecodes]
              simp only [hget5so, hdecS, decide_eq_true_eq]
              exact hn2S
            have hblockframe5 : ∀ i oi ti, i ≠ childIdxLe ks kv.key →
                nthF cs i = some (oi, ti) →
                ∀ x ∈ oi :: offsT ti,
                  Pager.get_page f5 x = Pager.get_page f x := by
              intro i oi ti hij hi2' x hx
              have hxmem : x ∈ offsF cs := by
                rcases List.mem_cons.mp hx with h | h
                · rw [h]
                  exact (mem_offsF_nthF cs i oi ti hi2').1
                · exact (mem_offsF_nthF cs i oi ti hi2').2 x h
              have hdisj := nthF_blocks_disjoint cs i _ oi oj ti (T.leaf cps) hij hi2'
                hnth hnodupF x hx
              have hxoj : x ≠ oj := fun hc => hdisj
                (by rw [hc]; exact List.mem_cons_self _ _)
              have hxoff : x ≠ off := fun hc => hoffnotin (hc ▸ hxmem)
              rw [hframe5' x (hbndF x hxmem).1
                (by have := (hbndF x hxmem).2; omega) hxoj]
              exact hframe_f4 x (hbndF x hxmem).1 (hbndF x hxmem).2 hxoj hxoff
            have hchildren2' : forestOffsets (insertAtF
                (childIdxLe ks kv.key + 1) (PAGE_SIZE * f.length)
                (.leaf (cps.drop b))
                (replaceAtF (childIdxLe ks kv.key) trec cs)) =
                List.insertIdx (childIdxLe ks kv.key + 1)
                  (PAGE_SIZE * f.length) (forestOffsets cs) := by
              rw [forestOffsets_insertAtF, forestOffsets_replaceAtF]
            obtain ⟨hgfPost, hsortPost⟩ := hsplitC mp.key (PAGE_SIZE * f.length)
              trec (.leaf (cps.drop b)) hgood5 hgr hma hms
            refine ⟨f5, T.node (List.insertIdx (childIdxLe ks kv.key) mp.key ks)
              (insertAtF (childIdxLe ks kv.key + 1) (PAGE_SIZE * f.length)
                (.leaf (cps.drop b))
                (replaceAtF (childIdxLe ks kv.key) trec cs)),
              ?_, ?_, ?_, ?_, ?_, ?_, ?_, ?_, ?_, ?_, ?_⟩
            · show BTree.insert_non_full b (fuel + 1) f node off kv = _
              unfold BTree.insert_non_full
              simp only [hnt, hidx, hco, hcpg, hcfp, hfulc, hsplitEq, htfL,
                hwL, htfS, Pager.write_page, List.length_set, hviC, hviK,
                htfP, hwP, stepE, hdir]
              exact hrunrec
            · rw [treeDecodes]
              simp only [hget5off, hdecP]
              rw [Bool.and_eq_true, Bool.and_eq_true]
              refine ⟨⟨?_, ?_⟩, ?_⟩
              · rw [decide_eq_true_eq, hn2Ptype, hchildren2']
              · rw [decide_eq_true_eq, hchildren2']
                exact harity2
              · apply forestDecodes_insertAtF
                · apply forestDecodes_of_nth
                  intro i oi ti hi2'
                  by_cases hij : i = childIdxLe ks kv.key
                  · subst hij
                    rw [nthF_replaceAtF_eq _ _ cs oj (T.leaf cps) hnth] at hi2'
                    have h9 : oi = oj ∧ ti = trec := by
                      cases hi2'
                      exact ⟨rfl, rfl⟩
                    rw [h9.1, h9.2]
                    exact htd5
                  · rw [nthF_replaceAtF_ne _ _ _ cs hij] at hi2'
                    exact treeDecodes_frame (heightT ti) ti oi f f5 (le_refl _)
                      (hblockframe5 i oi ti hij hi2' oi (List.mem_cons_self _ _))
                      (fun x hx => hblockframe5 i oi ti hij hi2' x
                        (List.mem_cons_of_mem _ hx))
                      (forestDecodes_nth f i cs oi ti hi2' hfdec)
                · exact htdS5
            · show nonRootBelowF f5 (insertAtF (childIdxLe ks kv.key + 1)
                (PAGE_SIZE * f.length) (.leaf (cps.drop b))
                (replaceAtF (childIdxLe ks kv.key) trec cs)) = true
              apply nonRootBelowF_insertAtF
              · apply nonRootBelowF_of_nth
                intro i oi ti hi2'
                by_cases hij : i = childIdxLe ks kv.key
                · subst hij
                  rw [nthF_replaceAtF_eq _ _ cs oj (T.leaf cps) hnth] at hi2'
                  have h9 : oi = oj ∧ ti = trec := by
                    cases hi2'
                    exact ⟨rfl, rfl⟩
                  rw [h9.1, h9.2]
                  exact ⟨hdf5 hchildroot, hflags5⟩
                · rw [nthF_replaceAtF_ne _ _ _ cs hij] at hi2'
                  have hfi := nonRootBelowF_nth f i cs oi ti hi2' hflagsF
                  constructor
                  · rw [decodesNonRoot_congr (hblockframe5 i oi ti hij hi2' oi
                      (List.mem_cons_self _ _))]
                    exact hfi.1
                  · exact nonRootBelowT_frame (heightT ti) ti f f5 (le_refl _)
                      (fun x hx => hblockframe5 i oi ti hij hi2' x
                        (List.mem_cons_of_mem _ hx)) hfi.2
              · exact decodesNonRoot_intro hget5so hdecS hn2Sr
              · rfl
            · intro hr
              exact decodesNonRoot_intro hget5off hdecP (hn2Pr.trans hr)
            · rw [goodT, Bool.and_eq_true, Bool.and_eq_true, Bool.and_eq_true,
                Bool.and_eq_true]
              refine ⟨⟨⟨⟨hsortPost, hallK2⟩, ?_⟩, ?_⟩, hgfPost⟩
              · rw [decide_eq_true_eq]
                omega
              · rw [decide_eq_true_eq]
                omega
            · show memF kv (insertAtF (childIdxLe ks kv.key + 1)
                (PAGE_SIZE * f.length) (.leaf (cps.drop b))
                (replaceAtF (childIdxLe ks kv.key) trec cs)) = true
              apply memF_insertAtF_of
              exact memF_replaceAtF kv _ cs trec (by omega) hmem5
            · show heightF (insertAtF (childIdxLe ks kv.key + 1)
                (PAGE_SIZE * f.length) (.leaf (cps.drop b))
                (replaceAtF (childIdxLe ks kv.key) trec cs)) + 1 ≤
                heightF cs + 1
              have e1 := heightF_insertAtF_le (childIdxLe ks kv.key + 1)
                (PAGE_SIZE * f.length) (.leaf (cps.drop b))
                (replaceAtF (childIdxLe ks kv.key) trec cs)
              have e2 := heightF_replaceAtF_le (childIdxLe ks kv.key) trec cs
              have e3 : heightT trec ≤ 1 := hht5
              have e4 : heightT (T.leaf (cps.drop b)) = 1 := rfl
              have e5 : heightT (T.leaf cps) = 1 := rfl
              omega
            · omega
            · constructor
              · show (off :: offsF (insertAtF (childIdxLe ks kv.key + 1)
                  (PAGE_SIZE * f.length) (.leaf (cps.drop b))
                  (replaceAtF (childIdxLe ks kv.key) trec cs))).Nodup
                rw [List.nodup_cons]
                constructor
                · intro hc
                  rcases mem_offsF_insertAtF _ _ _ _ off hc with h | h | h
                  · omega
                  · have h2 : off ∈ ([] : List Nat) := h
                    simp at h2
                  · rcases mem_offsF_replaceAtF _ trec cs off h with h2 | h2
                    · exact hoffnotin h2
                    · rcases hmemo5 off h2 with h3 | h3
                      · have h4 : off ∈ ([] : List Nat) := h3
                        simp at h4
                      · omega
                · apply nodup_offsF_split (PAGE_SIZE * f.length) _ cs oj (T.leaf cps)
                    (PAGE_SIZE * f.length) trec (.leaf (cps.drop b)) hnth
                    hnodupF hbndN hoffs5.1
                    (List.nodup_cons.mpr ⟨List.not_mem_nil _, List.nodup_nil⟩)
                  · intro x hx hc
                    rcases List.mem_cons.mp hc with h | h
                    · rcases List.mem_cons.mp hx with h2 | h2
                      · rw [h2] at h
                        exact hso_ne_oj h.symm
                      · rcases hmemo5 x h2 with h3 | h3
                        · have h4 : x ∈ ([] : List Nat) := h3
                          simp at h4
                        · omega
                    · have h4 : x ∈ ([] : List Nat) := h
                      simp at h4
                  · intro x hx
                    rcases hmemo5 x hx with h3 | h3
                    · have h4 : x ∈ ([] : List Nat) := h3
                      simp at h4
                    · exact Or.inr (by omega)
                  · intro x hx
                    have h4 : x ∈ ([] : List Nat) := hx
                    simp at h4
                  · exact le_refl _
              · intro x hx
                rcases List.mem_cons.mp hx with h | h
                · rw [h]
                  exact ⟨hoffmod, by omega⟩
                · rcases mem_offsF_insertAtF _ _ _ _ x h with h2 | h2 | h2
                  · rw [h2]
                    exact ⟨hso_mod, by rw [hso_div]; omega⟩
                  · have h4 : x ∈ ([] : List Nat) := h2
                    simp at h4
                  · rcases mem_offsF_replaceAtF _ trec cs x h2 with h3 | h3
                    · exact ⟨(hbndF x h3).1, by
                        have := (hbndF x h3).2
                        omega⟩
                    · exact hoffs5.2 x (List.mem_cons_of_mem _ h3)
            · intro x hx
              rcases mem_offsF_insertAtF _ _ _ _ x hx with h2 | h2 | h2
              · exact Or.inr (by omega)
              · have h4 : x ∈ ([] : List Nat) := h2
                simp at h4
              · rcases mem_offsF_replaceAtF _ trec cs x h2 with h3 | h3
                · exact Or.inl h3
                · rcases hmemo5 x h3 with h4 | h4
                  · have h5 : x ∈ ([] : List Nat) := h4
                    simp at h5
                  · exact Or.inr (by omega)
            · intro o hom holt hnot
              have hooff : o ≠ off := fun hc => hnot
                (by rw [hc]; exact List.mem_cons_self _ _)
              have hooj : o ≠ oj := fun hc => hnot
                (by rw [hc]; exact List.mem_cons_of_mem _ hojmem)
              rw [hframe5' o hom (by omega) hooj]
              exact hframe_f4 o hom holt hooj hooff
          | false =>
            obtain ⟨f5, trec, hrunrec, htd5, hflags5, hdf5, hgood5, hmem5,
                hht5, hlen5, hoffs5, hmemo5, hframe5⟩ :=
              ih (.leaf (cps.drop b))
                (((f.set (oj / PAGE_SIZE) left_page) ++ [sibling_page]).set
                  (off / PAGE_SIZE) parent_page)
                (PAGE_SIZE * f.length)
                (Node.new (.Leaf (cps.drop b)) false child.parent_offset)
                (some mp.key) hi2 kv
                (by show (1 : Nat) ≤ fuel; omega)
                htdS4 rfl rfl hgr habsR hck hcv (keyLe_false_lt hdir) hbk2
                hfulS (Or.inr hchildpar)
                (fun _ => decodesNonRoot_intro hget4so hdecS hn2Sr)
                ⟨List.nodup_cons.mpr ⟨List.not_mem_nil _, List.nodup_nil⟩, by
                  intro x hx
                  have hx2 : x ∈ ([PAGE_SIZE * f.length] : List Nat) := hx
                  have hxe : x = PAGE_SIZE * f.length := by simpa using hx2
                  rw [hxe, hf4len, hso_div]
                  exact ⟨hso_mod, by omega⟩⟩
                (by rw [hf4len]; exact hplen4)
            rw [hf4len] at hlen5
            simp only [hf4len] at hmemo5
            have hframe5' : ∀ x, x % PAGE_SIZE = 0 →
                x / PAGE_SIZE < f.length + 1 → x ≠ PAGE_SIZE * f.length →
                Pager.get_page f5 x =
                Pager.get_page (((f.set (oj / PAGE_SIZE) left_page) ++
                  [sibling_page]).set (off / PAGE_SIZE) parent_page) x := by
              intro x hxm hxl hxso
              apply hframe5 x hxm (by rw [hf4len]; omega)
              intro hc
              have hc2 : x ∈ ([PAGE_SIZE * f.length] : List Nat) := hc
              exact hxso (by simpa using hc2)
            have hget5oj : Pager.get_page f5 oj = .ok left_page := by
              rw [hframe5' oj hojmod (by omega) (Ne.symm hso_ne_oj)]
              exact hget4oj
            have hget5off : Pager.get_page f5 off = .ok parent_page := by
              rw [hframe5' off hoffmod (by omega) (by omega)]
              exact hget4off
            have htdL5 : treeDecodes f5 oj (.leaf (cps.take b)) = true := by
              rw [treeDecodes]
              simp only [hget5oj, hdecL, decide_eq_true_eq]
              exact hn2L
            have hblockframe5 : ∀ i oi ti, i ≠ childIdxLe ks kv.key →
                nthF cs i = some (oi, ti) →
                ∀ x ∈ oi :: offsT ti,
                  Pager.get_page f5 x = Pager.get_page f x := by
              intro i oi ti hij hi2' x hx
              have hxmem : x ∈ offsF cs := by
                rcases List.mem_cons.mp hx with h | h
                · rw [h]
                  exact (mem_offsF_nthF cs i oi ti hi2').1
                · exact (mem_offsF_nthF cs i oi ti hi2').2 x h
              have hdisj := nthF_blocks_disjoint cs i _ oi oj ti (T.leaf cps)
                hij hi2' hnth hnodupF x hx
              have hxoj : x ≠ oj := fun hc => hdisj
                (by rw [hc]; exact List.mem_cons_self _ _)
              have hxoff : x ≠ off := fun hc => hoffnotin (hc ▸ hxmem)
              rw [hframe5' x (hbndF x hxmem).1
                (by have := (hbndF x hxmem).2; omega)
                (by have := hbndN x hxmem; omega)]
              exact hframe_f4 x (hbndF x hxmem).1 (hbndF x hxmem).2 hxoj hxoff
            have hchildren2' : forestOffsets (insertAtF
                (childIdxLe ks kv.key + 1) (PAGE_SIZE * f.length) trec
                (replaceAtF (childIdxLe ks kv.key) (.leaf (cps.take b)) cs)) =
                List.insertIdx (childIdxLe ks kv.key + 1)
                  (PAGE_SIZE * f.length) (forestOffsets cs) := by
              rw [forestOffsets_insertAtF, forestOffsets_replaceAtF]
            obtain ⟨hgfPost, hsortPost⟩ := hsplitC mp.key (PAGE_SIZE * f.length)
              (.leaf (cps.take b)) trec hgl hgood5 hma hms
            refine ⟨f5, T.node (List.insertIdx (childIdxLe ks kv.key) mp.key ks)
              (insertAtF (childIdxLe ks kv.key + 1) (PAGE_SIZE * f.length)
                trec (replaceAtF (childIdxLe ks kv.key) (.leaf (cps.take b)) cs)),
              ?_, ?_, ?_, ?_, ?_, ?_, ?_, ?_, ?_, ?_, ?_⟩
            · show BTree.insert_non_full b (fuel + 1) f node off kv = _
              unfold BTree.insert_non_full
              simp only [hnt, hidx, hco, hcpg, hcfp, hfulc, hsplitEq, htfL,
                hwL, htfS, Pager.write_page, List.length_set, hviC, hviK,
                htfP, hwP, stepE, hdir]
              exact hrunrec
            · rw [treeDecodes]
              simp only [hget5off, hdecP]
              rw [Bool.and_eq_true, Bool.and_eq_true]
              refine ⟨⟨?_, ?_⟩, ?_⟩
              · rw [decide_eq_true_eq, hn2Ptype, hchildren2']
              · rw [decide_eq_true_eq, hchildren2']
                exact harity2
              · apply forestDecodes_insertAtF
                · apply forestDecodes_of_nth
                  intro i oi ti hi2'
                  by_cases hij : i = childIdxLe ks kv.key
                  · subst hij
                    rw [nthF_replaceAtF_eq _ _ cs oj (T.leaf cps) hnth] at hi2'
                    have h9 : oi = oj ∧ ti = T.leaf (cps.take b) := by
                      cases hi2'
                      exact ⟨rfl, rfl⟩
                    rw [h9.1, h9.2]
                    exact htdL5
                  · rw [nthF_replaceAtF_ne _ _ _ cs hij] at hi2'
                    exact treeDecodes_frame (heightT ti) ti oi f f5 (le_refl _)
                      (hblockframe5 i oi ti hij hi2' oi (List.mem_cons_self _ _))
                      (fun x hx => hblockframe5 i oi ti hij hi2' x
                        (List.mem_cons_of_mem _ hx))
                      (forestDecodes_nth f i cs oi ti hi2' hfdec)
                · exact htd5
            · show nonRootBelowF f5 (insertAtF (childIdxLe ks kv.key + 1)
                (PAGE_SIZE * f.length) trec
                (replaceAtF (childIdxLe ks kv.key) (.leaf (cps.take b)) cs)) = true
              apply nonRootBelowF_insertAtF
              · apply nonRootBelowF_of_nth
                intro i oi ti hi2'
                by_cases hij : i = childIdxLe ks kv.key
                · subst hij
                  rw [nthF_replaceAtF_eq _ _ cs oj (T.leaf cps) hnth] at hi2'
                  have h9 : oi = oj ∧ ti = T.leaf (cps.take b) := by
                    cases hi2'
                    exact ⟨rfl, rfl⟩
                  rw [h9.1, h9.2]
                  exact ⟨decodesNonRoot_intro hget5oj hdecL
                    (hn2Lr.trans hchildroot), rfl⟩
                · rw [nthF_replaceAtF_ne _ _ _ cs hij] at hi2'
                  have hfi := nonRootBelowF_nth f i cs oi ti hi2' hflagsF
                  constructor
                  · rw [decodesNonRoot_congr (hblockframe5 i oi ti hij hi2' oi
                      (List.mem_cons_self _ _))]
                    exact hfi.1
                  · exact nonRootBelowT_frame (heightT ti) ti f f5 (le_refl _)
                      (fun x hx => hblockframe5 i oi ti hij hi2' x
                        (List.mem_cons_of_mem _ hx)) hfi.2
              · exact hdf5 rfl
              · exact hflags5
            · intro hr
              exact decodesNonRoot_intro hget5off hdecP (hn2Pr.trans hr)
            · rw [goodT, Bool.and_eq_true, Bool.and_eq_true, Bool.and_eq_true,
                Bool.and_eq_true]
              refine ⟨⟨⟨⟨hsortPost, hallK2⟩, ?_⟩, ?_⟩, hgfPost⟩
              · rw [decide_eq_true_eq]
                omega
              · rw [decide_eq_true_eq]
                omega
            · show memF kv (insertAtF (childIdxLe ks kv.key + 1)
                (PAGE_SIZE * f.length) trec
                (replaceAtF (childIdxLe ks kv.key) (.leaf (cps.take b)) cs)) = true
              apply memF_insertAtF_self kv _ _ _ _ _ hmem5
              rw [lengthF_replaceAtF]
              omega
            · show heightF (insertAtF (childIdxLe ks kv.key + 1)
                (PAGE_SIZE * f.length) trec
                (replaceAtF (childIdxLe ks kv.key) (.leaf (cps.take b)) cs)) + 1 ≤
                heightF cs + 1
              have e1 := heightF_insertAtF_le (childIdxLe ks kv.key + 1)
                (PAGE_SIZE * f.length) trec
                (replaceAtF (childIdxLe ks kv.key) (.leaf (cps.take b)) cs)
              have e2 := heightF_replaceAtF_le (childIdxLe ks kv.key)
                (T.leaf (cps.take b)) cs
              have e3 : heightT trec ≤ 1 := hht5
              have e4 : heightT (T.leaf (cps.take b)) = 1 := rfl
              have e5 : heightT (T.leaf cps) ≤ heightF cs := hhtj
              have e6 : heightT (T.leaf cps) = 1 := rfl
              omega
            · omega
            · constructor
              · show (off :: offsF (insertAtF (childIdxLe ks kv.key + 1)
                  (PAGE_SIZE * f.length) trec
                  (replaceAtF (childIdxLe ks kv.key)
                    (.leaf (cps.take b)) cs))).Nodup
                rw [List.nodup_cons]
                constructor
                · intro hc
                  rcases mem_offsF_insertAtF _ _ _ _ off hc with h | h | h
                  · omega
                  · rcases hmemo5 off h with h3 | h3
                    · have h4 : off ∈ ([] : List Nat) := h3
                      simp at h4
                    · omega
                  · rcases mem_offsF_replaceAtF _ _ cs off h with h2 | h2
                    · exact hoffnotin h2
                    · have h4 : off ∈ ([] : List Nat) := h2
                      simp at h4
                · apply nodup_offsF_split (PAGE_SIZE * f.length) _ cs oj
                    (T.leaf cps) (PAGE_SIZE * f.length) (.leaf (cps.take b))
                    trec hnth hnodupF hbndN
                    (List.nodup_cons.mpr ⟨List.not_mem_nil _, List.nodup_nil⟩)
                    hoffs5.1
                  · intro x hx hc
                    rcases List.mem_cons.mp hx with h | h
                    · rcases List.mem_cons.mp hc with h2 | h2
                      · rw [h] at h2
                        exact hso_ne_oj h2.symm
                      · rcases hmemo5 x h2 with h3 | h3
                        · have h4 : x ∈ ([] : List Nat) := h3
                          simp at h4
                        · rw [h] at h3
                          have := hbndN oj hojmem
                          omega
                    · have h4 : x ∈ ([] : List Nat) := h
                      simp at h4
                  · intro x hx
                    have h4 : x ∈ ([] : List Nat) := hx
                    simp at h4
                  · intro x hx
                    rcases hmemo5 x hx with h3 | h3
                    · have h4 : x ∈ ([] : List Nat) := h3
                      simp at h4
                    · exact Or.inr (by omega)
                  · exact le_refl _
              · intro x hx
                rcases List.mem_cons.mp hx with h | h
                · rw [h]
                  exact ⟨hoffmod, by omega⟩
                · rcases mem_offsF_insertAtF _ _ _ _ x h with h2 | h2 | h2
                  · rw [h2]
                    exact ⟨hso_mod, by rw [hso_div]; omega⟩
                  · exact hoffs5.2 x (List.mem_cons_of_mem _ h2)
                  · rcases mem_offsF_replaceAtF _ _ cs x h2 with h3 | h3
                    · exact ⟨(hbndF x h3).1, by
                        have := (hbndF x h3).2
                        omega⟩
                    · have h4 : x ∈ ([] : List Nat) := h3
                      simp at h4
            · intro x hx
              rcases mem_offsF_insertAtF _ _ _ _ x hx with h2 | h2 | h2
              · exact Or.inr (by omega)
              · rcases hmemo5 x h2 with h3 | h3
                · have h4 : x ∈ ([] : List Nat) := h3
                  simp at h4
                · exact Or.inr (by omega)
              · rcases mem_offsF_replaceAtF _ _ cs x h2 with h3 | h3
                · exact Or.inl h3
                · have h4 : x ∈ ([] : List Nat) := h3
                  simp at h4
            · intro o hom holt hnot
              have hooff : o ≠ off := fun hc => hnot
                (by rw [hc]; exact List.mem_cons_self _ _)
              have hooj : o ≠ oj := fun hc => hnot
                (by rw [hc]; exact List.mem_cons_of_mem _ hojmem)
              have hoso : o ≠ PAGE_SIZE * f.length := by
                have := aligned_lt hom holt
                omega
              rw [hframe5' o hom (by omega) hoso]
              exact hframe_f4 o hom holt hooj hooff
        | node cks ccs =>
          have h1 : child.node_type = .Internal (forestOffsets ccs) cks :=
            hcmatch
          have hfull : cks.length = 2 * b - 1 := by
            have h2 : BTree.is_node_full b child =
                .ok (cks.length == 2 * b - 1) := by
              unfold BTree.is_node_full
              rw [h1]
            rw [hfulc] at h2
            have h3 : (cks.length == 2 * b - 1) = true := (Except.ok.inj h2).symm
            simpa using h3
          have harityC : (forestOffsets ccs).length = cks.length + 1 := by
            have h2 := htdj
            rw [treeDecodes] at h2
            simp only [hcpg, hcfp] at h2
            rw [Bool.and_eq_true, Bool.and_eq_true, decide_eq_true_eq,
              decide_eq_true_eq] at h2
            exact h2.1.2
          have hfdecC : forestDecodes f ccs = true := hccdec
          have hchildflagsC : nonRootBelowF f ccs = true := hchildflags
          have hojnotinC : oj ∉ offsF ccs := (List.nodup_cons.mp hblocknodup).1
          have hnodupC : (offsF ccs).Nodup := (List.nodup_cons.mp hblocknodup).2
          obtain ⟨hndT, hndD, hdisjTD⟩ :=
            nodup_offsF_take_drop (n := b) hnodupC
          have hsubC : ∀ x ∈ offsF ccs, x ∈ offsF cs := fun x hx => hsubj x hx
          obtain ⟨m, hm, hgl, hgr, hma, hms, hmc⟩ :=
            node_split_good b hb hgoodj hfull
          have hsplitEq : child.split b = .ok (m,
              { child with node_type := NodeType.Internal ((forestOffsets ccs).take b) (cks.take (b - 1)) },
              Node.new (.Internal ((forestOffsets ccs).drop b) (cks.drop b))
                false child.parent_offset) := by
            unfold Node.split
            simp only [h1, hm]
          obtain ⟨left_page, htfL, n2L, hdecL, hn2L, hn2Lr⟩ :=
            try_from_decode_for
              (u := { child with node_type := NodeType.Internal ((forestOffsets ccs).take b) (cks.take (b - 1)) })
              (t := .node (cks.take (b - 1)) (takeF b ccs))
              (by simp only [nodeFor]; rw [forestOffsets_takeF])
              hgl hb100
              (by
                intro o ho
                simp only [offsDirect] at ho
                rw [forestOffsets_takeF] at ho
                have h4 := hbndN o (hsubC o
                  (mem_forestOffsets_offsF ccs o (List.take_subset _ _ ho)))
                have hle : PAGE_SIZE * f.length ≤
                    PAGE_SIZE * (f.length + 2 * (fuel + 1)) :=
                  Nat.mul_le_mul_left _ (by omega)
                omega)
              (by
                simp only [arityOk]
                rw [forestOffsets_takeF, List.length_take, List.length_take]
                omega)
              (Or.inr hchildpar)
          obtain ⟨sibling_page, htfS, n2S, hdecS, hn2S, hn2Sr⟩ :=
            try_from_decode_for
              (u := Node.new (.Internal ((forestOffsets ccs).drop b) (cks.drop b)) false child.parent_offset)
              (t := .node (cks.drop b) (dropF b ccs))
              (by simp only [nodeFor]; rw [forestOffsets_dropF]; rfl)
              hgr hb100
              (by
                intro o ho
                simp only [offsDirect] at ho
                rw [forestOffsets_dropF] at ho
                have h4 := hbndN o (hsubC o
                  (mem_forestOffsets_offsF ccs o (List.drop_subset _ _ ho)))
                have hle : PAGE_SIZE * f.length ≤
                    PAGE_SIZE * (f.length + 2 * (fuel + 1)) :=
                  Nat.mul_le_mul_left _ (by omega)
                omega)
              (by
                simp only [arityOk]
                rw [forestOffsets_dropF, List.length_drop, List.length_drop]
                omega)
              (Or.inr hchildpar)
          have hwL : Pager.write_page_at_offset f left_page oj =
              .ok (f.set (oj / PAGE_SIZE) left_page) :=
            write_page_at_offset_ok hojmod hojlt
          have hviC : vecInsert (forestOffsets cs) (childIdxLe ks kv.key + 1)
              (PAGE_SIZE * f.length) = some (List.insertIdx
                (childIdxLe ks kv.key + 1) (PAGE_SIZE * f.length)
                (forestOffsets cs)) := by
            unfold vecInsert
            rw [if_pos (by rw [harity]; omega)]
          have hviK : vecInsert ks (childIdxLe ks kv.key) m =
              some (List.insertIdx (childIdxLe ks kv.key) m ks) := by
            unfold vecInsert
            rw [if_pos hjle]
          obtain ⟨hgfPre, hsortPre⟩ := hsplitC m (PAGE_SIZE * f.length)
            (.node (cks.take (b - 1)) (takeF b ccs))
            (.node (cks.drop b) (dropF b ccs)) hgl hgr hma hms
          have hallK2 : (List.insertIdx (childIdxLe ks kv.key) m ks).all
              (fun s => cellOk KEY_SIZE s &&
                (aboveLo lo s && belowHi hi s)) = true := by
            apply all_insertIdx hallkB
            rw [Bool.and_eq_true, Bool.and_eq_true]
            exact ⟨hmc, hmonoA m hma, belowHi_of_strictHi (hmonoS m hms)⟩
          have hk2len : (List.insertIdx (childIdxLe ks kv.key) m ks).length
              = ks.length + 1 := insertIdx_length_le hjle
          have hgoodPre : goodT b lo hi (T.node
              (List.insertIdx (childIdxLe ks kv.key) m ks)
              (insertAtF (childIdxLe ks kv.key + 1) (PAGE_SIZE * f.length)
                (.node (cks.drop b) (dropF b ccs))
                (replaceAtF (childIdxLe ks kv.key)
                  (.node (cks.take (b - 1)) (takeF b ccs)) cs))) = true := by
            rw [goodT, Bool.and_eq_true, Bool.and_eq_true, Bool.and_eq_true,
              Bool.and_eq_true]
            refine ⟨⟨⟨⟨hsortPre, hallK2⟩, ?_⟩, ?_⟩, hgfPre⟩
            · rw [decide_eq_true_eq]
              omega
            · rw [decide_eq_true_eq]
              omega
          have hchildren2 : forestOffsets (insertAtF (childIdxLe ks kv.key + 1)
              (PAGE_SIZE * f.length) (.node (cks.drop b) (dropF b ccs))
              (replaceAtF (childIdxLe ks kv.key)
                (.node (cks.take (b - 1)) (takeF b ccs)) cs)) =
              List.insertIdx (childIdxLe ks kv.key + 1) (PAGE_SIZE * f.length)
                (forestOffsets cs) := by
            rw [forestOffsets_insertAtF, forestOffsets_replaceAtF]
          have harity2 : (List.insertIdx (childIdxLe ks kv.key + 1)
              (PAGE_SIZE * f.length) (forestOffsets cs)).length =
              (List.insertIdx (childIdxLe ks kv.key) m ks).length + 1 := by
            rw [insertIdx_length_le (by rw [harity]; omega), hk2len, harity]
          obtain ⟨parent_page, htfP, n2P, hdecP, hn2P, hn2Pr⟩ :=
            try_from_decode_for
              (u := { node with node_type := NodeType.Internal (List.insertIdx (childIdxLe ks kv.key + 1) (PAGE_SIZE * f.length) (forestOffsets cs)) (List.insertIdx (childIdxLe ks kv.key) m ks) })
              (t := T.node (List.insertIdx (childIdxLe ks kv.key) m ks)
                (insertAtF (childIdxLe ks kv.key + 1) (PAGE_SIZE * f.length)
                  (.node (cks.drop b) (dropF b ccs))
                  (replaceAtF (childIdxLe ks kv.key)
                    (.node (cks.take (b - 1)) (takeF b ccs)) cs)))
              (by simp only [nodeFor]; rw [hchildren2]) hgoodPre hb100
              (by
                intro o ho
                simp only [offsDirect] at ho
                rw [hchildren2] at ho
                rcases mem_insertIdx_or _ _ _ _ ho with h | h
                · omega
                · have := hbndN o (mem_forestOffsets_offsF cs o h)
                  omega)
              (by
                simp only [arityOk]
                rw [hchildren2]
                exact harity2)
              hpar
          have hn2Ptype : n2P.node_type = .Internal (List.insertIdx
              (childIdxLe ks kv.key + 1) (PAGE_SIZE * f.length)
              (forestOffsets cs)) (List.insertIdx (childIdxLe ks kv.key)
                m ks) := by
            have h7 : n2P.node_type = .Internal (forestOffsets (insertAtF
                (childIdxLe ks kv.key + 1) (PAGE_SIZE * f.length)
                (.node (cks.drop b) (dropF b ccs))
                (replaceAtF (childIdxLe ks kv.key)
                  (.node (cks.take (b - 1)) (takeF b ccs)) cs)))
              (List.insertIdx (childIdxLe ks kv.key) m ks) := hn2P
            rw [h7, hchildren2]
          have hf3len : ((f.set (oj / PAGE_SIZE) left_page) ++
              [sibling_page]).length = f.length + 1 := by
            rw [List.length_append, List.length_set]
            rfl
          have hwP : Pager.write_page_at_offset
              ((f.set (oj / PAGE_SIZE) left_page) ++ [sibling_page])
              parent_page off =
              .ok (((f.set (oj / PAGE_SIZE) left_page) ++ [sibling_page]).set
                (off / PAGE_SIZE) parent_page) :=
            write_page_at_offset_ok hoffmod (by rw [hf3len]; omega)
          have hf4len : (((f.set (oj / PAGE_SIZE) left_page) ++ [sibling_page]).set (off / PAGE_SIZE) parent_page).length = f.length + 1 := by
            rw [List.length_set, hf3len]
          have hget4oj : Pager.get_page (((f.set (oj / PAGE_SIZE) left_page) ++ [sibling_page]).set (off / PAGE_SIZE) parent_page) oj = .ok left_page := by
            rw [get_page_set_ne (aligned_div_ne hoffmod hojmod
              (Ne.symm hojneoff))]
            rw [get_page_append_ne (by rw [List.length_set]; exact hojlt)]
            exact get_page_set_self hojmod hojlt
          have hget4so : Pager.get_page (((f.set (oj / PAGE_SIZE) left_page) ++ [sibling_page]).set (off / PAGE_SIZE) parent_page) (PAGE_SIZE * f.length) =
              .ok sibling_page := by
            rw [get_page_set_ne (by rw [hso_div]; omega)]
            have h8 : PAGE_SIZE * f.length =
                PAGE_SIZE * (f.set (oj / PAGE_SIZE) left_page).length := by
              rw [List.length_set]
            rw [h8]
            exact get_page_append_at
          have hget4off : Pager.get_page (((f.set (oj / PAGE_SIZE) left_page) ++ [sibling_page]).set (off / PAGE_SIZE) parent_page) off = .ok parent_page :=
            get_page_set_self hoffmod (by rw [hf3len]; omega)
          have hframe_f4 : ∀ x, x % PAGE_SIZE = 0 → x / PAGE_SIZE < f.length →
              x ≠ oj → x ≠ off →
              Pager.get_page (((f.set (oj / PAGE_SIZE) left_page) ++ [sibling_page]).set (off / PAGE_SIZE) parent_page) x = Pager.get_page f x := by
            intro x hxm hxl hxoj hxoff
            rw [get_page_set_ne (aligned_div_ne hoffmod hxm (Ne.symm hxoff))]
            rw [get_page_append_ne (by rw [List.length_set]; exact hxl)]
            exact get_page_set_ne (aligned_div_ne hojmod hxm (Ne.symm hxoj))
          have hsubframe4 : ∀ x ∈ offsF ccs,
              Pager.get_page (((f.set (oj / PAGE_SIZE) left_page) ++ [sibling_page]).set (off / PAGE_SIZE) parent_page) x = Pager.get_page f x := by
            intro x hx
            have hxmem : x ∈ offsF cs := hsubC x hx
            exact hframe_f4 x (hbndF x hxmem).1 (hbndF x hxmem).2
              (fun hc => hojnotinC (hc ▸ hx))
              (fun hc => hoffnotin (hc ▸ hxmem))
          have hfdecC4 : forestDecodes (((f.set (oj / PAGE_SIZE) left_page) ++ [sibling_page]).set (off / PAGE_SIZE) parent_page) ccs = true :=
            forestDecodes_frame f _ ccs hsubframe4 hfdecC
          have hflagsC4 : nonRootBelowF (((f.set (oj / PAGE_SIZE) left_page) ++ [sibling_page]).set (off / PAGE_SIZE) parent_page) ccs = true :=
            nonRootBelowF_frame f _ ccs hsubframe4 hchildflagsC
          have htdL4 : treeDecodes (((f.set (oj / PAGE_SIZE) left_page) ++ [sibling_page]).set (off / PAGE_SIZE) parent_page) oj
              (.node (cks.take (b - 1)) (takeF b ccs)) = true := by
            rw [treeDecodes]
            simp only [hget4oj, hdecL]
            rw [Bool.and_eq_true, Bool.and_eq_true]
            refine ⟨⟨?_, ?_⟩, ?_⟩
            · rw [decide_eq_true_eq]
              exact hn2L
            · rw [decide_eq_true_eq]
              rw [forestOffsets_takeF, List.length_take, List.length_take]
              omega
            · exact forestDecodes_takeF _ b ccs hfdecC4
          have htdS4 : treeDecodes (((f.set (oj / PAGE_SIZE) left_page) ++ [sibling_page]).set (off / PAGE_SIZE) parent_page) (PAGE_SIZE * f.length)
              (.node (cks.drop b) (dropF b ccs)) = true := by
            rw [treeDecodes]
            simp only [hget4so, hdecS]
            rw [Bool.and_eq_true, Bool.and_eq_true]
            refine ⟨⟨?_, ?_⟩, ?_⟩
            · rw [decide_eq_true_eq]
              exact hn2S
            · rw [decide_eq_true_eq]
              rw [forestOffsets_dropF, List.length_drop, List.length_drop]
              omega
            · exact forestDecodes_dropF _ b ccs hfdecC4
          have hflagsL4 : nonRootBelowT (((f.set (oj / PAGE_SIZE) left_page) ++ [sibling_page]).set (off / PAGE_SIZE) parent_page)
              (.node (cks.take (b - 1)) (takeF b ccs)) = true := by
            show nonRootBelowF (((f.set (oj / PAGE_SIZE) left_page) ++ [sibling_page]).set (off / PAGE_SIZE) parent_page) (takeF b ccs) = true
            exact nonRootBelowF_takeF _ b ccs hflagsC4
          have hflagsS4 : nonRootBelowT (((f.set (oj / PAGE_SIZE) left_page) ++ [sibling_page]).set (off / PAGE_SIZE) parent_page)
              (.node (cks.drop b) (dropF b ccs)) = true := by
            show nonRootBelowF (((f.set (oj / PAGE_SIZE) left_page) ++ [sibling_page]).set (off / PAGE_SIZE) parent_page) (dropF b ccs) = true
            exact nonRootBelowF_dropF _ b ccs hflagsC4
          have habsL : keyAbsentT kv.key
              (.node (cks.take (b - 1)) (takeF b ccs)) = true := by
            show keyAbsentF kv.key (takeF b ccs) = true
            exact keyAbsentF_takeF kv.key b ccs habsj
          have habsR : keyAbsentT kv.key
              (.node (cks.drop b) (dropF b ccs)) = true := by
            show keyAbsentF kv.key (dropF b ccs) = true
            exact keyAbsentF_dropF kv.key b ccs habsj
          have hfulL : BTree.is_node_full b
              { child with node_type := NodeType.Internal ((forestOffsets ccs).take b) (cks.take (b - 1)) } = .ok false := by
            unfold BTree.is_node_full
            show Except.ok ((cks.take (b - 1)).length == 2 * b - 1) = .ok false
            rw [List.length_take]
            have h5 : (min (b - 1) cks.length == 2 * b - 1) = false := by
              rw [beq_eq_false_iff_ne]
              omega
            rw [h5]
          have hfulS : BTree.is_node_full b
              (Node.new (.Internal ((forestOffsets ccs).drop b) (cks.drop b))
                false child.parent_offset) = .ok false := by
            unfold BTree.is_node_full
            show Except.ok ((cks.drop b).length == 2 * b - 1) = .ok false
            rw [List.length_drop]
            have h5 : (cks.length - b == 2 * b - 1) = false := by
              rw [beq_eq_false_iff_ne]
              omega
            rw [h5]
          have hhtC : heightF ccs + 1 ≤ heightF cs := by
            have h10 : heightT (T.node cks ccs) = heightF ccs + 1 := rfl
            omega
          have hbndTake : ∀ x ∈ offsF (takeF b ccs),
              x % PAGE_SIZE = 0 ∧ x / PAGE_SIZE < f.length := by
            intro x hx
            exact hbndF x (hsubC x (mem_offsF_takeF hx))
          have hbndDrop : ∀ x ∈ offsF (dropF b ccs),
              x % PAGE_SIZE = 0 ∧ x / PAGE_SIZE < f.length := by
            intro x hx
            exact hbndF x (hsubC x (mem_offsF_dropF hx))
          cases hdir : keyLe kv.key m with
          | true =>
            obtain ⟨f5, trec, hrunrec, htd5, hflags5, hdf5, hgood5, hmem5,
                hht5, hlen5, hoffs5, hmemo5, hframe5⟩ :=
              ih (.node (cks.take (b - 1)) (takeF b ccs)) (((f.set (oj / PAGE_SIZE) left_page) ++ [sibling_page]).set (off / PAGE_SIZE) parent_page) oj
                { child with node_type := NodeType.Internal ((forestOffsets ccs).take b) (cks.take (b - 1)) }
                lo2 (some m) kv
                (by
                  show heightF (takeF b ccs) + 1 ≤ fuel
                  have := heightF_takeF_le b ccs
                  omega)
                htdL4
                (by simp only [nodeFor]; rw [forestOffsets_takeF])
                hflagsL4 hgl habsL hck hcv hak2 hdir hfulL
                (Or.inr hchildpar)
                (fun _ => decodesNonRoot_intro hget4oj hdecL
                  (hn2Lr.trans hchildroot))
                ⟨by
                  rw [List.nodup_cons]
                  exact ⟨fun hc => hojnotinC (mem_offsF_takeF hc), hndT⟩, by
                  intro x hx
                  rcases List.mem_cons.mp hx with h | h
                  · rw [h, hf4len]
                    exact ⟨hojmod, by omega⟩
                  · have h4 := hbndTake x h
                    rw [hf4len]
                    exact ⟨h4.1, by omega⟩⟩
                (by rw [hf4len]; exact hplen4)
            rw [hf4len] at hlen5
            simp only [hf4len] at hmemo5
            have hframe5' : ∀ x, x % PAGE_SIZE = 0 →
                x / PAGE_SIZE < f.length + 1 → x ≠ oj →
                x ∉ offsF (takeF b ccs) →
                Pager.get_page f5 x = Pager.get_page (((f.set (oj / PAGE_SIZE) left_page) ++ [sibling_page]).set (off / PAGE_SIZE) parent_page) x := by
              intro x hxm hxl hxoj hxtk
              apply hframe5 x hxm (by rw [hf4len]; omega)
              intro hc
              rcases List.mem_cons.mp hc with h | h
              · exact hxoj h
              · exact hxtk h
            have hget5so : Pager.get_page f5 (PAGE_SIZE * f.length) =
                .ok sibling_page := by
              rw [hframe5' (PAGE_SIZE * f.length) hso_mod
                (by rw [hso_div]; omega) hso_ne_oj
                (by
                  intro hc
                  have := hbndN _ (hsubC _ (mem_offsF_takeF hc))
                  omega)]
              exact hget4so
            have hget5off : Pager.get_page f5 off = .ok parent_page := by
              rw [hframe5' off hoffmod (by omega) (Ne.symm hojneoff)
                (fun hc => hoffnotin (hsubC _ (mem_offsF_takeF hc)))]
              exact hget4off
            have hsubframe5D : ∀ x ∈ offsF (dropF b ccs),
                Pager.get_page f5 x = Pager.get_page (((f.set (oj / PAGE_SIZE) left_page) ++ [sibling_page]).set (off / PAGE_SIZE) parent_page) x := by
              intro x hx
              have hxc : x ∈ offsF ccs := mem_offsF_dropF hx
              have hxmem : x ∈ offsF cs := hsubC x hxc
              exact hframe5' x (hbndF x hxmem).1
                (by have := (hbndF x hxmem).2; omega)
                (fun hc => hojnotinC (hc ▸ hxc))
                (fun hc => hdisjTD x hc hx)
            have htdS5 : treeDecodes f5 (PAGE_SIZE * f.length)
                (.node (cks.drop b) (dropF b ccs)) = true := by
              rw [treeDecodes]
              simp only [hget5so, hdecS]
              rw [Bool.and_eq_true, Bool.and_eq_true]
              refine ⟨⟨?_, ?_⟩, ?_⟩
              · rw [decide_eq_true_eq]
                exact hn2S
              · rw [decide_eq_true_eq]
                rw [forestOffsets_dropF, List.length_drop, List.length_drop]
                omega
              · exact forestDecodes_frame _ _ (dropF b ccs) hsubframe5D
                  (forestDecodes_dropF _ b ccs hfdecC4)
            have hflagsS5 : nonRootBelowT f5
                (.node (cks.drop b) (dropF b ccs)) = true := by
              show nonRootBelowF f5 (dropF b ccs) = true
              exact nonRootBelowF_frame _ _ (dropF b ccs) hsubframe5D
                (nonRootBelowF_dropF _ b ccs hflagsC4)
            have hblockframe5 : ∀ i oi ti, i ≠ childIdxLe ks kv.key →
                nthF cs i = some (oi, ti) →
                ∀ x ∈ oi :: offsT ti,
                  Pager.get_page f5 x = Pager.get_page f x := by
              intro i oi ti hij hi2' x hx
              have hxmem : x ∈ offsF cs := by
                rcases List.mem_cons.mp hx with h | h
                · rw [h]
                  exact (mem_offsF_nthF cs i oi ti hi2').1
                · exact (mem_offsF_nthF cs i oi ti hi2').2 x h
              have hdisj := nthF_blocks_disjoint cs i _ oi oj ti
                (T.node cks ccs) hij hi2' hnth hnodupF x hx
              have hxoj : x ≠ oj := fun hc => hdisj
                (by rw [hc]; exact List.mem_cons_self _ _)
              have hxoff : x ≠ off := fun hc => hoffnotin (hc ▸ hxmem)
              have hxtk : x ∉ offsF (takeF b ccs) := fun hc => hdisj
                (List.mem_cons_of_mem _ (mem_offsF_takeF hc))
              rw [hframe5' x (hbndF x hxmem).1
                (by have := (hbndF x hxmem).2; omega) hxoj hxtk]
              exact hframe_f4 x (hbndF x hxmem).1 (hbndF x hxmem).2 hxoj hxoff
            have hchildren2' : forestOffsets (insertAtF
                (childIdxLe ks kv.key + 1) (PAGE_SIZE * f.length)
                (.node (cks.drop b) (dropF b ccs))
                (replaceAtF (childIdxLe ks kv.key) trec cs)) =
                List.insertIdx (childIdxLe ks kv.key + 1)
                  (PAGE_SIZE * f.length) (forestOffsets cs) := by
              rw [forestOffsets_insertAtF, forestOffsets_replaceAtF]
            obtain ⟨hgfPost, hsortPost⟩ := hsplitC m (PAGE_SIZE * f.length)
              trec (.node (cks.drop b) (dropF b ccs)) hgood5 hgr hma hms
            refine ⟨f5, T.node (List.insertIdx (childIdxLe ks kv.key) m ks)
              (insertAtF (childIdxLe ks kv.key + 1) (PAGE_SIZE * f.length)
                (.node (cks.drop b) (dropF b ccs))
                (replaceAtF (childIdxLe ks kv.key) trec cs)),
              ?_, ?_, ?_, ?_, ?_, ?_, ?_, ?_, ?_, ?_, ?_⟩
            · show BTree.insert_non_full b (fuel + 1) f node off kv = _
              unfold BTree.insert_non_full
              simp only [hnt, hidx, hco, hcpg, hcfp, hfulc, hsplitEq, htfL,
                hwL, htfS, Pager.write_page, List.length_set, hviC, hviK,
                htfP, hwP, stepE, hdir]
              exact hrunrec
            · rw [treeDecodes]
              simp only [hget5off, hdecP]
              rw [Bool.and_eq_true, Bool.and_eq_true]
              refine ⟨⟨?_, ?_⟩, ?_⟩
              · rw [decide_eq_true_eq, hn2Ptype, hchildren2']
              · rw [decide_eq_true_eq, hchildren2']
                exact harity2
              · apply forestDecodes_insertAtF
                · apply forestDecodes_of_nth
                  intro i oi ti hi2'
                  by_cases hij : i = childIdxLe ks kv.key
                  · subst hij
                    rw [nthF_replaceAtF_eq _ _ cs oj (T.node cks ccs) hnth]
                      at hi2'
                    have h9 : oi = oj ∧ ti = trec := by
                      cases hi2'
                      exact ⟨rfl, rfl⟩
                    rw [h9.1, h9.2]
                    exact htd5
                  · rw [nthF_replaceAtF_ne _ _ _ cs hij] at hi2'
                    exact treeDecodes_frame (heightT ti) ti oi f f5 (le_refl _)
                      (hblockframe5 i oi ti hij hi2' oi (List.mem_cons_self _ _))
                      (fun x hx => hblockframe5 i oi ti hij hi2' x
                        (List.mem_cons_of_mem _ hx))
                      (forestDecodes_nth f i cs oi ti hi2' hfdec)
                · exact htdS5
            · show nonRootBelowF f5 (insertAtF (childIdxLe ks kv.key + 1)
                (PAGE_SIZE * f.length) (.node (cks.drop b) (dropF b ccs))
                (replaceAtF (childIdxLe ks kv.key) trec cs)) = true
              apply nonRootBelowF_insertAtF
              · apply nonRootBelowF_of_nth
                intro i oi ti hi2'
                by_cases hij : i = childIdxLe ks kv.key
                · subst hij
                  rw [nthF_replaceAtF_eq _ _ cs oj (T.node cks ccs) hnth]
                    at hi2'
                  have h9 : oi = oj ∧ ti = trec := by
                    cases hi2'
                    exact ⟨rfl, rfl⟩
                  rw [h9.1, h9.2]
                  exact ⟨hdf5 hchildroot, hflags5⟩
                · rw [nthF_replaceAtF_ne _ _ _ cs hij] at hi2'
                  have hfi := nonRootBelowF_nth f i cs oi ti hi2' hflagsF
                  constructor
                  · rw [decodesNonRoot_congr (hblockframe5 i oi ti hij hi2' oi
                      (List.mem_cons_self _ _))]
                    exact hfi.1
                  · exact nonRootBelowT_frame (heightT ti) ti f f5 (le_refl _)
                      (fun x hx => hblockframe5 i oi ti hij hi2' x
                        (List.mem_cons_of_mem _ hx)) hfi.2
              · exact decodesNonRoot_intro hget5so hdecS hn2Sr
              · exact hflagsS5
            · intro hr
              exact decodesNonRoot_intro hget5off hdecP (hn2Pr.trans hr)
            · rw [goodT, Bool.and_eq_true, Bool.and_eq_true, Bool.and_eq_true,
                Bool.and_eq_true]
              refine ⟨⟨⟨⟨hsortPost, hallK2⟩, ?_⟩, ?_⟩, hgfPost⟩
              · rw [decide_eq_true_eq]
                omega
              · rw [decide_eq_true_eq]
                omega
            · show memF kv (insertAtF (childIdxLe ks kv.key + 1)
                (PAGE_SIZE * f.length) (.node (cks.drop b) (dropF b ccs))
                (replaceAtF (childIdxLe ks kv.key) trec cs)) = true
              apply memF_insertAtF_of
              exact memF_replaceAtF kv _ cs trec (by omega) hmem5
            · show heightF (insertAtF (childIdxLe ks kv.key + 1)
                (PAGE_SIZE * f.length) (.node (cks.drop b) (dropF b ccs))
                (replaceAtF (childIdxLe ks kv.key) trec cs)) + 1 ≤
                heightF cs + 1
              have e1 := heightF_insertAtF_le (childIdxLe ks kv.key + 1)
                (PAGE_SIZE * f.length) (.node (cks.drop b) (dropF b ccs))
                (replaceAtF (childIdxLe ks kv.key) trec cs)
              have e2 := heightF_replaceAtF_le (childIdxLe ks kv.key) trec cs
              have e3 : heightT trec ≤ heightF (takeF b ccs) + 1 := hht5
              have e4 : heightT (T.node (cks.drop b) (dropF b ccs)) =
                  heightF (dropF b ccs) + 1 := rfl
              have e5 := heightF_takeF_le b ccs
              have e6 := heightF_dropF_le b ccs
              omega
            · omega
            · constructor
              · show (off :: offsF (insertAtF (childIdxLe ks kv.key + 1)
                  (PAGE_SIZE * f.length) (.node (cks.drop b) (dropF b ccs))
                  (replaceAtF (childIdxLe ks kv.key) trec cs))).Nodup
                rw [List.nodup_cons]
                constructor
                · intro hc
                  rcases mem_offsF_insertAtF _ _ _ _ off hc with h | h | h
                  · omega
                  · exact hoffnotin (hsubC _ (mem_offsF_dropF h))
                  · rcases mem_offsF_replaceAtF _ trec cs off h with h2 | h2
                    · exact hoffnotin h2
                    · rcases hmemo5 off h2 with h3 | h3
                      · exact hoffnotin (hsubC _ (mem_offsF_takeF h3))
                      · omega
                · apply nodup_offsF_split (PAGE_SIZE * f.length) _ cs oj
                    (T.node cks ccs) (PAGE_SIZE * f.length) trec
                    (.node (cks.drop b) (dropF b ccs)) hnth
                    hnodupF hbndN hoffs5.1
                    (by
                      rw [List.nodup_cons]
                      refine ⟨?_, hndD⟩
                      intro hc
                      have := hbndN _ (hsubC _ (mem_offsF_dropF hc))
                      omega)
                  · intro x hx hc
                    rcases List.mem_cons.mp hc with h | h
                    · rcases List.mem_cons.mp hx with h2 | h2
                      · rw [h2] at h
                        exact hso_ne_oj h.symm
                      · rcases hmemo5 x h2 with h3 | h3
                        · have := hbndN _ (hsubC _ (mem_offsF_takeF h3))
                          omega
                        · omega
                    · rcases List.mem_cons.mp hx with h2 | h2
                      · rw [h2] at h
                        exact hojnotinC (mem_offsF_dropF h)
                      · rcases hmemo5 x h2 with h3 | h3
                        · exact hdisjTD x h3 h
                        · have := hbndN _ (hsubC _ (mem_offsF_dropF h))
                          omega
                  · intro x hx
                    rcases hmemo5 x hx with h3 | h3
                    · exact Or.inl (mem_offsF_takeF h3)
                    · exact Or.inr (by omega)
                  · intro x hx
                    exact Or.inl (mem_offsF_dropF hx)
                  · exact le_refl _
              · intro x hx
                rcases List.mem_cons.mp hx with h | h
                · rw [h]
                  exact ⟨hoffmod, by omega⟩
                · rcases mem_offsF_insertAtF _ _ _ _ x h with h2 | h2 | h2
                  · rw [h2]
                    exact ⟨hso_mod, by rw [hso_div]; omega⟩
                  · have h4 := hbndDrop x h2
                    exact ⟨h4.1, by omega⟩
                  · rcases mem_offsF_replaceAtF _ trec cs x h2 with h3 | h3
                    · exact ⟨(hbndF x h3).1, by
                        have := (hbndF x h3).2
                        omega⟩
                    · exact hoffs5.2 x (List.mem_cons_of_mem _ h3)
            · intro x hx
              rcases mem_offsF_insertAtF _ _ _ _ x hx with h2 | h2 | h2
              · exact Or.inr (by omega)
              · exact Or.inl (hsubC _ (mem_offsF_dropF h2))
              · rcases mem_offsF_replaceAtF _ trec cs x h2 with h3 | h3
                · exact Or.inl h3
                · rcases hmemo5 x h3 with h4 | h4
                  · exact Or.inl (hsubC _ (mem_offsF_takeF h4))
                  · exact Or.inr (by omega)
            · intro o hom holt hnot
              have hooff : o ≠ off := fun hc => hnot
                (by rw [hc]; exact List.mem_cons_self _ _)
              have hooj : o ≠ oj := fun hc => hnot
                (by rw [hc]; exact List.mem_cons_of_mem _ hojmem)
              have hotk : o ∉ offsF (takeF b ccs) := fun hc => hnot
                (List.mem_cons_of_mem _ (hsubC _ (mem_offsF_takeF hc)))
              rw [hframe5' o hom (by omega) hooj hotk]
              exact hframe_f4 o hom holt hooj hooff
          | false =>
            obtain ⟨f5, trec, hrunrec, htd5, hflags5, hdf5, hgood5, hmem5,
                hht5, hlen5, hoffs5, hmemo5, hframe5⟩ :=
              ih (.node (cks.drop b) (dropF b ccs)) (((f.set (oj / PAGE_SIZE) left_page) ++ [sibling_page]).set (off / PAGE_SIZE) parent_page)
                (PAGE_SIZE * f.length)
                (Node.new (.Internal ((forestOffsets ccs).drop b) (cks.drop b)) false child.parent_offset)
                (some m) hi2 kv
                (by
                  show heightF (dropF b ccs) + 1 ≤ fuel
                  have := heightF_dropF_le b ccs
                  omega)
                htdS4
                (by simp only [nodeFor]; rw [forestOffsets_dropF]; rfl)
                hflagsS4 hgr habsR hck hcv (keyLe_false_lt hdir) hbk2
                hfulS (Or.inr hchildpar)
                (fun _ => decodesNonRoot_intro hget4so hdecS hn2Sr)
                ⟨by
                  rw [List.nodup_cons]
                  refine ⟨?_, hndD⟩
                  intro hc
                  have := hbndN _ (hsubC _ (mem_offsF_dropF hc))
                  omega, by
                  intro x hx
                  rcases List.mem_cons.mp hx with h | h
                  · rw [h, hf4len, hso_div]
                    exact ⟨hso_mod, by omega⟩
                  · have h4 := hbndDrop x h
                    rw [hf4len]
                    exact ⟨h4.1, by omega⟩⟩
                (by rw [hf4len]; exact hplen4)
            rw [hf4len] at hlen5
            simp only [hf4len] at hmemo5
            have hframe5' : ∀ x, x % PAGE_SIZE = 0 →
                x / PAGE_SIZE < f.length + 1 → x ≠ PAGE_SIZE * f.length →
                x ∉ offsF (dropF b ccs) →
                Pager.get_page f5 x = Pager.get_page (((f.set (oj / PAGE_SIZE) left_page) ++ [sibling_page]).set (off / PAGE_SIZE) parent_page) x := by
              intro x hxm hxl hxso hxdr
              apply hframe5 x hxm (by rw [hf4len]; omega)
              intro hc
              rcases List.mem_cons.mp hc with h | h
              · exact hxso h
              · exact hxdr h
            have hget5oj : Pager.get_page f5 oj = .ok left_page := by
              rw [hframe5' oj hojmod (by omega) (Ne.symm hso_ne_oj)
                (fun hc => hojnotinC (mem_offsF_dropF hc))]
              exact hget4oj
            have hget5off : Pager.get_page f5 off = .ok parent_page := by
              rw [hframe5' off hoffmod (by omega) (by omega)
                (fun hc => hoffnotin (hsubC _ (mem_offsF_dropF hc)))]
              exact hget4off
            have hsubframe5T : ∀ x ∈ offsF (takeF b ccs),
                Pager.get_page f5 x = Pager.get_page (((f.set (oj / PAGE_SIZE) left_page) ++ [sibling_page]).set (off / PAGE_SIZE) parent_page) x := by
              intro x hx
              have hxc : x ∈ offsF ccs := mem_offsF_takeF hx
              have hxmem : x ∈ offsF cs := hsubC x hxc
              exact hframe5' x (hbndF x hxmem).1
                (by have := (hbndF x hxmem).2; omega)
                (by have := hbndN x hxmem; omega)
                (fun hc => hdisjTD x hx hc)
            have htdL5 : treeDecodes f5 oj
                (.node (cks.take (b - 1)) (takeF b ccs)) = true := by
              rw [treeDecodes]
              simp only [hget5oj, hdecL]
              rw [Bool.and_eq_true, Bool.and_eq_true]
              refine ⟨⟨?_, ?_⟩, ?_⟩
              · rw [decide_eq_true_eq]
                exact hn2L
              · rw [decide_eq_true_eq]
                rw [forestOffsets_takeF, List.length_take, List.length_take]
                omega
              · exact forestDecodes_frame _ _ (takeF b ccs) hsubframe5T
                  (forestDecodes_takeF _ b ccs hfdecC4)
            have hflagsL5 : nonRootBelowT f5
                (.node (cks.take (b - 1)) (takeF b ccs)) = true := by
              show nonRootBelowF f5 (takeF b ccs) = true
              exact nonRootBelowF_frame _ _ (takeF b ccs) hsubframe5T
                (nonRootBelowF_takeF _ b ccs hflagsC4)
            have hblockframe5 : ∀ i oi ti, i ≠ childIdxLe ks kv.key →
                nthF cs i = some (oi, ti) →
                ∀ x ∈ oi :: offsT ti,
                  Pager.get_page f5 x = Pager.get_page f x := by
              intro i oi ti hij hi2' x hx
              have hxmem : x ∈ offsF cs := by
                rcases List.mem_cons.mp hx with h | h
                · rw [h]
                  exact (mem_offsF_nthF cs i oi ti hi2').1
                · exact (mem_offsF_nthF cs i oi ti hi2').2 x h
              have hdisj := nthF_blocks_disjoint cs i _ oi oj ti
                (T.node cks ccs) hij hi2' hnth hnodupF x hx
              have hxoj : x ≠ oj := fun hc => hdisj
                (by rw [hc]; exact List.mem_cons_self _ _)
              have hxoff : x ≠ off := fun hc => hoffnotin (hc ▸ hxmem)
              have hxdr : x ∉ offsF (dropF b ccs) := fun hc => hdisj
                (List.mem_cons_of_mem _ (mem_offsF_dropF hc))
              rw [hframe5' x (hbndF x hxmem).1
                (by have := (hbndF x hxmem).2; omega)
                (by have := hbndN x hxmem; omega) hxdr]
              exact hframe_f4 x (hbndF x hxmem).1 (hbndF x hxmem).2 hxoj hxoff
            have hchildren2' : forestOffsets (insertAtF
                (childIdxLe ks kv.key + 1) (PAGE_SIZE * f.length) trec
                (replaceAtF (childIdxLe ks kv.key)
                  (.node (cks.take (b - 1)) (takeF b ccs)) cs)) =
                List.insertIdx (childIdxLe ks kv.key + 1)
                  (PAGE_SIZE * f.length) (forestOffsets cs) := by
              rw [forestOffsets_insertAtF, forestOffsets_replaceAtF]
            obtain ⟨hgfPost, hsortPost⟩ := hsplitC m (PAGE_SIZE * f.length)
              (.node (cks.take (b - 1)) (takeF b ccs)) trec hgl hgood5 hma hms
            refine ⟨f5, T.node (List.insertIdx (childIdxLe ks kv.key) m ks)
              (insertAtF (childIdxLe ks kv.key + 1) (PAGE_SIZE * f.length)
                trec (replaceAtF (childIdxLe ks kv.key)
                  (.node (cks.take (b - 1)) (takeF b ccs)) cs)),
              ?_, ?_, ?_, ?_, ?_, ?_, ?_, ?_, ?_, ?_, ?_⟩
            · show BTree.insert_non_full b (fuel + 1) f node off kv = _
              unfold BTree.insert_non_full
              simp only [hnt, hidx, hco, hcpg, hcfp, hfulc, hsplitEq, htfL,
                hwL, htfS, Pager.write_page, List.length_set, hviC, hviK,
                htfP, hwP, stepE, hdir]
              exact hrunrec
            · rw [treeDecodes]
              simp only [hget5off, hdecP]
              rw [Bool.and_eq_true, Bool.and_eq_true]
              refine ⟨⟨?_, ?_⟩, ?_⟩
              · rw [decide_eq_true_eq, hn2Ptype, hchildren2']
              · rw [decide_eq_true_eq, hchildren2']
                exact harity2
              · apply forestDecodes_insertAtF
                · apply forestDecodes_of_nth
                  intro i oi ti hi2'
                  by_cases hij : i = childIdxLe ks kv.key
                  · subst hij
                    rw [nthF_replaceAtF_eq _ _ cs oj (T.node cks ccs) hnth]
                      at hi2'
                    have h9 : oi = oj ∧
                        ti = T.node (cks.take (b - 1)) (takeF b ccs) := by
                      cases hi2'
                      exact ⟨rfl, rfl⟩
                    rw [h9.1, h9.2]
                    exact htdL5
                  · rw [nthF_replaceAtF_ne _ _ _ cs hij] at hi2'
                    exact treeDecodes_frame (heightT ti) ti oi f f5 (le_refl _)
                      (hblockframe5 i oi ti hij hi2' oi (List.mem_cons_self _ _))
                      (fun x hx => hblockframe5 i oi ti hij hi2' x
                        (List.mem_cons_of_mem _ hx))
                      (forestDecodes_nth f i cs oi ti hi2' hfdec)
                · exact htd5
            · show nonRootBelowF f5 (insertAtF (childIdxLe ks kv.key + 1)
                (PAGE_SIZE * f.length) trec
                (replaceAtF (childIdxLe ks kv.key)
                  (.node (cks.take (b - 1)) (takeF b ccs)) cs)) = true
              apply nonRootBelowF_insertAtF
              · apply nonRootBelowF_of_nth
                intro i oi ti hi2'
                by_cases hij : i = childIdxLe ks kv.key
                · subst hij
                  rw [nthF_replaceAtF_eq _ _ cs oj (T.node cks ccs) hnth]
                    at hi2'
                  have h9 : oi = oj ∧
                      ti = T.node (cks.take (b - 1)) (takeF b ccs) := by
                    cases hi2'
                    exact ⟨rfl, rfl⟩
                  rw [h9.1, h9.2]
                  exact ⟨decodesNonRoot_intro hget5oj hdecL
                    (hn2Lr.trans hchildroot), hflagsL5⟩
                · rw [nthF_replaceAtF_ne _ _ _ cs hij] at hi2'
                  have hfi := nonRootBelowF_nth f i cs oi ti hi2' hflagsF
                  constructor
                  · rw [decodesNonRoot_congr (hblockframe5 i oi ti hij hi2' oi
                      (List.mem_cons_self _ _))]
                    exact hfi.1
                  · exact nonRootBelowT_frame (heightT ti) ti f f5 (le_refl _)
                      (fun x hx => hblockframe5 i oi ti hij hi2' x
                        (List.mem_cons_of_mem _ hx)) hfi.2
              · exact hdf5 rfl
              · exact hflags5
            · intro hr
              exact decodesNonRoot_intro hget5off hdecP (hn2Pr.trans hr)
            · rw [goodT, Bool.and_eq_true, Bool.and_eq_true, Bool.and_eq_true,
                Bool.and_eq_true]
              refine ⟨⟨⟨⟨hsortPost, hallK2⟩, ?_⟩, ?_⟩, hgfPost⟩
              · rw [decide_eq_true_eq]
                omega
              · rw [decide_eq_true_eq]
                omega
            · show memF kv (insertAtF (childIdxLe ks kv.key + 1)
                (PAGE_SIZE * f.length) trec
                (replaceAtF (childIdxLe ks kv.key)
                  (.node (cks.take (b - 1)) (takeF b ccs)) cs)) = true
              apply memF_insertAtF_self kv _ _ _ _ _ hmem5
              rw [lengthF_replaceAtF]
              omega
            · show heightF (insertAtF (childIdxLe ks kv.key + 1)
                (PAGE_SIZE * f.length) trec
                (replaceAtF (childIdxLe ks kv.key)
                  (.node (cks.take (b - 1)) (takeF b ccs)) cs)) + 1 ≤
                heightF cs + 1
              have e1 := heightF_insertAtF_le (childIdxLe ks kv.key + 1)
                (PAGE_SIZE * f.length) trec
                (replaceAtF (childIdxLe ks kv.key)
                  (.node (cks.take (b - 1)) (takeF b ccs)) cs)
              have e2 := heightF_replaceAtF_le (childIdxLe ks kv.key)
                (T.node (cks.take (b - 1)) (takeF b ccs)) cs
              have e3 : heightT trec ≤ heightF (dropF b ccs) + 1 := hht5
              have e4 : heightT (T.node (cks.take (b - 1)) (takeF b ccs)) =
                  heightF (takeF b ccs) + 1 := rfl
              have e5 := heightF_takeF_le b ccs
              have e6 := heightF_dropF_le b ccs
              omega
            · omega
            · constructor
              · show (off :: offsF (insertAtF (childIdxLe ks kv.key + 1)
                  (PAGE_SIZE * f.length) trec
                  (replaceAtF (childIdxLe ks kv.key)
                    (.node (cks.take (b - 1)) (takeF b ccs)) cs))).Nodup
                rw [List.nodup_cons]
                constructor
                · intro hc
                  rcases mem_offsF_insertAtF _ _ _ _ off hc with h | h | h
                  · omega
                  · rcases hmemo5 off h with h3 | h3
                    · exact hoffnotin (hsubC _ (mem_offsF_dropF h3))
                    · omega
                  · rcases mem_offsF_replaceAtF _ _ cs off h with h2 | h2
                    · exact hoffnotin h2
                    · exact hoffnotin (hsubC _ (mem_offsF_takeF h2))
                · apply nodup_offsF_split (PAGE_SIZE * f.length) _ cs oj
                    (T.node cks ccs) (PAGE_SIZE * f.length)
                    (.node (cks.take (b - 1)) (takeF b ccs)) trec hnth
                    hnodupF hbndN
                    (by
                      rw [List.nodup_cons]
                      exact ⟨fun hc => hojnotinC (mem_offsF_takeF hc), hndT⟩)
                    hoffs5.1
                  · intro x hx hc
                    rcases List.mem_cons.mp hc with h | h
                    · rcases List.mem_cons.mp hx with h2 | h2
                      · rw [h2] at h
                        exact hso_ne_oj h.symm
                      · rw [h] at h2
                        have := hbndN _ (hsubC _ (mem_offsF_takeF h2))
                        omega
                    · rcases List.mem_cons.mp hx with h2 | h2
                      · rcases hmemo5 x h with h3 | h3
                        · rw [h2] at h3
                          exact hojnotinC (mem_offsF_dropF h3)
                        · rw [h2] at h3
                          have := hbndN oj hojmem
                          omega
                      · rcases hmemo5 x h with h3 | h3
                        · exact hdisjTD x h2 h3
                        · have := hbndN _ (hsubC _ (mem_offsF_takeF h2))
                          omega
                  · intro x hx
                    exact Or.inl (mem_offsF_takeF hx)
                  · intro x hx
                    rcases hmemo5 x hx with h3 | h3
                    · exact Or.inl (mem_offsF_dropF h3)
                    · exact Or.inr (by omega)
                  · exact le_refl _
              · intro x hx
                rcases List.mem_cons.mp hx with h | h
                · rw [h]
                  exact ⟨hoffmod, by omega⟩
                · rcases mem_offsF_insertAtF _ _ _ _ x h with h2 | h2 | h2
                  · rw [h2]
                    exact ⟨hso_mod, by rw [hso_div]; omega⟩
                  · exact hoffs5.2 x (List.mem_cons_of_mem _ h2)
                  · rcases mem_offsF_replaceAtF _ _ cs x h2 with h3 | h3
                    · exact ⟨(hbndF x h3).1, by
                        have := (hbndF x h3).2
                        omega⟩
                    · have h4 := hbndTake x h3
                      exact ⟨h4.1, by omega⟩
            · intro x hx
              rcases mem_offsF_insertAtF _ _ _ _ x hx with h2 | h2 | h2
              · exact Or.inr (by omega)
              · rcases hmemo5 x h2 with h3 | h3
                · exact Or.inl (hsubC _ (mem_offsF_dropF h3))
                · exact Or.inr (by omega)
              · rcases mem_offsF_replaceAtF _ _ cs x h2 with h3 | h3
                · exact Or.inl h3
                · exact Or.inl (hsubC _ (mem_offsF_takeF h3))
            · intro o hom holt hnot
              have hooff : o ≠ off := fun hc => hnot
                (by rw [hc]; exact List.mem_cons_self _ _)
              have hooj : o ≠ oj := fun hc => hnot
                (by rw [hc]; exact List.mem_cons_of_mem _ hojmem)
              have hodr : o ∉ offsF (dropF b ccs) := fun hc => hnot
                (List.mem_cons_of_mem _ (hsubC _ (mem_offsF_dropF hc)))
              have hoso : o ≠ PAGE_SIZE * f.length := by
                have := aligned_lt hom holt
                omega
              rw [hframe5' o hom (by omega) hoso hodr]
              exact hframe_f4 o hom holt hooj hooff

/-- Splitting any full non-root-flagged node matching a good subtree:
the split succeeds, both halves serialize and decode back to good,
height-bounded, key-disjoint halves around the median, and both halves
are non-full. -/
theorem split_full_node (b : Nat) (hb : 2 ≤ b) (hb100 : b ≤ 100)
    (t : T) (f : File) (node : Node) (lo hi : Option Bytes) (k : Bytes)
    (hmatch : nodeFor node t)
    (hcdec : childrenDecode f t)
    (hcflags : nonRootBelowT f t = true)
    (hgood : goodT b lo hi t = true)
    (hful : BTree.is_node_full b node = .ok true)
    (habs : keyAbsentT k t = true)
    (hparS : ∃ q, node.parent_offset = some q)
    (hoffs64 : ∀ o ∈ offsDirect t, o < 2 ^ 64)
    (harityT : arityOk t) :
    ∃ median leftc sibling tl ts left_page sibling_page n2L n2S,
      node.split b = .ok (median, leftc, sibling) ∧
      Page.try_from leftc = .ok left_page ∧
      Page.try_from sibling = .ok sibling_page ∧
      Node.from_page left_page = .ok n2L ∧
      Node.from_page sibling_page = .ok n2S ∧
      n2L.is_root = node.is_root ∧ n2S.is_root = false ∧
      nodeFor leftc tl ∧ nodeFor sibling ts ∧
      goodT b lo (some median) tl = true ∧
      goodT b (some median) hi ts = true ∧
      aboveLo lo median = true ∧ strictHi hi median = true ∧
      cellOk KEY_SIZE median = true ∧
      keyAbsentT k tl = true ∧ keyAbsentT k ts = true ∧
      BTree.is_node_full b leftc = .ok false ∧
      BTree.is_node_full b sibling = .ok false ∧
      leftc.is_root = node.is_root ∧
      leftc.parent_offset = node.parent_offset ∧
      sibling.is_root = false ∧
      sibling.parent_offset = node.parent_offset ∧
      heightT tl ≤ heightT t ∧ heightT ts ≤ heightT t ∧
      (∀ x ∈ offsT tl, x ∈ offsT t) ∧ (∀ x ∈ offsT ts, x ∈ offsT t) ∧
      ((offsT t).Nodup → (offsT tl).Nodup ∧ (offsT ts).Nodup ∧
        ∀ x ∈ offsT tl, x ∉ offsT ts) ∧
      (∀ f' off2, Pager.get_page f' off2 = .ok left_page →
        (∀ x ∈ offsT tl, Pager.get_page f' x = Pager.get_page f x) →
        treeDecodes f' off2 tl = true ∧ nonRootBelowT f' tl = true) ∧
      (∀ f' off2, Pager.get_page f' off2 = .ok sibling_page →
        (∀ x ∈ offsT ts, Pager.get_page f' x = Pager.get_page f x) →
        treeDecodes f' off2 ts = true ∧ nonRootBelowT f' ts = true) := by
  cases t with
  | leaf cps =>
    have h1 : node.node_type = .Leaf cps := hmatch
    have hfull : cps.length = 2 * b - 1 := by
      have h2 : BTree.is_node_full b node =
          .ok (cps.length == 2 * b - 1) := by
        unfold BTree.is_node_full
        rw [h1]
      rw [hful] at h2
      have h3 : (cps.length == 2 * b - 1) = true := (Except.ok.inj h2).symm
      simpa using h3
    obtain ⟨mp, hmp, hgl, hgr, hma, hms, hmc⟩ :=
      leaf_split_good b hb hgood hfull
    obtain ⟨left_page, htfL, n2L, hdecL, hn2L, hn2Lr⟩ :=
      try_from_decode_for
        (u := { node with node_type := NodeType.Leaf (cps.take b) })
        (t := .leaf (cps.take b))
        rfl hgl hb100 (fun o ho => by simp [offsDirect] at ho) trivial
        (Or.inr hparS)
    obtain ⟨sibling_page, htfS, n2S, hdecS, hn2S, hn2Sr⟩ :=
      try_from_decode_for
        (u := Node.new (.Leaf (cps.drop b)) false node.parent_offset)
        (t := .leaf (cps.drop b))
        rfl hgr hb100 (fun o ho => by simp [offsDirect] at ho) trivial
        (Or.inr hparS)
    have hsplitEq : node.split b = .ok (mp.key,
        { node with node_type := NodeType.Leaf (cps.take b) },
        Node.new (.Leaf (cps.drop b)) false node.parent_offset) := by
      unfold Node.split
      simp only [h1, hmp]
    refine ⟨mp.key, _, _, .leaf (cps.take b), .leaf (cps.drop b),
      left_page, sibling_page, n2L, n2S, hsplitEq, htfL, htfS, hdecL, hdecS,
      hn2Lr, hn2Sr, rfl, rfl, hgl, hgr, hma, hms, hmc, ?_, ?_, ?_, ?_,
      rfl, rfl, rfl, rfl, le_refl _, le_refl _, ?_, ?_, ?_, ?_, ?_⟩
    · show (cps.take b).all (fun p => !(p.key == k)) = true
      exact all_take habs
    · show (cps.drop b).all (fun p => !(p.key == k)) = true
      exact all_drop habs
    · unfold BTree.is_node_full
      show Except.ok ((cps.take b).length == 2 * b - 1) = .ok false
      rw [List.length_take]
      have h5 : (min b cps.length == 2 * b - 1) = false := by
        rw [beq_eq_false_iff_ne]
        omega
      rw [h5]
    · unfold BTree.is_node_full
      show Except.ok ((cps.drop b).length == 2 * b - 1) = .ok false
      rw [List.length_drop]
      have h5 : (cps.length - b == 2 * b - 1) = false := by
        rw [beq_eq_false_iff_ne]
        omega
      rw [h5]
    · intro x hx
      have h4 : x ∈ ([] : List Nat) := hx
      simp at h4
    · intro x hx
      have h4 : x ∈ ([] : List Nat) := hx
      simp at h4
    · intro _
      refine ⟨List.nodup_nil, List.nodup_nil, ?_⟩
      intro x hx
      have h4 : x ∈ ([] : List Nat) := hx
      simp at h4
    · intro f' off2 hpg' hag
      constructor
      · rw [treeDecodes]
        simp only [hpg', hdecL, decide_eq_true_eq]
        exact hn2L
      · rfl
    · intro f' off2 hpg' hag
      constructor
      · rw [treeDecodes]
        simp only [hpg', hdecS, decide_eq_true_eq]
        exact hn2S
      · rfl
  | node cks ccs =>
    have h1 : node.node_type = .Internal (forestOffsets ccs) cks := hmatch
    have hfull : cks.length = 2 * b - 1 := by
      have h2 : BTree.is_node_full b node =
          .ok (cks.length == 2 * b - 1) := by
        unfold BTree.is_node_full
        rw [h1]
      rw [hful] at h2
      have h3 : (cks.length == 2 * b - 1) = true := (Except.ok.inj h2).symm
      simpa using h3
    have harityC : (forestOffsets ccs).length = cks.length + 1 := harityT
    have hfdecC : forestDecodes f ccs = true := hcdec
    have hflagsC : nonRootBelowF f ccs = true := hcflags
    obtain ⟨m, hm, hgl, hgr, hma, hms, hmc⟩ :=
      node_split_good b hb hgood hfull
    obtain ⟨left_page, htfL, n2L, hdecL, hn2L, hn2Lr⟩ :=
      try_from_decode_for
        (u := { node with node_type := NodeType.Internal ((forestOffsets ccs).take b) (cks.take (b - 1)) })
        (t := .node (cks.take (b - 1)) (takeF b ccs))
        (by simp only [nodeFor]; rw [forestOffsets_takeF])
        hgl hb100
        (by
          intro o ho
          simp only [offsDirect] at ho
          rw [forestOffsets_takeF] at ho
          exact hoffs64 o (List.take_subset _ _ ho))
        (by
          simp only [arityOk]
          rw [forestOffsets_takeF, List.length_take, List.length_take]
          omega)
        (Or.inr hparS)
    obtain ⟨sibling_page, htfS, n2S, hdecS, hn2S, hn2Sr⟩ :=
      try_from_decode_for
        (u := Node.new (.Internal ((forestOffsets ccs).drop b) (cks.drop b)) false node.parent_offset)
        (t := .node (cks.drop b) (dropF b ccs))
        (by simp only [nodeFor]; rw [forestOffsets_dropF]; rfl)
        hgr hb100
        (by
          intro o ho
          simp only [offsDirect] at ho
          rw [forestOffsets_dropF] at ho
          exact hoffs64 o (List.drop_subset _ _ ho))
        (by
          simp only [arityOk]
          rw [forestOffsets_dropF, List.length_drop, List.length_drop]
          omega)
        (Or.inr hparS)
    have hsplitEq : node.split b = .ok (m,
        { node with node_type := NodeType.Internal ((forestOffsets ccs).take b) (cks.take (b - 1)) },
        Node.new (.Internal ((forestOffsets ccs).drop b) (cks.drop b))
          false node.parent_offset) := by
      unfold Node.split
      simp only [h1, hm]
    refine ⟨m, _, _, .node (cks.take (b - 1)) (takeF b ccs),
      .node (cks.drop b) (dropF b ccs),
      left_page, sibling_page, n2L, n2S, hsplitEq, htfL, htfS, hdecL, hdecS,
      hn2Lr, hn2Sr, (by simp only [nodeFor]; rw [forestOffsets_takeF]),
      (by simp only [nodeFor]; rw [forestOffsets_dropF]; rfl),
      hgl, hgr, hma, hms, hmc, ?_, ?_, ?_, ?_,
      rfl, rfl, rfl, rfl, ?_, ?_, ?_, ?_, ?_, ?_, ?_⟩
    · show keyAbsentF k (takeF b ccs) = true
      exact keyAbsentF_takeF k b ccs habs
    · show keyAbsentF k (dropF b ccs) = true
      exact keyAbsentF_dropF k b ccs habs
    · unfold BTree.is_node_full
      show Except.ok ((cks.take (b - 1)).length == 2 * b - 1) = .ok false
      rw [List.length_take]
      have h5 : (min (b - 1) cks.length == 2 * b - 1) = false := by
        rw [beq_eq_false_iff_ne]
        omega
      rw [h5]
    · unfold BTree.is_node_full
      show Except.ok ((cks.drop b).length == 2 * b - 1) = .ok false
      rw [List.length_drop]
      have h5 : (cks.length - b == 2 * b - 1) = false := by
        rw [beq_eq_false_iff_ne]
        omega
      rw [h5]
    · show heightF (takeF b ccs) + 1 ≤ heightF ccs + 1
      have := heightF_takeF_le b ccs
      omega
    · show heightF (dropF b ccs) + 1 ≤ heightF ccs + 1
      have := heightF_dropF_le b ccs
      omega
    · intro x hx
      exact mem_offsF_takeF hx
    · intro x hx
      exact mem_offsF_dropF hx
    · intro hnd
      exact nodup_offsF_take_drop hnd
    · intro f' off2 hpg' hag
      constructor
      · rw [treeDecodes]
        simp only [hpg', hdecL]
        rw [Bool.and_eq_true, Bool.and_eq_true]
        refine ⟨⟨?_, ?_⟩, ?_⟩
        · rw [decide_eq_true_eq]
          exact hn2L
        · rw [decide_eq_true_eq]
          rw [forestOffsets_takeF, List.length_take, List.length_take]
          omega
        · exact forestDecodes_frame f f' (takeF b ccs)
            (fun x hx => hag x hx)
            (forestDecodes_takeF f b ccs hfdecC)
      · show nonRootBelowF f' (takeF b ccs) = true
        exact nonRootBelowF_frame f f' (takeF b ccs)
          (fun x hx => hag x hx)
          (nonRootBelowF_takeF f b ccs hflagsC)
    · intro f' off2 hpg' hag
      constructor
      · rw [treeDecodes]
        simp only [hpg', hdecS]
        rw [Bool.and_eq_true, Bool.and_eq_true]
        refine ⟨⟨?_, ?_⟩, ?_⟩
        · rw [decide_eq_true_eq]
          exact hn2S
        · rw [decide_eq_true_eq]
          rw [forestOffsets_dropF, List.length_drop, List.length_drop]
          omega
        · exact forestDecodes_frame f f' (dropF b ccs)
            (fun x hx => hag x hx)
            (forestDecodes_dropF f b ccs hfdecC)
      · show nonRootBelowF f' (dropF b ccs) = true
        exact nonRootBelowF_frame f f' (dropF b ccs)
          (fun x hx => hag x hx)
          (nonRootBelowF_dropF f b ccs hflagsC)

/-- A completed `BTree::insert` on a well-formed tree with the key
absent: it returns Ok and the resulting file decodes, at the returned
root offset, to a good tree containing the new pair, at most one level
taller. -/
theorem insert_correct (b fuel : Nat) (hb : 2 ≤ b) (hb100 : b ≤ 100)
    (t : T) (f : File) (ro : Nat) (kv : KeyValuePair)
    (hh : heightT t + 1 ≤ fuel)
    (hdec : treeDecodes f ro t = true)
    (hflags : nonRootBelowT f t = true)
    (hgood : goodT b none none t = true)
    (habs : keyAbsentT kv.key t = true)
    (hck : cellOk KEY_SIZE kv.key = true)
    (hcv : cellOk VALUE_SIZE kv.value = true)
    (hoffs : offsOk f (ro :: offsT t))
    (hplen : PAGE_SIZE * (f.length + 2 * (fuel + 1)) < 2 ^ 64) :
    ∃ f' ro' t',
      BTree.insert b fuel f ro kv = some ((f', ro'), .ok ()) ∧
      treeDecodes f' ro' t' = true ∧
      goodT b none none t' = true ∧
      memT kv t' = true ∧
      heightT t' ≤ heightT t + 1 := by
  obtain ⟨hnodup, hbnds⟩ := hoffs
  have hromod : ro % PAGE_SIZE = 0 := (hbnds ro (List.mem_cons_self _ _)).1
  have hrolt : ro / PAGE_SIZE < f.length := (hbnds ro (List.mem_cons_self _ _)).2
  obtain ⟨pg0, root, hpg0, hfp0, hmatch0, hcdec0⟩ := treeDecodes_elim hdec
  have hronotin : ro ∉ offsT t := (List.nodup_cons.mp hnodup).1
  have hnodupT : (offsT t).Nodup := (List.nodup_cons.mp hnodup).2
  have hbndT : ∀ x ∈ offsT t, x % PAGE_SIZE = 0 ∧ x / PAGE_SIZE < f.length :=
    fun x hx => hbnds x (List.mem_cons_of_mem _ hx)
  have hbndNT : ∀ x ∈ offsT t, x < PAGE_SIZE * f.length :=
    fun x hx => aligned_lt (hbndT x hx).1 (hbndT x hx).2
  have hroN : ro < PAGE_SIZE * f.length := aligned_lt hromod hrolt
  have hso_mod : PAGE_SIZE * f.length % PAGE_SIZE = 0 := Nat.mul_mod_right _ _
  have hso_div : PAGE_SIZE * f.length / PAGE_SIZE = f.length :=
    Nat.mul_div_cancel_left _ (by decide)
  have hPSpos : PAGE_SIZE = 4096 := rfl
  have hstep1 : PAGE_SIZE * (f.length + 1) =
      PAGE_SIZE * f.length + PAGE_SIZE := by ring
  have hstep2 : PAGE_SIZE * (f.length + 2) =
      PAGE_SIZE * f.length + 2 * PAGE_SIZE := by ring
  have hplenE : PAGE_SIZE * (f.length + 2 * (fuel + 1)) =
      PAGE_SIZE * ((f.length + 2) + 2 * fuel) := by ring
  obtain ⟨rfull, hfulE⟩ : ∃ rfull, BTree.is_node_full b root = .ok rfull := by
    cases t with
    | leaf ps =>
      have h1 : root.node_type = .Leaf ps := hmatch0
      exact ⟨ps.length == 2 * b - 1, by unfold BTree.is_node_full; rw [h1]⟩
    | node ks cs =>
      have h1 : root.node_type = .Internal (forestOffsets cs) ks := hmatch0
      exact ⟨ks.length == 2 * b - 1, by unfold BTree.is_node_full; rw [h1]⟩
  have hplen0 : PAGE_SIZE * (f.length + 2 * fuel) < 2 ^ 64 := by
    have hle : PAGE_SIZE * (f.length + 2 * fuel) ≤
        PAGE_SIZE * (f.length + 2 * (fuel + 1)) :=
      Nat.mul_le_mul_left _ (by omega)
    omega
  cases rfull with
  | false =>
    obtain ⟨f', t', hrun, htd', hflags', hdf', hgood', hmem', hht', hlen',
        hoffs', hmemo', hframe'⟩ :=
      insert_non_full_correct b hb hb100 fuel t f ro root none none kv
        (by omega) hdec hmatch0 hflags hgood habs hck hcv rfl rfl hfulE
        (by
          rcases from_page_parent_shape hfp0 with ⟨h1, _⟩ | ⟨_, h2⟩
          · exact Or.inl h1
          · exact Or.inr h2)
        (fun hr => decodesNonRoot_intro hpg0 hfp0 hr)
        ⟨hnodup, hbnds⟩ hplen0
    refine ⟨f', ro, t', ?_, htd', hgood', hmem', by omega⟩
    unfold BTree.insert
    simp only [hpg0, hfp0, hfulE, hrun]
    rfl
  | true =>
    obtain ⟨nrp0, htfE⟩ : ∃ pg,
        Page.try_from (Node.new (.Internal [] []) true none) = .ok pg :=
      ⟨_, rfl⟩
    have hoffs64 : ∀ o ∈ offsDirect t, o < 2 ^ 64 := by
      intro o ho
      have homem : o ∈ offsT t := by
        cases t with
        | leaf ps => simp [offsDirect] at ho
        | node ks cs => exact mem_forestOffsets_offsF cs o ho
      have h4 := hbndNT o homem
      have hle : PAGE_SIZE * f.length ≤
          PAGE_SIZE * (f.length + 2 * (fuel + 1)) :=
        Nat.mul_le_mul_left _ (by omega)
      omega
    have harityT : arityOk t := by
      cases t with
      | leaf ps => trivial
      | node ks cs =>
        have h2 := hdec
        rw [treeDecodes] at h2
        simp only [hpg0, hfp0] at h2
        rw [Bool.and_eq_true, Bool.and_eq_true, decide_eq_true_eq,
          decide_eq_true_eq] at h2
        exact h2.1.2
    obtain ⟨median, leftc, sibling, tl, ts, left_page, sibling_page,
        n2L, n2S, hsplitEq, htfL, htfS, hdecL, hdecS, hn2Lr, hn2Sr,
        hmL, hmS, hgl, hgr, hma, hms, hmc, habsL, habsR, hfulL, hfulS,
        hLroot, hLpar, hSroot, hSpar, hhtL, hhtS, hsubL, hsubS, hnodupLR,
        htransL, htransS⟩ :=
      split_full_node b hb hb100 t f
        { root with parent_offset := some (PAGE_SIZE * f.length), is_root := false }
        none none kv.key hmatch0 hcdec0 hflags hgood hfulE habs
        ⟨PAGE_SIZE * f.length, rfl⟩ hoffs64 harityT
    obtain ⟨hndL, hndS, hdisjLS⟩ := hnodupLR hnodupT
    have hf1len : (f ++ [nrp0]).length = f.length + 1 := by
      rw [List.length_append]
      rfl
    have hwL : Pager.write_page_at_offset (f ++ [nrp0]) left_page ro =
        .ok ((f ++ [nrp0]).set (ro / PAGE_SIZE) left_page) :=
      write_page_at_offset_ok hromod (by rw [hf1len]; omega)
    have hf2len : ((f ++ [nrp0]).set (ro / PAGE_SIZE) left_page).length =
        f.length + 1 := by
      rw [List.length_set, hf1len]
    have hf3len : (((f ++ [nrp0]).set (ro / PAGE_SIZE) left_page) ++
        [sibling_page]).length = f.length + 2 := by
      rw [List.length_append, hf2len]
      rfl
    obtain ⟨hgfR1, hgfR2⟩ : goodT b none (some median) tl = true ∧
        goodT b (some median) none ts = true := ⟨hgl, hgr⟩
    have hgoodR : goodT b none none (T.node [median]
        (.cons ro tl (.cons (PAGE_SIZE * (f.length + 1)) ts .nil))) = true := by
      rw [goodT, Bool.and_eq_true, Bool.and_eq_true, Bool.and_eq_true,
        Bool.and_eq_true]
      refine ⟨⟨⟨⟨rfl, ?_⟩, ?_⟩, ?_⟩, ?_⟩
      · simp [aboveLo, belowHi, hmc]
      · rw [decide_eq_true_eq]
        simp
      · rw [decide_eq_true_eq]
        simp
        omega
      · show goodF b none none [median]
          (.cons ro tl (.cons (PAGE_SIZE * (f.length + 1)) ts .nil)) = true
        rw [goodF, Bool.and_eq_true]
        refine ⟨hgfR1, ?_⟩
        show goodF b (some median) none []
          (.cons (PAGE_SIZE * (f.length + 1)) ts .nil) = true
        rw [goodF]
        exact hgfR2
    obtain ⟨new_root_page, htfR, n2R, hdecR, hn2R, hn2Rr⟩ :=
      try_from_decode_for
        (u := Node.new (.Internal [ro, PAGE_SIZE * (f.length + 1)] [median]) true none)
        (t := T.node [median]
          (.cons ro tl (.cons (PAGE_SIZE * (f.length + 1)) ts .nil)))
        rfl hgoodR hb100
        (by
          intro o ho
          have ho2 : o ∈ ([ro, PAGE_SIZE * (f.length + 1)] : List Nat) := ho
          have hle : PAGE_SIZE * (f.length + 1) ≤
              PAGE_SIZE * (f.length + 2 * (fuel + 1)) :=
            Nat.mul_le_mul_left _ (by omega)
          rcases List.mem_cons.mp ho2 with h | h
          · omega
          · have h3 : o = PAGE_SIZE * (f.length + 1) := by simpa using h
            omega)
        (by
          show ([ro, PAGE_SIZE * (f.length + 1)] : List Nat).length =
            ([median] : List Bytes).length + 1
          rfl)
        (Or.inl rfl)
    have hwR : Pager.write_page_at_offset
        ((((f ++ [nrp0]).set (ro / PAGE_SIZE) left_page)) ++ [sibling_page])
        new_root_page (PAGE_SIZE * f.length) =
        .ok (((((f ++ [nrp0]).set (ro / PAGE_SIZE) left_page)) ++
          [sibling_page]).set (PAGE_SIZE * f.length / PAGE_SIZE)
            new_root_page) :=
      write_page_at_offset_ok hso_mod (by rw [hso_div, hf3len]; omega)
    have hf4len : ((((f ++ [nrp0]).set (ro / PAGE_SIZE) left_page) ++
        [sibling_page]).set (PAGE_SIZE * f.length / PAGE_SIZE)
          new_root_page).length = f.length + 2 := by
      rw [List.length_set, hf3len]
    have hframe_f4 : ∀ x, x % PAGE_SIZE = 0 → x / PAGE_SIZE < f.length →
        x ≠ ro →
        Pager.get_page ((((f ++ [nrp0]).set (ro / PAGE_SIZE) left_page) ++
          [sibling_page]).set (PAGE_SIZE * f.length / PAGE_SIZE)
            new_root_page) x = Pager.get_page f x := by
      intro x hxm hxl hxro
      rw [get_page_set_ne (by rw [hso_div]; omega)]
      rw [get_page_append_ne (by rw [hf2len]; omega)]
      rw [get_page_set_ne (aligned_div_ne hromod hxm (Ne.symm hxro))]
      exact get_page_append_ne hxl
    have hget4ro : Pager.get_page ((((f ++ [nrp0]).set (ro / PAGE_SIZE)
        left_page) ++ [sibling_page]).set (PAGE_SIZE * f.length / PAGE_SIZE)
          new_root_page) ro = .ok left_page := by
      rw [get_page_set_ne (by rw [hso_div]; omega)]
      rw [get_page_append_ne (by rw [hf2len]; omega)]
      exact get_page_set_self hromod (by rw [hf1len]; omega)
    have hget4so : Pager.get_page ((((f ++ [nrp0]).set (ro / PAGE_SIZE)
        left_page) ++ [sibling_page]).set (PAGE_SIZE * f.length / PAGE_SIZE)
          new_root_page) (PAGE_SIZE * (f.length + 1)) = .ok sibling_page := by
      rw [get_page_set_ne (by
        rw [hso_div]
        have h3 : PAGE_SIZE * (f.length + 1) / PAGE_SIZE = f.length + 1 :=
          Nat.mul_div_cancel_left _ (by decide)
        rw [h3]
        omega)]
      have h8 : PAGE_SIZE * (f.length + 1) =
          PAGE_SIZE * ((f ++ [nrp0]).set (ro / PAGE_SIZE) left_page).length := by
        rw [hf2len]
      rw [h8]
      exact get_page_append_at
    have hget4nro : Pager.get_page ((((f ++ [nrp0]).set (ro / PAGE_SIZE)
        left_page) ++ [sibling_page]).set (PAGE_SIZE * f.length / PAGE_SIZE)
          new_root_page) (PAGE_SIZE * f.length) = .ok new_root_page :=
      get_page_set_self hso_mod (by rw [hso_div, hf3len]; omega)
    have hagL : ∀ x ∈ offsT tl,
        Pager.get_page ((((f ++ [nrp0]).set (ro / PAGE_SIZE) left_page) ++
          [sibling_page]).set (PAGE_SIZE * f.length / PAGE_SIZE)
            new_root_page) x = Pager.get_page f x := by
      intro x hx
      have hxt : x ∈ offsT t := hsubL x hx
      exact hframe_f4 x (hbndT x hxt).1 (hbndT x hxt).2
        (fun hc => hronotin (hc ▸ hxt))
    have hagS : ∀ x ∈ offsT ts,
        Pager.get_page ((((f ++ [nrp0]).set (ro / PAGE_SIZE) left_page) ++
          [sibling_page]).set (PAGE_SIZE * f.length / PAGE_SIZE)
            new_root_page) x = Pager.get_page f x := by
      intro x hx
      have hxt : x ∈ offsT t := hsubS x hx
      exact hframe_f4 x (hbndT x hxt).1 (hbndT x hxt).2
        (fun hc => hronotin (hc ▸ hxt))
    obtain ⟨htdL4, hflagsL4⟩ := htransL _ ro hget4ro hagL
    obtain ⟨htdS4, hflagsS4⟩ := htransS _ (PAGE_SIZE * (f.length + 1))
      hget4so hagS
    obtain ⟨f5, t5, hrun5, htd5, hflags5, hdf5, hgood5, hmem5, hht5, hlen5,
        hoffs5, hmemo5, hframe5⟩ :=
      insert_non_full_correct b hb hb100 fuel
        (T.node [median]
          (.cons ro tl (.cons (PAGE_SIZE * (f.length + 1)) ts .nil)))
        ((((f ++ [nrp0]).set (ro / PAGE_SIZE) left_page) ++
          [sibling_page]).set (PAGE_SIZE * f.length / PAGE_SIZE)
            new_root_page)
        (PAGE_SIZE * f.length)
        (Node.new (.Internal [ro, PAGE_SIZE * (f.length + 1)] [median])
          true none)
        none none kv
        (by
          show heightF (.cons ro tl
            (.cons (PAGE_SIZE * (f.length + 1)) ts .nil)) + 1 ≤ fuel
          rw [heightF, heightF, heightF]
          omega)
        (by
          rw [treeDecodes]
          simp only [hget4nro, hdecR]
          rw [Bool.and_eq_true, Bool.and_eq_true]
          refine ⟨⟨?_, ?_⟩, ?_⟩
          · rw [decide_eq_true_eq]
            exact hn2R
          · rw [decide_eq_true_eq]
            rfl
          · rw [forestDecodes, Bool.and_eq_true]
            refine ⟨htdL4, ?_⟩
            rw [forestDecodes, Bool.and_eq_true]
            exact ⟨htdS4, rfl⟩)
        rfl
        (by
          show nonRootBelowF _ (.cons ro tl
            (.cons (PAGE_SIZE * (f.length + 1)) ts .nil)) = true
          rw [nonRootBelowF, Bool.and_eq_true, Bool.and_eq_true]
          refine ⟨⟨?_, hflagsL4⟩, ?_⟩
          · exact decodesNonRoot_intro hget4ro hdecL hn2Lr
          · rw [nonRootBelowF, Bool.and_eq_true, Bool.and_eq_true]
            refine ⟨⟨?_, hflagsS4⟩, rfl⟩
            exact decodesNonRoot_intro hget4so hdecS hn2Sr)
        hgoodR
        (by
          show keyAbsentF kv.key (.cons ro tl
            (.cons (PAGE_SIZE * (f.length + 1)) ts .nil)) = true
          rw [keyAbsentF, Bool.and_eq_true]
          refine ⟨habsL, ?_⟩
          rw [keyAbsentF, Bool.and_eq_true]
          exact ⟨habsR, rfl⟩)
        hck hcv rfl rfl
        (by
          unfold BTree.is_node_full
          show Except.ok (([median] : List Bytes).length == 2 * b - 1) =
            .ok false
          have h5 : (([median] : List Bytes).length == 2 * b - 1) = false := by
            rw [beq_eq_false_iff_ne]
            simp
            omega
          rw [h5])
        (Or.inl rfl)
        (fun hc => Bool.noConfusion hc)
        ⟨by
          show ((PAGE_SIZE * f.length) :: ((ro :: offsT tl) ++
            ((PAGE_SIZE * (f.length + 1) :: offsT ts) ++ []))).Nodup
          rw [List.append_nil]
          rw [List.nodup_cons, List.nodup_append, List.nodup_cons,
            List.nodup_cons]
          refine ⟨?_, ⟨?_, hndL⟩, ⟨?_, hndS⟩, ?_⟩
          · intro hc
            rw [List.mem_append, List.mem_cons, List.mem_cons] at hc
            rcases hc with (h | h) | (h | h)
            · omega
            · have := hbndNT _ (hsubL _ h)
              omega
            · omega
            · have := hbndNT _ (hsubS _ h)
              omega
          · intro hc
            exact hronotin (hsubL _ hc)
          · intro hc
            have := hbndNT _ (hsubS _ hc)
            omega
          · intro x hx hc
            rcases List.mem_cons.mp hx with h | h
            · rcases List.mem_cons.mp hc with h2 | h2
              · rw [h] at h2
                omega
              · rw [h] at h2
                exact hronotin (hsubS _ h2)
            · rcases List.mem_cons.mp hc with h2 | h2
              · rw [h2] at h
                have := hbndNT _ (hsubL _ h)
                omega
              · exact hdisjLS x h h2, by
          intro x hx
          have hx2 : x ∈ (PAGE_SIZE * f.length) :: ((ro :: offsT tl) ++
            ((PAGE_SIZE * (f.length + 1) :: offsT ts) ++ [])) := hx
          rw [List.append_nil] at hx2
          rw [List.mem_cons, List.mem_append, List.mem_cons,
            List.mem_cons] at hx2
          rw [hf4len]
          rcases hx2 with h | (h | h) | (h | h)
          · rw [h, hso_div]
            exact ⟨hso_mod, by omega⟩
          · rw [h]
            exact ⟨hromod, by omega⟩
          · have h4 := hbndT _ (hsubL _ h)
            exact ⟨h4.1, by omega⟩
          · rw [h]
            have h3 : PAGE_SIZE * (f.length + 1) / PAGE_SIZE = f.length + 1 :=
              Nat.mul_div_cancel_left _ (by decide)
            rw [h3]
            exact ⟨Nat.mul_mod_right _ _, by omega⟩
          · have h4 := hbndT _ (hsubS _ h)
            exact ⟨h4.1, by omega⟩⟩
        (by rw [hf4len, ← hplenE]; exact hplen)
    refine ⟨f5, PAGE_SIZE * f.length, t5, ?_, htd5, hgood5, hmem5, ?_⟩
    · show BTree.insert b fuel f ro kv = _
      unfold BTree.insert
      simp only [hpg0, hfp0, hfulE, htfE, Pager.write_page, hsplitEq, htfL,
        hwL, htfS, List.length_set, List.length_append, List.length_singleton,
        htfR, hwR, hrun5]
      rfl
    · have h6 : heightT (T.node [median]
          (.cons ro tl (.cons (PAGE_SIZE * (f.length + 1)) ts .nil))) =
          max (heightT tl) (max (heightT ts) 0) + 1 := rfl
      omega

/-- C1 (amended): for every pair (k, v) within the size caps (and not
NUL-terminated) whose key is NOT already present, inserting it into any
well-formed on-disk tree — one whose pages decode to a sorted, bounded,
duplicate-free tree with distinct in-file page offsets, non-root flags
below the root, and room in the usize offset space — completes with Ok,
and a following search(k) on the resulting tree returns exactly the
pair (k, v). The claim as stated fails for a key that is already
present: insert also completes with Ok, but the following search need
not return the new pair — on the one-pair tree of the counterexample it
returns the old one — so absence of the key is the needed
restriction. -/
theorem insert_then_search_exact (b fuel : Nat) (hb : 2 ≤ b)
    (hb100 : b ≤ 100) (t : T) (f : File) (ro : Nat) (kv : KeyValuePair)
    (hh : heightT t + 1 ≤ fuel)
    (hdec : treeDecodes f ro t = true)
    (hflags : nonRootBelowT f t = true)
    (hgood : goodT b none none t = true)
    (habs : keyAbsentT kv.key t = true)
    (hck : cellOk KEY_SIZE kv.key = true)
    (hcv : cellOk VALUE_SIZE kv.value = true)
    (hoffs : offsOk f (ro :: offsT t))
    (hplen : PAGE_SIZE * (f.length + 2 * (fuel + 1)) < 2 ^ 64) :
    ∃ f' ro',
      BTree.insert b fuel f ro kv = some ((f', ro'), .ok ()) ∧
      BTree.search f' ro' fuel kv.key = some (.ok kv) := by
  obtain ⟨f', ro', t', hrun, htd', hgood', hmem', hht'⟩ :=
    insert_correct b fuel hb hb100 t f ro kv hh hdec hflags hgood habs
      hck hcv hoffs hplen
  exact ⟨f', ro', hrun, search_finds b t' f' ro' none none kv fuel
    (by omega) htd' hgood' hmem'⟩

/-- Witness: inserting ("b","2") into the one-page tree holding only
("a","1") and then searching "b" returns exactly ("b","2"). -/
theorem insert_then_search_exact_witness :
    ∃ f' ro',
      BTree.insert 2 2 dupFile 0 (KeyValuePair.new [98] [50]) =
        some ((f', ro'), .ok ()) ∧
      BTree.search f' ro' 2 [98] = some (.ok (KeyValuePair.new [98] [50])) :=
  insert_then_search_exact 2 2 (by decide) (by decide)
    (.leaf [KeyValuePair.new [97] [49]]) dupFile 0
    (KeyValuePair.new [98] [50])
    (by decide) (by rfl) (by rfl) (by rfl) (by rfl) (by rfl) (by rfl)
    ⟨by decide, by decide⟩ (by decide)
